import Mathlib

/-!
# Pre-packing (`vpr/src/pack/prepack.cpp`): shallow embedding

The architecture template (`t_pb_graph_node`, `t_pb_graph_pin`, `t_pb_graph_edge`,
`t_pb_type`, `t_mode`) is a pointer graph in the source.  Here every kind of object
lives in an arena (a list) and a pointer is an index into its arena; `nullptr` and
invalid strong ids are `none`.  Mutable scratch fields of the template
(`infer_pattern`, `pack_pattern_indices`, `temp_scratch_pad`) are fields of the
arena entries, and functions that write them return the updated architecture.

Recursive and queue-driven functions of the source take a `fuel` argument and
answer `PrepackError.out_of_fuel` when it runs out; assertion failures and
`VPR_FATAL_ERROR` are the other error results.  `float` costs are exact rationals.
-/

namespace Prepack

/-! ## Errors -/

/-- Ways in which a run of the pre-packer stops without a result.  `assert_failed n`
is the `VTR_ASSERT` on source line `n`. -/
inductive PrepackError where
  | out_of_fuel
  | assert_failed (line : Nat)
  | null_pointer
  | fatal_multi_fanout
  | fatal_same_block
  | fatal_no_root_block
  | fatal_no_primitive
deriving DecidableEq, Inhabited

instance instDecidableEqExcept {ε α : Type} [DecidableEq ε] [DecidableEq α] :
    DecidableEq (Except ε α) := fun a b =>
  match a, b with
  | .ok x, .ok y => if h : x = y then isTrue (by rw [h]) else isFalse (by intro h2; cases h2; exact h rfl)
  | .error x, .error y => if h : x = y then isTrue (by rw [h]) else isFalse (by intro h2; cases h2; exact h rfl)
  | .ok _, .error _ => isFalse (by intro h; cases h)
  | .error _, .ok _ => isFalse (by intro h; cases h)

/-- The `VTR_ASSERT(cond)` on source line `line`. -/
def vtr_assert (line : Nat) (cond : Bool) : Except PrepackError Unit :=
  if cond then pure () else throw (.assert_failed line)

/-! ## Architecture template -/

/-- A `t_model_ports*`: identity of the model port and its `is_clock` flag. -/
structure t_model_ports where
  id : Nat
  is_clock : Bool
deriving DecidableEq, Inhabited

/-- The fields of `t_port` read through `pin->port`. -/
structure t_port where
  model_port : t_model_ports
  parent_pb_type : Nat
deriving DecidableEq, Inhabited

/-- A `t_mode`: its packing switch and its child pb_types. -/
structure t_mode where
  disable_packing : Bool
  pb_type_children : List Nat
deriving DecidableEq, Inhabited

/-- A `t_pb_type`; `num_modes` is `modes.length`, `blif_model` is `none` for a null pointer. -/
structure t_pb_type where
  num_pb : Nat
  modes : List Nat
  parent_mode : Option Nat
  blif_model : Option Nat
deriving DecidableEq, Inhabited

/-- A `t_pb_graph_pin`; `num_input_edges`/`num_output_edges` are the list lengths. -/
structure t_pb_graph_pin where
  parent_node : Nat
  port : t_port
  pin_number : Nat
  input_edges : List Nat
  output_edges : List Nat
deriving DecidableEq, Inhabited

/-- A `t_pb_graph_edge`; `num_pack_patterns` is `pack_pattern_names.length` and a null
`pack_pattern_indices` array is the empty list. -/
structure t_pb_graph_edge where
  input_pins : List Nat
  output_pins : List Nat
  pack_pattern_names : List Nat
  pack_pattern_indices : List Nat
  infer_pattern : Bool
deriving DecidableEq, Inhabited

/-- A `t_pb_graph_node`.  `temp_scratch_pad` points to a `t_pack_pattern_block`; the
model keeps that block's `pattern_index` and its address in the pattern's block heap. -/
structure t_pb_graph_node where
  pb_type : Nat
  input_pins : List (List Nat)
  output_pins : List (List Nat)
  clock_pins : List (List Nat)
  child_pb_graph_nodes : List (List (List Nat))
  temp_scratch_pad : Option (Nat × Nat)
deriving DecidableEq, Inhabited

/-- The arenas holding the architecture template. -/
structure Arch where
  pb_types : List t_pb_type
  modes : List t_mode
  nodes : List t_pb_graph_node
  pins : List t_pb_graph_pin
  edges : List t_pb_graph_edge
deriving DecidableEq, Inhabited

/-- A `t_logical_block_type`: the head of its pb graph (possibly null). -/
structure t_logical_block_type where
  pb_graph_head : Option Nat
deriving DecidableEq, Inhabited

/-- Pointer dereference `*p` for a `t_pb_type*`. -/
def Arch.pb_type (a : Arch) (p : Nat) : t_pb_type := a.pb_types.getD p default
/-- Pointer dereference for a `t_mode*`. -/
def Arch.mode (a : Arch) (p : Nat) : t_mode := a.modes.getD p default
/-- Pointer dereference for a `t_pb_graph_node*`. -/
def Arch.node (a : Arch) (p : Nat) : t_pb_graph_node := a.nodes.getD p default
/-- Pointer dereference for a `t_pb_graph_pin*`. -/
def Arch.pin (a : Arch) (p : Nat) : t_pb_graph_pin := a.pins.getD p default
/-- Pointer dereference for a `t_pb_graph_edge*`. -/
def Arch.edge (a : Arch) (p : Nat) : t_pb_graph_edge := a.edges.getD p default

/-- Modelled from the spec: `t_pb_type::is_primitive()` (declared in physical_types.h,
absent here): a primitive is a pb_type without modes ("num_nodes = 0"). -/
def t_pb_type.is_primitive (t : t_pb_type) : Bool := t.modes.isEmpty

/-- Modelled from the spec: `t_pb_type::is_root()` (physical_types.h): a root block
"doesn't have a parent block", that is, no parent mode. -/
def t_pb_type.is_root (t : t_pb_type) : Bool := t.parent_mode.isNone

/-- Modelled from the spec: `t_pb_graph_pin::is_primitive_pin()`: the pin's parent node
is a primitive. -/
def Arch.is_primitive_pin (a : Arch) (p : Nat) : Bool :=
  (a.pb_type (a.node (a.pin p).parent_node).pb_type).is_primitive

/-- Modelled from the spec: `t_pb_graph_pin::is_root_block_pin()`: the pin's parent node
is a root block. -/
def Arch.is_root_block_pin (a : Arch) (p : Nat) : Bool :=
  (a.pb_type (a.node (a.pin p).parent_node).pb_type).is_root

/-- Modelled from the spec: `t_pb_graph_edge::annotated_with_pattern(index)`: some entry
of `pack_pattern_indices[0..num_pack_patterns-1]` equals `index`. -/
def t_pb_graph_edge.annotated_with_pattern (e : t_pb_graph_edge) (index : Nat) : Bool :=
  (List.range e.pack_pattern_names.length).any
    (fun i => e.pack_pattern_indices.get? i == some index)

/-- Modelled from the spec: `t_pb_graph_edge::belongs_to_pattern(index)`: tagged
"directly or via inference". -/
def t_pb_graph_edge.belongs_to_pattern (e : t_pb_graph_edge) (index : Nat) : Bool :=
  e.annotated_with_pattern index || e.infer_pattern

/-! ## Netlist and other collaborators -/

abbrev AtomBlockId := Nat
abbrev AtomPortId := Nat
abbrev AtomPinId := Nat
abbrev AtomNetId := Nat
abbrev PackMoleculeId := Nat
abbrev MoleculeChainId := Nat

/-- The `AtomBlockType` of a netlist block. -/
inductive AtomBlockType where
  | INPAD | OUTPAD | BLOCK
deriving DecidableEq, Inhabited

/-- The `PinType` of a netlist pin. -/
inductive PinType where
  | DRIVER | SINK | OPEN
deriving DecidableEq, Inhabited

/-- The queries of `AtomNetlist` used by the pre-packer (the class itself is an external
collaborator); an invalid id is `none`. -/
structure AtomNetlist where
  blocks : List AtomBlockId
  block_model : AtomBlockId → Nat
  block_type : Option AtomBlockId → AtomBlockType
  find_atom_port : AtomBlockId → t_model_ports → Option AtomPortId
  port_net : AtomPortId → Nat → Option AtomNetId
  net_sinks : AtomNetId → List AtomPinId
  net_driver_block : AtomNetId → Option AtomBlockId
  pin_block : AtomPinId → AtomBlockId
  find_pin : Option AtomPortId → Nat → Option AtomPinId
  find_atom_pin_driver : AtomBlockId → t_model_ports → Nat → Option AtomBlockId
  block_pins : AtomBlockId → List AtomPinId
  pin_net : AtomPinId → Option AtomNetId
  pin_type : AtomPinId → PinType

/-- The remaining collaborators: `primitive_type_feasible` and
`compute_primitive_base_cost` of vpr_utils, the id of the latch model
(`models.get_model_by_name(MODEL_LATCH)`), and the sizes of the input and output
ports of each logical model. -/
structure Externals where
  primitive_type_feasible : AtomBlockId → Nat → Bool
  compute_primitive_base_cost : Nat → ℚ
  latch_model : Nat
  model_inputs : Nat → List Nat
  model_outputs : Nat → List Nat

/-- Modelled from the spec: the macro `UNDEFINED` of vpr_types.h (value -1), the
"no cost yet" mark of the lowest-cost-primitive search. -/
def UNDEFINED : ℚ := -1

/-! ## Pack patterns and molecules -/

/-- A `t_pack_pattern_connections` node; block pointers are addresses in the pattern's
block heap, pin pointers are addresses in the pin arena. -/
structure t_pack_pattern_connections where
  from_block : Nat
  from_pin : Nat
  to_block : Nat
  to_pin : Nat
deriving DecidableEq, Inhabited

/-- A `t_pack_pattern_block`; `connections` is the linked list, head first. -/
structure t_pack_pattern_block where
  pb_type : Nat
  block_id : Nat
  pattern_index : Nat
  connections : List t_pack_pattern_connections
deriving DecidableEq, Inhabited

/-- A `t_pack_patterns`.  `blocks` is the heap of the blocks allocated for this pattern
(in allocation order); `root_block` is an address in it. -/
structure t_pack_patterns where
  name : Option Nat
  index : Nat
  root_block : Option Nat
  num_blocks : Nat
  is_block_optional : List Bool
  is_chain : Bool
  chain_root_pins : List (List Nat)
  base_cost : ℚ
  blocks : List t_pack_pattern_block
deriving DecidableEq, Inhabited

/-- Pointer dereference for a `t_pack_pattern_block*` of this pattern. -/
def t_pack_patterns.block (p : t_pack_patterns) (b : Nat) : t_pack_pattern_block :=
  p.blocks.getD b default

/-- The molecule kinds of `e_pack_pattern_molecule_type`. -/
inductive e_pack_pattern_molecule_type where
  | MOLECULE_SINGLE_ATOM
  | MOLECULE_FORCED_PACK
deriving DecidableEq, Inhabited

/-- A `t_pack_molecule`; `pack_pattern` is an index into `list_of_pack_patterns`. -/
structure t_pack_molecule where
  type : e_pack_pattern_molecule_type
  pack_pattern : Option Nat
  atom_block_ids : List (Option AtomBlockId)
  root : Nat
  base_gain : ℚ
  chain_id : Option MoleculeChainId
deriving DecidableEq, Inhabited

/-- A `t_chain_info` record. -/
structure t_chain_info where
  is_long_chain : Bool
deriving DecidableEq, Inhabited

/-- The data members of `Prepacker` together with the `atom_molecules_multimap` that its
constructor threads through the construction (entries in insertion order). -/
structure Prepacker where
  list_of_pack_patterns : List t_pack_patterns
  pack_molecules_ : List t_pack_molecule
  pack_molecule_ids_ : List PackMoleculeId
  chain_info_ : List t_chain_info
  expected_lowest_cost_pb_gnode : List (Option Nat)
  atom_molecule_ : List (Option PackMoleculeId)
  atom_molecules_multimap : List (AtomBlockId × PackMoleculeId)
deriving DecidableEq, Inhabited

/-! ## Pattern priority -/

/-- Source `compare_pack_pattern`: which of two patterns takes priority. -/
def compare_pack_pattern (pattern_a pattern_b : t_pack_patterns) : Int :=
  if pattern_a.num_blocks > pattern_b.num_blocks then 1
  else if pattern_a.num_blocks < pattern_b.num_blocks then -1
  else
    let base_gain_a := pattern_a.base_cost
    let base_gain_b := pattern_b.base_cost
    let diff := base_gain_a - base_gain_b
    if diff < 0 then 1
    else if diff > 0 then -1
    else 0

/-! ## Molecule matcher -/

/-- Membership test `atom_molecules.find(blk) != atom_molecules.end()`. -/
def atom_in_map (atom_molecules : List (AtomBlockId × PackMoleculeId)) (blk : AtomBlockId) : Bool :=
  atom_molecules.any (fun e => e.1 == blk)

/-- Source `get_sink_block`: the atom driven by `connections.from_pin` of `block_id`
that fits the connection's destination slot, or invalid. -/
def get_sink_block (arch : Arch) (ext : Externals) (nl : AtomNetlist) (pat : t_pack_patterns)
    (block_id : AtomBlockId) (connections : t_pack_pattern_connections) : Option AtomBlockId :=
  let from_port_model := (arch.pin connections.from_pin).port.model_port
  let from_pin_number := (arch.pin connections.from_pin).pin_number
  let from_port_id := nl.find_atom_port block_id from_port_model
  let to_port_model := (arch.pin connections.to_pin).port.model_port
  let to_pin_number := (arch.pin connections.to_pin).pin_number
  let to_pb_type := (pat.block connections.to_block).pb_type
  match from_port_id with
  | none => none
  | some from_port_id =>
    match nl.port_net from_port_id from_pin_number with
    | none => none
    | some net_id =>
      let net_sinks := nl.net_sinks net_id
      let r := net_sinks.foldl
        (fun (acc : Bool × Option AtomBlockId) sink_pin_id =>
          let sink_block_id := nl.pin_block sink_pin_id
          let connected_to_latch := acc.1 || (nl.block_model sink_block_id == ext.latch_model)
          let pattern_sink_block_id :=
            if ext.primitive_type_feasible sink_block_id to_pb_type then
              let to_port_id := nl.find_atom_port sink_block_id to_port_model
              let to_pin_id := nl.find_pin to_port_id to_pin_number
              if to_pin_id == some sink_pin_id then some sink_block_id else acc.2
            else acc.2
          (connected_to_latch, pattern_sink_block_id))
        (false, none)
      if r.1 && net_sinks.length > 1 then none else r.2

/-- Source `get_driving_block`: the atom driving `connections.to_pin` of `block_id` when
the net has a single sink, or invalid. -/
def get_driving_block (arch : Arch) (nl : AtomNetlist)
    (block_id : AtomBlockId) (connections : t_pack_pattern_connections) :
    Except PrepackError (Option AtomBlockId) :=
  let to_port_model := (arch.pin connections.to_pin).port.model_port
  let to_pin_number := (arch.pin connections.to_pin).pin_number
  match nl.find_atom_port block_id to_port_model with
  | none => pure none
  | some to_port_id =>
    match nl.port_net to_port_id to_pin_number with
    | none => pure none
    | some net_id =>
      if (nl.net_sinks net_id).length == 1 then do
        let driver_blk_id := nl.net_driver_block net_id
        if to_port_model.is_clock then
          let driver_blk_type := nl.block_type driver_blk_id
          vtr_assert 1184 (to_pin_number == 1
            || (to_pin_number == 0 && driver_blk_type == AtomBlockType.INPAD))
        pure driver_blk_id
      else pure none

/-- The inner `while (block_connection != nullptr)` loop of `try_expand_molecule`: the
pairs pushed on the queue for the connections of the slot just bound. -/
def expand_connections (arch : Arch) (ext : Externals) (nl : AtomNetlist) (pat : t_pack_patterns)
    (pattern_block : Nat) (block_id : AtomBlockId) :
    List t_pack_pattern_connections → Except PrepackError (List (Nat × Option AtomBlockId))
  | [] => pure []
  | block_connection :: next => do
    let pushed ←
      if block_connection.from_block == pattern_block then
        pure [(block_connection.to_block, get_sink_block arch ext nl pat block_id block_connection)]
      else if block_connection.to_block == pattern_block then do
        let driver_blk_id ← get_driving_block arch nl block_id block_connection
        pure [(block_connection.from_block, driver_blk_id)]
      else pure []
    vtr_assert 1085 (block_connection.from_block == pattern_block
      || block_connection.to_block == pattern_block)
    let rest ← expand_connections arch ext nl pat pattern_block block_id next
    pure (pushed ++ rest)

/-- The `while (!pattern_block_queue.empty())` loop of `try_expand_molecule`, one
dequeued pair per unit of fuel.  Returns the verdict and the slot array. -/
def try_expand_molecule_loop (arch : Arch) (ext : Externals) (nl : AtomNetlist)
    (pat : t_pack_patterns) (atom_molecules : List (AtomBlockId × PackMoleculeId)) :
    Nat → List (Nat × Option AtomBlockId) → List (Option AtomBlockId) →
    Except PrepackError (Bool × List (Option AtomBlockId))
  | 0, [], atom_block_ids => pure (true, atom_block_ids)
  | 0, _ :: _, _ => throw .out_of_fuel
  | _ + 1, [], atom_block_ids => pure (true, atom_block_ids)
  | fuel + 1, (pattern_block, block_id) :: queue, atom_block_ids =>
    let slot := (pat.block pattern_block).block_id
    let molecule_atom_block_id := atom_block_ids.getD slot none
    if molecule_atom_block_id.isSome && molecule_atom_block_id == block_id then
      try_expand_molecule_loop arch ext nl pat atom_molecules fuel queue atom_block_ids
    else
      match block_id with
      | none =>
        if !(pat.is_block_optional.getD slot false) then pure (false, atom_block_ids)
        else try_expand_molecule_loop arch ext nl pat atom_molecules fuel queue atom_block_ids
      | some blk =>
        if !(ext.primitive_type_feasible blk (pat.block pattern_block).pb_type)
            || (molecule_atom_block_id.isSome && molecule_atom_block_id != block_id)
            || atom_in_map atom_molecules blk then
          if !(pat.is_block_optional.getD slot false) then pure (false, atom_block_ids)
          else try_expand_molecule_loop arch ext nl pat atom_molecules fuel queue atom_block_ids
        else do
          let pushed ← expand_connections arch ext nl pat pattern_block blk
            (pat.block pattern_block).connections
          try_expand_molecule_loop arch ext nl pat atom_molecules fuel (queue ++ pushed)
            (atom_block_ids.set slot (some blk))

/-- Source `try_expand_molecule`: breadth-first matching of the pattern against the
netlist from `(root_block, blk_id)`.  The molecule is given by its pattern and its slot
array; the result is the verdict and the slot array.  The candidate root atom `blk_id` may
be the invalid id. -/
def try_expand_molecule (arch : Arch) (ext : Externals) (nl : AtomNetlist) (fuel : Nat)
    (pat : t_pack_patterns) (atom_block_ids : List (Option AtomBlockId))
    (blk_id : Option AtomBlockId)
    (atom_molecules : List (AtomBlockId × PackMoleculeId)) :
    Except PrepackError (Bool × List (Option AtomBlockId)) :=
  match pat.root_block with
  | none => throw .null_pointer
  | some pattern_root_block =>
    try_expand_molecule_loop arch ext nl pat atom_molecules fuel
      [(pattern_root_block, blk_id)] atom_block_ids

/-- The pin `chain_root_pins[0][0]` of a chain pattern. -/
def chain_root_ipin (pat : t_pack_patterns) : Except PrepackError Nat :=
  match pat.chain_root_pins with
  | (p :: _) :: _ => pure p
  | _ => throw .null_pointer

/-- Source `find_new_root_atom_for_chain`: climb the driver links of the chain input pin
to the furthest atom that fits the chain root and whose driver is not yet packed. -/
def find_new_root_atom_for_chain (arch : Arch) (ext : Externals) (nl : AtomNetlist)
    (list_of_pack_patterns : t_pack_patterns)
    (atom_molecules : List (AtomBlockId × PackMoleculeId)) :
    Nat → AtomBlockId → Except PrepackError (Option AtomBlockId)
  | 0, _ => throw .out_of_fuel
  | fuel + 1, blk_id => do
    vtr_assert 1397 list_of_pack_patterns.is_chain
    vtr_assert 1398 (list_of_pack_patterns.chain_root_pins.length != 0)
    let root_ipin ← chain_root_ipin list_of_pack_patterns
    let root_pb_graph_node := arch.node (arch.pin root_ipin).parent_node
    if ext.primitive_type_feasible blk_id root_pb_graph_node.pb_type == false then
      pure none
    else
      let model_port := (arch.pin root_ipin).port.model_port
      match nl.find_atom_pin_driver blk_id model_port (arch.pin root_ipin).pin_number with
      | none => pure (some blk_id)
      | some driver_blk_id =>
        if atom_in_map atom_molecules driver_blk_id then pure (some blk_id)
        else do
          let new_root_blk_id ← find_new_root_atom_for_chain arch ext nl list_of_pack_patterns
            atom_molecules fuel driver_blk_id
          match new_root_blk_id with
          | none => pure (some blk_id)
          | some r => pure (some r)

/-- Source `init_molecule_chain_info`: give the new chain molecule a fresh chain id, or
the id of the molecule that drives it (marking that chain long).  Returns the chain id
and the updated chain records. -/
def init_molecule_chain_info (arch : Arch) (nl : AtomNetlist) (blk_id : AtomBlockId)
    (pat : t_pack_patterns) (pack_molecules : List t_pack_molecule)
    (atom_molecules : List (AtomBlockId × PackMoleculeId)) (chain_info : List t_chain_info) :
    Except PrepackError (Option MoleculeChainId × List t_chain_info) := do
  let root_ipin ← chain_root_ipin pat
  let model_pin := (arch.pin root_ipin).port.model_port
  let pin_bit := (arch.pin root_ipin).pin_number
  let driver_atom_id := nl.find_atom_pin_driver blk_id model_pin pin_bit
  let itr : Option (AtomBlockId × PackMoleculeId) :=
    match driver_atom_id with
    | none => none
    | some d => atom_molecules.find? (fun e => e.1 == d)
  match itr with
  | none =>
    let new_chain_id := chain_info.length
    pure (some new_chain_id, chain_info ++ [{ is_long_chain := false }])
  | some (_, prev_molecule_id) =>
    let prev_molecule := pack_molecules.getD prev_molecule_id default
    match prev_molecule.chain_id with
    | none => throw (.assert_failed 1730)
    | some c => pure (some c, chain_info.set c { is_long_chain := true })

/-- The commit loop of `try_create_molecule` (lines 984-992): link every bound atom of
the molecule to the new molecule id; an empty slot must be optional. -/
def commit_atoms (pat : t_pack_patterns) (atom_block_ids : List (Option AtomBlockId))
    (new_molecule_id : PackMoleculeId) :
    List Nat → List (AtomBlockId × PackMoleculeId) →
    Except PrepackError (List (AtomBlockId × PackMoleculeId))
  | [], atom_molecules => pure atom_molecules
  | i :: rest, atom_molecules =>
    match atom_block_ids.getD i none with
    | none => do
      vtr_assert 987 (pat.is_block_optional.getD i false)
      commit_atoms pat atom_block_ids new_molecule_id rest atom_molecules
    | some blk_id2 =>
      commit_atoms pat atom_block_ids new_molecule_id rest
        (atom_molecules ++ [(blk_id2, new_molecule_id)])

/-- Source `Prepacker::try_create_molecule`: try to form a molecule of pattern
`pack_pattern_index` rooted at `blk_id`; on success commit it and return its id. -/
def try_create_molecule (arch : Arch) (ext : Externals) (nl : AtomNetlist) (fuel : Nat)
    (pack_pattern_index : Nat) (blk_id : AtomBlockId) (s : Prepacker) :
    Except PrepackError (Prepacker × Option PackMoleculeId) := do
  let pack_pattern := s.list_of_pack_patterns.getD pack_pattern_index default
  if pack_pattern.num_blocks == 0 || pack_pattern.root_block.isNone then
    pure (s, none)
  else
    let root ← if pack_pattern.is_chain then
        find_new_root_atom_for_chain arch ext nl pack_pattern s.atom_molecules_multimap fuel blk_id
      else pure (some blk_id)
    match root with
    | none => pure (s, none)
    | some blk_id =>
      let new_molecule_id := s.pack_molecules_.length
      let root_slot ← match pack_pattern.root_block with
        | none => throw PrepackError.null_pointer
        | some rb => pure (pack_pattern.block rb).block_id
      let expanded ← try_expand_molecule arch ext nl fuel pack_pattern
        (List.replicate pack_pattern.num_blocks none) (some blk_id) s.atom_molecules_multimap
      if !expanded.1 then pure (s, none)
      else
        let chain ← if pack_pattern.is_chain then
            init_molecule_chain_info arch nl blk_id pack_pattern s.pack_molecules_
              s.atom_molecules_multimap s.chain_info_
          else pure (none, s.chain_info_)
        let atom_molecules ← commit_atoms pack_pattern expanded.2 new_molecule_id
          (List.range pack_pattern.num_blocks) s.atom_molecules_multimap
        let molecule : t_pack_molecule :=
          { type := .MOLECULE_FORCED_PACK
            pack_pattern := some pack_pattern_index
            atom_block_ids := expanded.2
            root := root_slot
            base_gain := 0
            chain_id := chain.1 }
        pure ({ s with
                pack_molecules_ := s.pack_molecules_ ++ [molecule]
                pack_molecule_ids_ := s.pack_molecule_ids_ ++ [new_molecule_id]
                chain_info_ := chain.2
                atom_molecules_multimap := atom_molecules }, some new_molecule_id)

/-! ## Lowest-cost primitive of an atom -/

/-- Source `get_expected_lowest_cost_primitive_for_atom_block_in_pb_graph_node`; the
out-parameter `*cost` is an argument and the second component of the result. -/
def get_expected_lowest_cost_primitive_for_atom_block_in_pb_graph_node (arch : Arch)
    (ext : Externals) (blk_id : AtomBlockId) :
    Nat → Option Nat → ℚ → Except PrepackError (Option Nat × ℚ)
  | 0, _, _ => throw .out_of_fuel
  | _ + 1, none, cost => pure (none, cost)
  | fuel + 1, some curr_pb_graph_node, _ =>
    let node := arch.node curr_pb_graph_node
    let pbt := arch.pb_type node.pb_type
    let best : Option Nat := none
    let best_cost : ℚ := UNDEFINED
    if pbt.blif_model.isSome then
      if ext.primitive_type_feasible blk_id node.pb_type then
        let cur_cost := ext.compute_primitive_base_cost curr_pb_graph_node
        if best_cost == UNDEFINED || best_cost > cur_cost then
          pure (some curr_pb_graph_node, cur_cost)
        else pure (best, best_cost)
      else pure (best, best_cost)
    else
      (List.range pbt.modes.length).foldlM
        (fun (acc : Option Nat × ℚ) i =>
          let mode := arch.mode (pbt.modes.getD i 0)
          if mode.disable_packing then pure acc
          else
            (List.range mode.pb_type_children.length).foldlM
              (fun (acc : Option Nat × ℚ) j => do
                let child := ((node.child_pb_graph_nodes.getD i []).getD j []).head?
                let r ← get_expected_lowest_cost_primitive_for_atom_block_in_pb_graph_node
                  arch ext blk_id fuel child UNDEFINED
                match r.1 with
                | none => pure acc
                | some cur =>
                  if acc.1.isNone || acc.2 > r.2 then pure (some cur, r.2) else pure acc)
              acc)
        (best, best_cost)

/-- Source `get_expected_lowest_cost_primitive_for_atom_block`: the lowest-cost primitive
over all logical block types, or null. -/
def get_expected_lowest_cost_primitive_for_atom_block (arch : Arch) (ext : Externals)
    (fuel : Nat) (blk_id : AtomBlockId) (logical_block_types : List t_logical_block_type) :
    Except PrepackError (Option Nat) := do
  let r ← logical_block_types.foldlM
    (fun (acc : ℚ × Option Nat) type => do
      let cur ← get_expected_lowest_cost_primitive_for_atom_block_in_pb_graph_node
        arch ext blk_id fuel type.pb_graph_head UNDEFINED
      if cur.2 != UNDEFINED then
        if acc.1 == UNDEFINED || acc.1 > cur.2 then pure (cur.2, cur.1) else pure acc
      else pure acc)
    (UNDEFINED, none)
  pure r.2

/-! ## The orchestrator -/

/-- The test of lines 813-814: the root slot of the pattern lies in a mode that is
disabled for packing. -/
def root_in_disabled_mode (arch : Arch) (pat : t_pack_patterns) : Except PrepackError Bool :=
  match pat.root_block with
  | none => throw .null_pointer
  | some rb =>
    match (arch.pb_type (pat.block rb).pb_type).parent_mode with
    | none => pure false
    | some m => pure (arch.mode m).disable_packing

/-- The selection loop of lines 818-825: the index held by `best_pattern` when the loop
over `j` ends. -/
def select_best_pattern (list_of_pack_patterns : List t_pack_patterns) (is_used : List Bool) :
    Nat :=
  (List.range' 1 (list_of_pack_patterns.length - 1)).foldl
    (fun best_pattern j =>
      if is_used.getD best_pattern false then j
      else if is_used.getD j false == false
          && compare_pack_pattern (list_of_pack_patterns.getD j default)
               (list_of_pack_patterns.getD best_pattern default) == 1 then j
      else best_pattern)
    0

/-- The last molecule inserted for `blk_id` in the multimap (the element before the
end of `equal_range(blk_id)`), if the range is not empty. -/
def last_inserted (atom_molecules : List (AtomBlockId × PackMoleculeId)) (blk_id : AtomBlockId) :
    Option PackMoleculeId :=
  ((atom_molecules.filter (fun e => e.1 == blk_id)).getLast?).map Prod.snd

/-- The assignment of line 847 to the molecule just committed. -/
def set_base_gain (s : Prepacker) (cur_molecule_id : PackMoleculeId) : Prepacker :=
  let cur_molecule := s.pack_molecules_.getD cur_molecule_id default
  let pat := s.list_of_pack_patterns.getD (cur_molecule.pack_pattern.getD 0) default
  let updated : t_pack_molecule :=
    { cur_molecule with
      base_gain := (cur_molecule.atom_block_ids.length : ℚ) - pat.base_cost / 100 }
  { s with pack_molecules_ := s.pack_molecules_.set cur_molecule_id updated }

/-- The loop over the netlist blocks of lines 829-864 for the pattern `best_pattern`;
a position is examined again (`--blk_iter`) when the molecule created there does not
cover its atom.  One examined position per unit of fuel. -/
def match_pattern_on_atoms (arch : Arch) (ext : Externals) (nl : AtomNetlist)
    (best_pattern : Nat) : Nat → List AtomBlockId → Prepacker → Except PrepackError Prepacker
  | 0, [], s => pure s
  | 0, _ :: _, _ => throw .out_of_fuel
  | _ + 1, [], s => pure s
  | fuel + 1, blk_id :: rest, s => do
    let r ← try_create_molecule arch ext nl fuel best_pattern blk_id s
    match r.2 with
    | none => match_pattern_on_atoms arch ext nl best_pattern fuel rest r.1
    | some cur_molecule_id =>
      let s1 := set_base_gain r.1 cur_molecule_id
      match last_inserted s1.atom_molecules_multimap blk_id with
      | none => match_pattern_on_atoms arch ext nl best_pattern fuel (blk_id :: rest) s1
      | some last =>
        if last == cur_molecule_id then
          match_pattern_on_atoms arch ext nl best_pattern fuel rest s1
        else match_pattern_on_atoms arch ext nl best_pattern fuel (blk_id :: rest) s1

/-- The loop over `i` of lines 809-865.  `body best s` is what is done with the
selected pattern (in the source: the loop over the netlist blocks). -/
def assign_patterns (arch : Arch) (list_of_pack_patterns : List t_pack_patterns)
    {σ : Type} (body : Nat → σ → Except PrepackError σ) :
    List Nat → List Bool → σ → Except PrepackError σ
  | [], _, s => pure s
  | i :: rest, is_used, s => do
    let skip ← root_in_disabled_mode arch (list_of_pack_patterns.getD i default)
    if skip then assign_patterns arch list_of_pack_patterns body rest is_used s
    else
      let best_pattern := select_best_pattern list_of_pack_patterns is_used
      vtr_assert 826 (is_used.getD best_pattern false == false)
      let s1 ← body best_pattern s
      assign_patterns arch list_of_pack_patterns body rest (is_used.set best_pattern true) s1

/-- The new molecule of lines 887-896 for an atom that is in no molecule. -/
def single_atom_molecule (blk_id : AtomBlockId) : t_pack_molecule :=
  { type := .MOLECULE_SINGLE_ATOM
    root := 0
    pack_pattern := none
    atom_block_ids := [some blk_id]
    base_gain := 1
    chain_id := none }

/-- The loop of lines 873-902: record the lowest-cost primitive of every atom and make a
single-atom molecule for every atom that is in no molecule. -/
def add_single_atom_molecules (arch : Arch) (ext : Externals) (fuel : Nat)
    (logical_block_types : List t_logical_block_type) :
    List AtomBlockId → Prepacker → Except PrepackError Prepacker
  | [], s => pure s
  | blk_id :: rest, s => do
    let best ← get_expected_lowest_cost_primitive_for_atom_block arch ext fuel blk_id
      logical_block_types
    if best.isNone then throw .fatal_no_primitive
    else
      let s1 := { s with
        expected_lowest_cost_pb_gnode := s.expected_lowest_cost_pb_gnode.set blk_id best }
      if !(atom_in_map s1.atom_molecules_multimap blk_id) then
        let new_molecule_id := s1.pack_molecules_.length
        add_single_atom_molecules arch ext fuel logical_block_types rest
          { s1 with
            atom_molecules_multimap := s1.atom_molecules_multimap ++ [(blk_id, new_molecule_id)]
            pack_molecules_ := s1.pack_molecules_ ++ [single_atom_molecule blk_id]
            pack_molecule_ids_ := s1.pack_molecule_ids_ ++ [new_molecule_id] }
      else add_single_atom_molecules arch ext fuel logical_block_types rest s1

/-- Source `Prepacker::alloc_and_load_pack_molecules` (without the echo file). -/
def alloc_and_load_pack_molecules (arch : Arch) (ext : Externals) (nl : AtomNetlist)
    (fuel : Nat) (logical_block_types : List t_logical_block_type) (s : Prepacker) :
    Except PrepackError Prepacker := do
  let num_packing_patterns := s.list_of_pack_patterns.length
  let is_used := List.replicate num_packing_patterns false
  let s1 ← assign_patterns arch s.list_of_pack_patterns
    (fun best_pattern s => match_pattern_on_atoms arch ext nl best_pattern fuel nl.blocks s)
    (List.range num_packing_patterns) is_used s
  add_single_atom_molecules arch ext fuel logical_block_types nl.blocks s1

/-! ## Pattern discovery -/

/-- Write access `edge->infer_pattern = true`. -/
def Arch.set_infer_pattern (a : Arch) (e : Nat) : Arch :=
  { a with edges := a.edges.set e { a.edge e with infer_pattern := true } }

/-- Source `forward_infer_pattern`: mark the only output edge of the pin as inferred when
it carries no pattern name, and go on from its only output pin. -/
def forward_infer_pattern : Nat → Arch → Nat → Except PrepackError Arch
  | 0, _, _ => throw .out_of_fuel
  | fuel + 1, arch, pb_graph_pin =>
    match (arch.pin pb_graph_pin).output_edges with
    | [e0] =>
      if (arch.edge e0).pack_pattern_names.length == 0 && (arch.edge e0).infer_pattern == false then
        let arch1 := arch.set_infer_pattern e0
        match (arch1.edge e0).output_pins with
        | [p0] => forward_infer_pattern fuel arch1 p0
        | _ => pure arch1
      else pure arch
    | _ => pure arch

/-- Source `backward_infer_pattern`: the same towards the drivers. -/
def backward_infer_pattern : Nat → Arch → Nat → Except PrepackError Arch
  | 0, _, _ => throw .out_of_fuel
  | fuel + 1, arch, pb_graph_pin =>
    match (arch.pin pb_graph_pin).input_edges with
    | [e0] =>
      if (arch.edge e0).pack_pattern_names.length == 0 && (arch.edge e0).infer_pattern == false then
        let arch1 := arch.set_infer_pattern e0
        match (arch1.edge e0).input_pins with
        | [p0] => backward_infer_pattern fuel arch1 p0
        | _ => pure arch1
      else pure arch
    | _ => pure arch

/-- The `pattern_names.insert` of the discovery, which answers the index of the name:
a new name gets the current size of the table.  The table lists the names in index
order. -/
def insert_pattern_name (pattern_names : List Nat) (pattern_name : Nat) : List Nat × Nat :=
  let index := pattern_names.indexOf pattern_name
  if index < pattern_names.length then (pattern_names, index)
  else (pattern_names ++ [pattern_name], pattern_names.length)

/-- Write access `output_edge->pack_pattern_indices[m] = index`, allocating the array
(`new int[num_pack_patterns]`) when it is null. -/
def Arch.set_pack_pattern_index (a : Arch) (e m index : Nat) : Arch :=
  let edge := a.edge e
  let indices :=
    if edge.pack_pattern_indices.isEmpty then List.replicate edge.pack_pattern_names.length 0
    else edge.pack_pattern_indices
  { a with edges := a.edges.set e { edge with pack_pattern_indices := indices.set m index } }

/-- The body run by `discover_pattern_names_in_pb_graph_node` for one pin (the same for
input, output and clock pins): register the names on its output edges, infer forward
from their output pins and, if a name was seen, infer backward from the pin. -/
def discover_pin (fuel : Nat) (pin : Nat) (st : Arch × List Nat) :
    Except PrepackError (Arch × List Nat) := do
  let r ← (st.1.pin pin).output_edges.foldlM
    (fun (acc : (Arch × List Nat) × Bool) output_edge =>
      (List.range (acc.1.1.edge output_edge).pack_pattern_names.length).foldlM
        (fun (acc : (Arch × List Nat) × Bool) m => do
          let pattern_name := (acc.1.1.edge output_edge).pack_pattern_names.getD m 0
          let ins := insert_pattern_name acc.1.2 pattern_name
          let arch1 := acc.1.1.set_pack_pattern_index output_edge m ins.2
          let arch2 ← (arch1.edge output_edge).output_pins.foldlM
            (fun a ipin => forward_infer_pattern fuel a ipin) arch1
          pure ((arch2, ins.1), true))
        acc)
    (st, false)
  if r.2 then do
    let arch3 ← backward_infer_pattern fuel r.1.1 pin
    pure (arch3, r.1.2)
  else pure r.1

/-- The children visited by the loops over modes, pb_type children and instances
(`child_pb_graph_nodes[i][j][k]`); a missing entry is a null node. -/
def child_nodes (arch : Arch) (node : t_pb_graph_node) : List (Option Nat) :=
  let pbt := arch.pb_type node.pb_type
  (List.range pbt.modes.length).flatMap fun i =>
    let mode := arch.mode (pbt.modes.getD i 0)
    (List.range mode.pb_type_children.length).flatMap fun j =>
      (List.range (arch.pb_type (mode.pb_type_children.getD j 0)).num_pb).map fun k =>
        ((node.child_pb_graph_nodes.getD i []).getD j []).get? k

/-- Source `discover_pattern_names_in_pb_graph_node`: collect the pattern names of the
subtree (first seen, first numbered), fill `pack_pattern_indices` and mark the inferred
edges; the node scratch pad is reset. -/
def discover_pattern_names_in_pb_graph_node :
    Nat → Option Nat → Arch × List Nat → Except PrepackError (Arch × List Nat)
  | 0, _, _ => throw .out_of_fuel
  | _ + 1, none, st => pure st
  | fuel + 1, some pb_graph_node, st => do
    let node := st.1.node pb_graph_node
    let arch0 : Arch :=
      { st.1 with nodes := st.1.nodes.set pb_graph_node { node with temp_scratch_pad := none } }
    let st1 ← node.input_pins.flatten.foldlM (fun acc pin => discover_pin fuel pin acc)
      (arch0, st.2)
    let st2 ← node.output_pins.flatten.foldlM (fun acc pin => discover_pin fuel pin acc) st1
    let st3 ← node.clock_pins.flatten.foldlM (fun acc pin => discover_pin fuel pin acc) st2
    (child_nodes st.1 node).foldlM
      (fun acc child => discover_pattern_names_in_pb_graph_node fuel child acc) st3

/-- Source `alloc_and_init_pattern_list_from_hash`: one empty pattern per name, at the
index of the name. -/
def alloc_and_init_pattern_list_from_hash (pattern_names : List Nat) : List t_pack_patterns :=
  (List.range pattern_names.length).map fun i =>
    { name := pattern_names.get? i
      index := i
      root_block := none
      num_blocks := 0
      is_block_optional := []
      is_chain := false
      chain_root_pins := []
      base_cost := 0
      blocks := [] }

/-- The first output edge of the pins that is annotated with the pattern. -/
def first_annotated_edge (arch : Arch) (pattern_index : Nat) (pins : List Nat) : Option Nat :=
  (pins.flatMap fun p => (arch.pin p).output_edges).find?
    (fun e => (arch.edge e).annotated_with_pattern pattern_index)

/-- Source `find_expansion_edge_of_pattern`: the first edge of the subtree annotated with
the pattern, searching input, output, clock pins and then the children. -/
def find_expansion_edge_of_pattern (arch : Arch) (pattern_index : Nat) :
    Nat → Option Nat → Except PrepackError (Option Nat)
  | 0, _ => throw .out_of_fuel
  | _ + 1, none => pure none
  | fuel + 1, some pb_graph_node =>
    let node := arch.node pb_graph_node
    match first_annotated_edge arch pattern_index node.input_pins.flatten with
    | some e => pure (some e)
    | none =>
    match first_annotated_edge arch pattern_index node.output_pins.flatten with
    | some e => pure (some e)
    | none =>
    match first_annotated_edge arch pattern_index node.clock_pins.flatten with
    | some e => pure (some e)
    | none =>
      (child_nodes arch node).foldlM
        (fun (acc : Option Nat) child =>
          match acc with
          | some e => pure (some e)
          | none => find_expansion_edge_of_pattern arch pattern_index fuel child)
        none

/-! ## Pattern builder -/

/-- The state written by the expansion of one pattern: the template (node scratch
pads), the pattern under construction and the counter `*L_num_blocks`. -/
structure BuildState where
  arch : Arch
  packing_pattern : t_pack_patterns
  L_num_blocks : Nat
deriving DecidableEq, Inhabited

/-- The local variables `found` and `destination_block` of an expansion call, carried
through its loop over the pins of the expansion edge. -/
structure ExpandLocals where
  st : BuildState
  found : Bool
  block : Option Nat
deriving DecidableEq, Inhabited

/-- The test at the top of both expansions: the edge is inferred or annotated with the
pattern being built. -/
def edge_in_pattern (e : t_pb_graph_edge) (curr_pattern_index : Nat) : Bool :=
  e.infer_pattern || e.annotated_with_pattern curr_pattern_index

/-- The node already has a block of the current pattern in its scratch pad. -/
def has_block_of_pattern (node : t_pb_graph_node) (curr_pattern_index : Nat) : Bool :=
  match node.temp_scratch_pad with
  | none => false
  | some sp => sp.1 == curr_pattern_index

/-- Allocation of a pattern block for a primitive node (`new t_pack_pattern_block()`
and the assignments that follow it in both expansions): the block gets the id
`*L_num_blocks`, the counter is incremented, the base cost grows by the cost of the
primitive and the node scratch pad points to the block.  Returns the block address. -/
def alloc_pattern_block (ext : Externals) (st : BuildState) (pb_graph_node : Nat) :
    BuildState × Nat :=
  let node := st.arch.node pb_graph_node
  let address := st.packing_pattern.blocks.length
  let new_block : t_pack_pattern_block :=
    { pb_type := node.pb_type
      block_id := st.L_num_blocks
      pattern_index := st.packing_pattern.index
      connections := [] }
  let marked : t_pb_graph_node :=
    { node with temp_scratch_pad := some (st.packing_pattern.index, address) }
  ({ arch := { st.arch with nodes := st.arch.nodes.set pb_graph_node marked }
     packing_pattern := { st.packing_pattern with
       base_cost := st.packing_pattern.base_cost + ext.compute_primitive_base_cost pb_graph_node
       blocks := st.packing_pattern.blocks ++ [new_block] }
     L_num_blocks := st.L_num_blocks + 1 }, address)

/-- Prepend a connection to the connection list of a block. -/
def add_connection (pat : t_pack_patterns) (block : Nat) (c : t_pack_pattern_connections) :
    t_pack_patterns :=
  let b := pat.block block
  { pat with blocks := pat.blocks.set block { b with connections := c :: b.connections } }

/-- The pairs (input edge, pin) visited by the loops over the ports, pins and input
edges of a primitive. -/
def input_edges_of (arch : Arch) (pins : List (List Nat)) : List (Nat × Nat) :=
  pins.flatten.flatMap fun p => (arch.pin p).input_edges.map fun e => (e, p)

/-- The output edges visited by the loops over the output ports and pins of a
primitive. -/
def output_edges_of (arch : Arch) (pins : List (List Nat)) : List Nat :=
  pins.flatten.flatMap fun p => (arch.pin p).output_edges

mutual

/-- Source `forward_expand_pack_pattern_from_edge`. -/
def forward_expand_pack_pattern_from_edge (ext : Externals) :
    Nat → Nat → BuildState → Bool → Except PrepackError BuildState
  | 0, _, _, _ => throw .out_of_fuel
  | fuel + 1, expansion_edge, st, make_root_of_chain =>
    let curr_pattern_index := st.packing_pattern.index
    if !(edge_in_pattern (st.arch.edge expansion_edge) curr_pattern_index) then pure st
    else do
      let r ← (st.arch.edge expansion_edge).output_pins.foldlM
        (fun (loc : ExpandLocals) pin =>
          if loc.st.arch.is_primitive_pin pin then do
            let destination_pb_graph_node := (loc.st.arch.pin pin).parent_node
            vtr_assert 517 (loc.found == false)
            let loc1 ←
              if !(has_block_of_pattern (loc.st.arch.node destination_pb_graph_node)
                    curr_pattern_index) then do
                let a := alloc_pattern_block ext loc.st destination_pb_graph_node
                let node := a.1.arch.node destination_pb_graph_node
                let st1 ← (input_edges_of a.1.arch node.input_pins).foldlM
                  (fun s ep => backward_expand_pack_pattern_from_edge ext fuel ep.1 s
                    (some ep.2) (some a.2))
                  a.1
                let st2 ← (output_edges_of a.1.arch node.output_pins).foldlM
                  (fun s e => forward_expand_pack_pattern_from_edge ext fuel e s false)
                  st1
                let st3 ← (input_edges_of a.1.arch node.clock_pins).foldlM
                  (fun s ep => backward_expand_pack_pattern_from_edge ext fuel ep.1 s
                    (some ep.2) (some a.2))
                  st2
                pure ({ st := st3, found := true, block := some a.2 } : ExpandLocals)
              else pure ({ loc with found := true } : ExpandLocals)
            match (loc1.st.arch.node destination_pb_graph_node).temp_scratch_pad with
            | none => throw .null_pointer
            | some sp =>
              if sp.1 == curr_pattern_index && make_root_of_chain == true then
                pure { loc1 with st := { loc1.st with packing_pattern :=
                  { loc1.st.packing_pattern with
                    chain_root_pins := [[pin]]
                    root_block := loc1.block } } }
              else pure loc1
          else
            (loc.st.arch.pin pin).output_edges.foldlM
              (fun (loc : ExpandLocals) edge_j =>
                if (loc.st.arch.edge edge_j).infer_pattern == true then do
                  let st1 ← forward_expand_pack_pattern_from_edge ext fuel edge_j loc.st
                    make_root_of_chain
                  pure { loc with st := st1 }
                else
                  (List.range (loc.st.arch.edge edge_j).pack_pattern_names.length).foldlM
                    (fun (loc : ExpandLocals) k =>
                      if (loc.st.arch.edge edge_j).pack_pattern_indices.get? k
                          == some curr_pattern_index then
                        if loc.found == true then throw .fatal_multi_fanout
                        else do
                          let st1 ← forward_expand_pack_pattern_from_edge ext fuel edge_j loc.st
                            make_root_of_chain
                          pure { loc with st := st1, found := true }
                      else pure loc)
                    loc)
              loc)
        ({ st := st, found := false, block := none } : ExpandLocals)
      pure r.st

/-- Source `backward_expand_pack_pattern_from_edge`. -/
def backward_expand_pack_pattern_from_edge (ext : Externals) :
    Nat → Nat → BuildState → Option Nat → Option Nat → Except PrepackError BuildState
  | 0, _, _, _, _ => throw .out_of_fuel
  | fuel + 1, expansion_edge, st, destination_pin, destination_block =>
    let curr_pattern_index := st.packing_pattern.index
    if !(edge_in_pattern (st.arch.edge expansion_edge) curr_pattern_index) then pure st
    else do
      let r ← (st.arch.edge expansion_edge).input_pins.foldlM
        (fun (loc : ExpandLocals) pin =>
          if loc.st.arch.is_primitive_pin pin then do
            let source_pb_graph_node := (loc.st.arch.pin pin).parent_node
            vtr_assert 657 (loc.found == false)
            let st3 ←
              if !(has_block_of_pattern (loc.st.arch.node source_pb_graph_node)
                    curr_pattern_index) then do
                let a := alloc_pattern_block ext loc.st source_pb_graph_node
                let a1 : BuildState :=
                  if a.1.packing_pattern.root_block.isNone then
                    { a.1 with packing_pattern :=
                        { a.1.packing_pattern with root_block := some a.2 } }
                  else a.1
                let node := a1.arch.node source_pb_graph_node
                let st1 ← (input_edges_of a1.arch node.input_pins).foldlM
                  (fun s ep => backward_expand_pack_pattern_from_edge ext fuel ep.1 s
                    (some ep.2) (some a.2))
                  a1
                let st2 ← (output_edges_of a1.arch node.output_pins).foldlM
                  (fun s e => forward_expand_pack_pattern_from_edge ext fuel e s false)
                  st1
                (input_edges_of a1.arch node.clock_pins).foldlM
                  (fun s ep => backward_expand_pack_pattern_from_edge ext fuel ep.1 s
                    (some ep.2) (some a.2))
                  st2
              else pure loc.st
            match destination_pin with
            | none => pure ({ loc with st := st3, found := true } : ExpandLocals)
            | some destination_pin =>
              match (st3.arch.node source_pb_graph_node).temp_scratch_pad,
                    destination_block with
              | some sp, some destination_block => do
                vtr_assert 717 (sp.1 == curr_pattern_index)
                let source_block := sp.2
                let c : t_pack_pattern_connections :=
                  { from_block := source_block
                    from_pin := pin
                    to_block := destination_block
                    to_pin := destination_pin }
                let pat1 := add_connection st3.packing_pattern source_block c
                let pat2 := add_connection pat1 destination_block c
                if source_block == destination_block then throw .fatal_same_block
                else pure ({ loc with st := { st3 with packing_pattern := pat2 }, found := true }
                  : ExpandLocals)
              | _, _ => throw .null_pointer
          else if (loc.st.arch.pin pin).input_edges.length == 0 then
            if (loc.st.arch.pb_type
                (loc.st.arch.node (loc.st.arch.pin pin).parent_node).pb_type).is_root then do
              let st1 : BuildState :=
                { loc.st with packing_pattern := { loc.st.packing_pattern with is_chain := true } }
              let st2 ← forward_expand_pack_pattern_from_edge ext fuel expansion_edge st1 true
              pure { loc with st := st2 }
            else pure loc
          else
            (loc.st.arch.pin pin).input_edges.foldlM
              (fun (loc : ExpandLocals) edge_j =>
                if (loc.st.arch.edge edge_j).infer_pattern == true then do
                  let st1 ← backward_expand_pack_pattern_from_edge ext fuel edge_j loc.st
                    destination_pin destination_block
                  pure { loc with st := st1 }
                else
                  (List.range (loc.st.arch.edge edge_j).pack_pattern_names.length).foldlM
                    (fun (loc : ExpandLocals) k =>
                      if (loc.st.arch.edge edge_j).pack_pattern_indices.get? k
                          == some curr_pattern_index then do
                        vtr_assert 773 (loc.found == false)
                        let st1 ← backward_expand_pack_pattern_from_edge ext fuel edge_j loc.st
                          destination_pin destination_block
                        pure { loc with st := st1, found := true }
                      else pure loc)
                    loc)
              loc)
        ({ st := st, found := false, block := none } : ExpandLocals)
      pure r.st

end

/-! ## Equivalent chains -/

/-- Source `expand_search`: the pins pushed on the queue of `find_end_of_path` for the
pin taken from it. -/
def expand_search (arch : Arch) (input_pin : Nat) (pattern_index : Nat) : List Nat :=
  let pin := arch.pin input_pin
  let over_edges := pin.output_edges.flatMap fun iedge =>
    let pin_edge := arch.edge iedge
    if !(pin_edge.annotated_with_pattern pattern_index) && !pin_edge.infer_pattern then []
    else pin_edge.output_pins
  let over_primitive :=
    if arch.is_primitive_pin input_pin && pin.output_edges.length == 0 then
      (arch.node pin.parent_node).output_pins.flatten
    else []
  over_edges ++ over_primitive

/-- The `while (!pins_queue.empty())` loop of `find_end_of_path`, one pin taken from the
queue per unit of fuel. -/
def find_end_of_path_loop (arch : Arch) (pattern_index : Nat) :
    Nat → List Nat → List Nat → Except PrepackError (List Nat)
  | 0, [], reachable_pins => pure reachable_pins
  | 0, _ :: _, _ => throw .out_of_fuel
  | _ + 1, [], reachable_pins => pure reachable_pins
  | fuel + 1, current_pin :: pins_queue, reachable_pins =>
    find_end_of_path_loop arch pattern_index fuel
      (pins_queue ++ expand_search arch current_pin pattern_index)
      (if arch.is_root_block_pin current_pin && (arch.pin current_pin).output_edges.length == 0
        then reachable_pins ++ [current_pin] else reachable_pins)

/-- Source `find_end_of_path`: the output pins of the root block reachable from the root
input pin along edges of the pattern. -/
def find_end_of_path (arch : Arch) (fuel : Nat) (input_pin : Nat) (pattern_index : Nat) :
    Except PrepackError (List Nat) := do
  vtr_assert 1445 (arch.is_root_block_pin input_pin)
  vtr_assert 1448 ((arch.pin input_pin).input_edges.length == 0)
  find_end_of_path_loop arch pattern_index fuel [input_pin] []

/-- The state of the search of `get_pattern_blocks`. -/
structure PatternBlocksSearch where
  visited_from_pins : List Nat
  visited_to_pins : List Nat
  pattern_blocks : List Nat
  queue : List Nat
deriving DecidableEq, Inhabited

/-- The loop of `get_pattern_blocks` over the connections of the block taken from the
queue. -/
def get_pattern_blocks_visit (arch : Arch) :
    List t_pack_pattern_connections → PatternBlocksSearch → PatternBlocksSearch
  | [], s => s
  | c :: next, s =>
    if s.visited_from_pins.contains c.from_pin && s.visited_to_pins.contains c.to_pin then
      get_pattern_blocks_visit arch next s
    else
      get_pattern_blocks_visit arch next
        { visited_from_pins := s.visited_from_pins ++ [c.from_pin]
          visited_to_pins := s.visited_to_pins ++ [c.to_pin]
          pattern_blocks := s.pattern_blocks ++ [(arch.pin c.from_pin).port.parent_pb_type]
          queue := s.queue ++ [c.to_block] }

/-- The `while (!pack_pattern_blocks.empty())` loop of `get_pattern_blocks`. -/
def get_pattern_blocks_loop (arch : Arch) (pack_pattern : t_pack_patterns) :
    Nat → PatternBlocksSearch → Except PrepackError (List Nat)
  | 0, s => if s.queue.isEmpty then pure s.pattern_blocks else throw .out_of_fuel
  | fuel + 1, s =>
    match s.queue with
    | [] => pure s.pattern_blocks
    | current_pattern_block :: rest =>
      get_pattern_blocks_loop arch pack_pattern fuel
        (get_pattern_blocks_visit arch (pack_pattern.block current_pattern_block).connections
          { s with queue := rest })

/-- Source `get_pattern_blocks`: the pb_types of the driving pins of the connections
reachable from the root block of the pattern. -/
def get_pattern_blocks (arch : Arch) (fuel : Nat) (pack_pattern : t_pack_patterns) :
    Except PrepackError (List Nat) :=
  match pack_pattern.root_block with
  | none => throw .null_pointer
  | some rb =>
    match (pack_pattern.block rb).connections with
    | [] => pure []
    | c :: _ =>
      get_pattern_blocks_loop arch pack_pattern fuel
        { visited_from_pins := [], visited_to_pins := [], pattern_blocks := [],
          queue := [c.from_block] }

/-- Source `get_all_connected_primitive_pins`: the primitive pins (of pb_types of the
pattern) reached from the cluster input pin, appended to `connected_primitive_pins`. -/
def get_all_connected_primitive_pins (arch : Arch) (pattern_blocks : List Nat) :
    Nat → Nat → List Nat → Except PrepackError (List Nat)
  | 0, _, _ => throw .out_of_fuel
  | fuel + 1, cluster_input_pin, connected_primitive_pins =>
    let pbt := arch.pb_type (arch.node (arch.pin cluster_input_pin).parent_node).pb_type
    let disabled := match pbt.parent_mode with
      | none => false
      | some m => (arch.mode m).disable_packing
    if disabled then pure connected_primitive_pins
    else
      (arch.pin cluster_input_pin).output_edges.foldlM
        (fun (acc : List Nat) iedge =>
          (arch.edge iedge).output_pins.foldlM
            (fun (acc : List Nat) opin =>
              if arch.is_primitive_pin opin then
                if pattern_blocks.contains (arch.node (arch.pin opin).parent_node).pb_type then
                  pure (acc ++ [opin])
                else pure acc
              else get_all_connected_primitive_pins arch pattern_blocks fuel opin acc)
            acc)
        connected_primitive_pins

/-- Source `update_chain_root_pins`: replace `chain_root_pins` by one group per cluster
input pin, holding the primitive pins connected to it. -/
def update_chain_root_pins (arch : Arch) (fuel : Nat) (chain_pattern : t_pack_patterns)
    (chain_input_pins : List Nat) : Except PrepackError t_pack_patterns := do
  let pattern_blocks ← get_pattern_blocks arch fuel chain_pattern
  let primitive_input_pins ← chain_input_pins.foldlM
    (fun (acc : List (List Nat)) pin_ptr => do
      let connected_primitive_pins ←
        get_all_connected_primitive_pins arch pattern_blocks fuel pin_ptr []
      vtr_assert 1642 (connected_primitive_pins.length != 0)
      pure (acc ++ [connected_primitive_pins]))
    []
  pure { chain_pattern with chain_root_pins := primitive_input_pins }

/-- The loops of lines 1597-1605.  Only the emptiness of `intersection` is read
afterwards; on the sorted ranges `std::set_intersection` yields an element exactly when
the two lists share one.  (For an empty list of pins the unsigned bound `size() - 1`
wraps around, but the inner loop is then empty, as it is here.) -/
def reachable_pins_intersect (reachable_pins : List (List Nat)) : Bool :=
  (List.range (reachable_pins.length - 1)).any fun i =>
    (List.range' 1 (reachable_pins.length - 1)).any fun j =>
      (reachable_pins.getD i []).any fun p => (reachable_pins.getD j []).contains p

/-- Source `find_all_equivalent_chains`: decide whether the root input pins tagged with
the chain pattern start separate chains or the same one, and set `chain_root_pins`. -/
def find_all_equivalent_chains (arch : Arch) (fuel : Nat) (chain_pattern : t_pack_patterns)
    (root_block : Nat) : Except PrepackError t_pack_patterns := do
  let chain_input_pins := (arch.node root_block).input_pins.flatten.flatMap fun input_pin =>
    (arch.pin input_pin).output_edges.flatMap fun iedge =>
      if (arch.edge iedge).belongs_to_pattern chain_pattern.index then [input_pin] else []
  if chain_input_pins.length == 1 then
    update_chain_root_pins arch fuel chain_pattern chain_input_pins
  else
    let reachable_pins ← chain_input_pins.mapM
      (fun pin_ptr => find_end_of_path arch fuel pin_ptr chain_pattern.index)
    if !(reachable_pins_intersect reachable_pins) then
      update_chain_root_pins arch fuel chain_pattern chain_input_pins
    else pure chain_pattern

/-! ## Pattern library -/

/-- The settings of lines 187-193: a slot is optional iff the pattern is a chain and the
slot is not the root slot. -/
def default_block_optional (pat : t_pack_patterns) (L_num_blocks : Nat) :
    Except PrepackError (List Bool) :=
  if L_num_blocks == 0 || !pat.is_chain then pure (List.replicate L_num_blocks false)
  else
    match pat.root_block with
    | none => throw .null_pointer
    | some rb => pure ((List.range L_num_blocks).map fun k => (pat.block rb).block_id != k)

/-- The loop over the logical block types of lines 168-204 for pattern `i`: build the
pattern from the first block type that has an edge annotated with it. -/
def load_pack_pattern (ext : Externals) (fuel : Nat) (i : Nat) :
    List t_logical_block_type → Arch × List t_pack_patterns →
    Except PrepackError (Arch × List t_pack_patterns)
  | [], st => pure st
  | type :: rest, st => do
    let expansion_edge ← find_expansion_edge_of_pattern st.1 i fuel type.pb_graph_head
    match expansion_edge with
    | none => load_pack_pattern ext fuel i rest st
    | some expansion_edge =>
      let pat0 := st.2.getD i default
      let built ← backward_expand_pack_pattern_from_edge ext fuel expansion_edge
        { arch := st.1, packing_pattern := { pat0 with base_cost := 0 }, L_num_blocks := 0 }
        none none
      let pat1 : t_pack_patterns := { built.packing_pattern with num_blocks := built.L_num_blocks }
      let optional ← default_block_optional pat1 built.L_num_blocks
      let pat2 : t_pack_patterns := { pat1 with is_block_optional := optional }
      let pat3 ←
        if pat2.is_chain then
          match type.pb_graph_head with
          | none => throw PrepackError.null_pointer
          | some head => find_all_equivalent_chains built.arch fuel pat2 head
        else pure pat2
      pure (built.arch, st.2.set i pat3)

/-- Source `alloc_and_load_pack_patterns`: find all packing patterns of the
architecture.  Returns the template with its scratch fields and the pattern list. -/
def alloc_and_load_pack_patterns (ext : Externals) (fuel : Nat) (arch : Arch)
    (logical_block_types : List t_logical_block_type) :
    Except PrepackError (Arch × List t_pack_patterns) := do
  let discovered ← logical_block_types.foldlM
    (fun acc type => discover_pattern_names_in_pb_graph_node fuel type.pb_graph_head acc)
    (arch, [])
  let packing_patterns := alloc_and_init_pattern_list_from_hash discovered.2
  let loaded ← (List.range discovered.2.length).foldlM
    (fun acc i => load_pack_pattern ext fuel i logical_block_types acc)
    (discovered.1, packing_patterns)
  if loaded.2.any (fun pat => pat.root_block.isNone) then throw .fatal_no_root_block
  else pure loaded

/-- The loop of lines 1780-1785: every atom must have exactly one entry in the multimap;
its molecule is recorded in `atom_molecule_`. -/
def record_atom_molecules (atom_molecules : List (AtomBlockId × PackMoleculeId)) :
    List AtomBlockId → List (Option PackMoleculeId) →
    Except PrepackError (List (Option PackMoleculeId))
  | [], atom_molecule => pure atom_molecule
  | blk_id :: rest, atom_molecule => do
    vtr_assert 1783 ((atom_molecules.filter (fun e => e.1 == blk_id)).length == 1)
    record_atom_molecules atom_molecules rest
      (atom_molecule.set blk_id ((atom_molecules.find? (fun e => e.1 == blk_id)).map Prod.snd))

/-- The prepacker before any molecule exists: the pattern library, an empty multimap
and `expected_lowest_cost_pb_gnode` resized to the number of atoms. -/
def Prepacker.initial (list_of_pack_patterns : List t_pack_patterns) (num_atoms : Nat) :
    Prepacker :=
  { list_of_pack_patterns := list_of_pack_patterns
    pack_molecules_ := []
    pack_molecule_ids_ := []
    chain_info_ := []
    expected_lowest_cost_pb_gnode := List.replicate num_atoms none
    atom_molecule_ := []
    atom_molecules_multimap := [] }

/-- Source `Prepacker::Prepacker`: build the pattern library, then the molecules, then
check that every atom is in one and only one molecule. -/
def Prepacker.construct (arch : Arch) (ext : Externals) (nl : AtomNetlist) (fuel : Nat)
    (logical_block_types : List t_logical_block_type) : Except PrepackError Prepacker := do
  let lib ← alloc_and_load_pack_patterns ext fuel arch logical_block_types
  let s0 := Prepacker.initial lib.2 nl.blocks.length
  let s1 ← alloc_and_load_pack_molecules lib.1 ext nl fuel logical_block_types s0
  let atom_molecule ← record_atom_molecules s1.atom_molecules_multimap nl.blocks
    (List.replicate nl.blocks.length none)
  pure { s1 with atom_molecule_ := atom_molecule }

/-! ## Molecule statistics -/

/-- Modelled from the spec: `t_molecule_stats` (declared in prepack.h, absent here), the
block count, the pin counts and the externally-used pin counts of a molecule. -/
structure t_molecule_stats where
  num_blocks : Nat
  num_pins : Nat
  num_input_pins : Nat
  num_output_pins : Nat
  num_used_ext_pins : Nat
  num_used_ext_inputs : Nat
  num_used_ext_outputs : Nat
deriving DecidableEq, Inhabited

/-- Modelled from the spec: a freshly declared `t_molecule_stats`, every counter 0. -/
def t_molecule_stats.fresh : t_molecule_stats :=
  { num_blocks := 0, num_pins := 0, num_input_pins := 0, num_output_pins := 0,
    num_used_ext_pins := 0, num_used_ext_inputs := 0, num_used_ext_outputs := 0 }

/-- The body of the loop of lines 1800-1815 for one slot of the molecule: an empty slot
is skipped, a filled one counts as a block and adds the sizes of the input and output ports
of its model. -/
def count_available_pins (ext : Externals) (nl : AtomNetlist) (molecule_stats : t_molecule_stats)
    (blk : Option AtomBlockId) : t_molecule_stats :=
  match blk with
  | none => molecule_stats
  | some blk =>
    let stats1 := { molecule_stats with num_blocks := molecule_stats.num_blocks + 1 }
    let model_id := nl.block_model blk
    let stats2 := (ext.model_inputs model_id).foldl
      (fun (s : t_molecule_stats) size => { s with num_input_pins := s.num_input_pins + size })
      stats1
    (ext.model_outputs model_id).foldl
      (fun (s : t_molecule_stats) size => { s with num_output_pins := s.num_output_pins + size })
      stats2

/-- The body of the loop of lines 1823-1858 for one pin of an atom of the molecule.
`molecule_atoms` is the set built from all slots, so it holds the invalid id when a slot
is empty.  The loop over the sinks stops at the first sink outside the molecule; only
whether there is one is used.  A pin without a net stops the run: the netlist queries on
the net need a valid id. -/
def count_used_ext_pin (nl : AtomNetlist) (molecule_atoms : List (Option AtomBlockId))
    (molecule_stats : t_molecule_stats) (pin : AtomPinId) :
    Except PrepackError t_molecule_stats :=
  match nl.pin_net pin with
  | none => throw .null_pointer
  | some net =>
    let pin_type := nl.pin_type pin
    if pin_type == PinType.SINK then
      let driver_blk := nl.net_driver_block net
      if molecule_atoms.contains driver_blk then pure molecule_stats
      else pure { molecule_stats with
        num_used_ext_inputs := molecule_stats.num_used_ext_inputs + 1 }
    else do
      vtr_assert 1839 (pin_type == PinType.DRIVER)
      let net_leaves_molecule := (nl.net_sinks net).any fun sink_pin =>
        !(molecule_atoms.contains (some (nl.pin_block sink_pin)))
      if net_leaves_molecule then
        pure { molecule_stats with
          num_used_ext_outputs := molecule_stats.num_used_ext_outputs + 1 }
      else pure molecule_stats

/-- Source `Prepacker::calc_molecule_stats`. -/
def Prepacker.calc_molecule_stats (s : Prepacker) (ext : Externals) (nl : AtomNetlist)
    (molecule_id : Option PackMoleculeId) : Except PrepackError t_molecule_stats :=
  match molecule_id with
  | none => throw (.assert_failed 1794)
  | some molecule_id => do
    let molecule := s.pack_molecules_.getD molecule_id default
    let stats1 := molecule.atom_block_ids.foldl (count_available_pins ext nl)
      t_molecule_stats.fresh
    let stats2 : t_molecule_stats :=
      { stats1 with num_pins := stats1.num_input_pins + stats1.num_output_pins }
    let molecule_atoms := molecule.atom_block_ids
    let stats3 ← molecule.atom_block_ids.foldlM
      (fun (acc : t_molecule_stats) blk =>
        match blk with
        | none => pure acc
        | some blk => (nl.block_pins blk).foldlM (count_used_ext_pin nl molecule_atoms) acc)
      stats2
    pure { stats3 with
      num_used_ext_pins := stats3.num_used_ext_inputs + stats3.num_used_ext_outputs }

/-- Modelled from the spec: `Prepacker::molecules()` (prepack.h), "enumerate molecules":
the ids of all molecules created. -/
def Prepacker.molecules (s : Prepacker) : List PackMoleculeId := s.pack_molecule_ids_

/-- Source `Prepacker::calc_max_molecule_stats`: the member-wise `std::max` over the
statistics of all molecules, starting from a fresh record. -/
def Prepacker.calc_max_molecule_stats (s : Prepacker) (ext : Externals) (nl : AtomNetlist) :
    Except PrepackError t_molecule_stats :=
  s.molecules.foldlM
    (fun (max_molecules_stats : t_molecule_stats) molecule_id => do
      let cur_molecule_stats ← s.calc_molecule_stats ext nl (some molecule_id)
      pure
        { num_blocks := max max_molecules_stats.num_blocks cur_molecule_stats.num_blocks
          num_pins := max max_molecules_stats.num_pins cur_molecule_stats.num_pins
          num_input_pins :=
            max max_molecules_stats.num_input_pins cur_molecule_stats.num_input_pins
          num_output_pins :=
            max max_molecules_stats.num_output_pins cur_molecule_stats.num_output_pins
          num_used_ext_pins :=
            max max_molecules_stats.num_used_ext_pins cur_molecule_stats.num_used_ext_pins
          num_used_ext_inputs :=
            max max_molecules_stats.num_used_ext_inputs cur_molecule_stats.num_used_ext_inputs
          num_used_ext_outputs :=
            max max_molecules_stats.num_used_ext_outputs
              cur_molecule_stats.num_used_ext_outputs })
    t_molecule_stats.fresh

/-- The pins visited by the loop of lines 1820-1859, in the order visited: the pins of
the atoms in the filled slots. -/
def molecule_pins (nl : AtomNetlist) (atoms : List (Option AtomBlockId)) : List AtomPinId :=
  atoms.flatMap fun blk =>
    match blk with
    | none => []
    | some blk => nl.block_pins blk

/-- The wording of the statistics contract: a sink pin whose net is driven by a block that
is not among the slots `atoms` of the molecule. -/
def sink_driven_from_outside (nl : AtomNetlist) (atoms : List (Option AtomBlockId))
    (pin : AtomPinId) : Bool :=
  nl.pin_type pin == PinType.SINK &&
    match nl.pin_net pin with
    | none => false
    | some net => !(atoms.contains (nl.net_driver_block net))

/-- The wording of the statistics contract: a driver pin whose net has at least one sink
on a block that is not among the slots `atoms` of the molecule. -/
def driver_with_outside_sink (nl : AtomNetlist) (atoms : List (Option AtomBlockId))
    (pin : AtomPinId) : Bool :=
  nl.pin_type pin == PinType.DRIVER &&
    match nl.pin_net pin with
    | none => false
    | some net => (nl.net_sinks net).any fun sink_pin =>
        !(atoms.contains (some (nl.pin_block sink_pin)))

/-- The vector `chain_input_pins` of `find_all_equivalent_chains` (lines 1563-1572): the
input pins of the root block, each once for every output edge of its that belongs to the
pattern. -/
def chain_input_pins (arch : Arch) (pattern_index : Nat) (root_block : Nat) : List Nat :=
  (arch.node root_block).input_pins.flatten.flatMap fun input_pin =>
    (arch.pin input_pin).output_edges.flatMap fun iedge =>
      if (arch.edge iedge).belongs_to_pattern pattern_index then [input_pin] else []

/-! ## Concrete netlists and architectures (inputs of the worked examples) -/

/-- A connection point of a concrete netlist: bit `bit` of the port with model port
`port` on block `blk`. -/
structure NetPin where
  blk : Nat
  port : Nat
  bit : Nat
deriving DecidableEq, Inhabited

/-- A net of a concrete netlist. -/
structure Net where
  driver : Option NetPin
  sinks : List NetPin
deriving DecidableEq, Inhabited

/-- A block of a concrete netlist: its logical model, its type and the model ports it
has. -/
structure NetBlock where
  model : Nat
  type : AtomBlockType
  ports : List Nat
deriving DecidableEq, Inhabited

/-- A concrete netlist: block `i` is `blocks[i]`, net `n` is `nets[n]`.  Port ids are
`blk * 64 + port`, pin ids are `port_id * 64 + bit`; a pin exists when a net uses it. -/
structure NetlistData where
  blocks : List NetBlock
  nets : List Net
deriving DecidableEq, Inhabited

/-- The id of a pin of a concrete netlist. -/
def NetPin.id (p : NetPin) : AtomPinId := (p.blk * 64 + p.port) * 64 + p.bit

/-- The pins of a net, driver included. -/
def Net.pins (n : Net) : List NetPin := n.driver.toList ++ n.sinks

/-- The net that uses the pin with the given id. -/
def NetlistData.net_of_pin (d : NetlistData) (pin : AtomPinId) : Option AtomNetId :=
  (List.range d.nets.length).find? fun n =>
    ((d.nets.getD n default).pins.map NetPin.id).contains pin

/-- The `AtomNetlist` queries answered from a concrete netlist. -/
def NetlistData.toNetlist (d : NetlistData) : AtomNetlist where
  blocks := List.range d.blocks.length
  block_model := fun b => (d.blocks.getD b default).model
  block_type := fun b => match b with
    | none => AtomBlockType.BLOCK
    | some b => (d.blocks.getD b default).type
  find_atom_port := fun b mp =>
    if (d.blocks.getD b default).ports.contains mp.id then some (b * 64 + mp.id) else none
  port_net := fun port bit => d.net_of_pin (port * 64 + bit)
  net_sinks := fun n => (d.nets.getD n default).sinks.map NetPin.id
  net_driver_block := fun n => (d.nets.getD n default).driver.map NetPin.blk
  pin_block := fun pin => pin / 4096
  find_pin := fun port bit =>
    match port with
    | none => none
    | some port => if (d.net_of_pin (port * 64 + bit)).isSome then some (port * 64 + bit) else none
  find_atom_pin_driver := fun b mp bit =>
    if (d.blocks.getD b default).ports.contains mp.id then
      match d.net_of_pin ((b * 64 + mp.id) * 64 + bit) with
      | none => none
      | some n => (d.nets.getD n default).driver.map NetPin.blk
    else none
  block_pins := fun b =>
    (d.nets.flatMap fun n => (n.pins.filter fun p => p.blk == b).map NetPin.id)
  pin_net := fun pin => d.net_of_pin pin
  pin_type := fun pin =>
    if d.nets.any (fun n => (n.driver.map NetPin.id) == some pin) then PinType.DRIVER
    else PinType.SINK

/-- A pin of a concrete template: parent node, model port id, clock flag, pb_type of its
port, pin number, input edges, output edges. -/
def mk_pin (node mp : Nat) (clk : Bool) (pbt num : Nat) (ins outs : List Nat) : t_pb_graph_pin :=
  { parent_node := node
    port := { model_port := { id := mp, is_clock := clk }, parent_pb_type := pbt }
    pin_number := num
    input_edges := ins
    output_edges := outs }

/-- An edge of a concrete template before discovery: input pins, output pins, pattern
names. -/
def mk_edge (ins outs names : List Nat) : t_pb_graph_edge :=
  { input_pins := ins
    output_pins := outs
    pack_pattern_names := names
    pack_pattern_indices := []
    infer_pattern := false }

/-- The collaborators of the worked examples: an atom fits a primitive when the
primitive implements the atom's model, a primitive costs its number of pins, and model
1 is the latch. -/
def example_ext (arch : Arch) (d : NetlistData) : Externals where
  primitive_type_feasible := fun b t =>
    (arch.pb_type t).blif_model == some (d.blocks.getD b default).model
  compute_primitive_base_cost := fun n =>
    (((arch.node n).input_pins.flatten.length + (arch.node n).output_pins.flatten.length
      + (arch.node n).clock_pins.flatten.length : Nat) : ℚ)
  latch_model := 1
  model_inputs := fun _ => []
  model_outputs := fun _ => []

/-- A cluster `clb` (node 0) with one mode holding a LUT (node 1, model 0) and a
flip-flop (node 2, model 1).  The only pattern label, 7, is on the edge from the LUT
output (pin 2) to the flip-flop input (pin 3).
Pins: 0 `clb.in`, 1 `lut.in`, 2 `lut.out`, 3 `ff.D`, 4 `ff.Q`, 5 `clb.out`, 6 `clb.clk`,
7 `ff.clk`. -/
def lut_ff_arch : Arch where
  pb_types :=
    [ { num_pb := 1, modes := [0], parent_mode := none, blif_model := none },
      { num_pb := 1, modes := [], parent_mode := some 0, blif_model := some 0 },
      { num_pb := 1, modes := [], parent_mode := some 0, blif_model := some 1 } ]
  modes := [ { disable_packing := false, pb_type_children := [1, 2] } ]
  nodes :=
    [ { pb_type := 0, input_pins := [[0]], output_pins := [[5]], clock_pins := [[6]],
        child_pb_graph_nodes := [[[1], [2]]], temp_scratch_pad := none },
      { pb_type := 1, input_pins := [[1]], output_pins := [[2]], clock_pins := [],
        child_pb_graph_nodes := [], temp_scratch_pad := none },
      { pb_type := 2, input_pins := [[3]], output_pins := [[4]], clock_pins := [[7]],
        child_pb_graph_nodes := [], temp_scratch_pad := none } ]
  pins :=
    [ mk_pin 0 90 false 0 0 [] [0],
      mk_pin 1 0 false 1 0 [0] [],
      mk_pin 1 1 false 1 0 [] [1],
      mk_pin 2 2 false 2 0 [1] [],
      mk_pin 2 3 false 2 0 [] [2],
      mk_pin 0 91 false 0 0 [2] [],
      mk_pin 0 92 true 0 0 [] [3],
      mk_pin 2 4 true 2 0 [3] [] ]
  edges :=
    [ mk_edge [0] [1] [],
      mk_edge [2] [3] [7],
      mk_edge [4] [5] [],
      mk_edge [6] [7] [] ]

/-- The netlist of the end-to-end example: LUT0 (block 0) drives the D input of FF0
(block 1) on a net with that single sink; LUT1 (block 2) and FF2 (block 3) are
isolated. -/
def lut_ff_netlist : NetlistData where
  blocks :=
    [ { model := 0, type := .BLOCK, ports := [0, 1] },
      { model := 1, type := .BLOCK, ports := [2, 3, 4] },
      { model := 0, type := .BLOCK, ports := [0, 1] },
      { model := 1, type := .BLOCK, ports := [2, 3, 4] } ]
  nets := [ { driver := some { blk := 0, port := 1, bit := 0 },
              sinks := [ { blk := 1, port := 2, bit := 0 } ] } ]

/-- A cluster (node 0) with a carry chain of two adders (nodes 1 and 2, model 0): the
cluster carry input (pin 0) feeds adder 0 (pins 1 `cin`, 2 `cout`), which feeds adder 1
(pins 3 `cin`, 4 `cout`), which feeds the cluster carry output (pin 5).  All three edges
carry the pattern label 9. -/
def chain_arch : Arch where
  pb_types :=
    [ { num_pb := 1, modes := [0], parent_mode := none, blif_model := none },
      { num_pb := 2, modes := [], parent_mode := some 0, blif_model := some 0 } ]
  modes := [ { disable_packing := false, pb_type_children := [1] } ]
  nodes :=
    [ { pb_type := 0, input_pins := [[0]], output_pins := [[5]], clock_pins := [],
        child_pb_graph_nodes := [[[1, 2]]], temp_scratch_pad := none },
      { pb_type := 1, input_pins := [[1]], output_pins := [[2]], clock_pins := [],
        child_pb_graph_nodes := [], temp_scratch_pad := none },
      { pb_type := 1, input_pins := [[3]], output_pins := [[4]], clock_pins := [],
        child_pb_graph_nodes := [], temp_scratch_pad := none } ]
  pins :=
    [ mk_pin 0 90 false 0 0 [] [0],
      mk_pin 1 0 false 1 0 [0] [],
      mk_pin 1 1 false 1 0 [] [1],
      mk_pin 2 0 false 1 0 [1] [],
      mk_pin 2 1 false 1 0 [] [2],
      mk_pin 0 91 false 0 0 [2] [] ]
  edges :=
    [ mk_edge [0] [1] [9],
      mk_edge [2] [3] [9],
      mk_edge [4] [5] [9] ]

/-- Three adders A0, A1, A2 (blocks 0, 1, 2): the carry output of A0 drives the carry
input of A1 and the carry output of A1 drives the carry input of A2, each on a net with
that single sink. -/
def chain_netlist : NetlistData where
  blocks :=
    [ { model := 0, type := .BLOCK, ports := [0, 1] },
      { model := 0, type := .BLOCK, ports := [0, 1] },
      { model := 0, type := .BLOCK, ports := [0, 1] } ]
  nets :=
    [ { driver := some { blk := 0, port := 1, bit := 0 },
        sinks := [ { blk := 1, port := 0, bit := 0 } ] },
      { driver := some { blk := 1, port := 1, bit := 0 },
        sinks := [ { blk := 2, port := 0, bit := 0 } ] } ]

/-- A cluster (node 0) with two children: a feed-through block (node 1; input pin 0,
output pin 1) listed first, and a block (node 2; output pins 2 and 3) holding two LUTs
(nodes 3 and 4, model 0; output pins 4 and 5).  Each LUT output reaches its own output
pin of node 2 by an edge labelled 7; both output pins of node 2 feed pin 0 by unlabelled
edges; pin 0 feeds pin 1 by an edge labelled 7, where the pattern path ends. -/
def converging_arch : Arch where
  pb_types :=
    [ { num_pb := 1, modes := [0], parent_mode := none, blif_model := none },
      { num_pb := 1, modes := [1], parent_mode := some 0, blif_model := none },
      { num_pb := 1, modes := [2], parent_mode := some 0, blif_model := none },
      { num_pb := 2, modes := [], parent_mode := some 2, blif_model := some 0 } ]
  modes :=
    [ { disable_packing := false, pb_type_children := [1, 2] },
      { disable_packing := false, pb_type_children := [] },
      { disable_packing := false, pb_type_children := [3] } ]
  nodes :=
    [ { pb_type := 0, input_pins := [], output_pins := [], clock_pins := [],
        child_pb_graph_nodes := [[[1], [2]]], temp_scratch_pad := none },
      { pb_type := 1, input_pins := [[0]], output_pins := [[1]], clock_pins := [],
        child_pb_graph_nodes := [[]], temp_scratch_pad := none },
      { pb_type := 2, input_pins := [], output_pins := [[2, 3]], clock_pins := [],
        child_pb_graph_nodes := [[[3, 4]]], temp_scratch_pad := none },
      { pb_type := 3, input_pins := [], output_pins := [[4]], clock_pins := [],
        child_pb_graph_nodes := [], temp_scratch_pad := none },
      { pb_type := 3, input_pins := [], output_pins := [[5]], clock_pins := [],
        child_pb_graph_nodes := [], temp_scratch_pad := none } ]
  pins :=
    [ mk_pin 1 90 false 1 0 [1, 2] [0],
      mk_pin 1 91 false 1 0 [0] [],
      mk_pin 2 92 false 2 0 [3] [1],
      mk_pin 2 92 false 2 1 [4] [2],
      mk_pin 3 1 false 3 0 [] [3],
      mk_pin 4 1 false 3 0 [] [4] ]
  edges :=
    [ mk_edge [0] [1] [7],
      mk_edge [2] [0] [],
      mk_edge [3] [0] [],
      mk_edge [4] [2] [7],
      mk_edge [5] [3] [7] ]

/-- A netlist with a single LUT (block 0, model 0) and no net. -/
def single_lut_netlist : NetlistData where
  blocks := [ { model := 0, type := .BLOCK, ports := [1] } ]
  nets := []

/-- A cluster (node 0) with two modes.  Mode 0 is disabled for packing and holds a LUT
(node 1) feeding a flip-flop without clock (node 2) by an edge labelled 7.  Mode 1 holds
a LUT (node 3) feeding a clocked flip-flop (node 4) by an edge labelled 8.
Pins: 0 `lut_a.out`, 1 `ff_a.D`, 2 `lut_b.out`, 3 `ff_b.D`, 4 `ff_b.clk`. -/
def two_mode_arch : Arch where
  pb_types :=
    [ { num_pb := 1, modes := [0, 1], parent_mode := none, blif_model := none },
      { num_pb := 1, modes := [], parent_mode := some 0, blif_model := some 0 },
      { num_pb := 1, modes := [], parent_mode := some 0, blif_model := some 1 },
      { num_pb := 1, modes := [], parent_mode := some 1, blif_model := some 0 },
      { num_pb := 1, modes := [], parent_mode := some 1, blif_model := some 1 } ]
  modes :=
    [ { disable_packing := true, pb_type_children := [1, 2] },
      { disable_packing := false, pb_type_children := [3, 4] } ]
  nodes :=
    [ { pb_type := 0, input_pins := [], output_pins := [], clock_pins := [],
        child_pb_graph_nodes := [[[1], [2]], [[3], [4]]], temp_scratch_pad := none },
      { pb_type := 1, input_pins := [], output_pins := [[0]], clock_pins := [],
        child_pb_graph_nodes := [], temp_scratch_pad := none },
      { pb_type := 2, input_pins := [[1]], output_pins := [], clock_pins := [],
        child_pb_graph_nodes := [], temp_scratch_pad := none },
      { pb_type := 3, input_pins := [], output_pins := [[2]], clock_pins := [],
        child_pb_graph_nodes := [], temp_scratch_pad := none },
      { pb_type := 4, input_pins := [[3]], output_pins := [], clock_pins := [[4]],
        child_pb_graph_nodes := [], temp_scratch_pad := none } ]
  pins :=
    [ mk_pin 1 1 false 1 0 [] [0],
      mk_pin 2 2 false 2 0 [0] [],
      mk_pin 3 1 false 3 0 [] [1],
      mk_pin 4 2 false 4 0 [1] [],
      mk_pin 4 4 true 4 0 [] [] ]
  edges :=
    [ mk_edge [0] [1] [7],
      mk_edge [2] [3] [8] ]

/-- A cluster (node 0) holding a LUT (node 1, model 0) and two flip-flops (nodes 2 and
3, model 1).  The LUT output (pin 0) has two output edges, both labelled 7: one to the
D input of the first flip-flop (pin 1), one to the D input of the second (pin 2). -/
def fanout_arch : Arch where
  pb_types :=
    [ { num_pb := 1, modes := [0], parent_mode := none, blif_model := none },
      { num_pb := 1, modes := [], parent_mode := some 0, blif_model := some 0 },
      { num_pb := 2, modes := [], parent_mode := some 0, blif_model := some 1 } ]
  modes := [ { disable_packing := false, pb_type_children := [1, 2] } ]
  nodes :=
    [ { pb_type := 0, input_pins := [], output_pins := [], clock_pins := [],
        child_pb_graph_nodes := [[[1], [2, 3]]], temp_scratch_pad := none },
      { pb_type := 1, input_pins := [], output_pins := [[0]], clock_pins := [],
        child_pb_graph_nodes := [], temp_scratch_pad := none },
      { pb_type := 2, input_pins := [[1]], output_pins := [], clock_pins := [],
        child_pb_graph_nodes := [], temp_scratch_pad := none },
      { pb_type := 2, input_pins := [[2]], output_pins := [], clock_pins := [],
        child_pb_graph_nodes := [], temp_scratch_pad := none } ]
  pins :=
    [ mk_pin 1 1 false 1 0 [] [0, 1],
      mk_pin 2 2 false 2 0 [0] [],
      mk_pin 3 2 false 2 0 [1] [] ]
  edges :=
    [ mk_edge [0] [1] [7],
      mk_edge [0] [2] [7] ]

/-- The cluster of `fanout_arch` with the branch moved off the primitive: the LUT (node
2, output pin 0) sits in a sub-block (node 1) and reaches the output pin of that
sub-block (pin 1) by an edge labelled 7; pin 1 has two output edges, both labelled 7,
to the D inputs of the two flip-flops (nodes 3 and 4, pins 2 and 3). -/
def branch_arch : Arch where
  pb_types :=
    [ { num_pb := 1, modes := [0], parent_mode := none, blif_model := none },
      { num_pb := 1, modes := [1], parent_mode := some 0, blif_model := none },
      { num_pb := 1, modes := [], parent_mode := some 1, blif_model := some 0 },
      { num_pb := 2, modes := [], parent_mode := some 0, blif_model := some 1 } ]
  modes :=
    [ { disable_packing := false, pb_type_children := [1, 3] },
      { disable_packing := false, pb_type_children := [2] } ]
  nodes :=
    [ { pb_type := 0, input_pins := [], output_pins := [], clock_pins := [],
        child_pb_graph_nodes := [[[1], [3, 4]]], temp_scratch_pad := none },
      { pb_type := 1, input_pins := [], output_pins := [[1]], clock_pins := [],
        child_pb_graph_nodes := [[[2]]], temp_scratch_pad := none },
      { pb_type := 2, input_pins := [], output_pins := [[0]], clock_pins := [],
        child_pb_graph_nodes := [], temp_scratch_pad := none },
      { pb_type := 3, input_pins := [[2]], output_pins := [], clock_pins := [],
        child_pb_graph_nodes := [], temp_scratch_pad := none },
      { pb_type := 3, input_pins := [[3]], output_pins := [], clock_pins := [],
        child_pb_graph_nodes := [], temp_scratch_pad := none } ]
  pins :=
    [ mk_pin 2 1 false 2 0 [] [0],
      mk_pin 1 90 false 1 0 [0] [1, 2],
      mk_pin 3 2 false 3 0 [1] [],
      mk_pin 4 2 false 3 0 [2] [] ]
  edges :=
    [ mk_edge [0] [1] [7],
      mk_edge [1] [2] [7],
      mk_edge [1] [3] [7] ]

/-- The connection of a two-slot pattern from pin `from_pin` of slot 0 to pin `to_pin`
of slot 1. -/
def slot0_to_slot1 (from_pin to_pin : Nat) : t_pack_pattern_connections :=
  { from_block := 0, from_pin := from_pin, to_block := 1, to_pin := to_pin }

/-- The pattern that the builder makes of `lut_ff_arch`: LUT in slot 0 (the root),
flip-flop in slot 1, one connection stored on both slots. -/
def lut_ff_pattern : t_pack_patterns :=
  { name := some 7
    index := 0
    root_block := some 0
    num_blocks := 2
    is_block_optional := [false, false]
    is_chain := false
    chain_root_pins := []
    base_cost := 5
    blocks :=
      [ { pb_type := 1, block_id := 0, pattern_index := 0, connections := [slot0_to_slot1 2 3] },
        { pb_type := 2, block_id := 1, pattern_index := 0, connections := [slot0_to_slot1 2 3] } ] }

/-- The pattern that the builder makes of `chain_arch`: a chain of two adder slots, the
root mandatory and the second optional, entered through pin 1. -/
def chain_pattern : t_pack_patterns :=
  { name := some 9
    index := 0
    root_block := some 0
    num_blocks := 2
    is_block_optional := [false, true]
    is_chain := true
    chain_root_pins := [[1]]
    base_cost := 4
    blocks :=
      [ { pb_type := 1, block_id := 0, pattern_index := 0, connections := [slot0_to_slot1 2 3] },
        { pb_type := 1, block_id := 1, pattern_index := 0, connections := [slot0_to_slot1 2 3] } ] }

/-- The pattern that the builder makes of `converging_arch`: two mandatory LUT slots and
no connection. -/
def converging_pattern : t_pack_patterns :=
  { name := some 7
    index := 0
    root_block := some 0
    num_blocks := 2
    is_block_optional := [false, false]
    is_chain := false
    chain_root_pins := []
    base_cost := 2
    blocks :=
      [ { pb_type := 3, block_id := 0, pattern_index := 0, connections := [] },
        { pb_type := 3, block_id := 1, pattern_index := 0, connections := [] } ] }

/-- The pattern that the builder makes of `fanout_arch`: the LUT in slot 0 connected
from the same output pin to both flip-flop slots. -/
def fanout_pattern : t_pack_patterns :=
  { name := some 7
    index := 0
    root_block := some 0
    num_blocks := 3
    is_block_optional := [false, false, false]
    is_chain := false
    chain_root_pins := []
    base_cost := 3
    blocks :=
      [ { pb_type := 1, block_id := 0, pattern_index := 0,
          connections := [ { from_block := 0, from_pin := 0, to_block := 2, to_pin := 2 },
                           { from_block := 0, from_pin := 0, to_block := 1, to_pin := 1 } ] },
        { pb_type := 2, block_id := 1, pattern_index := 0,
          connections := [ { from_block := 0, from_pin := 0, to_block := 1, to_pin := 1 } ] },
        { pb_type := 2, block_id := 2, pattern_index := 0,
          connections := [ { from_block := 0, from_pin := 0, to_block := 2, to_pin := 2 } ] } ] }

/-- A committed forced-pack molecule, by pattern index, slots, gain and chain id (root
slot 0). -/
def forced_pack (pattern : Nat) (atoms : List (Option AtomBlockId)) (gain : ℚ)
    (chain : Option MoleculeChainId) : t_pack_molecule :=
  { type := .MOLECULE_FORCED_PACK
    pack_pattern := some pattern
    atom_block_ids := atoms
    root := 0
    base_gain := gain
    chain_id := chain }

/-- The one logical block type of the worked examples, headed by node 0. -/
def cluster_type : List t_logical_block_type := [ { pb_graph_head := some 0 } ]

/-- The patterns held by `best_pattern` in `k` successive runs of the selection loop
(lines 818-827), each run marking its pattern used. -/
def selection_order (list_of_pack_patterns : List t_pack_patterns) :
    Nat → List Bool → List Nat
  | 0, _ => []
  | k + 1, is_used =>
    let best_pattern := select_best_pattern list_of_pack_patterns is_used
    best_pattern :: selection_order list_of_pack_patterns k (is_used.set best_pattern true)

/-- The link between the committed molecules and the atom-to-molecule multimap: every
entry `(a, m)` of the map names a committed molecule `m` that holds `a`; every atom held
by a committed molecule `m` has the entry `(a, m)`; and the entries of one atom all name
the same molecule. -/
def consistent (mols : List t_pack_molecule) (amap : List (AtomBlockId × PackMoleculeId)) :
    Prop :=
  (∀ a m, (a, m) ∈ amap → m < mols.length ∧ some a ∈ (mols.getD m default).atom_block_ids)
  ∧ (∀ m a, m < mols.length → some a ∈ (mols.getD m default).atom_block_ids → (a, m) ∈ amap)
  ∧ (∀ a m m2, (a, m) ∈ amap → (a, m2) ∈ amap → m = m2)

/-- The prepacker of the LUT/flip-flop example when all patterns have been tried: one
forced pack holding LUT0 and FF0. -/
def lut_ff_matched : Prepacker :=
  { Prepacker.initial [lut_ff_pattern] 4 with
    pack_molecules_ := [forced_pack 0 [some 0, some 1] (39 / 20) none]
    pack_molecule_ids_ := [0]
    atom_molecules_multimap := [(0, 0), (1, 0)] }

/-- The prepacker of the LUT/flip-flop example after the single-atom fallback. -/
def lut_ff_with_singles : Prepacker :=
  { lut_ff_matched with
    pack_molecules_ := [forced_pack 0 [some 0, some 1] (39 / 20) none,
      single_atom_molecule 2, single_atom_molecule 3]
    pack_molecule_ids_ := [0, 1, 2]
    expected_lowest_cost_pb_gnode := [some 1, some 2, some 1, some 2]
    atom_molecules_multimap := [(0, 0), (1, 0), (2, 1), (3, 2)] }

/-- The prepacker that the constructor returns on the LUT/flip-flop example. -/
def lut_ff_prepacker : Prepacker :=
  { lut_ff_with_singles with atom_molecule_ := [some 0, some 0, some 1, some 2] }

/-- Three patterns rooted in the enabled mode of `lut_ff_arch`: 3 slots at cost 10,
5 slots at cost 50, and again 3 slots at cost 10. -/
def three_patterns : List t_pack_patterns :=
  [ { lut_ff_pattern with num_blocks := 3, base_cost := 10 },
    { lut_ff_pattern with num_blocks := 5, base_cost := 50 },
    { lut_ff_pattern with num_blocks := 3, base_cost := 10 } ]

/-- A pattern with the given slot count and base cost (an input of the priority
examples). -/
def priority_pattern (num_blocks : Nat) (base_cost : ℚ) : t_pack_patterns :=
  { (default : t_pack_patterns) with num_blocks := num_blocks, base_cost := base_cost }

/-- The netlist of the statistics examples: LUT0 (block 0) drives the D input of FF0
(block 1); LUT1 (block 2) drives an input of LUT0; the Q output of FF0 drives the D input
of FF1 (block 3) and an input of LUT1. -/
def stats_netlist : NetlistData where
  blocks :=
    [ { model := 0, type := .BLOCK, ports := [0, 1] },
      { model := 1, type := .BLOCK, ports := [2, 3, 4] },
      { model := 0, type := .BLOCK, ports := [0, 1] },
      { model := 1, type := .BLOCK, ports := [2, 3, 4] } ]
  nets :=
    [ { driver := some { blk := 2, port := 1, bit := 0 },
        sinks := [ { blk := 0, port := 0, bit := 0 } ] },
      { driver := some { blk := 0, port := 1, bit := 0 },
        sinks := [ { blk := 1, port := 2, bit := 0 } ] },
      { driver := some { blk := 1, port := 3, bit := 0 },
        sinks := [ { blk := 3, port := 2, bit := 0 }, { blk := 2, port := 0, bit := 0 } ] } ]

/-- The collaborators of the statistics examples: the LUT model (0) has one input port of
4 bits and one output bit, the latch model (1) two input ports of one bit and one output
bit. -/
def stats_ext : Externals :=
  { example_ext lut_ff_arch stats_netlist with
    model_inputs := fun m => if m == 0 then [4] else [1, 1]
    model_outputs := fun _ => [1] }

/-- The molecules of the statistics examples: LUT0 with FF0, and LUT1 and FF1 alone. -/
def stats_prepacker : Prepacker :=
  { Prepacker.initial [lut_ff_pattern] 4 with
    pack_molecules_ := [forced_pack 0 [some 0, some 1] (39 / 20) none,
      single_atom_molecule 2, single_atom_molecule 3]
    pack_molecule_ids_ := [0, 1, 2] }

/-- A cluster (node 0) with a single adder (node 1, model 0): the cluster carry input
(pin 0) feeds the adder carry input (pin 1), and the adder carry output (pin 2) feeds
the cluster carry output (pin 3).  Both edges carry the pattern label 9. -/
def single_adder_arch : Arch where
  pb_types :=
    [ { num_pb := 1, modes := [0], parent_mode := none, blif_model := none },
      { num_pb := 1, modes := [], parent_mode := some 0, blif_model := some 0 } ]
  modes := [ { disable_packing := false, pb_type_children := [1] } ]
  nodes :=
    [ { pb_type := 0, input_pins := [[0]], output_pins := [[3]], clock_pins := [],
        child_pb_graph_nodes := [[[1]]], temp_scratch_pad := none },
      { pb_type := 1, input_pins := [[1]], output_pins := [[2]], clock_pins := [],
        child_pb_graph_nodes := [], temp_scratch_pad := none } ]
  pins :=
    [ mk_pin 0 90 false 0 0 [] [0],
      mk_pin 1 0 false 1 0 [0] [],
      mk_pin 1 1 false 1 0 [] [1],
      mk_pin 0 91 false 0 0 [1] [] ]
  edges :=
    [ mk_edge [0] [1] [9],
      mk_edge [2] [3] [9] ]

/-- A cluster (node 0) with `k` separate carry chains of two adders each (model 0).
Chain `c` uses the pins `6c .. 6c+5`: cluster carry input `cin[c]`, first adder `cin`
and `cout`, second adder `cin` and `cout`, cluster carry output `cout[c]`; its adders are
the nodes `2c+1` and `2c+2`; its three edges `3c .. 3c+2` all carry the pattern label 9. -/
def parallel_chains_arch (k : Nat) : Arch where
  pb_types :=
    [ { num_pb := 1, modes := [0], parent_mode := none, blif_model := none },
      { num_pb := 2 * k, modes := [], parent_mode := some 0, blif_model := some 0 } ]
  modes := [ { disable_packing := false, pb_type_children := [1] } ]
  nodes :=
    { pb_type := 0, input_pins := [(List.range k).map fun c => 6 * c],
      output_pins := [(List.range k).map fun c => 6 * c + 5], clock_pins := [],
      child_pb_graph_nodes := [[(List.range (2 * k)).map fun n => n + 1]],
      temp_scratch_pad := none }
    :: (List.range k).flatMap fun c =>
      [ { pb_type := 1, input_pins := [[6 * c + 1]], output_pins := [[6 * c + 2]],
          clock_pins := [], child_pb_graph_nodes := [], temp_scratch_pad := none },
        { pb_type := 1, input_pins := [[6 * c + 3]], output_pins := [[6 * c + 4]],
          clock_pins := [], child_pb_graph_nodes := [], temp_scratch_pad := none } ]
  pins := (List.range k).flatMap fun c =>
    [ mk_pin 0 90 false 0 c [] [3 * c],
      mk_pin (2 * c + 1) 0 false 1 0 [3 * c] [],
      mk_pin (2 * c + 1) 1 false 1 0 [] [3 * c + 1],
      mk_pin (2 * c + 2) 0 false 1 0 [3 * c + 1] [],
      mk_pin (2 * c + 2) 1 false 1 0 [] [3 * c + 2],
      mk_pin 0 91 false 0 c [3 * c + 2] [] ]
  edges := (List.range k).flatMap fun c =>
    [ mk_edge [6 * c] [6 * c + 1] [9],
      mk_edge [6 * c + 2] [6 * c + 3] [9],
      mk_edge [6 * c + 4] [6 * c + 5] [9] ]

/-- A cluster (node 0) with one carry chain of two adders (nodes 1 and 2, model 0) that
can be entered at either adder: the cluster input `cin0` (pin 0) feeds the carry input of
adder 0 (pin 1), whose carry output (pin 2) feeds the carry input of adder 1 (pin 3);
the cluster input `cin1` (pin 6) feeds the carry input of adder 1 as well; the carry
output of adder 1 (pin 4) feeds the cluster output (pin 5).  All four edges carry the
pattern label 9. -/
def two_entry_chain_arch : Arch where
  pb_types :=
    [ { num_pb := 1, modes := [0], parent_mode := none, blif_model := none },
      { num_pb := 2, modes := [], parent_mode := some 0, blif_model := some 0 } ]
  modes := [ { disable_packing := false, pb_type_children := [1] } ]
  nodes :=
    [ { pb_type := 0, input_pins := [[0, 6]], output_pins := [[5]], clock_pins := [],
        child_pb_graph_nodes := [[[1, 2]]], temp_scratch_pad := none },
      { pb_type := 1, input_pins := [[1]], output_pins := [[2]], clock_pins := [],
        child_pb_graph_nodes := [], temp_scratch_pad := none },
      { pb_type := 1, input_pins := [[3]], output_pins := [[4]], clock_pins := [],
        child_pb_graph_nodes := [], temp_scratch_pad := none } ]
  pins :=
    [ mk_pin 0 90 false 0 0 [] [0],
      mk_pin 1 0 false 1 0 [0] [],
      mk_pin 1 1 false 1 0 [] [1],
      mk_pin 2 0 false 1 0 [1, 3] [],
      mk_pin 2 1 false 1 0 [] [2],
      mk_pin 0 91 false 0 0 [2] [],
      mk_pin 0 90 false 0 1 [] [3] ]
  edges :=
    [ mk_edge [0] [1] [9],
      mk_edge [2] [3] [9],
      mk_edge [4] [5] [9],
      mk_edge [6] [3] [9] ]

/-- The template `parallel_chains_arch 2` with one more edge (edge 6, labelled 9) from the
cluster carry input of the first chain (pin 0) to the carry input of the second adder of
that chain (pin 3): pin 0 has two tagged output edges. -/
def double_entry_arch : Arch :=
  { parallel_chains_arch 2 with
    pins := ((parallel_chains_arch 2).pins.set 0 (mk_pin 0 90 false 0 0 [] [0, 6])).set 3
      (mk_pin 2 0 false 1 0 [1, 6] [])
    edges := (parallel_chains_arch 2).edges ++ [mk_edge [0] [3] [9]] }

/-- The template as `alloc_and_load_pack_patterns` leaves it (pattern indices, inferred
marks and scratch pads written), or the template itself when the library is not built. -/
def loaded_template (a : Arch) : Arch :=
  match alloc_and_load_pack_patterns (example_ext a chain_netlist) 50 a cluster_type with
  | .ok lib => lib.1
  | .error _ => a

/-- The template after discovery and after the pattern builder has run from expansion
edge 0 for pattern 0, with the pattern it built; the equivalent-chain search has not run. -/
def built_from_edge_0 (a : Arch) : Except PrepackError BuildState := do
  let discovered ← discover_pattern_names_in_pb_graph_node 50 (some 0) (a, [])
  backward_expand_pack_pattern_from_edge (example_ext a chain_netlist) 50 0
    { arch := discovered.1
      packing_pattern := (alloc_and_init_pattern_list_from_hash discovered.2).getD 0 default
      L_num_blocks := 0 }
    none none

/-! ## Notions used in the statements and in the invariants of the proofs -/

/-- The marks written by lines 187-193, as a property of a pattern: one mark per slot,
set exactly on the slots of a chain other than the root slot. -/
def optional_marks_ok (pat : t_pack_patterns) : Prop :=
  pat.is_block_optional.length = pat.num_blocks
  ∧ ∀ k < pat.num_blocks, (pat.is_block_optional.getD k false = true
      ↔ pat.is_chain = true
        ∧ ∃ rb, pat.root_block = some rb ∧ k ≠ (pat.block rb).block_id)

/-- The table of pattern names after the names `labels` have been inserted one after the
other, starting from `pattern_names`. -/
def insert_pattern_names (pattern_names : List Nat) (labels : List Nat) : List Nat :=
  labels.foldl (fun ns x => (insert_pattern_name ns x).1) pattern_names

/-- The two architectures differ at most in their scratch fields (`infer_pattern`,
`pack_pattern_indices`, `temp_scratch_pad`). -/
def same_template (a b : Arch) : Prop :=
  b.pins = a.pins ∧ b.pb_types = a.pb_types ∧ b.modes = a.modes
  ∧ (∀ n, (b.node n).pb_type = (a.node n).pb_type
      ∧ (b.node n).input_pins = (a.node n).input_pins
      ∧ (b.node n).output_pins = (a.node n).output_pins
      ∧ (b.node n).clock_pins = (a.node n).clock_pins
      ∧ (b.node n).child_pb_graph_nodes = (a.node n).child_pb_graph_nodes)
  ∧ (∀ e, (b.edge e).pack_pattern_names = (a.edge e).pack_pattern_names
      ∧ (b.edge e).output_pins = (a.edge e).output_pins
      ∧ (b.edge e).input_pins = (a.edge e).input_pins)

/-- The two architectures have the same `pack_pattern_indices` on every edge. -/
def same_indices (a b : Arch) : Prop :=
  ∀ e, (b.edge e).pack_pattern_indices = (a.edge e).pack_pattern_indices

/-- Every edge has a null index array or one with an entry per pattern name. -/
def indices_allocated (a : Arch) : Prop :=
  ∀ e, (a.edge e).pack_pattern_indices = []
    ∨ (a.edge e).pack_pattern_indices.length = (a.edge e).pack_pattern_names.length

/-- Entry `m` of the index array of edge `e` holds the position in `names` of the `m`-th
pattern name of the edge. -/
def index_recorded (a : Arch) (names : List Nat) (e m : Nat) : Prop :=
  m < (a.edge e).pack_pattern_names.length →
    (a.edge e).pack_pattern_names.getD m 0 ∈ names
    ∧ (a.edge e).pack_pattern_indices.get? m
        = some (names.indexOf ((a.edge e).pack_pattern_names.getD m 0))

/-- A piece of the discovery that goes from template `a` and table `ns` to `a2` and `ns2`
after meeting the names `labels`: only scratch fields change, allocated index arrays
stay allocated, the names are inserted in order and recorded indices stay right. -/
def discovery_step (a : Arch) (ns : List Nat) (a2 : Arch) (ns2 : List Nat)
    (labels : List Nat) : Prop :=
  same_template a a2 ∧ (indices_allocated a → indices_allocated a2)
  ∧ ns2 = insert_pattern_names ns labels
  ∧ ∀ e m, index_recorded a ns e m → index_recorded a2 ns2 e m

/-- The pattern names on the edges `es`, in order. -/
def labels_of (a : Arch) (es : List Nat) : List Nat :=
  es.flatMap fun e => (a.edge e).pack_pattern_names

/-- Going from state `st` to state `st2` is a discovery step that meets the names on the
edges `es` and leaves the index of every name of every edge of `es` recorded. -/
def discovered (st st2 : Arch × List Nat) (es : List Nat) : Prop :=
  discovery_step st.1 st.2 st2.1 st2.2 (labels_of st.1 es)
  ∧ (indices_allocated st.1 → ∀ e ∈ es, ∀ m, index_recorded st2.1 st2.2 e m)

/-- The edges visited by `discover_pattern_names_in_pb_graph_node`, in the order visited:
the output edges of the input, output and clock pins of the node, then those of its
children. -/
def traversal_edges (a : Arch) : Nat → Option Nat → List Nat
  | 0, _ => []
  | _ + 1, none => []
  | fuel + 1, some pb_graph_node =>
    let node := a.node pb_graph_node
    (node.input_pins.flatten ++ node.output_pins.flatten ++ node.clock_pins.flatten).flatMap
        (fun pin => (a.pin pin).output_edges)
      ++ (child_nodes a node).flatMap (traversal_edges a fuel)

/-- The state after the discovery pass of `alloc_and_load_pack_patterns` over the block
types of the worked examples, or the start state when the pass fails. -/
def discovery_of (a : Arch) : Arch × List Nat :=
  match cluster_type.foldlM
      (fun acc type => discover_pattern_names_in_pb_graph_node 50 type.pb_graph_head acc)
      (a, []) with
  | .ok st => st
  | .error _ => (a, [])

/-- The template `lut_ff_arch` with other labels: the edge from the cluster input to the
LUT input (edge 0) carries label 8, the edge from the LUT output to the flip-flop input
(edge 1) the labels 7 and 8, the edge from the flip-flop output to the cluster output
(edge 2) label 7. -/
def two_label_arch : Arch :=
  { lut_ff_arch with
    edges :=
      [ mk_edge [0] [1] [8],
        mk_edge [2] [3] [7, 8],
        mk_edge [4] [5] [7],
        mk_edge [6] [7] [] ] }

/-- Primitive node `p` is reached from node `n` by going down the hierarchy through modes
that are not disabled for packing, into any instance of a child pb_type or, with
`first_only`, into the first instance only. -/
inductive reaches_primitive (arch : Arch) (first_only : Bool) : Nat → Nat → Prop
  | here (n : Nat)
      (hprim : (arch.pb_type (arch.node n).pb_type).blif_model.isSome = true) :
      reaches_primitive arch first_only n n
  | child (n i j k c p : Nat)
      (hprim : (arch.pb_type (arch.node n).pb_type).blif_model.isSome = false)
      (hi : i < (arch.pb_type (arch.node n).pb_type).modes.length)
      (hmode : (arch.mode ((arch.pb_type (arch.node n).pb_type).modes.getD i 0)).disable_packing
        = false)
      (hj : j < (arch.mode
        ((arch.pb_type (arch.node n).pb_type).modes.getD i 0)).pb_type_children.length)
      (hk : first_only = true → k = 0)
      (hc : (((arch.node n).child_pb_graph_nodes.getD i []).getD j []).get? k = some c)
      (hp : reaches_primitive arch first_only c p) :
      reaches_primitive arch first_only n p

/-- What the search answers for the subtree of `node`: a feasible primitive of the subtree
of lowest cost together with its cost, or null and `UNDEFINED` when the subtree has no
feasible primitive. -/
def lowest_cost_in (arch : Arch) (ext : Externals) (blk_id : AtomBlockId) (node : Option Nat)
    (r : Option Nat × ℚ) : Prop :=
  (∀ p, r.1 = some p →
    r.2 = ext.compute_primitive_base_cost p
    ∧ ext.primitive_type_feasible blk_id (arch.node p).pb_type = true
    ∧ (∃ n, node = some n ∧ reaches_primitive arch true n p)
    ∧ ∀ n q, node = some n → reaches_primitive arch true n q →
        ext.primitive_type_feasible blk_id (arch.node q).pb_type = true →
        ext.compute_primitive_base_cost p ≤ ext.compute_primitive_base_cost q)
  ∧ (r.1 = none → r.2 = UNDEFINED ∧ ∀ n q, node = some n → reaches_primitive arch true n q →
        ext.primitive_type_feasible blk_id (arch.node q).pb_type = false)

/-- The best primitive kept by the loops over the children of a node, when the children
`C` have been searched. -/
def best_so_far (arch : Arch) (ext : Externals) (blk_id : AtomBlockId) (C : Nat → Prop)
    (acc : Option Nat × ℚ) : Prop :=
  (∀ p, acc.1 = some p →
    acc.2 = ext.compute_primitive_base_cost p
    ∧ ext.primitive_type_feasible blk_id (arch.node p).pb_type = true
    ∧ (∃ c, C c ∧ reaches_primitive arch true c p)
    ∧ ∀ c q, C c → reaches_primitive arch true c q →
        ext.primitive_type_feasible blk_id (arch.node q).pb_type = true →
        ext.compute_primitive_base_cost p ≤ ext.compute_primitive_base_cost q)
  ∧ (acc.1 = none → acc.2 = UNDEFINED ∧ ∀ c q, C c → reaches_primitive arch true c q →
        ext.primitive_type_feasible blk_id (arch.node q).pb_type = false)

/-- The template is an unfolding of the pb_type hierarchy: every node of the arena has, for
every child pb_type of every mode of its pb_type, at least one instance, and the instances
are nodes of the arena with that child pb_type. -/
def instances_match_types (arch : Arch) : Bool :=
  (List.range arch.nodes.length).all fun n =>
    (List.range (arch.pb_type (arch.node n).pb_type).modes.length).all fun i =>
      (List.range (arch.mode
          ((arch.pb_type (arch.node n).pb_type).modes.getD i 0)).pb_type_children.length).all
        fun j =>
          !(((arch.node n).child_pb_graph_nodes.getD i []).getD j []).isEmpty
          && (((arch.node n).child_pb_graph_nodes.getD i []).getD j []).all fun c =>
            decide (c < arch.nodes.length)
            && (arch.node c).pb_type
              == (arch.mode
                ((arch.pb_type (arch.node n).pb_type).modes.getD i 0)).pb_type_children.getD j 0

/-- The rank decreases from every node of the arena to the first instance of each of its
children. -/
def rank_decreases (arch : Arch) (rank : Nat → Nat) : Bool :=
  (List.range arch.nodes.length).all fun n =>
    (arch.node n).child_pb_graph_nodes.all fun mode_children =>
      mode_children.all fun instances =>
        match instances.head? with
        | none => true
        | some c => decide (rank c < rank n)

/-- The netlist of the LUT/flip-flop example with a gated clock: LUT1 (block 2) drives the
clock input of FF0 (block 1) on a net with that single sink. -/
def gated_clock_netlist : NetlistData :=
  { lut_ff_netlist with
    nets := lut_ff_netlist.nets
      ++ [ { driver := some { blk := 2, port := 1, bit := 0 },
             sinks := [ { blk := 1, port := 4, bit := 0 } ] } ] }

/-- The netlist of the LUT/flip-flop example where the net on the D input of FF0 has lost
its driver. -/
def undriven_netlist : NetlistData :=
  { lut_ff_netlist with
    nets := [ { driver := none, sinks := [ { blk := 1, port := 2, bit := 0 } ] } ] }

/-- The test of `VTR_ASSERT` on line 1184 for the net found at the destination pin. -/
def clock_pin_supported (arch : Arch) (nl : AtomNetlist)
    (connections : t_pack_pattern_connections) (net_id : AtomNetId) : Bool :=
  !(arch.pin connections.to_pin).port.model_port.is_clock
  || (arch.pin connections.to_pin).pin_number == 1
  || ((arch.pin connections.to_pin).pin_number == 0
      && nl.block_type (nl.net_driver_block net_id) == AtomBlockType.INPAD)

/-- The sink pin passes the two tests of lines 1135-1138: its block is type-feasible for
the destination slot of the connection, and it is the pin of that block found at the
destination port and pin bit of the connection. -/
def sink_matches_connection (arch : Arch) (ext : Externals) (nl : AtomNetlist)
    (pat : t_pack_patterns) (connections : t_pack_pattern_connections)
    (sink_pin_id : AtomPinId) : Bool :=
  ext.primitive_type_feasible (nl.pin_block sink_pin_id) (pat.block connections.to_block).pb_type
  && nl.find_pin
      (nl.find_atom_port (nl.pin_block sink_pin_id) (arch.pin connections.to_pin).port.model_port)
      (arch.pin connections.to_pin).pin_number == some sink_pin_id

/-- The block of the sink pin is a latch. -/
def sink_is_latch (ext : Externals) (nl : AtomNetlist) (sink_pin_id : AtomPinId) : Bool :=
  nl.block_model (nl.pin_block sink_pin_id) == ext.latch_model

/-- Three adders: the carry output of A0 (block 0) drives the carry inputs of both A1 and A2
on one net with two sinks. -/
def forked_chain_netlist : NetlistData where
  blocks :=
    [ { model := 0, type := .BLOCK, ports := [0, 1] },
      { model := 0, type := .BLOCK, ports := [0, 1] },
      { model := 0, type := .BLOCK, ports := [0, 1] } ]
  nets :=
    [ { driver := some { blk := 0, port := 1, bit := 0 },
        sinks := [ { blk := 1, port := 0, bit := 0 }, { blk := 2, port := 0, bit := 0 } ] } ]

/-- A sequence of inference calls, each given by its direction (`true` for
`forward_infer_pattern`, `false` for `backward_infer_pattern`) and its pin, run one after
the other on the template. -/
def infer_calls (fuel : Nat) (arch : Arch) (calls : List (Bool × Nat)) :
    Except PrepackError Arch :=
  calls.foldlM
    (fun a call =>
      if call.1 then forward_infer_pattern fuel a call.2
      else backward_infer_pattern fuel a call.2)
    arch

/-- Nothing but `infer_pattern` flags differs between `a` and `a2`, and no flag that is set
in `a` is cleared in `a2`. -/
def only_infer_flags_raised (a a2 : Arch) : Prop :=
  a2.pb_types = a.pb_types ∧ a2.modes = a.modes ∧ a2.nodes = a.nodes ∧ a2.pins = a.pins
  ∧ a2.edges.length = a.edges.length
  ∧ ∀ e, a2.edge e = { a.edge e with infer_pattern := (a2.edge e).infer_pattern }
      ∧ ((a.edge e).infer_pattern = true → (a2.edge e).infer_pattern = true)

/-- Every inferred edge is unlabelled and is the only output edge or the only input edge
of some pin. -/
def inferred_edges_ok (a : Arch) : Prop :=
  ∀ e, (a.edge e).infer_pattern = true →
    (a.edge e).pack_pattern_names = []
    ∧ ∃ p, (a.pin p).output_edges = [e] ∨ (a.pin p).input_edges = [e]

/-- The number of edges of the template that are not marked as inferred. -/
def uninferred (a : Arch) : Nat := a.edges.countP (fun e => !e.infer_pattern)

/-- The atom one link up the chain from `blk`, seen from the chain input pin `root_ipin`:
the driver of the chain input pin of `blk`, when that driver exists, belongs to no
committed molecule and is type-feasible for the chain root primitive. -/
def chain_link_up (arch : Arch) (ext : Externals) (nl : AtomNetlist)
    (atom_molecules : List (AtomBlockId × PackMoleculeId)) (root_ipin : Nat)
    (blk : AtomBlockId) : Option AtomBlockId :=
  match nl.find_atom_pin_driver blk (arch.pin root_ipin).port.model_port
      (arch.pin root_ipin).pin_number with
  | none => none
  | some d =>
    if ext.primitive_type_feasible d (arch.node (arch.pin root_ipin).parent_node).pb_type
        && !(atom_in_map atom_molecules d) then some d
    else none

/-- The atom `b(k)` of the sequence `b(0) = blk`, `b(i+1) = link b(i)`, if the sequence is
that long. -/
def chain_ancestor (link : AtomBlockId → Option AtomBlockId) : Nat → AtomBlockId →
    Option AtomBlockId
  | 0, blk => some blk
  | k + 1, blk => (link blk).bind (chain_ancestor link k)

/-- The driver links of the chain input pin are acyclic on the atoms of the netlist: every
driver is an atom of the netlist and has a lower rank than the atom it drives. -/
def chain_links_acyclic (arch : Arch) (nl : AtomNetlist) (root_ipin : Nat)
    (rank : AtomBlockId → Nat) : Bool :=
  nl.blocks.all fun b =>
    match nl.find_atom_pin_driver b (arch.pin root_ipin).port.model_port
        (arch.pin root_ipin).pin_number with
    | none => true
    | some d => nl.blocks.contains d && decide (rank d < rank b)

/-- Every forced-pack molecule of the prepacker names a pattern of the library, has one
slot per block of that pattern, and has the gain of line 847: its number of slots minus a
hundredth of the base cost of the pattern. -/
def gains_assigned (s : Prepacker) : Prop :=
  ∀ m ∈ s.pack_molecules_, m.type = .MOLECULE_FORCED_PACK →
    ∃ p, m.pack_pattern = some p
      ∧ m.atom_block_ids.length = (s.list_of_pack_patterns.getD p default).num_blocks
      ∧ m.base_gain = (m.atom_block_ids.length : ℚ)
          - (s.list_of_pack_patterns.getD p default).base_cost / 100

/-- The prepacker after `alloc_and_load_pack_molecules` on the three-adder chain, from the
library of `chain_arch` and no molecule (or the initial prepacker if the run fails). -/
def chain_prepacked : Prepacker :=
  match alloc_and_load_pack_molecules (loaded_template chain_arch)
      (example_ext chain_arch chain_netlist) chain_netlist.toNetlist 50 cluster_type
      (Prepacker.initial [chain_pattern] 3) with
  | .ok s => s
  | .error _ => Prepacker.initial [chain_pattern] 3

/-- The cluster of `chain_arch` (carry input pin 0, adders on pins 1-4, carry output pin 5,
the three chain edges labelled 9) with a LUT (node 3, model 0, output pin 6) and a
flip-flop (node 4, model 1, D input pin 7, Q output pin 8) added; the edge from the LUT
output to the D input (edge 3) is labelled 7.  The adders have model 2. -/
def lut_ff_chain_arch : Arch where
  pb_types :=
    [ { num_pb := 1, modes := [0], parent_mode := none, blif_model := none },
      { num_pb := 2, modes := [], parent_mode := some 0, blif_model := some 2 },
      { num_pb := 1, modes := [], parent_mode := some 0, blif_model := some 0 },
      { num_pb := 1, modes := [], parent_mode := some 0, blif_model := some 1 } ]
  modes := [ { disable_packing := false, pb_type_children := [1, 2, 3] } ]
  nodes :=
    [ { pb_type := 0, input_pins := [[0]], output_pins := [[5]], clock_pins := [],
        child_pb_graph_nodes := [[[1, 2], [3], [4]]], temp_scratch_pad := none },
      { pb_type := 1, input_pins := [[1]], output_pins := [[2]], clock_pins := [],
        child_pb_graph_nodes := [], temp_scratch_pad := none },
      { pb_type := 1, input_pins := [[3]], output_pins := [[4]], clock_pins := [],
        child_pb_graph_nodes := [], temp_scratch_pad := none },
      { pb_type := 2, input_pins := [], output_pins := [[6]], clock_pins := [],
        child_pb_graph_nodes := [], temp_scratch_pad := none },
      { pb_type := 3, input_pins := [[7]], output_pins := [[8]], clock_pins := [],
        child_pb_graph_nodes := [], temp_scratch_pad := none } ]
  pins :=
    [ mk_pin 0 90 false 0 0 [] [0],
      mk_pin 1 0 false 1 0 [0] [],
      mk_pin 1 1 false 1 0 [] [1],
      mk_pin 2 0 false 1 0 [1] [],
      mk_pin 2 1 false 1 0 [] [2],
      mk_pin 0 91 false 0 0 [2] [],
      mk_pin 3 1 false 2 0 [] [3],
      mk_pin 4 2 false 3 0 [3] [],
      mk_pin 4 3 false 3 0 [] [] ]
  edges :=
    [ mk_edge [0] [1] [9],
      mk_edge [2] [3] [9],
      mk_edge [4] [5] [9],
      mk_edge [6] [7] [7] ]

/-- A registered carry input: the LUT L (block 0) drives the D input of the flip-flop F
(block 1); the Q output of F drives the carry input of the adder A0 (block 2); the carry
output of A0 drives the carry input of the adder A1 (block 3).  Every net has one sink. -/
def registered_carry_netlist : NetlistData where
  blocks :=
    [ { model := 0, type := .BLOCK, ports := [1] },
      { model := 1, type := .BLOCK, ports := [2, 3] },
      { model := 2, type := .BLOCK, ports := [0, 1] },
      { model := 2, type := .BLOCK, ports := [0, 1] } ]
  nets :=
    [ { driver := some { blk := 0, port := 1, bit := 0 },
        sinks := [ { blk := 1, port := 2, bit := 0 } ] },
      { driver := some { blk := 1, port := 3, bit := 0 },
        sinks := [ { blk := 2, port := 0, bit := 0 } ] },
      { driver := some { blk := 2, port := 1, bit := 0 },
        sinks := [ { blk := 3, port := 0, bit := 0 } ] } ]

/-- A cluster (node 0, carry input pin 0) with two children: a LUT (node 1, model 0, output
pin 1) listed first, and a slice (node 2, input pins 2 `a` and 3 `cin`) holding an adder
(node 3, model 2, input pins 4 `a` and 5 `cin`).  The LUT output feeds `slice.a` (edge 1),
`slice.a` feeds `adder.a` (edge 2) and `slice.cin` feeds `adder.cin` (edge 3), all three
labelled 9; the cluster carry input feeds `slice.cin` by the unlabelled edge 0. -/
def lut_carry_arch : Arch where
  pb_types :=
    [ { num_pb := 1, modes := [0], parent_mode := none, blif_model := none },
      { num_pb := 1, modes := [], parent_mode := some 0, blif_model := some 0 },
      { num_pb := 1, modes := [1], parent_mode := some 0, blif_model := none },
      { num_pb := 1, modes := [], parent_mode := some 1, blif_model := some 2 } ]
  modes :=
    [ { disable_packing := false, pb_type_children := [1, 2] },
      { disable_packing := false, pb_type_children := [3] } ]
  nodes :=
    [ { pb_type := 0, input_pins := [[0]], output_pins := [], clock_pins := [],
        child_pb_graph_nodes := [[[1], [2]]], temp_scratch_pad := none },
      { pb_type := 1, input_pins := [], output_pins := [[1]], clock_pins := [],
        child_pb_graph_nodes := [], temp_scratch_pad := none },
      { pb_type := 2, input_pins := [[2], [3]], output_pins := [], clock_pins := [],
        child_pb_graph_nodes := [[[3]]], temp_scratch_pad := none },
      { pb_type := 3, input_pins := [[4], [5]], output_pins := [], clock_pins := [],
        child_pb_graph_nodes := [], temp_scratch_pad := none } ]
  pins :=
    [ mk_pin 0 90 false 0 0 [] [0],
      mk_pin 1 1 false 1 0 [] [1],
      mk_pin 2 91 false 2 0 [1] [2],
      mk_pin 2 92 false 2 0 [0] [3],
      mk_pin 3 0 false 3 0 [2] [],
      mk_pin 3 1 false 3 0 [3] [] ]
  edges :=
    [ mk_edge [0] [3] [],
      mk_edge [1] [2] [9],
      mk_edge [2] [4] [9],
      mk_edge [3] [5] [9] ]

/-- The template after discovery and after the pattern builder has run for pattern 0 from
the expansion edge that `find_expansion_edge_of_pattern` finds under node 0, with that
edge; the optional marks and the equivalent-chain search have not run. -/
def built_from_expansion_edge (a : Arch) : Except PrepackError (Option Nat × BuildState) := do
  let discovered ← discover_pattern_names_in_pb_graph_node 50 (some 0) (a, [])
  let expansion_edge ← find_expansion_edge_of_pattern discovered.1 0 50 (some 0)
  match expansion_edge with
  | none => throw .null_pointer
  | some e =>
    let built ← backward_expand_pack_pattern_from_edge (example_ext a chain_netlist) 50 e
      { arch := discovered.1
        packing_pattern := (alloc_and_init_pattern_list_from_hash discovered.2).getD 0 default
        L_num_blocks := 0 }
      none none
    pure (some e, built)

/-- The atom has no feasible primitive in the templates of the logical block types: every
primitive reached from the head of one of them through modes that are not disabled for
packing (into any instance of a child or, with `first_only`, into first instances only)
is type-infeasible for the atom. -/
def no_feasible_primitive (arch : Arch) (ext : Externals)
    (logical_block_types : List t_logical_block_type) (first_only : Bool)
    (blk_id : AtomBlockId) : Prop :=
  ∀ type ∈ logical_block_types, ∀ root q, type.pb_graph_head = some root →
    reaches_primitive arch first_only root q →
    ext.primitive_type_feasible blk_id (arch.node q).pb_type = false

/-- The run does not stop with the "Failed to find any location to pack primitive" error. -/
def not_fatal_no_primitive {α : Type} (x : Except PrepackError α) : Prop :=
  match x with
  | .error .fatal_no_primitive => False
  | _ => True

/-- The netlist of the LUT/flip-flop example with one more atom (block 4) of a model, 5,
that no primitive of the architecture implements. -/
def alien_atom_netlist : NetlistData :=
  { lut_ff_netlist with
    blocks := lut_ff_netlist.blocks ++ [ { model := 5, type := .BLOCK, ports := [] } ] }

/-- The prepacker on `alien_atom_netlist` when all patterns have been tried: one forced pack
holding LUT0 and FF0. -/
def alien_atom_matched : Prepacker :=
  { Prepacker.initial [lut_ff_pattern] 5 with
    pack_molecules_ := [forced_pack 0 [some 0, some 1] (39 / 20) none]
    pack_molecule_ids_ := [0]
    atom_molecules_multimap := [(0, 0), (1, 0)] }

/-- A dequeued pair of the matching loop, with the slot array of the molecule at the time
it is dequeued: ((pattern block, atom), slots). -/
abbrev DequeuedPair := (Nat × Option AtomBlockId) × List (Option AtomBlockId)

/-- The matching loop `try_expand_molecule_loop` with a log: the same loop, returning in
addition the pairs it dequeues, in order, each with the slot array at that time. -/
def try_expand_molecule_loop_logged (arch : Arch) (ext : Externals) (nl : AtomNetlist)
    (pat : t_pack_patterns) (atom_molecules : List (AtomBlockId × PackMoleculeId)) :
    Nat → List (Nat × Option AtomBlockId) → List (Option AtomBlockId) →
    Except PrepackError ((Bool × List (Option AtomBlockId)) × List DequeuedPair)
  | 0, [], atom_block_ids => pure ((true, atom_block_ids), [])
  | 0, _ :: _, _ => throw .out_of_fuel
  | _ + 1, [], atom_block_ids => pure ((true, atom_block_ids), [])
  | fuel + 1, (pattern_block, block_id) :: queue, atom_block_ids =>
    let slot := (pat.block pattern_block).block_id
    let molecule_atom_block_id := atom_block_ids.getD slot none
    let logged := fun (r : (Bool × List (Option AtomBlockId)) × List DequeuedPair) =>
      (r.1, ((pattern_block, block_id), atom_block_ids) :: r.2)
    if molecule_atom_block_id.isSome && molecule_atom_block_id == block_id then
      (try_expand_molecule_loop_logged arch ext nl pat atom_molecules fuel queue
        atom_block_ids).map logged
    else
      match block_id with
      | none =>
        if !(pat.is_block_optional.getD slot false) then
          pure ((false, atom_block_ids), [((pattern_block, block_id), atom_block_ids)])
        else (try_expand_molecule_loop_logged arch ext nl pat atom_molecules fuel queue
          atom_block_ids).map logged
      | some blk =>
        if !(ext.primitive_type_feasible blk (pat.block pattern_block).pb_type)
            || (molecule_atom_block_id.isSome && molecule_atom_block_id != block_id)
            || atom_in_map atom_molecules blk then
          if !(pat.is_block_optional.getD slot false) then
            pure ((false, atom_block_ids), [((pattern_block, block_id), atom_block_ids)])
          else (try_expand_molecule_loop_logged arch ext nl pat atom_molecules fuel queue
            atom_block_ids).map logged
        else do
          let pushed ← expand_connections arch ext nl pat pattern_block blk
            (pat.block pattern_block).connections
          (try_expand_molecule_loop_logged arch ext nl pat atom_molecules fuel (queue ++ pushed)
            (atom_block_ids.set slot (some blk))).map logged

/-- The four conditions for binding the atom of a dequeued pair to its slot: the atom is
valid, type-feasible for the primitive type of the slot, the slot is empty, and the atom
is absent from the committed atom-to-molecule map. -/
def binding_conditions (ext : Externals) (pat : t_pack_patterns)
    (atom_molecules : List (AtomBlockId × PackMoleculeId)) (ev : DequeuedPair) : Bool :=
  match ev.1.2 with
  | none => false
  | some blk =>
    ext.primitive_type_feasible blk (pat.block ev.1.1).pb_type
    && (ev.2.getD (pat.block ev.1.1).block_id none).isNone
    && !(atom_in_map atom_molecules blk)

/-- The test of line 1044: the slot of the dequeued pair already holds the atom of the
pair. -/
def already_holds (pat : t_pack_patterns) (ev : DequeuedPair) : Bool :=
  (ev.2.getD (pat.block ev.1.1).block_id none).isSome
  && ev.2.getD (pat.block ev.1.1).block_id none == ev.1.2

/-- The slot of the dequeued pair is not optional. -/
def slot_mandatory (pat : t_pack_patterns) (ev : DequeuedPair) : Bool :=
  !(pat.is_block_optional.getD (pat.block ev.1.1).block_id false)

/-- What the log of a run of the matching loop that starts with the slot array `ids` and
ends with the verdict `v` and the slot array `ids2` satisfies: the log starts at `ids`;
from each dequeued pair to the next (or to the end) the slot array is kept, or the atom of
the pair is bound to its empty slot under the binding conditions; and the verdict is false
iff some dequeued pair whose slot does not already hold its atom fails the binding
conditions on a slot that is not optional. -/
def log_explains (ext : Externals) (pat : t_pack_patterns)
    (atom_molecules : List (AtomBlockId × PackMoleculeId)) (ids : List (Option AtomBlockId))
    (v : Bool) (ids2 : List (Option AtomBlockId)) (log : List DequeuedPair) : Prop :=
  (log.map Prod.snd ++ [ids2]).head? = some ids
  ∧ (∀ p ∈ List.zip log (log.map Prod.snd ++ [ids2]).tail,
      p.2 = p.1.2
      ∨ (binding_conditions ext pat atom_molecules p.1 = true
        ∧ ∃ blk, p.1.1.2 = some blk
          ∧ p.2 = p.1.2.set (pat.block p.1.1.1).block_id (some blk)))
  ∧ (v = false ↔ ∃ ev ∈ log, already_holds pat ev = false
      ∧ binding_conditions ext pat atom_molecules ev = false ∧ slot_mandatory pat ev = true)

/-- A block (node 0) whose input pin 0 and output pin 1 are joined in a ring: the unlabelled
edge 0 goes from pin 0 to pin 1 and the unlabelled edge 1 goes back from pin 1 to pin 0, each
the only output edge and the only input edge of its pins. -/
def ring_arch : Arch where
  pb_types := [ { num_pb := 1, modes := [0], parent_mode := none, blif_model := none } ]
  modes := [ { disable_packing := false, pb_type_children := [] } ]
  nodes :=
    [ { pb_type := 0, input_pins := [[0]], output_pins := [[1]], clock_pins := [],
        child_pb_graph_nodes := [[]], temp_scratch_pad := none } ]
  pins :=
    [ mk_pin 0 90 false 0 0 [1] [0],
      mk_pin 0 91 false 0 0 [0] [1] ]
  edges :=
    [ mk_edge [0] [1] [],
      mk_edge [1] [0] [] ]

/-- Chain-id well-formedness of a prepacker state: a molecule has a valid chain id exactly
when it is a forced-pack molecule of a chain pattern, every valid chain id is smaller than
the number of chain records, and every chain record is referenced by some molecule. -/
def chain_ids_ok (s : Prepacker) : Prop :=
  (∀ m ∈ s.pack_molecules_,
    (m.chain_id.isSome = true ↔
      (m.type = .MOLECULE_FORCED_PACK
        ∧ ∃ p, m.pack_pattern = some p ∧ (s.list_of_pack_patterns.getD p default).is_chain = true)))
  ∧ (∀ m ∈ s.pack_molecules_, ∀ c, m.chain_id = some c → c < s.chain_info_.length)
  ∧ (∀ c, c < s.chain_info_.length → ∃ m ∈ s.pack_molecules_, m.chain_id = some c)

/-- No chain record is lost and no `is_long_chain` that is true in `s` is false in `s1`. -/
def long_chains_kept (s s1 : Prepacker) : Prop :=
  s.chain_info_.length ≤ s1.chain_info_.length
  ∧ ∀ c, c < s.chain_info_.length → (s.chain_info_.getD c default).is_long_chain = true →
      (s1.chain_info_.getD c default).is_long_chain = true

/-- A cluster (node 0) with two LUTs (nodes 1 and 2, model 0): the cluster input (pin 0)
feeds LUT 0 (pins 1 `in`, 2 `out`), which feeds LUT 1 (pins 3 `in`, 4 `out`), which feeds
the cluster output (pin 5).  Only the edge between the two LUTs carries the pattern
label 7. -/
def lut_pair_arch : Arch where
  pb_types :=
    [ { num_pb := 1, modes := [0], parent_mode := none, blif_model := none },
      { num_pb := 2, modes := [], parent_mode := some 0, blif_model := some 0 } ]
  modes := [ { disable_packing := false, pb_type_children := [1] } ]
  nodes :=
    [ { pb_type := 0, input_pins := [[0]], output_pins := [[5]], clock_pins := [],
        child_pb_graph_nodes := [[[1, 2]]], temp_scratch_pad := none },
      { pb_type := 1, input_pins := [[1]], output_pins := [[2]], clock_pins := [],
        child_pb_graph_nodes := [], temp_scratch_pad := none },
      { pb_type := 1, input_pins := [[3]], output_pins := [[4]], clock_pins := [],
        child_pb_graph_nodes := [], temp_scratch_pad := none } ]
  pins :=
    [ mk_pin 0 90 false 0 0 [] [0],
      mk_pin 1 0 false 1 0 [0] [],
      mk_pin 1 1 false 1 0 [] [1],
      mk_pin 2 0 false 1 0 [1] [],
      mk_pin 2 1 false 1 0 [] [2],
      mk_pin 0 91 false 0 0 [2] [] ]
  edges :=
    [ mk_edge [0] [1] [],
      mk_edge [2] [3] [7],
      mk_edge [4] [5] [] ]

/-- One LUT (block 0) whose output drives its own input, on a net with that single
sink. -/
def feedback_lut_netlist : NetlistData where
  blocks := [ { model := 0, type := .BLOCK, ports := [0, 1] } ]
  nets :=
    [ { driver := some { blk := 0, port := 1, bit := 0 },
        sinks := [ { blk := 0, port := 0, bit := 0 } ] } ]

/-- The carry chain of `two_entry_chain_arch` (cluster inputs 0 and 6, adder 0 with pins 1
`cin` and 2 `cout`, adder 1 with pins 3 `cin` and 4 `cout`, cluster output 5) with a
feedback path: adder 1 has a second output (pin 7) that drives a second input of adder 0
(pin 8).  All five edges carry the pattern label 9. -/
def feedback_chain_arch : Arch where
  pb_types :=
    [ { num_pb := 1, modes := [0], parent_mode := none, blif_model := none },
      { num_pb := 2, modes := [], parent_mode := some 0, blif_model := some 0 } ]
  modes := [ { disable_packing := false, pb_type_children := [1] } ]
  nodes :=
    [ { pb_type := 0, input_pins := [[0, 6]], output_pins := [[5]], clock_pins := [],
        child_pb_graph_nodes := [[[1, 2]]], temp_scratch_pad := none },
      { pb_type := 1, input_pins := [[1], [8]], output_pins := [[2]], clock_pins := [],
        child_pb_graph_nodes := [], temp_scratch_pad := none },
      { pb_type := 1, input_pins := [[3]], output_pins := [[4], [7]], clock_pins := [],
        child_pb_graph_nodes := [], temp_scratch_pad := none } ]
  pins :=
    [ mk_pin 0 90 false 0 0 [] [0],
      mk_pin 1 0 false 1 0 [0] [],
      mk_pin 1 1 false 1 0 [] [1],
      mk_pin 2 0 false 1 0 [1, 3] [],
      mk_pin 2 1 false 1 0 [] [2],
      mk_pin 0 91 false 0 0 [2] [],
      mk_pin 0 90 false 0 1 [] [3],
      mk_pin 2 2 false 1 0 [] [4],
      mk_pin 1 3 false 1 0 [4] [] ]
  edges :=
    [ mk_edge [0] [1] [9],
      mk_edge [2] [3] [9],
      mk_edge [4] [5] [9],
      mk_edge [6] [3] [9],
      mk_edge [7] [8] [9] ]

/-- The template of `feedback_chain_arch` as the pattern builder leaves it (discovery,
then expansion from the expansion edge of pattern 0). -/
def feedback_chain_built : Arch :=
  match built_from_expansion_edge feedback_chain_arch with
  | .ok built => built.2.arch
  | .error _ => feedback_chain_arch

/-- The pins of `feedback_chain_arch` from which the search comes back to the feedback ring
2, 3, 7, 8. -/
def feedback_ring : List Nat := [0, 1, 2, 3, 7, 8]

/-- Well-formedness of a pattern graph for the matcher: every block has its address in the
block list as slot id, and every connection of a block joins two blocks of the list. -/
def pattern_graph_ok (pat : t_pack_patterns) : Prop :=
  (∀ b, b < pat.blocks.length → (pat.block b).block_id = b)
  ∧ (∀ b, b < pat.blocks.length → ∀ c ∈ (pat.block b).connections,
      c.from_block < pat.blocks.length ∧ c.to_block < pat.blocks.length)

/-- The sum of the connection-list lengths of all slots of a pattern. -/
def connection_total (pat : t_pack_patterns) : Nat :=
  (pat.blocks.map (fun (b : t_pack_pattern_block) => b.connections.length)).sum

/-- The sum of the connection-list lengths of the slots that are still empty. -/
def open_connections (pat : t_pack_patterns) (ids : List (Option AtomBlockId)) : Nat :=
  ((List.range pat.blocks.length).map
    (fun b => if (ids.getD b none).isNone then (pat.block b).connections.length else 0)).sum

/-- Two adders with the feedback of `feedback_chain_arch`: the carry output of A0 (block 0)
drives the carry input of A1 (block 1), and the second output of A1 drives the second input
of A0, each on a net with that single sink. -/
def ring_netlist : NetlistData where
  blocks :=
    [ { model := 0, type := .BLOCK, ports := [0, 1, 2, 3] },
      { model := 0, type := .BLOCK, ports := [0, 1, 2, 3] } ]
  nets :=
    [ { driver := some { blk := 0, port := 1, bit := 0 },
        sinks := [ { blk := 1, port := 0, bit := 0 } ] },
      { driver := some { blk := 1, port := 2, bit := 0 },
        sinks := [ { blk := 0, port := 3, bit := 0 } ] } ]

/-- The pattern the builder makes of `feedback_chain_arch`: two adder slots joined by the
connection from slot 0 to slot 1 and by the connection from slot 1 back to slot 0, each
recorded in the lists of both slots. -/
def feedback_chain_pattern : t_pack_patterns :=
  { name := some 9
    index := 0
    root_block := some 0
    num_blocks := 2
    is_block_optional := [false, true]
    is_chain := true
    chain_root_pins := [[1]]
    base_cost := 6
    blocks :=
      [ { pb_type := 1, block_id := 0, pattern_index := 0,
          connections := [ { from_block := 1, from_pin := 7, to_block := 0, to_pin := 8 },
                           { from_block := 0, from_pin := 2, to_block := 1, to_pin := 3 } ] },
        { pb_type := 1, block_id := 1, pattern_index := 0,
          connections := [ { from_block := 1, from_pin := 7, to_block := 0, to_pin := 8 },
                           { from_block := 0, from_pin := 2, to_block := 1, to_pin := 3 } ] } ] }

/-- The atoms loop `match_pattern_on_atoms` with a counter: the same loop, returning in
addition how many times a position was examined again (`--blk_iter`). -/
def match_pattern_on_atoms_counted (arch : Arch) (ext : Externals) (nl : AtomNetlist)
    (best_pattern : Nat) :
    Nat → List AtomBlockId → Prepacker → Except PrepackError (Prepacker × Nat)
  | 0, [], s => pure (s, 0)
  | 0, _ :: _, _ => throw .out_of_fuel
  | _ + 1, [], s => pure (s, 0)
  | fuel + 1, blk_id :: rest, s => do
    let r ← try_create_molecule arch ext nl fuel best_pattern blk_id s
    match r.2 with
    | none => match_pattern_on_atoms_counted arch ext nl best_pattern fuel rest r.1
    | some cur_molecule_id =>
      let s1 := set_base_gain r.1 cur_molecule_id
      let again := fun (r : Prepacker × Nat) => (r.1, r.2 + 1)
      match last_inserted s1.atom_molecules_multimap blk_id with
      | none =>
        (match_pattern_on_atoms_counted arch ext nl best_pattern fuel (blk_id :: rest) s1).map
          again
      | some last =>
        if last == cur_molecule_id then
          match_pattern_on_atoms_counted arch ext nl best_pattern fuel rest s1
        else
          (match_pattern_on_atoms_counted arch ext nl best_pattern fuel (blk_id :: rest)
            s1).map again

/-- The number of atoms of the netlist that are in no committed molecule. -/
def uncommitted_atoms (nl : AtomNetlist) (s : Prepacker) : Nat :=
  nl.blocks.countP (fun b => !atom_in_map s.atom_molecules_multimap b)

/-- The root slot of the pattern is a slot of its molecules and is not optional. -/
def root_slot_mandatory (pat : t_pack_patterns) : Prop :=
  ∀ rb, pat.root_block = some rb →
    (pat.block rb).block_id < pat.num_blocks
    ∧ pat.is_block_optional.getD (pat.block rb).block_id false = false

/-- The run does not stop for lack of fuel. -/
def has_fuel {α : Type} (x : Except PrepackError α) : Prop :=
  match x with
  | .error .out_of_fuel => False
  | _ => True

/-- Two adders in a ring: the carry output of A0 (block 0) drives the carry input of A1
(block 1) and the carry output of A1 drives the carry input of A0, each on a net with that
single sink. -/
def carry_ring_netlist : NetlistData where
  blocks :=
    [ { model := 0, type := .BLOCK, ports := [0, 1] },
      { model := 0, type := .BLOCK, ports := [0, 1] } ]
  nets :=
    [ { driver := some { blk := 0, port := 1, bit := 0 },
        sinks := [ { blk := 1, port := 0, bit := 0 } ] },
      { driver := some { blk := 1, port := 1, bit := 0 },
        sinks := [ { blk := 0, port := 0, bit := 0 } ] } ]

/-- Three adders listed from the end of their carry chain: the carry output of A2
(block 2) drives the carry input of A1 (block 1) and the carry output of A1 drives the carry
input of A0 (block 0), each on a net with that single sink. -/
def reversed_chain_netlist : NetlistData where
  blocks :=
    [ { model := 0, type := .BLOCK, ports := [0, 1] },
      { model := 0, type := .BLOCK, ports := [0, 1] },
      { model := 0, type := .BLOCK, ports := [0, 1] } ]
  nets :=
    [ { driver := some { blk := 2, port := 1, bit := 0 },
        sinks := [ { blk := 1, port := 0, bit := 0 } ] },
      { driver := some { blk := 1, port := 1, bit := 0 },
        sinks := [ { blk := 0, port := 0, bit := 0 } ] } ]

/-- The cross-references of the template are consistent: the output edges of a pin are
edges of the arena, every edge is an output edge of each of its input pins, and every pin is
an output pin of each of its input edges. -/
def refs_ok (a : Arch) : Prop :=
  (∀ p e, e ∈ (a.pin p).output_edges → e < a.edges.length)
  ∧ (∀ e q, q ∈ (a.edge e).input_pins → e ∈ (a.pin q).output_edges)
  ∧ (∀ q e, e ∈ (a.pin q).input_edges → q ∈ (a.edge e).output_pins)

/-- Between `a` and `a2` only scratch fields differ, no edge is added and no
`infer_pattern` flag is cleared. -/
def marks_kept (a a2 : Arch) : Prop :=
  same_template a a2 ∧ a2.edges.length = a.edges.length
  ∧ ∀ e, (a.edge e).infer_pattern = true → (a2.edge e).infer_pattern = true

/-- The marks are closed under single-fanout succession: when a marked edge has one output
pin, that pin has one output edge and this edge is unlabelled, then this edge is marked. -/
def forward_closed (a : Arch) : Prop :=
  ∀ e c e2, (a.edge e).infer_pattern = true → (a.edge e).output_pins = [c] →
    (a.pin c).output_edges = [e2] → (a.edge e2).pack_pattern_names = [] →
    (a.edge e2).infer_pattern = true

/-- The same with a pin excepted: the marked edges whose only output pin is `p` need not
have their successor marked yet. -/
def forward_closed_but (a : Arch) (p : Nat) : Prop :=
  ∀ e c e2, (a.edge e).infer_pattern = true → (a.edge e).output_pins = [c] →
    (a.pin c).output_edges = [e2] → (a.edge e2).pack_pattern_names = [] →
    (a.edge e2).infer_pattern = true ∨ c = p

/-- The sole output edge of the pin, when there is one and it is unlabelled, is marked. -/
def pin_started (a : Arch) (p : Nat) : Prop :=
  ∀ e1, (a.pin p).output_edges = [e1] → (a.edge e1).pack_pattern_names = [] →
    (a.edge e1).infer_pattern = true

/-- Forward inference has been done from every output pin of the edge. -/
def forward_started (a : Arch) (e : Nat) : Prop :=
  ∀ p ∈ (a.edge e).output_pins, pin_started a p

/-- A path of edges leaving pin `p` on which every pin has exactly one output edge, every
edge is unlabelled and every edge but the last has exactly one output pin. -/
def single_fanout_path (a : Arch) : Nat → List Nat → Prop
  | _, [] => True
  | p, e :: rest =>
    (a.pin p).output_edges = [e] ∧ (a.edge e).pack_pattern_names = []
    ∧ (rest = [] ∨ ∃ p2, (a.edge e).output_pins = [p2] ∧ single_fanout_path a p2 rest)

/-- Going from template `a` to `a2` keeps the marks and, on a template with consistent
cross-references, keeps closed marks closed and leaves forward inference done from every
labelled edge of `es`. -/
def inference_done (a a2 : Arch) (es : List Nat) : Prop :=
  marks_kept a a2
  ∧ (refs_ok a → forward_closed a →
      forward_closed a2
      ∧ ∀ e ∈ es, (a.edge e).pack_pattern_names ≠ [] → forward_started a2 e)

/-- The check of the cross-references over the arenas of the template. -/
def refs_check (a : Arch) : Bool :=
  (List.range a.pins.length).all (fun p =>
    (a.pin p).output_edges.all (fun e => decide (e < a.edges.length))
    && (a.pin p).input_edges.all (fun e => (a.edge e).output_pins.contains p))
  && (List.range a.edges.length).all (fun e =>
    (a.edge e).input_pins.all (fun q => (a.pin q).output_edges.contains e))

/-- A cluster (node 0) with two wrapper blocks, listed as B (node 1) then A (node 2), each
holding one primitive (node 3 in B, node 4 in A).  The output of the primitive of A (pin 0)
drives the output of A (pin 1) by an edge labelled 7; an unlabelled edge goes from there to
the relay pin (pin 2) of the cluster, a second unlabelled edge from the relay pin to the
input of B (pin 3), and an edge labelled 7 from there to the input of the primitive of B
(pin 4). -/
def relay_arch : Arch where
  pb_types :=
    [ { num_pb := 1, modes := [0], parent_mode := none, blif_model := none },
      { num_pb := 1, modes := [1], parent_mode := some 0, blif_model := none },
      { num_pb := 1, modes := [2], parent_mode := some 0, blif_model := none },
      { num_pb := 1, modes := [], parent_mode := some 1, blif_model := some 0 },
      { num_pb := 1, modes := [], parent_mode := some 2, blif_model := some 0 } ]
  modes :=
    [ { disable_packing := false, pb_type_children := [1, 2] },
      { disable_packing := false, pb_type_children := [3] },
      { disable_packing := false, pb_type_children := [4] } ]
  nodes :=
    [ { pb_type := 0, input_pins := [], output_pins := [], clock_pins := [],
        child_pb_graph_nodes := [[[1], [2]]], temp_scratch_pad := none },
      { pb_type := 1, input_pins := [[3]], output_pins := [], clock_pins := [],
        child_pb_graph_nodes := [[[3]]], temp_scratch_pad := none },
      { pb_type := 2, input_pins := [], output_pins := [[1], [2]], clock_pins := [],
        child_pb_graph_nodes := [[[4]]], temp_scratch_pad := none },
      { pb_type := 3, input_pins := [[4]], output_pins := [], clock_pins := [],
        child_pb_graph_nodes := [], temp_scratch_pad := none },
      { pb_type := 4, input_pins := [], output_pins := [[0]], clock_pins := [],
        child_pb_graph_nodes := [], temp_scratch_pad := none } ]
  pins :=
    [ mk_pin 4 1 false 4 0 [] [0],
      mk_pin 2 91 false 2 0 [0] [1],
      mk_pin 2 92 false 2 0 [1] [2],
      mk_pin 1 90 false 1 0 [2] [3],
      mk_pin 3 0 false 3 0 [3] [] ]
  edges :=
    [ mk_edge [0] [1] [7],
      mk_edge [1] [2] [],
      mk_edge [2] [3] [],
      mk_edge [3] [4] [7] ]

/-- The recording of a connection in the lists of both its ends (lines 718-733). -/
def connect_blocks (pat : t_pack_patterns) (c : t_pack_pattern_connections) : t_pack_patterns :=
  add_connection (add_connection pat c.from_block c) c.to_block c

/-- The three kinds of write the expansion of a pattern makes: the allocation of a slot for
a node of the arena that has none in this pattern; a write to fields of the pattern other
than its index, its blocks and its cost; and the recording of a connection, in the lists of
both its ends, between the slot of a node and another slot of a node of this pattern. -/
inductive build_step (ext : Externals) : BuildState → List Nat → BuildState → Prop
  | alloc (st : BuildState) (n : Nat)
      (hnew : has_block_of_pattern (st.arch.node n) st.packing_pattern.index = false)
      (hn : n < st.arch.nodes.length) :
      build_step ext st [n] (alloc_pattern_block ext st n).1
  | head (st : BuildState) (pat : t_pack_patterns)
      (hi : pat.index = st.packing_pattern.index)
      (hb : pat.blocks = st.packing_pattern.blocks)
      (hc : pat.base_cost = st.packing_pattern.base_cost) :
      build_step ext st [] { st with packing_pattern := pat }
  | connect (st : BuildState) (n N : Nat) (sp : Nat × Nat) (dst pin dpin : Nat)
      (hsrc : (st.arch.node n).temp_scratch_pad = some sp)
      (hidx : sp.1 = st.packing_pattern.index)
      (hdst : (st.arch.node N).temp_scratch_pad = some (st.packing_pattern.index, dst))
      (hne : sp.2 ≠ dst) :
      build_step ext st []
        { st with packing_pattern := connect_blocks st.packing_pattern ⟨sp.2, pin, dst, dpin⟩ }

/-- A sequence of writes of the expansion, with the nodes that got a slot, in the order of
the allocations. -/
inductive builds_log (ext : Externals) : BuildState → List Nat → BuildState → Prop
  | refl (st : BuildState) : builds_log ext st [] st
  | tail {st s1 s2 : BuildState} {l l1 : List Nat} (h : builds_log ext st l s1)
      (hstep : build_step ext s1 l1 s2) : builds_log ext st (l ++ l1) s2

/-- The second state is reached from the first one by writes of the expansion. -/
def builds (ext : Externals) (st st2 : BuildState) : Prop :=
  ∃ created, builds_log ext st created st2

/-- What no write of the expansion changes: the index of the pattern, the pins, edges,
block types and modes of the template, the number of nodes, everything of a node but its
scratch pad, and the scratch pads that point to a slot of this pattern. -/
def build_frame (st st2 : BuildState) : Prop :=
  st2.packing_pattern.index = st.packing_pattern.index
  ∧ st2.arch.pins = st.arch.pins ∧ st2.arch.edges = st.arch.edges
  ∧ st2.arch.pb_types = st.arch.pb_types ∧ st2.arch.modes = st.arch.modes
  ∧ st2.arch.nodes.length = st.arch.nodes.length
  ∧ (∀ n, (st2.arch.node n).pb_type = (st.arch.node n).pb_type
      ∧ (st2.arch.node n).input_pins = (st.arch.node n).input_pins
      ∧ (st2.arch.node n).output_pins = (st.arch.node n).output_pins
      ∧ (st2.arch.node n).clock_pins = (st.arch.node n).clock_pins)
  ∧ (∀ n a, (st.arch.node n).temp_scratch_pad = some (st.packing_pattern.index, a) →
      (st2.arch.node n).temp_scratch_pad = some (st.packing_pattern.index, a))

/-- Every pin has its parent node in the arena of nodes. -/
def parents_ok (a : Arch) : Prop := ∀ pin, (a.pin pin).parent_node < a.nodes.length

/-- Address `d` is the slot of some node in the pattern being built. -/
def slot_of_pattern (st : BuildState) (d : Nat) : Prop :=
  ∃ N, (st.arch.node N).temp_scratch_pad = some (st.packing_pattern.index, d)

/-- The slots of the pattern under construction are those of the nodes `created`, in this
order: no node occurs twice; there are as many blocks on the heap, and the counter
`*L_num_blocks` has this value; the scratch pad of the `k`-th node points to block `k` of
this pattern, which has id `k`, the type of the node and the index of the pattern; and no
other node points to a block of this pattern. -/
def slots_ok (st : BuildState) (created : List Nat) : Prop :=
  created.Nodup
  ∧ st.packing_pattern.blocks.length = created.length
  ∧ st.L_num_blocks = created.length
  ∧ (∀ k n, created[k]? = some n →
      (st.arch.node n).temp_scratch_pad = some (st.packing_pattern.index, k)
      ∧ (st.packing_pattern.block k).block_id = k
      ∧ (st.packing_pattern.block k).pb_type = (st.arch.node n).pb_type
      ∧ (st.packing_pattern.block k).pattern_index = st.packing_pattern.index)
  ∧ (∀ n a, (st.arch.node n).temp_scratch_pad = some (st.packing_pattern.index, a) →
      created[a]? = some n)

/-- The base cost of the pattern under construction is the sum of the costs of the nodes
`created`, added in this order starting from 0. -/
def cost_ok (ext : Externals) (st : BuildState) (created : List Nat) : Prop :=
  st.packing_pattern.base_cost
    = created.foldl (fun acc n => acc + ext.compute_primitive_base_cost n) 0

/-- The check of `parents_ok` on the arena of pins. -/
def parents_check (a : Arch) : Bool :=
  decide (0 < a.nodes.length) && a.pins.all (fun p => decide (p.parent_node < a.nodes.length))

/-- The state in which the builder starts on pattern 0 of a template of the worked examples:
the template after discovery, the empty pattern of index 0, no block counted. -/
def expansion_start (a : Arch) : BuildState :=
  { arch := (discovery_of a).1
    packing_pattern := (alloc_and_init_pattern_list_from_hash (discovery_of a).2).getD 0 default
    L_num_blocks := 0 }

/-- The state in which the backward expansion from edge `e` leaves `expansion_start a`, or
that state itself when the expansion fails. -/
def expansion_result (ext : Externals) (a : Arch) (e : Nat) : BuildState :=
  match backward_expand_pack_pattern_from_edge ext 50 e (expansion_start a) none none with
  | .ok st => st
  | .error _ => expansion_start a

/-- Template `a2` has the pins and the nodes of `arch`, up to the scratch pads of the nodes,
which are all null in `a2`. -/
def nodes_clear (arch a2 : Arch) : Prop :=
  a2.pins = arch.pins ∧ a2.nodes.length = arch.nodes.length
  ∧ (∀ n, (a2.node n).pb_type = (arch.node n).pb_type)
  ∧ ∀ n, (a2.node n).temp_scratch_pad = none

/-- The pattern holds what an expansion built: there is a run of writes of the expansion,
started on a pattern without blocks, with cost 0, in a template without a slot of this
pattern, which allocated slots for the nodes `created`, in this order, and left the blocks,
the base cost and the block counter that the pattern has; the nodes have the types they
have in `arch`. -/
def built_by_expansion (ext : Externals) (arch : Arch) (pat : t_pack_patterns)
    (created : List Nat) : Prop :=
  ∃ st st2, slots_ok st [] ∧ cost_ok ext st [] ∧ builds_log ext st created st2
    ∧ (∀ n, (st2.arch.node n).pb_type = (arch.node n).pb_type)
    ∧ pat.blocks = st2.packing_pattern.blocks
    ∧ pat.base_cost = st2.packing_pattern.base_cost
    ∧ pat.num_blocks = st2.L_num_blocks

/-- The state of the library before pattern `i` is built: the parent nodes of the pins are
in the arena, the nodes have the types they have in `arch`, the scratch pads point to blocks
of the patterns below `i` only, the patterns from `i` on have their index and no block, and
every pattern holds what an expansion built. -/
def library_ok (ext : Externals) (arch : Arch) (i : Nat)
    (acc : Arch × List t_pack_patterns) : Prop :=
  parents_ok acc.1
  ∧ (∀ n, (acc.1.node n).pb_type = (arch.node n).pb_type)
  ∧ (∀ n j a, (acc.1.node n).temp_scratch_pad = some (j, a) → j < i)
  ∧ (∀ j, i ≤ j → j < acc.2.length →
      (acc.2.getD j default).index = j ∧ (acc.2.getD j default).blocks = [])
  ∧ ∀ pat ∈ acc.2, ∃ created, built_by_expansion ext arch pat created

/-- The library of patterns that `alloc_and_load_pack_patterns` builds for a template of the
worked examples, with the template as it leaves it, or the template and no pattern when the
library is not built. -/
def loaded_library (a : Arch) : Arch × List t_pack_patterns :=
  match alloc_and_load_pack_patterns (example_ext a chain_netlist) 50 a cluster_type with
  | .ok lib => lib
  | .error _ => (a, [])

/-- Template `b` is template `a` up to the scratch pads of the nodes: same pins, edges and
block types, and the same type and pin lists in every node. -/
def same_graph (a b : Arch) : Prop :=
  b.pins = a.pins ∧ b.edges = a.edges ∧ b.pb_types = a.pb_types
  ∧ ∀ n, (b.node n).pb_type = (a.node n).pb_type
      ∧ (b.node n).input_pins = (a.node n).input_pins
      ∧ (b.node n).output_pins = (a.node n).output_pins
      ∧ (b.node n).clock_pins = (a.node n).clock_pins

/-- Node `n` holds a slot of pattern `idx`: its scratch pad points to a block of that
pattern. -/
def slot_held (a : Arch) (idx n : Nat) : Prop :=
  ∃ k, (a.node n).temp_scratch_pad = some (idx, k)

/-- The primitives that a forward expansion from edge `e` reaches before it meets another
primitive: the edge is in the pattern (inferred or annotated) and either one of its output
pins is a pin of the primitive, or one of its output pins is a pin of a block that is no
primitive and the expansion goes on along an output edge of that pin (lines 513-614). -/
inductive forward_reaches (a : Arch) (idx : Nat) : Nat → Nat → Prop
  | primitive (e pin : Nat) (hin : edge_in_pattern (a.edge e) idx = true)
      (hpin : pin ∈ (a.edge e).output_pins) (hprim : a.is_primitive_pin pin = true) :
      forward_reaches a idx e (a.pin pin).parent_node
  | through (e pin e2 n : Nat) (hin : edge_in_pattern (a.edge e) idx = true)
      (hpin : pin ∈ (a.edge e).output_pins) (hprim : a.is_primitive_pin pin = false)
      (he2 : e2 ∈ (a.pin pin).output_edges) (h : forward_reaches a idx e2 n) :
      forward_reaches a idx e n

/-- The primitives that a backward expansion from edge `e` reaches before it meets another
primitive: the edge is in the pattern and either one of its input pins is a pin of the
primitive, or one of its input pins is a pin of a block that is no primitive and the
expansion goes on along an input edge of that pin, or that pin has no input edge and
belongs to a root block, where the expansion turns forward along `e` (lines 653-787). -/
inductive backward_reaches (a : Arch) (idx : Nat) : Nat → Nat → Prop
  | primitive (e pin : Nat) (hin : edge_in_pattern (a.edge e) idx = true)
      (hpin : pin ∈ (a.edge e).input_pins) (hprim : a.is_primitive_pin pin = true) :
      backward_reaches a idx e (a.pin pin).parent_node
  | root (e pin n : Nat) (hin : edge_in_pattern (a.edge e) idx = true)
      (hpin : pin ∈ (a.edge e).input_pins) (hprim : a.is_primitive_pin pin = false)
      (hnone : (a.pin pin).input_edges.length = 0)
      (hroot : (a.pb_type (a.node (a.pin pin).parent_node).pb_type).is_root = true)
      (h : forward_reaches a idx e n) : backward_reaches a idx e n
  | through (e pin e2 n : Nat) (hin : edge_in_pattern (a.edge e) idx = true)
      (hpin : pin ∈ (a.edge e).input_pins) (hprim : a.is_primitive_pin pin = false)
      (he2 : e2 ∈ (a.pin pin).input_edges) (h : backward_reaches a idx e2 n) :
      backward_reaches a idx e n

/-- The primitives reached from primitive `n` when it gets its slot: those reached backward
from the input edges of its input pins, forward from the output edges of its output pins and
backward from the input edges of its clock pins (lines 537-569 and 677-713). -/
def explores (a : Arch) (idx n m : Nat) : Prop :=
  (∃ ep ∈ input_edges_of a (a.node n).input_pins, backward_reaches a idx ep.1 m)
  ∨ (∃ e ∈ output_edges_of a (a.node n).output_pins, forward_reaches a idx e m)
  ∨ (∃ ep ∈ input_edges_of a (a.node n).clock_pins, backward_reaches a idx ep.1 m)

/-- The primitives reached by an expansion: those of `seed`, which the call reaches from its
edge, and those reached from a reached primitive. -/
inductive expansion_reaches (a : Arch) (idx : Nat) (seed : Nat → Prop) : Nat → Prop
  | seed (n : Nat) (h : seed n) : expansion_reaches a idx seed n
  | step (n m : Nat) (h : expansion_reaches a idx seed n) (hm : explores a idx n m) :
      expansion_reaches a idx seed m

/-- The conditions under which a call of an expansion runs in state `s`, with respect to
the template `a` and the pattern index `idx` of the outermost call: the template is `a` up
to the scratch pads, the pattern has index `idx`, the parent nodes of the pins are in the
arena, and the destination block, if any, is the slot of a node. -/
def run_pre (a : Arch) (idx : Nat) (db : Option Nat) (s : BuildState) : Prop :=
  same_graph a s.arch ∧ s.packing_pattern.index = idx ∧ parents_ok s.arch
  ∧ ∀ d, db = some d → slot_of_pattern s d

/-- What a part of an expansion does between the states `s` and `s2`: it makes a sequence of
writes that allocates slots for the nodes `l`; afterwards every node of `tgt` holds a slot,
everything reached from a node of `l` holds a slot, and the nodes of `l` are in `root`. -/
def expansion_run (ext : Externals) (a : Arch) (idx : Nat) (root : Nat → Prop)
    (s s2 : BuildState) (l : List Nat) (tgt : Nat → Prop) : Prop :=
  s.packing_pattern.index = idx ∧ builds_log ext s l s2
  ∧ (∀ n, tgt n → slot_held s2.arch idx n)
  ∧ (∀ n ∈ l, ∀ m, explores a idx n m → slot_held s2.arch idx m)
  ∧ (∀ n ∈ l, root n)

/-- Three adders at the block ids `a0`, `a1`, `a2` (a permutation of 0, 1, 2): the carry
output of `a0` drives the carry input of `a1` and the carry output of `a1` drives the carry
input of `a2`, each on a net with that single sink. -/
def chain_netlist_at (a0 a1 a2 : Nat) : NetlistData where
  blocks :=
    [ { model := 0, type := .BLOCK, ports := [0, 1] },
      { model := 0, type := .BLOCK, ports := [0, 1] },
      { model := 0, type := .BLOCK, ports := [0, 1] } ]
  nets :=
    [ { driver := some { blk := a0, port := 1, bit := 0 },
        sinks := [ { blk := a1, port := 0, bit := 0 } ] },
      { driver := some { blk := a1, port := 1, bit := 0 },
        sinks := [ { blk := a2, port := 0, bit := 0 } ] } ]

/-- The six ways of giving the block ids 0, 1, 2 to the atoms A0, A1, A2 of the chain. -/
def chain_orders : List (Nat × Nat × Nat) :=
  [(0, 1, 2), (0, 2, 1), (1, 0, 2), (1, 2, 0), (2, 0, 1), (2, 1, 0)]

/-- The prepacker after the first commit of the atoms loop: the library of `chain_arch`,
then `try_create_molecule` for the chain pattern at the first atom of the netlist. -/
def after_first_commit (d : NetlistData) : Except PrepackError Prepacker := do
  let lib ← alloc_and_load_pack_patterns (example_ext chain_arch d) 50 chain_arch cluster_type
  let r ← try_create_molecule lib.1 (example_ext chain_arch d) d.toNetlist 50 0 0
    (Prepacker.initial lib.2 d.blocks.length)
  pure r.1

/-! # Theorems -/

/-! ## Auxiliary lemmas -/

/-- An atom is absent from the multimap iff no entry has it as key. -/
theorem atom_in_map_false_iff (amap : List (AtomBlockId × PackMoleculeId)) (a : AtomBlockId) :
    atom_in_map amap a = false ↔ ∀ m, (a, m) ∉ amap := by
  unfold atom_in_map
  rw [List.any_eq_false]
  constructor
  · intro h m hm
    have := h (a, m) hm
    simp at this
  · intro h e he
    simp only [beq_iff_eq]
    intro heq
    exact h e.2 (by rw [← heq]; exact he)

/-- An atom is present in the multimap iff some entry has it as key. -/
theorem atom_in_map_true_iff (amap : List (AtomBlockId × PackMoleculeId)) (a : AtomBlockId) :
    atom_in_map amap a = true ↔ ∃ m, (a, m) ∈ amap := by
  unfold atom_in_map
  rw [List.any_eq_true]
  constructor
  · rintro ⟨e, he, heq⟩
    simp only [beq_iff_eq] at heq
    exact ⟨e.2, by rw [← heq]; exact he⟩
  · rintro ⟨m, hm⟩
    exact ⟨(a, m), hm, by simp⟩

/-- Committing a molecule whose atoms are all absent from the map, together with
exactly the entries linking its atoms to the new id, keeps molecules and map linked. -/
theorem consistent_push (mols : List t_pack_molecule) (amap : List (AtomBlockId × PackMoleculeId))
    (mol : t_pack_molecule) (entries : List (AtomBlockId × PackMoleculeId))
    (hc : consistent mols amap)
    (hfresh : ∀ b, some b ∈ mol.atom_block_ids → atom_in_map amap b = false)
    (hsound : ∀ e ∈ entries, e.2 = mols.length ∧ some e.1 ∈ mol.atom_block_ids)
    (hcomplete : ∀ b, some b ∈ mol.atom_block_ids → (b, mols.length) ∈ entries) :
    consistent (mols ++ [mol]) (amap ++ entries) := by
  obtain ⟨h1, h2, h3⟩ := hc
  refine ⟨?_, ?_, ?_⟩
  · intro a m hm
    rcases List.mem_append.mp hm with hm | hm
    · obtain ⟨hlt, hin⟩ := h1 a m hm
      refine ⟨by rw [List.length_append]; exact Nat.lt_add_right _ hlt, ?_⟩
      rw [List.getD_append _ _ _ _ hlt]
      exact hin
    · obtain ⟨he, hin⟩ := hsound _ hm
      simp only at he hin
      subst he
      refine ⟨by simp, ?_⟩
      rw [List.getD_append_right _ _ _ _ (le_refl _)]
      simpa using hin
  · intro m a hlt hin
    simp only [List.length_append, List.length_singleton] at hlt
    by_cases hm : m < mols.length
    · rw [List.getD_append _ _ _ _ hm] at hin
      exact List.mem_append_left _ (h2 m a hm hin)
    · have hme : m = mols.length := by omega
      subst hme
      rw [List.getD_append_right _ _ _ _ (le_refl _)] at hin
      simp only [Nat.sub_self, List.getD_cons_zero] at hin
      exact List.mem_append_right _ (hcomplete a hin)
  · intro a m m2 hm hm2
    rcases List.mem_append.mp hm with hm | hm <;> rcases List.mem_append.mp hm2 with hm2 | hm2
    · exact h3 a m m2 hm hm2
    · exfalso
      have := hfresh a (hsound _ hm2).2
      exact (atom_in_map_false_iff _ _).mp this m hm
    · exfalso
      have := hfresh a (hsound _ hm).2
      exact (atom_in_map_false_iff _ _).mp this m2 hm2
    · have e1 := (hsound _ hm).1
      have e2 := (hsound _ hm2).1
      simp only at e1 e2
      rw [e1, e2]

/-- The matching loop keeps the length of the slot array and only ever writes atoms
that are absent from the committed map. -/
theorem try_expand_molecule_loop_atoms (arch : Arch) (ext : Externals) (nl : AtomNetlist)
    (pat : t_pack_patterns) (amap : List (AtomBlockId × PackMoleculeId)) (fuel : Nat) :
    ∀ (queue : List (Nat × Option AtomBlockId)) (ids : List (Option AtomBlockId))
      (v : Bool) (ids2 : List (Option AtomBlockId)),
      try_expand_molecule_loop arch ext nl pat amap fuel queue ids = .ok (v, ids2) →
      ids2.length = ids.length
      ∧ ∀ b, some b ∈ ids2 → some b ∈ ids ∨ atom_in_map amap b = false := by
  induction fuel with
  | zero =>
    intro queue ids v ids2 h
    cases queue with
    | nil =>
      simp only [try_expand_molecule_loop, pure, Except.pure] at h
      injection h with h; injection h with h1 h2; subst h2
      exact ⟨rfl, fun b hb => Or.inl hb⟩
    | cons p q => simp [try_expand_molecule_loop, throw, throwThe, MonadExceptOf.throw] at h
  | succ n ih =>
    intro queue ids v ids2 h
    cases queue with
    | nil =>
      simp only [try_expand_molecule_loop, pure, Except.pure] at h
      injection h with h; injection h with h1 h2; subst h2
      exact ⟨rfl, fun b hb => Or.inl hb⟩
    | cons p q =>
      obtain ⟨pb, bid⟩ := p
      simp only [try_expand_molecule_loop] at h
      split at h
      · exact ih _ _ _ _ h
      · split at h
        · split at h
          · simp only [pure, Except.pure] at h
            injection h with h; injection h with h1 h2; subst h2
            exact ⟨rfl, fun b hb => Or.inl hb⟩
          · exact ih _ _ _ _ h
        · rename_i blk
          split at h
          · split at h
            · simp only [pure, Except.pure] at h
              injection h with h; injection h with h1 h2; subst h2
              exact ⟨rfl, fun b hb => Or.inl hb⟩
            · exact ih _ _ _ _ h
          · rename_i hcond
            simp only [bind, Except.bind] at h
            split at h
            · cases h
            · obtain ⟨hl, hm⟩ := ih _ _ _ _ h
              refine ⟨by rw [hl, List.length_set], ?_⟩
              intro b hb
              rcases hm b hb with hb2 | hb2
              · rcases List.mem_or_eq_of_mem_set hb2 with hb3 | hb3
                · exact Or.inl hb3
                · right
                  injection hb3 with hb3
                  subst hb3
                  simp only [Bool.or_eq_true, not_or, Bool.not_eq_true] at hcond
                  exact hcond.2
              · exact Or.inr hb2

/-- The commit loop appends one entry per bound slot it visits, and nothing else. -/
theorem commit_atoms_entries (pat : t_pack_patterns) (ids : List (Option AtomBlockId))
    (m : PackMoleculeId) :
    ∀ (l : List Nat) (amap amap2 : List (AtomBlockId × PackMoleculeId)),
      commit_atoms pat ids m l amap = .ok amap2 →
      ∃ entries, amap2 = amap ++ entries
        ∧ (∀ e ∈ entries, e.2 = m ∧ ∃ i ∈ l, ids.getD i none = some e.1)
        ∧ (∀ i ∈ l, ∀ b, ids.getD i none = some b → (b, m) ∈ entries) := by
  intro l
  induction l with
  | nil =>
    intro amap amap2 h
    simp only [commit_atoms, pure, Except.pure] at h
    injection h with h
    exact ⟨[], by simp [h]⟩
  | cons i rest ih =>
    intro amap amap2 h
    simp only [commit_atoms] at h
    split at h
    · rename_i hnone
      simp only [bind, Except.bind] at h
      split at h
      · cases h
      · obtain ⟨entries, he, hs, hc⟩ := ih _ _ h
        refine ⟨entries, he, ?_, ?_⟩
        · intro e hein
          obtain ⟨h1, j, hj, hj2⟩ := hs e hein
          exact ⟨h1, j, List.mem_cons_of_mem _ hj, hj2⟩
        · intro j hj b hb
          rcases List.mem_cons.mp hj with rfl | hj
          · rw [hnone] at hb; cases hb
          · exact hc j hj b hb
    · rename_i blk hsome
      obtain ⟨entries, he, hs, hc⟩ := ih _ _ h
      refine ⟨(blk, m) :: entries, by simp [he], ?_, ?_⟩
      · intro e hein
        rcases List.mem_cons.mp hein with rfl | hein
        · exact ⟨rfl, i, List.mem_cons_self _ _, hsome⟩
        · obtain ⟨h1, j, hj, hj2⟩ := hs e hein
          exact ⟨h1, j, List.mem_cons_of_mem _ hj, hj2⟩
      · intro j hj b hb
        rcases List.mem_cons.mp hj with rfl | hj
        · rw [hsome] at hb
          injection hb with hb
          subst hb
          exact List.mem_cons_self _ _
        · exact List.mem_cons_of_mem _ (hc j hj b hb)

/-- Membership of a valid atom in a slot array, by index. -/
theorem mem_iff_getD_some (ids : List (Option AtomBlockId)) (b : AtomBlockId) :
    some b ∈ ids ↔ ∃ i ∈ List.range ids.length, ids.getD i none = some b := by
  constructor
  · intro h
    obtain ⟨i, hi, hget⟩ := List.getElem_of_mem h
    refine ⟨i, List.mem_range.mpr hi, ?_⟩
    rw [List.getD_eq_getElem _ _ hi, hget]
  · rintro ⟨i, hi, hget⟩
    have hi2 := List.mem_range.mp hi
    rw [List.getD_eq_getElem _ _ hi2] at hget
    rw [← hget]
    exact List.getElem_mem _

/-- The slot array returned by `try_expand_molecule` has the length of the given one
and its new atoms are absent from the committed map. -/
theorem try_expand_molecule_atoms (arch : Arch) (ext : Externals) (nl : AtomNetlist)
    (fuel : Nat) (pat : t_pack_patterns) (ids : List (Option AtomBlockId))
    (blk_id : Option AtomBlockId)
    (amap : List (AtomBlockId × PackMoleculeId)) (v : Bool × List (Option AtomBlockId))
    (h : try_expand_molecule arch ext nl fuel pat ids blk_id amap = .ok v) :
    v.2.length = ids.length
    ∧ ∀ b, some b ∈ v.2 → some b ∈ ids ∨ atom_in_map amap b = false := by
  unfold try_expand_molecule at h
  split at h
  · cases h
  · exact try_expand_molecule_loop_atoms arch ext nl pat amap fuel _ _ v.1 v.2 h

/-- A molecule expanded from empty slots and committed by the commit loop keeps molecules and
map linked. -/
theorem commit_consistent (arch : Arch) (ext : Externals) (nl : AtomNetlist) (fuel : Nat)
    (pat : t_pack_patterns) (blk_id : Option AtomBlockId)
    (mols : List t_pack_molecule) (amap amap2 : List (AtomBlockId × PackMoleculeId))
    (v : Bool × List (Option AtomBlockId)) (mol : t_pack_molecule)
    (hmol : mol.atom_block_ids = v.2)
    (hexp : try_expand_molecule arch ext nl fuel pat (List.replicate pat.num_blocks none)
      blk_id amap = .ok v)
    (hcommit : commit_atoms pat v.2 mols.length (List.range pat.num_blocks) amap = .ok amap2)
    (hc : consistent mols amap) :
    consistent (mols ++ [mol]) amap2 := by
  obtain ⟨hlen, hfresh⟩ := try_expand_molecule_atoms arch ext nl fuel pat _ blk_id amap v hexp
  obtain ⟨entries, he, hs, hcm⟩ := commit_atoms_entries pat v.2 mols.length _ _ _ hcommit
  rw [List.length_replicate] at hlen
  subst he
  apply consistent_push mols amap mol entries hc
  · intro b hb
    rw [hmol] at hb
    rcases hfresh b hb with h1 | h1
    · exfalso
      rw [List.mem_replicate] at h1
      cases h1.2
    · exact h1
  · intro e hein
    obtain ⟨h1, i, hi, hget⟩ := hs e hein
    refine ⟨h1, ?_⟩
    rw [hmol, mem_iff_getD_some, hlen]
    exact ⟨i, hi, hget⟩
  · intro b hb
    rw [hmol, mem_iff_getD_some, hlen] at hb
    obtain ⟨i, hi, hget⟩ := hb
    exact hcm i hi b hget

/-- Every call of `try_create_molecule` keeps molecules and map linked and leaves the
pattern library alone; a valid result is the index of the one molecule it appended. -/
theorem try_create_molecule_consistent (arch : Arch) (ext : Externals) (nl : AtomNetlist)
    (fuel pack_pattern_index : Nat) (blk_id : AtomBlockId) (s s1 : Prepacker)
    (r : Option PackMoleculeId)
    (h : try_create_molecule arch ext nl fuel pack_pattern_index blk_id s = .ok (s1, r))
    (hc : consistent s.pack_molecules_ s.atom_molecules_multimap) :
    consistent s1.pack_molecules_ s1.atom_molecules_multimap
    ∧ s1.list_of_pack_patterns = s.list_of_pack_patterns
    ∧ (∀ id, r = some id → id = s.pack_molecules_.length
        ∧ s1.pack_molecules_.length = s.pack_molecules_.length + 1) := by
  unfold try_create_molecule at h
  simp only [bind, Except.bind, pure, Except.pure] at h
  repeat' split at h
  all_goals (try cases h)
  all_goals first
    | exact ⟨hc, rfl, by intro id hid; cases hid⟩
    | skip
  all_goals
    refine ⟨commit_consistent arch ext nl fuel _ _ _ _ _ _ _ rfl
      (by assumption) (by assumption) hc, rfl, ?_⟩
    intro id hid
    injection hid with hid
    exact ⟨hid.symm, by simp⟩

/-- Presence in the multimap after one more entry. -/
theorem atom_in_map_append (m : List (AtomBlockId × PackMoleculeId)) (b : AtomBlockId)
    (k : PackMoleculeId) (a : AtomBlockId) :
    atom_in_map (m ++ [(b, k)]) a = (atom_in_map m a || (b == a)) := by
  simp [atom_in_map, List.any_append]

/-- Writing the base gain of a molecule changes no slot array. -/
theorem set_base_gain_consistent (s : Prepacker) (id : PackMoleculeId)
    (hc : consistent s.pack_molecules_ s.atom_molecules_multimap) :
    consistent (set_base_gain s id).pack_molecules_ (set_base_gain s id).atom_molecules_multimap
    ∧ (set_base_gain s id).list_of_pack_patterns = s.list_of_pack_patterns := by
  have hlen : (set_base_gain s id).pack_molecules_.length = s.pack_molecules_.length := by
    simp [set_base_gain]
  have hat : ∀ m, ((set_base_gain s id).pack_molecules_.getD m default).atom_block_ids
      = (s.pack_molecules_.getD m default).atom_block_ids := by
    intro m
    simp only [set_base_gain]
    by_cases hm : id = m
    · subst hm
      by_cases hlt : id < s.pack_molecules_.length
      · rw [List.getD_eq_getElem _ _ (by rw [List.length_set]; exact hlt)]
        simp
      · rw [List.set_eq_of_length_le (Nat.le_of_not_lt hlt)]
    · simp only [List.getD_eq_getElem?_getD]
      rw [List.getElem?_set_ne hm]
  have hmap : (set_base_gain s id).atom_molecules_multimap = s.atom_molecules_multimap := rfl
  obtain ⟨h1, h2, h3⟩ := hc
  refine ⟨⟨?_, ?_, ?_⟩, rfl⟩
  · intro a m hm
    rw [hmap] at hm
    rw [hlen, hat]
    exact h1 a m hm
  · intro m a hlt hin
    rw [hlen] at hlt
    rw [hat] at hin
    rw [hmap]
    exact h2 m a hlt hin
  · intro a m m2 hm hm2
    rw [hmap] at hm hm2
    exact h3 a m m2 hm hm2

/-- The atoms loop keeps molecules and map linked. -/
theorem match_pattern_on_atoms_consistent (arch : Arch) (ext : Externals) (nl : AtomNetlist)
    (best_pattern : Nat) (fuel : Nat) :
    ∀ (blocks : List AtomBlockId) (s s1 : Prepacker),
      match_pattern_on_atoms arch ext nl best_pattern fuel blocks s = .ok s1 →
      consistent s.pack_molecules_ s.atom_molecules_multimap →
      consistent s1.pack_molecules_ s1.atom_molecules_multimap
      ∧ s1.list_of_pack_patterns = s.list_of_pack_patterns := by
  induction fuel with
  | zero =>
    intro blocks s s1 h hc
    cases blocks with
    | nil =>
      simp only [match_pattern_on_atoms, pure, Except.pure] at h
      injection h with h; subst h; exact ⟨hc, rfl⟩
    | cons b rest =>
      simp [match_pattern_on_atoms, throw, throwThe, MonadExceptOf.throw] at h
  | succ n ih =>
    intro blocks s s1 h hc
    cases blocks with
    | nil =>
      simp only [match_pattern_on_atoms, pure, Except.pure] at h
      injection h with h; subst h; exact ⟨hc, rfl⟩
    | cons b rest =>
      simp only [match_pattern_on_atoms, bind, Except.bind] at h
      split at h
      · cases h
      · rename_i r hr
        obtain ⟨hc1, hp1, _⟩ := try_create_molecule_consistent arch ext nl n best_pattern b s
          r.1 r.2 hr hc
        split at h
        · obtain ⟨hc2, hp2⟩ := ih _ _ _ h hc1
          exact ⟨hc2, hp2.trans hp1⟩
        · rename_i cur _
          obtain ⟨hc1b, hp1b⟩ := set_base_gain_consistent r.1 cur hc1
          split at h
          · obtain ⟨hc2, hp2⟩ := ih _ _ _ h hc1b
            exact ⟨hc2, hp2.trans (hp1b.trans hp1)⟩
          · split at h
            · obtain ⟨hc2, hp2⟩ := ih _ _ _ h hc1b
              exact ⟨hc2, hp2.trans (hp1b.trans hp1)⟩
            · obtain ⟨hc2, hp2⟩ := ih _ _ _ h hc1b
              exact ⟨hc2, hp2.trans (hp1b.trans hp1)⟩

/-- An invariant of the body is an invariant of the assignment loop. -/
theorem assign_patterns_invariant (arch : Arch) (pats : List t_pack_patterns) {σ : Type}
    (body : Nat → σ → Except PrepackError σ) (P : σ → Prop)
    (hbody : ∀ b s s1, body b s = .ok s1 → P s → P s1) :
    ∀ (l : List Nat) (is_used : List Bool) (s s1 : σ),
      assign_patterns arch pats body l is_used s = .ok s1 → P s → P s1 := by
  intro l
  induction l with
  | nil =>
    intro is_used s s1 h hp
    simp only [assign_patterns, pure, Except.pure] at h
    injection h with h; subst h; exact hp
  | cons i rest ih =>
    intro is_used s s1 h hp
    simp only [assign_patterns, bind, Except.bind] at h
    split at h
    · cases h
    · split at h
      · exact ih _ _ _ h hp
      · split at h
        · cases h
        · split at h
          · cases h
          · rename_i s2 hs2
            exact ih _ _ _ h (hbody _ _ _ hs2 hp)

/-- The fallback loop keeps molecules and map linked, never removes an atom from the
map, and leaves every atom of the list in the map. -/
theorem add_single_atom_molecules_consistent (arch : Arch) (ext : Externals) (fuel : Nat)
    (logical_block_types : List t_logical_block_type) :
    ∀ (blocks : List AtomBlockId) (s s1 : Prepacker),
      add_single_atom_molecules arch ext fuel logical_block_types blocks s = .ok s1 →
      consistent s.pack_molecules_ s.atom_molecules_multimap →
      consistent s1.pack_molecules_ s1.atom_molecules_multimap
      ∧ (∀ a, atom_in_map s.atom_molecules_multimap a = true →
          atom_in_map s1.atom_molecules_multimap a = true)
      ∧ (∀ a ∈ blocks, atom_in_map s1.atom_molecules_multimap a = true) := by
  intro blocks
  induction blocks with
  | nil =>
    intro s s1 h hc
    simp only [add_single_atom_molecules, pure, Except.pure] at h
    injection h with h; subst h
    exact ⟨hc, fun a ha => ha, by simp⟩
  | cons b rest ih =>
    intro s s1 h hc
    simp only [add_single_atom_molecules, bind, Except.bind] at h
    split at h
    · cases h
    · split at h
      · cases h
      · split at h
        · rename_i hnot
          have hb : atom_in_map s.atom_molecules_multimap b = false := by simpa using hnot
          have hc2 : consistent (s.pack_molecules_ ++ [single_atom_molecule b])
              (s.atom_molecules_multimap ++ [(b, s.pack_molecules_.length)]) := by
            apply consistent_push _ _ _ _ hc
            · intro x hx
              simp only [single_atom_molecule, List.mem_singleton, Option.some.injEq] at hx
              subst hx; exact hb
            · intro e he
              simp only [List.mem_singleton] at he
              subst he
              simp [single_atom_molecule]
            · intro x hx
              simp only [single_atom_molecule, List.mem_singleton, Option.some.injEq] at hx
              subst hx; simp
          obtain ⟨hc3, hmono, hall⟩ := ih _ _ h hc2
          refine ⟨hc3, ?_, ?_⟩
          · intro a ha
            apply hmono
            simp only [atom_in_map_append, ha, Bool.true_or]
          · intro a ha
            rcases List.mem_cons.mp ha with rfl | ha
            · apply hmono
              simp [atom_in_map_append]
            · exact hall a ha
        · rename_i hin
          have hb : atom_in_map s.atom_molecules_multimap b = true := by simpa using hin
          obtain ⟨hc3, hmono, hall⟩ := ih _ _ h hc
          refine ⟨hc3, hmono, ?_⟩
          intro a ha
          rcases List.mem_cons.mp ha with rfl | ha
          · exact hmono _ hb
          · exact hall a ha

/-- After `alloc_and_load_pack_molecules` molecules and map are linked and every atom
of the netlist is in the map. -/
theorem alloc_and_load_pack_molecules_consistent (arch : Arch) (ext : Externals)
    (nl : AtomNetlist) (fuel : Nat) (logical_block_types : List t_logical_block_type)
    (s s1 : Prepacker)
    (h : alloc_and_load_pack_molecules arch ext nl fuel logical_block_types s = .ok s1)
    (hc : consistent s.pack_molecules_ s.atom_molecules_multimap) :
    consistent s1.pack_molecules_ s1.atom_molecules_multimap
    ∧ (∀ a ∈ nl.blocks, atom_in_map s1.atom_molecules_multimap a = true) := by
  unfold alloc_and_load_pack_molecules at h
  simp only [bind, Except.bind] at h
  split at h
  · cases h
  · rename_i s2 hs2
    have hc2 : consistent s2.pack_molecules_ s2.atom_molecules_multimap :=
      assign_patterns_invariant arch s.list_of_pack_patterns _
        (fun t => consistent t.pack_molecules_ t.atom_molecules_multimap)
        (fun b t t1 ht hct =>
          (match_pattern_on_atoms_consistent arch ext nl b fuel nl.blocks t t1 ht hct).1)
        _ _ _ _ hs2 hc
    obtain ⟨hc3, _, hall⟩ :=
      add_single_atom_molecules_consistent arch ext fuel logical_block_types _ _ _ h hc2
    exact ⟨hc3, hall⟩

/-- The initial prepacker has no molecule and an empty map. -/
theorem consistent_initial (pats : List t_pack_patterns) (n : Nat) :
    consistent (Prepacker.initial pats n).pack_molecules_
      (Prepacker.initial pats n).atom_molecules_multimap := by
  refine ⟨?_, ?_, ?_⟩
  · intro a m hm; simp [Prepacker.initial] at hm
  · intro m a hlt; simp [Prepacker.initial] at hlt
  · intro a m m2 hm; simp [Prepacker.initial] at hm


/-- Higher priority, spelled out: more slots, or as many slots and a lower base cost. -/
theorem compare_eq_one_iff (a b : t_pack_patterns) :
    compare_pack_pattern a b = 1
      ↔ a.num_blocks > b.num_blocks ∨ (a.num_blocks = b.num_blocks ∧ a.base_cost < b.base_cost) := by
  unfold compare_pack_pattern
  simp only
  split_ifs with h1 h2 h3 h4
  · simp [h1]
  · constructor
    · intro h; exact h.elim
    · rintro (h | ⟨h, _⟩) <;> omega
  · constructor
    · intro _; exact Or.inr ⟨by omega, sub_neg.mp h3⟩
    · intro _; trivial
  · constructor
    · intro h; exact h.elim
    · rintro (h | ⟨_, h⟩)
      · omega
      · exact absurd (sub_neg.mpr h) h3
  · constructor
    · intro h; exact absurd h (by decide)
    · rintro (h | ⟨_, h⟩)
      · omega
      · exact absurd (sub_neg.mpr h) h3

/-- Equal priority, spelled out: as many slots and the same base cost. -/
theorem compare_eq_zero_iff (a b : t_pack_patterns) :
    compare_pack_pattern a b = 0
      ↔ a.num_blocks = b.num_blocks ∧ a.base_cost = b.base_cost := by
  unfold compare_pack_pattern
  simp only
  split_ifs with h1 h2 h3 h4
  · constructor
    · intro h; exact absurd h (by decide)
    · rintro ⟨h, _⟩; omega
  · constructor
    · intro h; exact h.elim
    · rintro ⟨h, _⟩; omega
  · constructor
    · intro h; exact absurd h (by decide)
    · rintro ⟨_, h⟩; rw [h, sub_self] at h3; exact absurd h3 (lt_irrefl _)
  · constructor
    · intro h; exact h.elim
    · rintro ⟨_, h⟩; rw [h, sub_self] at h4; exact absurd h4 (lt_irrefl _)
  · constructor
    · intro _
      refine ⟨by omega, ?_⟩
      have h5 : a.base_cost - b.base_cost = 0 := le_antisymm (not_lt.mp h4) (not_lt.mp h3)
      exact sub_eq_zero.mp h5
    · intro _; trivial

/-- No pattern has priority over itself. -/
theorem compare_irrefl (a : t_pack_patterns) : compare_pack_pattern a a ≠ 1 := by
  rw [Ne, compare_eq_one_iff]
  rintro (h | ⟨_, h⟩)
  · omega
  · exact lt_irrefl _ h

/-- Priority is transitive. -/
theorem compare_trans (a b c : t_pack_patterns) (h1 : compare_pack_pattern a b = 1)
    (h2 : compare_pack_pattern b c = 1) : compare_pack_pattern a c = 1 := by
  rw [compare_eq_one_iff] at *
  rcases h1 with h1 | ⟨h1, h1c⟩ <;> rcases h2 with h2 | ⟨h2, h2c⟩
  · left; omega
  · left; omega
  · left; omega
  · right; exact ⟨by omega, lt_trans h1c h2c⟩

/-- Priority is negatively transitive: a pattern with priority over another has it
over any third one, or the third one has it over the other. -/
theorem compare_negtrans (a b c : t_pack_patterns) (h1 : compare_pack_pattern a b = 1) :
    compare_pack_pattern a c = 1 ∨ compare_pack_pattern c b = 1 := by
  rw [compare_eq_one_iff] at h1
  rw [compare_eq_one_iff, compare_eq_one_iff]
  rcases h1 with h1 | ⟨h1, h1c⟩
  · rcases Nat.lt_trichotomy a.num_blocks c.num_blocks with h | h | h
    · right; left; omega
    · right; left; omega
    · left; left; omega
  · rcases Nat.lt_trichotomy a.num_blocks c.num_blocks with h | h | h
    · right; left; omega
    · rcases lt_or_le a.base_cost c.base_cost with hc | hc
      · left; right; exact ⟨h, hc⟩
      · right; right; exact ⟨by omega, lt_of_le_of_lt hc h1c⟩
    · left; left; omega

/-- The invariant of the selection loop over `j`: either every pattern seen so far is
used and `best_pattern` is the last one seen, or `best_pattern` is unused, no unused
pattern seen so far has priority over it, and it has priority over every unused pattern
of smaller index. -/
theorem select_best_pattern_fold (pats : List t_pack_patterns) (is_used : List Bool) :
    ∀ (k a best : Nat), best < a →
      ((∀ i < a, is_used.getD i false = true) ∧ best + 1 = a
        ∨ is_used.getD best false = false
          ∧ ∀ i < a, is_used.getD i false = false →
              compare_pack_pattern (pats.getD i default) (pats.getD best default) ≠ 1
              ∧ (i < best →
                  compare_pack_pattern (pats.getD best default) (pats.getD i default) = 1)) →
      let r := (List.range' a k).foldl
        (fun best_pattern j =>
          if is_used.getD best_pattern false then j
          else if is_used.getD j false == false
              && compare_pack_pattern (pats.getD j default)
                   (pats.getD best_pattern default) == 1 then j
          else best_pattern) best
      r < a + k
      ∧ ((∀ i < a + k, is_used.getD i false = true) ∧ r + 1 = a + k
        ∨ is_used.getD r false = false
          ∧ ∀ i < a + k, is_used.getD i false = false →
              compare_pack_pattern (pats.getD i default) (pats.getD r default) ≠ 1
              ∧ (i < r →
                  compare_pack_pattern (pats.getD r default) (pats.getD i default) = 1)) := by
  intro k
  induction k with
  | zero =>
    intro a best hlt hinv
    exact ⟨hlt, hinv⟩
  | succ k ih =>
    intro a best hlt hinv
    simp only [List.range'_succ, List.foldl_cons]
    have key : ∀ b2, b2 < a + 1 →
        ((∀ i < a + 1, is_used.getD i false = true) ∧ b2 + 1 = a + 1
        ∨ is_used.getD b2 false = false
          ∧ ∀ i < a + 1, is_used.getD i false = false →
              compare_pack_pattern (pats.getD i default) (pats.getD b2 default) ≠ 1
              ∧ (i < b2 →
                  compare_pack_pattern (pats.getD b2 default) (pats.getD i default) = 1)) →
        _ := fun b2 h1 h2 => ih (a + 1) b2 h1 h2
    have hak : a + 1 + k = a + (k + 1) := by omega
    rw [hak] at key
    apply key
    · split_ifs <;> omega
    · rcases hinv with ⟨hall, hb⟩ | ⟨hbu, hbest⟩
      · have hub : is_used.getD best false = true := hall best hlt
        simp only [hub, if_true]
        by_cases hua : is_used.getD a false = true
        · left
          refine ⟨?_, trivial⟩
          intro i hi
          rcases Nat.lt_succ_iff_lt_or_eq.mp hi with hi | hi
          · exact hall i hi
          · rw [hi]; exact hua
        · right
          have hua2 : is_used.getD a false = false := by simpa using hua
          refine ⟨hua2, ?_⟩
          intro i hi hiu
          rcases Nat.lt_succ_iff_lt_or_eq.mp hi with hi | hi
          · rw [hall i hi] at hiu; cases hiu
          · subst hi
            exact ⟨compare_irrefl _, fun h => absurd h (lt_irrefl _)⟩
      · simp only [hbu, Bool.false_eq_true, if_false]
        by_cases hcond : (is_used.getD a false == false
            && compare_pack_pattern (pats.getD a default) (pats.getD best default) == 1) = true
        · simp only [hcond, if_true]
          simp only [Bool.and_eq_true, beq_iff_eq] at hcond
          right
          refine ⟨hcond.1, ?_⟩
          intro i hi hiu
          rcases Nat.lt_succ_iff_lt_or_eq.mp hi with hi | hi
          · obtain ⟨hn, _⟩ := hbest i hi hiu
            refine ⟨?_, fun _ => ?_⟩
            · intro hcontra
              exact hn (compare_trans _ _ _ hcontra hcond.2)
            · rcases compare_negtrans _ _ (pats.getD i default) hcond.2 with h | h
              · exact h
              · exact absurd h hn
          · subst hi
            exact ⟨compare_irrefl _, fun h => absurd h (lt_irrefl _)⟩
        · simp only [hcond, Bool.false_eq_true, if_false]
          right
          refine ⟨hbu, ?_⟩
          intro i hi hiu
          rcases Nat.lt_succ_iff_lt_or_eq.mp hi with hi | hi
          · exact hbest i hi hiu
          · subst hi
            refine ⟨?_, fun h => by omega⟩
            intro hcontra
            apply hcond
            rw [hiu, hcontra]
            rfl

/-- When some pattern is unused, the selection loop ends on an unused pattern over which
no unused pattern has priority and which has priority over every unused pattern of
smaller index. -/
theorem select_best_pattern_spec (pats : List t_pack_patterns) (is_used : List Bool)
    (hex : ∃ i < pats.length, is_used.getD i false = false) :
    select_best_pattern pats is_used < pats.length
    ∧ is_used.getD (select_best_pattern pats is_used) false = false
    ∧ ∀ i < pats.length, is_used.getD i false = false →
        compare_pack_pattern (pats.getD i default)
          (pats.getD (select_best_pattern pats is_used) default) ≠ 1
        ∧ (i < select_best_pattern pats is_used →
            compare_pack_pattern (pats.getD (select_best_pattern pats is_used) default)
              (pats.getD i default) = 1) := by
  obtain ⟨i0, hi0, hu0⟩ := hex
  have hn : 1 + (pats.length - 1) = pats.length := by omega
  have h := select_best_pattern_fold pats is_used (pats.length - 1) 1 0 (by omega) (by
    by_cases h0 : is_used.getD 0 false = true
    · left
      refine ⟨?_, rfl⟩
      intro i hi
      have : i = 0 := by omega
      subst this; exact h0
    · right
      have h0f : is_used.getD 0 false = false := by simpa using h0
      refine ⟨h0f, ?_⟩
      intro i hi _
      have : i = 0 := by omega
      subst this
      exact ⟨compare_irrefl _, fun h => absurd h (lt_irrefl _)⟩)
  simp only [hn] at h
  obtain ⟨hlt, hcase⟩ := h
  rcases hcase with ⟨hall, _⟩ | ⟨hu, hbest⟩
  · rw [hall i0 hi0] at hu0; cases hu0
  · exact ⟨hlt, hu, hbest⟩

/-- Reading `is_used` after marking one pattern. -/
theorem getD_set_true (is_used : List Bool) (b x : Nat) (hb : b < is_used.length) :
    (is_used.set b true).getD x false = if x = b then true else is_used.getD x false := by
  simp only [List.getD_eq_getElem?_getD]
  by_cases hx : x = b
  · subst hx
    simp [hb]
  · rw [List.getElem?_set_ne (Ne.symm hx)]
    simp [hx]

/-- Marking an unused pattern leaves one unused pattern less. -/
theorem count_false_set_true (is_used : List Bool) (b : Nat) (hb : b < is_used.length)
    (hu : is_used.getD b false = false) :
    (is_used.set b true).count false = is_used.count false - 1 := by
  rw [List.count_set _ _ _ _ hb]
  rw [List.getD_eq_getElem _ _ hb] at hu
  simp [hu]

/-- A positive count of unused patterns gives an unused pattern. -/
theorem exists_unused_of_count_pos (is_used : List Bool) (h : 0 < is_used.count false) :
    ∃ i < is_used.length, is_used.getD i false = false := by
  obtain ⟨i, hi, hget⟩ := List.getElem_of_mem (List.count_pos_iff.mp h)
  exact ⟨i, hi, by rw [List.getD_eq_getElem _ _ hi, hget]⟩

/-- As long as unused patterns remain, successive selections are distinct unused patterns,
in non-increasing priority, equal priorities in index order. -/
theorem selection_order_spec (pats : List t_pack_patterns) :
    ∀ (k : Nat) (is_used : List Bool), is_used.length = pats.length →
      k ≤ is_used.count false →
      (selection_order pats k is_used).length = k
      ∧ (selection_order pats k is_used).Nodup
      ∧ (∀ x ∈ selection_order pats k is_used, x < pats.length ∧ is_used.getD x false = false)
      ∧ (selection_order pats k is_used).Pairwise (fun a b =>
          compare_pack_pattern (pats.getD b default) (pats.getD a default) ≠ 1
          ∧ (compare_pack_pattern (pats.getD a default) (pats.getD b default) = 0 → a < b)) := by
  intro k
  induction k with
  | zero => intro is_used _ _; simp [selection_order]
  | succ k ih =>
    intro is_used hlen hk
    obtain ⟨i0, hi0, hu0⟩ := exists_unused_of_count_pos is_used (by omega)
    obtain ⟨hblt, hbu, hbest⟩ := select_best_pattern_spec pats is_used ⟨i0, hlen ▸ hi0, hu0⟩
    have hb2 : select_best_pattern pats is_used < is_used.length := hlen ▸ hblt
    obtain ⟨h1, h2, h3, h4⟩ := ih (is_used.set (select_best_pattern pats is_used) true)
      (by rw [List.length_set]; exact hlen)
      (by rw [count_false_set_true _ _ hb2 hbu]; omega)
    have hmem : ∀ x ∈ selection_order pats k
        (is_used.set (select_best_pattern pats is_used) true),
        x < pats.length ∧ is_used.getD x false = false
          ∧ x ≠ select_best_pattern pats is_used := by
      intro x hx
      obtain ⟨hx1, hx2⟩ := h3 x hx
      rw [getD_set_true _ _ _ hb2] at hx2
      by_cases hxb : x = select_best_pattern pats is_used
      · simp [hxb] at hx2
      · simp only [hxb, if_false] at hx2
        exact ⟨hx1, hx2, hxb⟩
    simp only [selection_order]
    refine ⟨by simp [h1], ?_, ?_, ?_⟩
    · refine List.nodup_cons.mpr ⟨?_, h2⟩
      intro hin
      exact (hmem _ hin).2.2 rfl
    · intro x hx
      rcases List.mem_cons.mp hx with rfl | hx
      · exact ⟨hblt, hbu⟩
      · exact ⟨(hmem x hx).1, (hmem x hx).2.1⟩
    · refine List.pairwise_cons.mpr ⟨?_, h4⟩
      intro x hx
      obtain ⟨hx1, hx2, hx3⟩ := hmem x hx
      obtain ⟨hn, hlt⟩ := hbest x hx1 hx2
      refine ⟨hn, ?_⟩
      intro hzero
      by_contra hnot
      have hxlt : x < select_best_pattern pats is_used := by omega
      have := hlt hxlt
      rw [this] at hzero
      cases hzero

/-- Without skipped iteration the assignment loop runs its body on the successive
selections. -/
theorem assign_patterns_eq_foldlM (arch : Arch) (pats : List t_pack_patterns) {σ : Type}
    (body : Nat → σ → Except PrepackError σ) :
    ∀ (l : List Nat) (is_used : List Bool) (s : σ), is_used.length = pats.length →
      l.length ≤ is_used.count false →
      (∀ i ∈ l, root_in_disabled_mode arch (pats.getD i default) = .ok false) →
      assign_patterns arch pats body l is_used s
        = (selection_order pats l.length is_used).foldlM (fun s b => body b s) s := by
  intro l
  induction l with
  | nil => intro is_used s _ _ _; simp [assign_patterns, selection_order]
  | cons i rest ih =>
    intro is_used s hlen hk hen
    simp only [List.length_cons] at hk
    obtain ⟨i0, hi0, hu0⟩ := exists_unused_of_count_pos is_used (by omega)
    obtain ⟨hblt, hbu, _⟩ := select_best_pattern_spec pats is_used ⟨i0, hlen ▸ hi0, hu0⟩
    have hb2 : select_best_pattern pats is_used < is_used.length := hlen ▸ hblt
    simp only [assign_patterns, hen i (List.mem_cons_self _ _), bind, Except.bind,
      List.length_cons, selection_order, List.foldlM_cons, hbu, vtr_assert]
    simp only [Bool.false_eq_true, if_false, beq_self_eq_true, if_true, pure, Except.pure]
    cases hb : body (select_best_pattern pats is_used) s with
    | error e => rfl
    | ok s1 =>
      simp only []
      exact ih _ _ (by rw [List.length_set]; exact hlen)
        (by rw [count_false_set_true _ _ hb2 hbu]; omega)
        (fun j hj => hen j (List.mem_cons_of_mem _ hj))

/-- A list of `n` distinct numbers below `n` is a permutation of `0, ..., n-1`. -/
theorem perm_range_of_nodup (l : List Nat) (n : Nat) (hl : l.length = n) (hnd : l.Nodup)
    (hlt : ∀ x ∈ l, x < n) : l.Perm (List.range n) := by
  apply List.perm_of_nodup_nodup_toFinset_eq hnd (List.nodup_range n)
  apply Finset.eq_of_subset_of_card_le
  · intro x hx
    simp only [List.mem_toFinset, List.mem_range] at *
    exact hlt x hx
  · rw [List.toFinset_card_of_nodup hnd, List.toFinset_card_of_nodup (List.nodup_range n)]
    simp [hl]


/-- A property kept by every successful step is kept by a successful `foldlM`. -/
theorem foldlM_ok_invariant {α β ε : Type} (f : β → α → Except ε β) (P : β → Prop)
    (hf : ∀ b a b2, P b → f b a = .ok b2 → P b2) :
    ∀ (l : List α) (b b2 : β), P b → l.foldlM f b = .ok b2 → P b2 := by
  intro l
  induction l with
  | nil =>
    intro b b2 hb h
    simp only [List.foldlM, pure, Except.pure] at h
    cases h; exact hb
  | cons a l ih =>
    intro b b2 hb h
    simp only [List.foldlM, bind, Except.bind] at h
    split at h
    · cases h
    · rename_i b1 h1
      exact ih b1 b2 (hf b a b1 hb h1) h

/-- The loop over the model ports of one slot changes `num_blocks` by one for a filled
slot and leaves the externally-used counters alone. -/
theorem count_available_pins_num_blocks (ext : Externals) (nl : AtomNetlist)
    (l : List (Option AtomBlockId)) (st : t_molecule_stats) :
    (l.foldl (count_available_pins ext nl) st).num_blocks
      = st.num_blocks + (l.filter Option.isSome).length := by
  have hin : ∀ (sizes : List Nat) (s : t_molecule_stats),
      (sizes.foldl (fun (s : t_molecule_stats) size =>
        { s with num_input_pins := s.num_input_pins + size }) s).num_blocks = s.num_blocks := by
    intro sizes
    induction sizes with
    | nil => intro s; rfl
    | cons a t ih => intro s; rw [List.foldl_cons, ih]
  have hout : ∀ (sizes : List Nat) (s : t_molecule_stats),
      (sizes.foldl (fun (s : t_molecule_stats) size =>
        { s with num_output_pins := s.num_output_pins + size }) s).num_blocks = s.num_blocks := by
    intro sizes
    induction sizes with
    | nil => intro s; rfl
    | cons a t ih => intro s; rw [List.foldl_cons, ih]
  induction l generalizing st with
  | nil => simp
  | cons b t ih =>
    rw [List.foldl_cons, ih]
    cases b with
    | none => simp [count_available_pins]
    | some blk =>
      simp only [count_available_pins, hin, hout, List.filter_cons, Option.isSome_some,
        if_true, List.length_cons]
      omega

/-- One step of the loop over the pins leaves the block and pin counts alone. -/
theorem count_used_ext_pin_frame (nl : AtomNetlist) (atoms : List (Option AtomBlockId))
    (st st2 : t_molecule_stats) (pin : AtomPinId)
    (h : count_used_ext_pin nl atoms st pin = .ok st2) :
    st2.num_blocks = st.num_blocks ∧ st2.num_pins = st.num_pins
      ∧ st2.num_input_pins = st.num_input_pins ∧ st2.num_output_pins = st.num_output_pins := by
  unfold count_used_ext_pin at h
  simp only [bind, Except.bind, pure, Except.pure, vtr_assert] at h
  repeat' split at h
  all_goals (try cases h)
  all_goals exact ⟨rfl, rfl, rfl, rfl⟩

/-- The loop of lines 1820-1859 leaves the block and pin counts alone. -/
theorem used_ext_loop_frame (nl : AtomNetlist) (atoms : List (Option AtomBlockId))
    (l : List (Option AtomBlockId)) (st st2 : t_molecule_stats)
    (h : l.foldlM (fun (acc : t_molecule_stats) blk =>
        match blk with
        | none => pure acc
        | some blk => (nl.block_pins blk).foldlM (count_used_ext_pin nl atoms) acc) st
      = .ok st2) :
    st2.num_blocks = st.num_blocks ∧ st2.num_pins = st.num_pins
      ∧ st2.num_input_pins = st.num_input_pins ∧ st2.num_output_pins = st.num_output_pins := by
  refine foldlM_ok_invariant _
    (fun s => s.num_blocks = st.num_blocks ∧ s.num_pins = st.num_pins
      ∧ s.num_input_pins = st.num_input_pins ∧ s.num_output_pins = st.num_output_pins)
    ?_ l st st2 ⟨rfl, rfl, rfl, rfl⟩ h
  intro b a b2 hb hstep
  cases a with
  | none =>
    simp only [pure, Except.pure] at hstep
    cases hstep; exact hb
  | some blk =>
    simp only at hstep
    refine foldlM_ok_invariant _
      (fun s => s.num_blocks = st.num_blocks ∧ s.num_pins = st.num_pins
        ∧ s.num_input_pins = st.num_input_pins ∧ s.num_output_pins = st.num_output_pins)
      ?_ _ b b2 hb hstep
    intro c pin c2 hc hpin
    have := count_used_ext_pin_frame nl atoms c c2 pin hpin
    exact ⟨this.1.trans hc.1, this.2.1.trans hc.2.1, this.2.2.1.trans hc.2.2.1,
      this.2.2.2.trans hc.2.2.2⟩

/-- One step of the loop over the pins adds one to `num_used_ext_inputs` exactly for a
sink driven from outside, and one to `num_used_ext_outputs` exactly for a driver with a
sink outside. -/
theorem count_used_ext_pin_step (nl : AtomNetlist) (atoms : List (Option AtomBlockId))
    (st st2 : t_molecule_stats) (pin : AtomPinId)
    (h : count_used_ext_pin nl atoms st pin = .ok st2) :
    st2.num_used_ext_inputs
        = st.num_used_ext_inputs + (if sink_driven_from_outside nl atoms pin then 1 else 0)
      ∧ st2.num_used_ext_outputs
        = st.num_used_ext_outputs + (if driver_with_outside_sink nl atoms pin then 1 else 0) := by
  unfold count_used_ext_pin at h
  unfold sink_driven_from_outside driver_with_outside_sink
  cases hnet : nl.pin_net pin with
  | none => rw [hnet] at h; cases h
  | some net =>
    rw [hnet] at h
    have e1 : (PinType.DRIVER == PinType.SINK) = false := rfl
    have e2 : (PinType.DRIVER == PinType.DRIVER) = true := rfl
    have e3 : (PinType.SINK == PinType.SINK) = true := rfl
    have e4 : (PinType.SINK == PinType.DRIVER) = false := rfl
    have e5 : (PinType.OPEN == PinType.SINK) = false := rfl
    have e6 : (PinType.OPEN == PinType.DRIVER) = false := rfl
    cases hty : nl.pin_type pin <;> rw [hty] at h <;>
      simp only [bind, Except.bind, pure, Except.pure, vtr_assert, e1, e2, e3, e4, e5, e6,
        if_true, if_false, Bool.false_eq_true, Bool.true_and, Bool.false_and] at h ⊢
    · split at h
      · rename_i hl; cases h; rw [hl]; exact ⟨rfl, rfl⟩
      · rename_i hl; cases h
        rw [Bool.not_eq_true] at hl
        rw [hl]; exact ⟨rfl, rfl⟩
    · split at h
      · rename_i hl; cases h; rw [hl]; exact ⟨rfl, rfl⟩
      · rename_i hl; cases h
        rw [Bool.not_eq_true] at hl
        rw [hl]; exact ⟨rfl, rfl⟩
    · cases h

/-- The loop over the pins of one atom adds one per sink driven from outside and one per
driver with an outside sink. -/
theorem count_used_ext_pins_fold (nl : AtomNetlist) (atoms : List (Option AtomBlockId))
    (pins : List AtomPinId) (st st2 : t_molecule_stats)
    (h : pins.foldlM (count_used_ext_pin nl atoms) st = .ok st2) :
    st2.num_used_ext_inputs
        = st.num_used_ext_inputs + pins.countP (sink_driven_from_outside nl atoms)
      ∧ st2.num_used_ext_outputs
        = st.num_used_ext_outputs + pins.countP (driver_with_outside_sink nl atoms) := by
  induction pins generalizing st with
  | nil =>
    simp only [List.foldlM, pure, Except.pure] at h
    cases h; simp
  | cons p t ih =>
    simp only [List.foldlM, bind, Except.bind] at h
    split at h
    · cases h
    · rename_i s1 h1
      have hs := count_used_ext_pin_step nl atoms st s1 p h1
      have ht := ih s1 h
      rw [ht.1, ht.2, hs.1, hs.2, List.countP_cons, List.countP_cons]
      constructor <;> omega

/-- The loop of lines 1820-1859 counts over all pins of the filled slots. -/
theorem used_ext_loop_counts (nl : AtomNetlist) (atoms : List (Option AtomBlockId))
    (l : List (Option AtomBlockId)) (st st2 : t_molecule_stats)
    (h : l.foldlM (fun (acc : t_molecule_stats) blk =>
        match blk with
        | none => pure acc
        | some blk => (nl.block_pins blk).foldlM (count_used_ext_pin nl atoms) acc) st
      = .ok st2) :
    st2.num_used_ext_inputs
        = st.num_used_ext_inputs
          + (molecule_pins nl l).countP (sink_driven_from_outside nl atoms)
      ∧ st2.num_used_ext_outputs
        = st.num_used_ext_outputs
          + (molecule_pins nl l).countP (driver_with_outside_sink nl atoms) := by
  induction l generalizing st with
  | nil =>
    simp only [List.foldlM, pure, Except.pure] at h
    cases h; simp [molecule_pins]
  | cons b t ih =>
    simp only [List.foldlM, bind, Except.bind] at h
    split at h
    · cases h
    · rename_i s1 h1
      have ht := ih s1 h
      cases b with
      | none =>
        simp only [pure, Except.pure] at h1
        cases h1
        have e : molecule_pins nl (none :: t) = molecule_pins nl t := by
          simp [molecule_pins]
        rw [e]; exact ht
      | some blk =>
        simp only at h1
        have e : molecule_pins nl (some blk :: t) = nl.block_pins blk ++ molecule_pins nl t := by
          simp [molecule_pins]
        have hs := count_used_ext_pins_fold nl atoms _ st s1 h1
        rw [ht.1, ht.2, e, List.countP_append, List.countP_append, hs.1, hs.2]
        constructor <;> omega

/-- The member-wise maximum kept by `calc_max_molecule_stats`, seen through one counter
`f`: after the loop over `ids`, `f` of the result is at least `f` of the start value and
of the statistics of every molecule of `ids`, and it is `f` of the start value or of the
statistics of one of them. -/
theorem calc_max_fold (s : Prepacker) (ext : Externals) (nl : AtomNetlist)
    (f : t_molecule_stats → Nat)
    (step : t_molecule_stats → t_molecule_stats → t_molecule_stats)
    (hf : ∀ a b, f (step a b) = max (f a) (f b)) :
    ∀ (ids : List PackMoleculeId) (mx0 mx : t_molecule_stats),
      ids.foldlM (fun (acc : t_molecule_stats) molecule_id => do
          let cur ← s.calc_molecule_stats ext nl (some molecule_id)
          pure (step acc cur)) mx0 = .ok mx →
      f mx0 ≤ f mx
      ∧ (∀ id ∈ ids, ∃ st, s.calc_molecule_stats ext nl (some id) = .ok st ∧ f st ≤ f mx)
      ∧ (f mx = f mx0
          ∨ ∃ id ∈ ids, ∃ st, s.calc_molecule_stats ext nl (some id) = .ok st ∧ f st = f mx) := by
  intro ids
  induction ids with
  | nil =>
    intro mx0 mx h
    simp only [List.foldlM, pure, Except.pure] at h
    cases h
    exact ⟨le_refl _, by simp, Or.inl rfl⟩
  | cons id t ih =>
    intro mx0 mx h
    simp only [List.foldlM, bind, Except.bind, pure, Except.pure] at h
    split at h
    · cases h
    · rename_i mx1 h1
      split at h1
      · cases h1
      · rename_i cur hcur
        cases h1
        obtain ⟨h0, hall, hex⟩ := ih _ mx h
        rw [hf] at h0 hex
        refine ⟨le_trans (le_max_left _ _) h0, ?_, ?_⟩
        · intro i hi
          rcases List.mem_cons.mp hi with rfl | hi
          · exact ⟨cur, hcur, le_trans (le_max_right _ _) h0⟩
          · exact hall i hi
        · rcases hex with hex | ⟨i, hi, st, hst, he⟩
          · rcases max_cases (f mx0) (f cur) with ⟨hm, _⟩ | ⟨hm, _⟩
            · left; rw [hex, hm]
            · right
              exact ⟨id, List.mem_cons_self _ _, cur, hcur, by rw [hex, hm]⟩
          · right
            exact ⟨i, List.mem_cons_of_mem _ hi, st, hst, he⟩

/-- `find_all_equivalent_chains` in terms of `chain_input_pins`. -/
theorem find_all_equivalent_chains_eq (arch : Arch) (fuel : Nat) (pat : t_pack_patterns)
    (root_block : Nat) :
    find_all_equivalent_chains arch fuel pat root_block
      = (if (chain_input_pins arch pat.index root_block).length == 1 then
          update_chain_root_pins arch fuel pat (chain_input_pins arch pat.index root_block)
        else do
          let reachable_pins ← (chain_input_pins arch pat.index root_block).mapM
            (fun pin_ptr => find_end_of_path arch fuel pin_ptr pat.index)
          if !(reachable_pins_intersect reachable_pins) then
            update_chain_root_pins arch fuel pat (chain_input_pins arch pat.index root_block)
          else pure pat) := rfl

/-- The loops of lines 1597-1605 find the common pin of two different candidates. -/
theorem reachable_pins_intersect_of_common (reach : List (List Nat)) (i j x : Nat)
    (hij : i < j) (hj : j < reach.length) (hx : x ∈ reach.getD i [])
    (hx2 : x ∈ reach.getD j []) : reachable_pins_intersect reach = true := by
  unfold reachable_pins_intersect
  rw [List.any_eq_true]
  refine ⟨i, List.mem_range.mpr (by omega), ?_⟩
  rw [List.any_eq_true]
  refine ⟨j, ?_, ?_⟩
  · rw [List.mem_range'_1]; omega
  · rw [List.any_eq_true]
    exact ⟨x, hx, by simpa using hx2⟩

/-- `update_chain_root_pins` writes `chain_root_pins` only. -/
theorem update_chain_root_pins_frame (arch : Arch) (fuel : Nat) (pat pat2 : t_pack_patterns)
    (pins : List Nat) (h : update_chain_root_pins arch fuel pat pins = .ok pat2) :
    pat2 = { pat with chain_root_pins := pat2.chain_root_pins } := by
  unfold update_chain_root_pins at h
  simp only [bind, Except.bind, pure, Except.pure] at h
  repeat' split at h
  all_goals (try cases h)
  rfl

/-- `find_all_equivalent_chains` writes `chain_root_pins` only. -/
theorem find_all_equivalent_chains_frame (arch : Arch) (fuel : Nat)
    (pat pat2 : t_pack_patterns) (root_block : Nat)
    (h : find_all_equivalent_chains arch fuel pat root_block = .ok pat2) :
    pat2 = { pat with chain_root_pins := pat2.chain_root_pins } := by
  unfold find_all_equivalent_chains at h
  simp only [bind, Except.bind, pure, Except.pure] at h
  repeat' split at h
  all_goals (try cases h)
  all_goals (first | rfl | exact update_chain_root_pins_frame _ _ _ _ _ h)

/-- The marks computed by lines 187-193 for a pattern with `L` slots. -/
theorem default_block_optional_spec (pat : t_pack_patterns) (L : Nat) (opt : List Bool)
    (h : default_block_optional pat L = .ok opt) :
    opt.length = L
    ∧ ∀ k < L, (opt.getD k false = true
      ↔ pat.is_chain = true ∧ ∃ rb, pat.root_block = some rb ∧ k ≠ (pat.block rb).block_id) := by
  unfold default_block_optional at h
  split at h
  · rename_i hc
    simp only [pure, Except.pure] at h
    cases h
    refine ⟨List.length_replicate _ _, ?_⟩
    intro k hk
    rw [List.getD_eq_getElem?_getD, List.getElem?_replicate]
    simp only [hk, if_true, Option.getD_some]
    constructor
    · intro hf; cases hf
    · rintro ⟨hch, _⟩
      exfalso
      simp only [Bool.or_eq_true, beq_iff_eq, Bool.not_eq_true'] at hc
      rcases hc with hL | hnc
      · omega
      · rw [hch] at hnc; cases hnc
  · rename_i hc
    simp only [Bool.or_eq_true, beq_iff_eq, Bool.not_eq_true', not_or, Bool.not_eq_false] at hc
    split at h
    · cases h
    · rename_i rb hrb
      simp only [pure, Except.pure] at h
      cases h
      refine ⟨by simp, ?_⟩
      intro k hk
      rw [List.getD_eq_getElem?_getD, List.getElem?_map, List.getElem?_range hk]
      simp only [Option.map_some', Option.getD_some, bne_iff_ne, ne_eq, hc.2, true_and]
      constructor
      · intro hne
        exact ⟨rb, hrb, fun e => hne e.symm⟩
      · rintro ⟨rb2, hrb2, hne⟩
        rw [hrb] at hrb2
        cases hrb2
        exact fun e => hne e.symm

/-- Building one pattern keeps the marks of all patterns of the list right. -/
theorem load_pack_pattern_marks (ext : Externals) (fuel : Nat) (i : Nat)
    (types : List t_logical_block_type) (st st2 : Arch × List t_pack_patterns)
    (hst : ∀ pat ∈ st.2, optional_marks_ok pat)
    (h : load_pack_pattern ext fuel i types st = .ok st2) :
    ∀ pat ∈ st2.2, optional_marks_ok pat := by
  induction types with
  | nil =>
    unfold load_pack_pattern at h
    simp only [pure, Except.pure] at h
    cases h; exact hst
  | cons type rest ih =>
    unfold load_pack_pattern at h
    simp only [bind, Except.bind, pure, Except.pure] at h
    split at h
    · cases h
    · rename_i ee hee
      split at h
      · exact ih h
      · rename_i expansion_edge
        split at h
        · cases h
        · rename_i built hbuilt
          split at h
          · cases h
          · rename_i optional hopt
            have hspec := default_block_optional_spec _ _ _ hopt
            split at h
            · split at h
              · cases h
              · rename_i head
                split at h
                · cases h
                · rename_i pat3 hpat3
                  cases h
                  intro pat hpat
                  rcases List.mem_or_eq_of_mem_set hpat with hin | rfl
                  · exact hst pat hin
                  · rw [find_all_equivalent_chains_frame _ _ _ _ _ hpat3]
                    exact hspec
            · cases h
              intro pat hpat
              rcases List.mem_or_eq_of_mem_set hpat with hin | rfl
              · exact hst pat hin
              · exact hspec

/-- The patterns of a fresh list have no slots and no marks. -/
theorem alloc_and_init_marks (names : List Nat) :
    ∀ pat ∈ alloc_and_init_pattern_list_from_hash names, optional_marks_ok pat := by
  intro pat hpat
  unfold alloc_and_init_pattern_list_from_hash at hpat
  rw [List.mem_map] at hpat
  obtain ⟨i, _, rfl⟩ := hpat
  exact ⟨rfl, fun k hk => absurd hk (Nat.not_lt_zero k)⟩

/-- When the vector of candidates is `[p0, p1]` and the sets of boundary output pins
reachable from the two are disjoint, `find_all_equivalent_chains` returns the pattern with
exactly two chain-root-pin groups, the first holding the primitive pins connected to `p0`
and the second those connected to `p1` (each group is non-empty, as the assertion of line
1642 requires). -/
theorem two_disjoint_chains_give_two_groups (arch : Arch) (fuel : Nat)
    (pat : t_pack_patterns) (root_block : Nat) (p0 p1 : Nat) (r0 r1 : List Nat)
    (pattern_blocks g0 g1 : List Nat)
    (hpins : chain_input_pins arch pat.index root_block = [p0, p1])
    (hr0 : find_end_of_path arch fuel p0 pat.index = .ok r0)
    (hr1 : find_end_of_path arch fuel p1 pat.index = .ok r1)
    (hdisj : ∀ x ∈ r0, x ∉ r1)
    (hpb : get_pattern_blocks arch fuel pat = .ok pattern_blocks)
    (hg0 : get_all_connected_primitive_pins arch pattern_blocks fuel p0 [] = .ok g0)
    (hg1 : get_all_connected_primitive_pins arch pattern_blocks fuel p1 [] = .ok g1)
    (hne0 : g0 ≠ []) (hne1 : g1 ≠ []) :
    find_all_equivalent_chains arch fuel pat root_block
      = .ok { pat with chain_root_pins := [g0, g1] } := by
  have hint : reachable_pins_intersect [r0, r1] = false := by
    unfold reachable_pins_intersect
    simp only [List.length_cons, List.length_nil, Nat.add_one_sub_one, Nat.zero_add]
    rw [List.any_eq_false]
    intro i hi
    have hi0 : i = 0 := by simpa using hi
    subst hi0
    simp only [Bool.not_eq_true]
    rw [List.any_eq_false]
    intro j hj
    have hj1 : j = 1 := by
      rw [List.mem_range'_1] at hj; omega
    subst hj1
    simp only [Bool.not_eq_true]
    rw [List.any_eq_false]
    intro x hx
    have := hdisj x (by simpa using hx)
    simpa using this
  have hl0 : g0.length ≠ 0 := fun h => hne0 (List.length_eq_zero.mp h)
  have hl1 : g1.length ≠ 0 := fun h => hne1 (List.length_eq_zero.mp h)
  rw [find_all_equivalent_chains_eq, hpins]
  simp only [List.length_cons, List.length_nil, List.mapM_cons, List.mapM_nil, hr0, hr1,
    bind, Except.bind, pure, Except.pure, hint, update_chain_root_pins, hpb, List.foldlM,
    hg0, hg1, vtr_assert]
  simp [hl0, hl1]

/-- The table after an insertion: unchanged for a known name, one entry longer for a new
one. -/
theorem insert_pattern_name_fst (ns : List Nat) (x : Nat) :
    (insert_pattern_name ns x).1 = if x ∈ ns then ns else ns ++ [x] := by
  unfold insert_pattern_name
  by_cases h : x ∈ ns
  · simp [h, List.indexOf_lt_length.mpr h]
  · have : ¬ (List.indexOf x ns < ns.length) := fun hlt => h (List.indexOf_lt_length.mp hlt)
    simp [h, this]

/-- The index answered by an insertion is the position of the name in the table. -/
theorem insert_pattern_name_snd (ns : List Nat) (x : Nat) :
    (insert_pattern_name ns x).2 = (insert_pattern_name ns x).1.indexOf x := by
  unfold insert_pattern_name
  by_cases h : x ∈ ns
  · simp [List.indexOf_lt_length.mpr h]
  · have : ¬ (List.indexOf x ns < ns.length) := fun hlt => h (List.indexOf_lt_length.mp hlt)
    simp only [this, if_false]
    rw [List.indexOf_append_of_not_mem h]
    simp

/-- An inserted name is in the table. -/
theorem insert_pattern_name_mem (ns : List Nat) (x : Nat) :
    x ∈ (insert_pattern_name ns x).1 := by
  rw [insert_pattern_name_fst]
  split <;> simp [*]

/-- An insertion keeps the entries of the table at their positions. -/
theorem insert_pattern_name_prefix (ns : List Nat) (x : Nat) :
    ∃ more, (insert_pattern_name ns x).1 = ns ++ more := by
  rw [insert_pattern_name_fst]
  split
  · exact ⟨[], by simp⟩
  · exact ⟨[x], rfl⟩

/-- An insertion keeps the names of the table distinct. -/
theorem insert_pattern_name_nodup (ns : List Nat) (x : Nat) (h : ns.Nodup) :
    (insert_pattern_name ns x).1.Nodup := by
  rw [insert_pattern_name_fst]
  split
  · exact h
  · rename_i hx
    rw [List.nodup_append]
    refine ⟨h, List.nodup_singleton x, ?_⟩
    intro a ha hb
    simp only [List.mem_singleton] at hb
    subst hb
    exact hx ha

/-- Inserting no name leaves the table alone. -/
theorem insert_pattern_names_nil (ns : List Nat) : insert_pattern_names ns [] = ns := rfl

/-- Inserting a list of names inserts its head first. -/
theorem insert_pattern_names_cons (ns : List Nat) (x : Nat) (l : List Nat) :
    insert_pattern_names ns (x :: l) = insert_pattern_names (insert_pattern_name ns x).1 l := rfl

/-- Inserting two lists of names one after the other. -/
theorem insert_pattern_names_append (ns : List Nat) (l1 l2 : List Nat) :
    insert_pattern_names ns (l1 ++ l2) = insert_pattern_names (insert_pattern_names ns l1) l2 := by
  unfold insert_pattern_names
  rw [List.foldl_append]

/-- Insertions keep the entries of the table at their positions. -/
theorem insert_pattern_names_prefix (ns : List Nat) (l : List Nat) :
    ∃ more, insert_pattern_names ns l = ns ++ more := by
  induction l generalizing ns with
  | nil => exact ⟨[], by simp [insert_pattern_names_nil]⟩
  | cons x t ih =>
    rw [insert_pattern_names_cons]
    obtain ⟨m1, h1⟩ := insert_pattern_name_prefix ns x
    obtain ⟨m2, h2⟩ := ih (insert_pattern_name ns x).1
    exact ⟨m1 ++ m2, by rw [h2, h1, List.append_assoc]⟩

/-- Insertions keep the names of the table distinct. -/
theorem insert_pattern_names_nodup (ns : List Nat) (l : List Nat) (h : ns.Nodup) :
    (insert_pattern_names ns l).Nodup := by
  induction l generalizing ns with
  | nil => exact h
  | cons x t ih =>
    rw [insert_pattern_names_cons]
    exact ih _ (insert_pattern_name_nodup ns x h)

/-- The names of the table after insertions are the old ones and the inserted ones. -/
theorem insert_pattern_names_mem (ns : List Nat) (l : List Nat) (x : Nat) :
    x ∈ insert_pattern_names ns l ↔ x ∈ ns ∨ x ∈ l := by
  induction l generalizing ns with
  | nil => simp [insert_pattern_names_nil]
  | cons y t ih =>
    rw [insert_pattern_names_cons, ih, insert_pattern_name_fst]
    split
    · rename_i hy
      constructor
      · rintro (h | h)
        · exact Or.inl h
        · exact Or.inr (List.mem_cons_of_mem _ h)
      · rintro (h | h)
        · exact Or.inl h
        · rcases List.mem_cons.mp h with rfl | h
          · exact Or.inl hy
          · exact Or.inr h
    · simp only [List.mem_append, List.mem_singleton, List.mem_cons]
      tauto

/-- A name first met after all the names of `l1` gets a larger index than each of them. -/
theorem insert_pattern_names_first_seen (l1 : List Nat) (x : Nat) (l2 : List Nat)
    (hx : x ∉ l1) (y : Nat) (hy : y ∈ l1) :
    (insert_pattern_names [] (l1 ++ x :: l2)).indexOf y
      < (insert_pattern_names [] (l1 ++ x :: l2)).indexOf x := by
  rw [insert_pattern_names_append, insert_pattern_names_cons]
  have hxA : x ∉ insert_pattern_names [] l1 := by
    rw [insert_pattern_names_mem]; simp [hx]
  have hyA : y ∈ insert_pattern_names [] l1 := by
    rw [insert_pattern_names_mem]; exact Or.inr hy
  rw [insert_pattern_name_fst, if_neg hxA]
  obtain ⟨more, hm⟩ := insert_pattern_names_prefix (insert_pattern_names [] l1 ++ [x]) l2
  rw [hm, List.append_assoc]
  rw [List.indexOf_append_of_mem hyA, List.indexOf_append_of_not_mem hxA]
  have := List.indexOf_lt_length.mpr hyA
  simp only [List.singleton_append, List.indexOf_cons_self]
  omega

/-- Reading a list after one entry has been written. -/
theorem list_getD_set {α : Type} (l : List α) (i j : Nat) (v d : α) :
    (l.set i v).getD j d = if j = i ∧ i < l.length then v else l.getD j d := by
  rw [List.getD_eq_getElem?_getD, List.getD_eq_getElem?_getD, List.getElem?_set]
  by_cases hji : i = j
  · subst hji
    by_cases hlt : i < l.length
    · simp [hlt]
    · rw [List.getElem?_eq_none (by omega)]
      simp [hlt]
  · have : ¬ (j = i ∧ i < l.length) := fun h => hji h.1.symm
    simp [hji, this]

/-- Every architecture is the same template as itself. -/
theorem same_template_refl (a : Arch) : same_template a a :=
  ⟨rfl, rfl, rfl, fun _ => ⟨rfl, rfl, rfl, rfl, rfl⟩, fun _ => ⟨rfl, rfl, rfl⟩⟩

/-- Being the same template is transitive. -/
theorem same_template_trans {a b c : Arch} (h1 : same_template a b) (h2 : same_template b c) :
    same_template a c := by
  obtain ⟨p1, t1, m1, n1, e1⟩ := h1
  obtain ⟨p2, t2, m2, n2, e2⟩ := h2
  refine ⟨p2.trans p1, t2.trans t1, m2.trans m1, fun n => ?_, fun e => ?_⟩
  · exact ⟨(n2 n).1.trans (n1 n).1, (n2 n).2.1.trans (n1 n).2.1,
      (n2 n).2.2.1.trans (n1 n).2.2.1, (n2 n).2.2.2.1.trans (n1 n).2.2.2.1,
      (n2 n).2.2.2.2.trans (n1 n).2.2.2.2⟩
  · exact ⟨(e2 e).1.trans (e1 e).1, (e2 e).2.1.trans (e1 e).2.1, (e2 e).2.2.trans (e1 e).2.2⟩

/-- Marking an edge as inferred touches no structure and no index array. -/
theorem set_infer_pattern_quiet (a : Arch) (e : Nat) :
    same_template a (a.set_infer_pattern e) ∧ same_indices a (a.set_infer_pattern e) := by
  have key : ∀ e2, (a.set_infer_pattern e).edge e2
      = if e2 = e ∧ e < a.edges.length then { a.edge e with infer_pattern := true }
        else a.edge e2 := by
    intro e2
    simp only [Arch.set_infer_pattern, Arch.edge]
    exact list_getD_set _ _ _ _ _
  refine ⟨⟨rfl, rfl, rfl, fun _ => ⟨rfl, rfl, rfl, rfl, rfl⟩, fun e2 => ?_⟩, fun e2 => ?_⟩
  · rw [key]
    split
    · rename_i h; rw [h.1]; exact ⟨rfl, rfl, rfl⟩
    · exact ⟨rfl, rfl, rfl⟩
  · rw [key]
    split
    · rename_i h; rw [h.1]
    · rfl

/-- Forward inference touches no structure and no index array. -/
theorem forward_infer_pattern_quiet (fuel : Nat) (a a2 : Arch) (pin : Nat)
    (h : forward_infer_pattern fuel a pin = .ok a2) :
    same_template a a2 ∧ same_indices a a2 := by
  induction fuel generalizing a pin with
  | zero => unfold forward_infer_pattern at h; cases h
  | succ fuel ih =>
    unfold forward_infer_pattern at h
    simp only [pure, Except.pure] at h
    repeat' split at h
    all_goals (try cases h)
    all_goals (first
      | exact ⟨same_template_refl _, fun _ => rfl⟩
      | exact set_infer_pattern_quiet _ _
      | skip)
    have h2 := ih _ _ h
    exact ⟨same_template_trans (set_infer_pattern_quiet a _).1 h2.1,
      fun e => (h2.2 e).trans ((set_infer_pattern_quiet a _).2 e)⟩

/-- Backward inference touches no structure and no index array. -/
theorem backward_infer_pattern_quiet (fuel : Nat) (a a2 : Arch) (pin : Nat)
    (h : backward_infer_pattern fuel a pin = .ok a2) :
    same_template a a2 ∧ same_indices a a2 := by
  induction fuel generalizing a pin with
  | zero => unfold backward_infer_pattern at h; cases h
  | succ fuel ih =>
    unfold backward_infer_pattern at h
    simp only [pure, Except.pure] at h
    repeat' split at h
    all_goals (try cases h)
    all_goals (first
      | exact ⟨same_template_refl _, fun _ => rfl⟩
      | exact set_infer_pattern_quiet _ _
      | skip)
    have h2 := ih _ _ h
    exact ⟨same_template_trans (set_infer_pattern_quiet a _).1 h2.1,
      fun e => (h2.2 e).trans ((set_infer_pattern_quiet a _).2 e)⟩

/-- Doing nothing is a discovery step that meets no name. -/
theorem discovery_step_refl (a : Arch) (ns : List Nat) : discovery_step a ns a ns [] :=
  ⟨same_template_refl a, id, rfl, fun _ _ h => h⟩

/-- Discovery steps compose; the names met are concatenated. -/
theorem discovery_step_trans {a a1 a2 : Arch} {ns ns1 ns2 l1 l2 : List Nat}
    (h1 : discovery_step a ns a1 ns1 l1) (h2 : discovery_step a1 ns1 a2 ns2 l2) :
    discovery_step a ns a2 ns2 (l1 ++ l2) := by
  obtain ⟨t1, w1, n1, r1⟩ := h1
  obtain ⟨t2, w2, n2, r2⟩ := h2
  refine ⟨same_template_trans t1 t2, fun h => w2 (w1 h), ?_, fun e m h => r2 e m (r1 e m h)⟩
  rw [insert_pattern_names_append, ← n1, n2]

/-- A change of the template that touches no structure and no index array is a discovery
step that meets no name. -/
theorem discovery_step_of_quiet {a a2 : Arch} (ns : List Nat) (ht : same_template a a2)
    (hi : same_indices a a2) : discovery_step a ns a2 ns [] := by
  refine ⟨ht, ?_, rfl, ?_⟩
  · intro h e
    rw [hi e, (ht.2.2.2.2 e).1]
    exact h e
  · intro e m h
    unfold index_recorded at h ⊢
    rw [hi e, (ht.2.2.2.2 e).1]
    exact h

/-- A recorded index stays right when names are appended to the table. -/
theorem index_recorded_grow (a : Arch) (ns more : List Nat) (e m : Nat)
    (h : index_recorded a ns e m) : index_recorded a (ns ++ more) e m := by
  intro hm
  obtain ⟨h1, h2⟩ := h hm
  exact ⟨List.mem_append_left _ h1, by rw [h2, List.indexOf_append_of_mem h1]⟩

/-- Reading an edge after `set_pack_pattern_index`. -/
theorem set_pack_pattern_index_edge (a : Arch) (e m index e2 : Nat) :
    (a.set_pack_pattern_index e m index).edge e2
      = if e2 = e ∧ e < a.edges.length then
          { a.edge e with pack_pattern_indices :=
              (if (a.edge e).pack_pattern_indices.isEmpty then
                List.replicate (a.edge e).pack_pattern_names.length 0
              else (a.edge e).pack_pattern_indices).set m index }
        else a.edge e2 := by
  simp only [Arch.set_pack_pattern_index, Arch.edge]
  exact list_getD_set _ _ _ _ _

/-- Registering the `m`-th name of edge `e` and writing its index. -/
theorem set_pack_pattern_index_step (a : Arch) (ns : List Nat) (e m : Nat) :
    discovery_step a ns
      (a.set_pack_pattern_index e m
        (insert_pattern_name ns ((a.edge e).pack_pattern_names.getD m 0)).2)
      (insert_pattern_name ns ((a.edge e).pack_pattern_names.getD m 0)).1
      [(a.edge e).pack_pattern_names.getD m 0]
    ∧ (indices_allocated a →
        index_recorded
          (a.set_pack_pattern_index e m
            (insert_pattern_name ns ((a.edge e).pack_pattern_names.getD m 0)).2)
          (insert_pattern_name ns ((a.edge e).pack_pattern_names.getD m 0)).1 e m) := by
  have hedge := set_pack_pattern_index_edge a e m
    (insert_pattern_name ns ((a.edge e).pack_pattern_names.getD m 0)).2
  obtain ⟨more, hmore⟩ := insert_pattern_name_prefix ns ((a.edge e).pack_pattern_names.getD m 0)
  have hsnd := insert_pattern_name_snd ns ((a.edge e).pack_pattern_names.getD m 0)
  have hmem := insert_pattern_name_mem ns ((a.edge e).pack_pattern_names.getD m 0)
  refine ⟨⟨⟨rfl, rfl, rfl, fun _ => ⟨rfl, rfl, rfl, rfl, rfl⟩, fun e2 => ?_⟩, ?_, rfl, ?_⟩, ?_⟩
  · rw [hedge]
    split
    · rename_i h; rw [h.1]; exact ⟨rfl, rfl, rfl⟩
    · exact ⟨rfl, rfl, rfl⟩
  · intro hall e2
    rw [hedge]
    split
    · rename_i h
      right
      simp only [List.length_set]
      split
      · exact List.length_replicate _ _
      · rename_i hne
        rcases hall e with h0 | h0
        · rw [h0] at hne; exact absurd rfl hne
        · exact h0
    · exact hall e2
  · intro e2 m2 h
    by_cases hc : e2 = e ∧ e < a.edges.length
    · obtain ⟨rfl, hlt⟩ := hc
      intro hm2
      rw [hedge, if_pos ⟨rfl, hlt⟩] at hm2 ⊢
      simp only at hm2 ⊢
      obtain ⟨h1, h2⟩ := h hm2
      have hne : (a.edge e2).pack_pattern_indices.isEmpty = false := by
        cases hi : (a.edge e2).pack_pattern_indices with
        | nil => rw [hi] at h2; cases h2
        | cons _ _ => rfl
      simp only [hne, Bool.false_eq_true, if_false]
      by_cases hmm : m2 = m
      · subst hmm
        refine ⟨hmem, ?_⟩
        have hlen : m2 < (a.edge e2).pack_pattern_indices.length := by
          by_contra hge
          rw [List.get?_eq_none.mpr (by omega)] at h2
          cases h2
        rw [List.get?_eq_getElem?, List.getElem?_set_self hlen, hsnd]
      · constructor
        · rw [hmore]; exact List.mem_append_left _ h1
        · rw [List.get?_eq_getElem?, List.getElem?_set_ne (fun h => hmm h.symm),
            ← List.get?_eq_getElem?, h2, hmore, List.indexOf_append_of_mem h1]
    · have he2 : (a.set_pack_pattern_index e m
          (insert_pattern_name ns ((a.edge e).pack_pattern_names.getD m 0)).2).edge e2
          = a.edge e2 := by rw [hedge, if_neg hc]
      unfold index_recorded
      rw [he2, hmore]
      exact index_recorded_grow a ns more e2 m2 h
  · intro hall hm
    by_cases hlt : e < a.edges.length
    · rw [hedge, if_pos ⟨rfl, hlt⟩] at hm ⊢
      simp only at hm ⊢
      refine ⟨hmem, ?_⟩
      have hX : m < (if (a.edge e).pack_pattern_indices.isEmpty then
                List.replicate (a.edge e).pack_pattern_names.length 0
              else (a.edge e).pack_pattern_indices).length := by
        split
        · rw [List.length_replicate]; exact hm
        · rename_i hne
          rcases hall e with h0 | h0
          · rw [h0] at hne; exact absurd rfl hne
          · rw [h0]; exact hm
      rw [List.get?_eq_getElem?, List.getElem?_set_self hX, hsnd]
    · exfalso
      rw [hedge, if_neg (fun h => hlt h.2)] at hm
      have : a.edge e = default := by
        simp only [Arch.edge]
        rw [List.getD_eq_default _ _ (by omega)]
      rw [this] at hm
      exact absurd hm (Nat.not_lt_zero _)

/-- The names on the edges are not scratch fields. -/
theorem labels_of_congr {a b : Arch} (h : same_template a b) (es : List Nat) :
    labels_of b es = labels_of a es := by
  unfold labels_of
  congr 1
  funext e
  exact (h.2.2.2.2 e).1

/-- The names on two lists of edges. -/
theorem labels_of_append (a : Arch) (es1 es2 : List Nat) :
    labels_of a (es1 ++ es2) = labels_of a es1 ++ labels_of a es2 := by
  simp [labels_of]

/-- Doing nothing discovers no edge. -/
theorem discovered_refl (st : Arch × List Nat) : discovered st st [] :=
  ⟨discovery_step_refl _ _, fun _ e he => absurd he (List.not_mem_nil e)⟩

/-- Discoveries compose; the edges are concatenated. -/
theorem discovered_trans {st st1 st2 : Arch × List Nat} {es1 es2 : List Nat}
    (h1 : discovered st st1 es1) (h2 : discovered st1 st2 es2) :
    discovered st st2 (es1 ++ es2) := by
  obtain ⟨s1, r1⟩ := h1
  obtain ⟨s2, r2⟩ := h2
  rw [labels_of_congr s1.1] at s2
  refine ⟨by rw [labels_of_append]; exact discovery_step_trans s1 s2, ?_⟩
  intro hall e he m
  rcases List.mem_append.mp he with he | he
  · exact s2.2.2.2 e m (r1 hall e he m)
  · exact r2 (s1.2.1 hall) e he m

/-- A change that touches no structure, no index array and not the table discovers no
edge. -/
theorem discovered_of_quiet (st st2 : Arch × List Nat) (ht : same_template st.1 st2.1)
    (hi : same_indices st.1 st2.1) (hn : st2.2 = st.2) : discovered st st2 [] := by
  refine ⟨?_, fun _ e he => absurd he (List.not_mem_nil e)⟩
  rw [hn]
  exact discovery_step_of_quiet st.2 ht hi

/-- A loop whose every step discovers the edges of its item discovers the edges of all
items. -/
theorem foldlM_discovered {α σ : Type} (proj : σ → Arch × List Nat)
    (f : σ → α → Except PrepackError σ) (edges_of : Arch → α → List Nat)
    (hcongr : ∀ a b x, same_template a b → edges_of b x = edges_of a x)
    (hf : ∀ s x s2, f s x = .ok s2 → discovered (proj s) (proj s2) (edges_of (proj s).1 x)) :
    ∀ (l : List α) (s s2 : σ), l.foldlM f s = .ok s2 →
      discovered (proj s) (proj s2) (l.flatMap (edges_of (proj s).1)) := by
  intro l
  induction l with
  | nil =>
    intro s s2 h
    simp only [List.foldlM, pure, Except.pure] at h
    cases h
    exact discovered_refl _
  | cons x t ih =>
    intro s s2 h
    simp only [List.foldlM, bind, Except.bind] at h
    split at h
    · cases h
    · rename_i s1 h1
      have d1 := hf s x s1 h1
      have d2 := ih s1 s2 h
      have e : t.flatMap (edges_of (proj s1).1) = t.flatMap (edges_of (proj s).1) := by
        congr 1
        funext y
        exact hcongr _ _ y d1.1.1
      rw [e] at d2
      rw [List.flatMap_cons]
      exact discovered_trans d1 d2

/-- The loop of forward inferences over the output pins of an edge touches no structure
and no index array. -/
theorem forward_infer_fold_quiet (fuel : Nat) (pins : List Nat) (a a2 : Arch)
    (h : pins.foldlM (fun a ipin => forward_infer_pattern fuel a ipin) a = .ok a2) :
    same_template a a2 ∧ same_indices a a2 := by
  induction pins generalizing a with
  | nil =>
    simp only [List.foldlM, pure, Except.pure] at h
    cases h
    exact ⟨same_template_refl _, fun _ => rfl⟩
  | cons p t ih =>
    simp only [List.foldlM, bind, Except.bind] at h
    split at h
    · cases h
    · rename_i a1 h1
      have q1 := forward_infer_pattern_quiet fuel a a1 p h1
      have q2 := ih a1 h
      exact ⟨same_template_trans q1.1 q2.1, fun e => (q2.2 e).trans (q1.2 e)⟩

/-- Reading all positions of a list gives the list. -/
theorem map_getD_range (l : List Nat) :
    (List.range l.length).map (fun m => l.getD m 0) = l := by
  apply List.ext_getElem
  · simp
  · intro n h1 h2
    simp [List.getD_eq_getElem?_getD, List.getElem?_eq_getElem h2]

/-- The loop over the names of one output edge. -/
theorem discover_names_loop (fuel : Nat) (e : Nat) (ms : List Nat)
    (acc acc2 : (Arch × List Nat) × Bool)
    (h : ms.foldlM
      (fun (acc : (Arch × List Nat) × Bool) m => do
        let pattern_name := (acc.1.1.edge e).pack_pattern_names.getD m 0
        let ins := insert_pattern_name acc.1.2 pattern_name
        let arch1 := acc.1.1.set_pack_pattern_index e m ins.2
        let arch2 ← (arch1.edge e).output_pins.foldlM
          (fun a ipin => forward_infer_pattern fuel a ipin) arch1
        pure ((arch2, ins.1), true)) acc = .ok acc2) :
    discovery_step acc.1.1 acc.1.2 acc2.1.1 acc2.1.2
        (ms.map fun m => (acc.1.1.edge e).pack_pattern_names.getD m 0)
    ∧ (indices_allocated acc.1.1 → ∀ m ∈ ms, index_recorded acc2.1.1 acc2.1.2 e m) := by
  induction ms generalizing acc with
  | nil =>
    simp only [List.foldlM, pure, Except.pure] at h
    cases h
    exact ⟨discovery_step_refl _ _, fun _ m hm => absurd hm (List.not_mem_nil m)⟩
  | cons m t ih =>
    simp only [List.foldlM, bind, Except.bind, pure, Except.pure] at h
    split at h
    · cases h
    · rename_i acc1 h1
      split at h1
      · cases h1
      · rename_i arch2 h2
        cases h1
        obtain ⟨hs, hr⟩ := set_pack_pattern_index_step acc.1.1 acc.1.2 e m
        have hq := forward_infer_fold_quiet fuel _ _ _ h2
        have hs2 := discovery_step_trans hs
          (discovery_step_of_quiet
            (insert_pattern_name acc.1.2 ((acc.1.1.edge e).pack_pattern_names.getD m 0)).1
            hq.1 hq.2)
        obtain ⟨ht, hrt⟩ := ih _ h
        simp only at ht hrt
        have hnames : (arch2.edge e).pack_pattern_names = (acc.1.1.edge e).pack_pattern_names :=
          (hs2.1.2.2.2.2 e).1
        rw [hnames] at ht
        refine ⟨?_, ?_⟩
        · have := discovery_step_trans hs2 ht
          simpa using this
        · intro hall m2 hm2
          rcases List.mem_cons.mp hm2 with rfl | hm2
          · apply ht.2.2.2
            exact (discovery_step_of_quiet _ hq.1 hq.2).2.2.2 e m2 (hr hall)
          · exact hrt (hs2.2.1 hall) m2 hm2

/-- The body of `discover_pattern_names_in_pb_graph_node` for one pin. -/
theorem discover_pin_discovered (fuel : Nat) (pin : Nat) (st st2 : Arch × List Nat)
    (h : discover_pin fuel pin st = .ok st2) :
    discovered st st2 (st.1.pin pin).output_edges := by
  unfold discover_pin at h
  simp only [bind, Except.bind, pure, Except.pure] at h
  split at h
  · cases h
  · rename_i r hr
    have hloop := foldlM_discovered (fun (s : (Arch × List Nat) × Bool) => s.1) _
      (fun _ e => [e]) (fun _ _ _ _ => rfl)
      (by
        intro s e s2 hs
        obtain ⟨h1, h2⟩ := discover_names_loop fuel e _ s s2 hs
        rw [map_getD_range] at h1
        refine ⟨by simpa [labels_of] using h1, ?_⟩
        intro hall e2 he2 m
        simp only [List.mem_singleton] at he2
        subst he2
        by_cases hm : m < (s.1.1.edge e2).pack_pattern_names.length
        · exact h2 hall m (List.mem_range.mpr hm)
        · intro hm2
          rw [(h1.1.2.2.2.2 e2).1] at hm2
          exact absurd hm2 hm)
      _ _ _ hr
    simp only [List.flatMap_singleton'] at hloop
    split at h
    · split at h
      · cases h
      · rename_i arch3 h3
        cases h
        have hq := backward_infer_pattern_quiet fuel _ _ _ h3
        have := discovered_trans hloop
          (discovered_of_quiet r.1 (arch3, r.1.2) hq.1 hq.2 rfl)
        simpa using this
    · cases h
      exact hloop

/-- The children of a node are not scratch fields. -/
theorem child_nodes_congr {a b : Arch} (h : same_template a b) (n : Nat) :
    child_nodes b (b.node n) = child_nodes a (a.node n) := by
  unfold child_nodes
  simp only [Arch.pb_type, Arch.mode, h.2.1, h.2.2.1, (h.2.2.2.1 n).1, (h.2.2.2.1 n).2.2.2.2]

/-- The edges visited by the traversal do not depend on scratch fields. -/
theorem traversal_edges_congr {a b : Arch} (h : same_template a b) (fuel : Nat)
    (node : Option Nat) : traversal_edges b fuel node = traversal_edges a fuel node := by
  induction fuel generalizing node with
  | zero => rfl
  | succ fuel ih =>
    cases node with
    | none => rfl
    | some n =>
      simp only [traversal_edges]
      rw [child_nodes_congr h n, (h.2.2.2.1 n).2.1, (h.2.2.2.1 n).2.2.1, (h.2.2.2.1 n).2.2.2.1]
      simp only [Arch.pin, h.1]
      congr 2
      funext c
      exact ih c

/-- Resetting the scratch pad of a node touches no structure and no index array. -/
theorem reset_scratch_quiet (a : Arch) (n : Nat) :
    same_template a { a with nodes := a.nodes.set n { a.node n with temp_scratch_pad := none } }
    ∧ same_indices a
        { a with nodes := a.nodes.set n { a.node n with temp_scratch_pad := none } } := by
  refine ⟨⟨rfl, rfl, rfl, fun n2 => ?_, fun _ => ⟨rfl, rfl, rfl⟩⟩, fun _ => rfl⟩
  have key : ({ a with nodes := a.nodes.set n { a.node n with temp_scratch_pad := none } }
      : Arch).node n2
      = if n2 = n ∧ n < a.nodes.length then { a.node n with temp_scratch_pad := none }
        else a.node n2 := by
    simp only [Arch.node]
    exact list_getD_set _ _ _ _ _
  rw [key]
  split
  · rename_i hc; rw [hc.1]; exact ⟨rfl, rfl, rfl, rfl, rfl⟩
  · exact ⟨rfl, rfl, rfl, rfl, rfl⟩

/-- The loop over the pins of one kind discovers their output edges. -/
theorem discover_pins_discovered (fuel : Nat) (pins : List Nat) (st st2 : Arch × List Nat)
    (h : pins.foldlM (fun acc pin => discover_pin fuel pin acc) st = .ok st2) :
    discovered st st2 (pins.flatMap fun pin => (st.1.pin pin).output_edges) :=
  foldlM_discovered (fun s => s) _ (fun a pin => (a.pin pin).output_edges)
    (fun a b x hab => by simp only [Arch.pin, hab.1])
    (fun s x s2 hs => discover_pin_discovered fuel x s s2 hs) pins st st2 h

/-- The traversal registers the names of the edges it visits, in the order visited, and
records the index of every name on its edge. -/
theorem discover_pattern_names_discovered (fuel : Nat) (node : Option Nat)
    (st st2 : Arch × List Nat)
    (h : discover_pattern_names_in_pb_graph_node fuel node st = .ok st2) :
    discovered st st2 (traversal_edges st.1 fuel node) := by
  induction fuel generalizing node st st2 with
  | zero => unfold discover_pattern_names_in_pb_graph_node at h; cases h
  | succ fuel ih =>
    cases node with
    | none =>
      unfold discover_pattern_names_in_pb_graph_node at h
      simp only [pure, Except.pure] at h
      cases h
      exact discovered_refl _
    | some n =>
      unfold discover_pattern_names_in_pb_graph_node at h
      simp only [bind, Except.bind] at h
      split at h
      · cases h
      · rename_i st1 h1
        split at h
        · cases h
        · rename_i st2b h2
          split at h
          · cases h
          · rename_i st3 h3
            have q0 := reset_scratch_quiet st.1 n
            have d0 := discovered_of_quiet st (_, st.2) q0.1 q0.2 rfl
            have d1 := discover_pins_discovered fuel _ _ _ h1
            have d2 := discover_pins_discovered fuel _ _ _ h2
            have d3 := discover_pins_discovered fuel _ _ _ h3
            have d4 := foldlM_discovered (fun s => s) _
              (fun a child => traversal_edges a fuel child)
              (fun a b x hab => traversal_edges_congr hab fuel x)
              (fun s x s2 hs => ih x s s2 hs) _ _ _ h
            have d01 := discovered_trans d0 d1
            have d012 := discovered_trans d01 d2
            have d0123 := discovered_trans d012 d3
            have hall := discovered_trans d0123 d4
            have t1 : same_template st.1 st1.1 := d01.1.1
            have t2 : same_template st.1 st2b.1 := d012.1.1
            have t3 : same_template st.1 st3.1 := d0123.1.1
            have e4 : (child_nodes st.1 (st.1.node n)).flatMap
                  (fun child => traversal_edges st3.1 fuel child)
                = (child_nodes st.1 (st.1.node n)).flatMap (traversal_edges st.1 fuel) := by
              congr 1
              funext c
              exact traversal_edges_congr t3 fuel c
            simp only [Arch.pin, t1.1, t2.1, e4] at hall
            simp only [traversal_edges, List.flatMap_append, Arch.pin]
            simpa [List.append_assoc] using hall

/-- The invariant of the loops depends only on which children have been searched. -/
theorem best_so_far_mono (arch : Arch) (ext : Externals) (blk_id : AtomBlockId)
    (C D : Nat → Prop) (acc : Option Nat × ℚ) (h : ∀ c, C c ↔ D c)
    (hb : best_so_far arch ext blk_id C acc) : best_so_far arch ext blk_id D acc := by
  have : C = D := funext fun c => propext (h c)
  rw [← this]; exact hb

/-- The update of `best` and `best_cost` after the search of one more child. -/
theorem best_so_far_update (arch : Arch) (ext : Externals) (blk_id : AtomBlockId)
    (C : Nat → Prop) (acc r : Option Nat × ℚ) (child : Option Nat)
    (hacc : best_so_far arch ext blk_id C acc)
    (hr : lowest_cost_in arch ext blk_id child r) :
    best_so_far arch ext blk_id (fun c => C c ∨ child = some c)
      (match r.1 with
        | none => acc
        | some cur => if acc.1.isNone || acc.2 > r.2 then (some cur, r.2) else acc) := by
  obtain ⟨ha1, ha2⟩ := hacc
  obtain ⟨hr1, hr2⟩ := hr
  cases hr1c : r.1 with
  | none =>
    simp only
    obtain ⟨_, hrn⟩ := hr2 hr1c
    refine ⟨?_, ?_⟩
    · intro p hp
      obtain ⟨e1, e2, ⟨c, hc, hcp⟩, e4⟩ := ha1 p hp
      refine ⟨e1, e2, ⟨c, Or.inl hc, hcp⟩, ?_⟩
      intro c2 q hc2 hq hf
      rcases hc2 with hc2 | hc2
      · exact e4 c2 q hc2 hq hf
      · rw [hrn c2 q hc2 hq] at hf; cases hf
    · intro hn
      obtain ⟨e1, e2⟩ := ha2 hn
      refine ⟨e1, ?_⟩
      intro c2 q hc2 hq
      rcases hc2 with hc2 | hc2
      · exact e2 c2 q hc2 hq
      · exact hrn c2 q hc2 hq
  | some cur =>
    simp only
    obtain ⟨f1, f2, ⟨n, hn, hnp⟩, f4⟩ := hr1 cur hr1c
    split
    · rename_i hcond
      refine ⟨?_, ?_⟩
      · intro p hp
        simp only [Option.some.injEq] at hp
        subst hp
        refine ⟨f1, f2, ⟨n, Or.inr hn, hnp⟩, ?_⟩
        intro c2 q hc2 hq hf
        rcases hc2 with hc2 | hc2
        · cases hacc1 : acc.1 with
          | none =>
            rw [(ha2 hacc1).2 c2 q hc2 hq] at hf; cases hf
          | some b =>
            obtain ⟨e1, _, _, e4⟩ := ha1 b hacc1
            have hlt : acc.2 > r.2 := by
              simp only [hacc1, Option.isNone_some, Bool.false_or, decide_eq_true_eq] at hcond
              exact hcond
            rw [e1, f1] at hlt
            exact le_trans (le_of_lt hlt) (e4 c2 q hc2 hq hf)
        · exact f4 c2 q hc2 hq hf
      · intro hn; cases hn
    · rename_i hcond
      simp only [Bool.or_eq_true, decide_eq_true_eq, not_or, Bool.not_eq_true, not_lt] at hcond
      obtain ⟨hsome, hle⟩ := hcond
      refine ⟨?_, ?_⟩
      · intro p hp
        obtain ⟨e1, e2, ⟨c, hc, hcp⟩, e4⟩ := ha1 p hp
        refine ⟨e1, e2, ⟨c, Or.inl hc, hcp⟩, ?_⟩
        intro c2 q hc2 hq hf
        rcases hc2 with hc2 | hc2
        · exact e4 c2 q hc2 hq hf
        · rw [e1, f1] at hle
          exact le_trans hle (f4 c2 q hc2 hq hf)
      · intro hn
        rw [hn] at hsome
        cases hsome

/-- A successful `foldlM` carries a property of the items done so far and the state
through the loop. -/
theorem foldlM_ok_prefix {α β ε : Type} (f : β → α → Except ε β) (l : List α)
    (P : List α → β → Prop)
    (hf : ∀ done a b b2, a ∈ l → P done b → f b a = .ok b2 → P (done ++ [a]) b2) :
    ∀ (b b2 : β), P [] b → l.foldlM f b = .ok b2 → P l b2 := by
  have key : ∀ (rest done : List α) (b b2 : β), (∀ a ∈ rest, a ∈ l) → P done b →
      rest.foldlM f b = .ok b2 → P (done ++ rest) b2 := by
    intro rest
    induction rest with
    | nil =>
      intro done b b2 _ hb h
      simp only [List.foldlM, pure, Except.pure] at h
      cases h
      simpa using hb
    | cons a t ih =>
      intro done b b2 hmem hb h
      simp only [List.foldlM, bind, Except.bind] at h
      split at h
      · cases h
      · rename_i b1 h1
        have h2 := hf done a b b1 (hmem a (List.mem_cons_self _ _)) hb h1
        have h3 := ih (done ++ [a]) b1 b2 (fun x hx => hmem x (List.mem_cons_of_mem _ hx)) h2 h
        simpa using h3
  intro b b2 hb h
  simpa using key l [] b b2 (fun _ ha => ha) hb h

/-- The recursive search answers a lowest-cost feasible primitive of the subtree. -/
theorem lowest_cost_in_pb_graph_node (arch : Arch) (ext : Externals) (blk_id : AtomBlockId)
    (fuel : Nat) (node : Option Nat) (r : Option Nat × ℚ)
    (h : get_expected_lowest_cost_primitive_for_atom_block_in_pb_graph_node arch ext blk_id
      fuel node UNDEFINED = .ok r) :
    lowest_cost_in arch ext blk_id node r := by
  induction fuel generalizing node r with
  | zero =>
    unfold get_expected_lowest_cost_primitive_for_atom_block_in_pb_graph_node at h
    cases h
  | succ fuel ih =>
    cases node with
    | none =>
      unfold get_expected_lowest_cost_primitive_for_atom_block_in_pb_graph_node at h
      simp only [pure, Except.pure] at h
      cases h
      refine ⟨fun p hp => (by cases hp), fun _ => ⟨rfl, fun n q hn => by cases hn⟩⟩
    | some n =>
      unfold get_expected_lowest_cost_primitive_for_atom_block_in_pb_graph_node at h
      simp only [pure, Except.pure] at h
      by_cases hprim : (arch.pb_type (arch.node n).pb_type).blif_model.isSome = true
      · rw [if_pos hprim] at h
        have hinv : ∀ q, reaches_primitive arch true n q → q = n := by
          intro q hq
          cases hq with
          | here _ _ => rfl
          | child _ i j k c _ hnp _ _ _ _ _ _ => rw [hprim] at hnp; cases hnp
        by_cases hfeas : ext.primitive_type_feasible blk_id (arch.node n).pb_type = true
        · rw [if_pos hfeas] at h
          simp only [beq_self_eq_true, Bool.true_or, if_true] at h
          cases h
          refine ⟨?_, fun hn => by cases hn⟩
          intro p hp
          simp only [Option.some.injEq] at hp
          subst hp
          refine ⟨rfl, hfeas, ⟨n, rfl, reaches_primitive.here n hprim⟩, ?_⟩
          intro n2 q hn2 hq _
          simp only [Option.some.injEq] at hn2
          subst hn2
          rw [hinv q hq]
        · rw [if_neg hfeas] at h
          cases h
          refine ⟨fun p hp => (by cases hp), fun _ => ⟨rfl, ?_⟩⟩
          intro n2 q hn2 hq
          simp only [Option.some.injEq] at hn2
          subst hn2
          rw [hinv q hq]
          simpa using hfeas
      · rw [if_neg hprim] at h
        simp only [Bool.not_eq_true] at hprim
        -- the children searched after the modes `done`
        let CI : List Nat → Nat → Prop := fun done c =>
          ∃ i ∈ done, (arch.mode ((arch.pb_type (arch.node n).pb_type).modes.getD i 0)).disable_packing
              = false
            ∧ ∃ j, j < (arch.mode
                ((arch.pb_type (arch.node n).pb_type).modes.getD i 0)).pb_type_children.length
              ∧ (((arch.node n).child_pb_graph_nodes.getD i []).getD j []).head? = some c
        have hfold := foldlM_ok_prefix _ _
          (fun done acc => best_so_far arch ext blk_id (CI done) acc) ?_ _ _ ?_ h
        · -- conclusion from the invariant
          obtain ⟨hb1, hb2⟩ := hfold
          have hcover : ∀ q, reaches_primitive arch true n q →
              ∃ c, CI (List.range (arch.pb_type (arch.node n).pb_type).modes.length) c
                ∧ reaches_primitive arch true c q := by
            intro q hq
            cases hq with
            | here _ hp => rw [hprim] at hp; cases hp
            | child _ i j k c _ _ hi hmode hj hk hc hp =>
              have hk0 := hk rfl
              subst hk0
              refine ⟨c, ⟨i, List.mem_range.mpr hi, hmode, j, hj, ?_⟩, hp⟩
              rw [← hc]
              cases (((arch.node n).child_pb_graph_nodes.getD i []).getD j []) <;> rfl
          have hunder : ∀ c p, CI (List.range (arch.pb_type (arch.node n).pb_type).modes.length) c →
              reaches_primitive arch true c p → reaches_primitive arch true n p := by
            intro c p hc hp
            obtain ⟨i, hi, hmode, j, hj, hhead⟩ := hc
            refine reaches_primitive.child n i j 0 c p hprim (List.mem_range.mp hi) hmode hj
              (fun _ => rfl) ?_ hp
            rw [← hhead]
            cases (((arch.node n).child_pb_graph_nodes.getD i []).getD j []) <;> rfl
          refine ⟨?_, ?_⟩
          · intro p hp
            obtain ⟨e1, e2, ⟨c, hc, hcp⟩, e4⟩ := hb1 p hp
            refine ⟨e1, e2, ⟨n, rfl, hunder c p hc hcp⟩, ?_⟩
            intro n2 q hn2 hq hf
            simp only [Option.some.injEq] at hn2
            subst hn2
            obtain ⟨c2, hc2, hq2⟩ := hcover q hq
            exact e4 c2 q hc2 hq2 hf
          · intro hnone
            obtain ⟨e1, e2⟩ := hb2 hnone
            refine ⟨e1, ?_⟩
            intro n2 q hn2 hq
            simp only [Option.some.injEq] at hn2
            subst hn2
            obtain ⟨c2, hc2, hq2⟩ := hcover q hq
            exact e2 c2 q hc2 hq2
        · -- one mode
          intro done i acc acc2 _ hacc hstep
          simp only at hstep
          split at hstep
          · rename_i hdis
            cases hstep
            refine best_so_far_mono arch ext blk_id _ _ _ ?_ hacc
            intro c
            constructor
            · rintro ⟨i2, hi2, hrest⟩
              exact ⟨i2, List.mem_append_left _ hi2, hrest⟩
            · rintro ⟨i2, hi2, hen, hrest⟩
              rcases List.mem_append.mp hi2 with hi2 | hi2
              · exact ⟨i2, hi2, hen, hrest⟩
              · simp only [List.mem_singleton] at hi2
                subst hi2
                rw [hdis] at hen; cases hen
          · rename_i hen
            simp only [Bool.not_eq_true] at hen
            have hinner := foldlM_ok_prefix _ _
              (fun doneJ acc => best_so_far arch ext blk_id
                (fun c => CI done c ∨ ∃ j ∈ doneJ,
                  (((arch.node n).child_pb_graph_nodes.getD i []).getD j []).head? = some c) acc)
              ?_ _ _ ?_ hstep
            · refine best_so_far_mono arch ext blk_id _ _ _ ?_ hinner
              intro c
              constructor
              · rintro (⟨i2, hi2, hrest⟩ | ⟨j, hj, hhead⟩)
                · exact ⟨i2, List.mem_append_left _ hi2, hrest⟩
                · exact ⟨i, List.mem_append_right _ (List.mem_singleton.mpr rfl), hen, j,
                    List.mem_range.mp hj, hhead⟩
              · rintro ⟨i2, hi2, hen2, j, hj, hhead⟩
                rcases List.mem_append.mp hi2 with hi2 | hi2
                · exact Or.inl ⟨i2, hi2, hen2, j, hj, hhead⟩
                · simp only [List.mem_singleton] at hi2
                  subst hi2
                  exact Or.inr ⟨j, List.mem_range.mpr hj, hhead⟩
            · -- one child
              intro doneJ j accj accj2 _ haccj hstepj
              simp only [bind, Except.bind, pure, Except.pure] at hstepj
              split at hstepj
              · cases hstepj
              · rename_i rr hrr
                have hspec := ih _ _ hrr
                have hupd := best_so_far_update arch ext blk_id _ accj rr _ haccj hspec
                have hres : accj2 = (match rr.1 with
                    | none => accj
                    | some cur => if accj.1.isNone || accj.2 > rr.2 then (some cur, rr.2)
                        else accj) := by
                  split at hstepj
                  · rename_i hnone
                    cases hstepj
                    simp only [hnone]
                  · rename_i cur hcur
                    try simp only [hcur]
                    split at hstepj <;> cases hstepj <;> simp [*]
                rw [hres]
                refine best_so_far_mono arch ext blk_id _ _ _ ?_ hupd
                intro c
                constructor
                · rintro ((hc | ⟨j2, hj2, hhead⟩) | hc)
                  · exact Or.inl hc
                  · exact Or.inr ⟨j2, List.mem_append_left _ hj2, hhead⟩
                  · exact Or.inr ⟨j, List.mem_append_right _ (List.mem_singleton.mpr rfl), hc⟩
                · rintro (hc | ⟨j2, hj2, hhead⟩)
                  · exact Or.inl (Or.inl hc)
                  · rcases List.mem_append.mp hj2 with hj2 | hj2
                    · exact Or.inl (Or.inr ⟨j2, hj2, hhead⟩)
                    · simp only [List.mem_singleton] at hj2
                      subst hj2
                      exact Or.inr hhead
            · -- start of the inner loop
              refine best_so_far_mono arch ext blk_id _ _ _ ?_ hacc
              intro c
              constructor
              · exact fun hc => Or.inl hc
              · rintro (hc | ⟨j, hj, _⟩)
                · exact hc
                · cases hj
        · -- start of the outer loop
          refine ⟨fun p hp => (by cases hp), fun _ => ⟨rfl, ?_⟩⟩
          rintro c q ⟨i, hi, _⟩
          cases hi

/-- The unfolding check, read for one node, one mode and one child pb_type. -/
theorem instances_match_types_spec (arch : Arch) (h : instances_match_types arch = true)
    (n i j : Nat) (hn : n < arch.nodes.length)
    (hi : i < (arch.pb_type (arch.node n).pb_type).modes.length)
    (hj : j < (arch.mode
      ((arch.pb_type (arch.node n).pb_type).modes.getD i 0)).pb_type_children.length) :
    (∃ c0, (((arch.node n).child_pb_graph_nodes.getD i []).getD j []).get? 0 = some c0)
    ∧ ∀ c ∈ (((arch.node n).child_pb_graph_nodes.getD i []).getD j []),
        c < arch.nodes.length
        ∧ (arch.node c).pb_type
          = (arch.mode
            ((arch.pb_type (arch.node n).pb_type).modes.getD i 0)).pb_type_children.getD j 0 := by
  unfold instances_match_types at h
  rw [List.all_eq_true] at h
  have h1 := h n (List.mem_range.mpr hn)
  rw [List.all_eq_true] at h1
  have h2 := h1 i (List.mem_range.mpr hi)
  rw [List.all_eq_true] at h2
  have h3 := h2 j (List.mem_range.mpr hj)
  rw [Bool.and_eq_true] at h3
  obtain ⟨hne, hall⟩ := h3
  rw [List.all_eq_true] at hall
  constructor
  · cases hl : (((arch.node n).child_pb_graph_nodes.getD i []).getD j []) with
    | nil => rw [hl] at hne; cases hne
    | cons c0 _ => exact ⟨c0, rfl⟩
  · intro c hc
    have := hall c hc
    rw [Bool.and_eq_true] at this
    exact ⟨of_decide_eq_true this.1, by simpa using this.2⟩

/-- A primitive reached through any instances has a counterpart of the same pb_type
reached through first instances, from any node of the same pb_type. -/
theorem first_instances_suffice (arch : Arch) (hwf : instances_match_types arch = true)
    (n q : Nat) (hq : reaches_primitive arch false n q) :
    ∀ m, m < arch.nodes.length → n < arch.nodes.length →
      (arch.node m).pb_type = (arch.node n).pb_type →
      ∃ q0, reaches_primitive arch true m q0 ∧ (arch.node q0).pb_type = (arch.node q).pb_type := by
  induction hq with
  | here n hprim =>
    intro m _ _ hpb
    exact ⟨m, reaches_primitive.here m (by rw [hpb]; exact hprim), hpb⟩
  | child n i j k c p hprim hi hmode hj _ hc _ ih =>
    intro m hm hn hpb
    obtain ⟨_, halln⟩ := instances_match_types_spec arch hwf n i j hn hi hj
    obtain ⟨hcl, hct⟩ := halln c (List.get?_mem hc)
    rw [← hpb] at hi hj hmode hprim
    obtain ⟨⟨c0, hc0⟩, hallm⟩ := instances_match_types_spec arch hwf m i j hm hi hj
    obtain ⟨hc0l, hc0t⟩ := hallm c0 (List.get?_mem hc0)
    have hsame : (arch.node c0).pb_type = (arch.node c).pb_type := by
      rw [hc0t, hct, hpb]
    obtain ⟨q0, hq0, hq0t⟩ := ih c0 hc0l hcl hsame
    exact ⟨q0, reaches_primitive.child m i j 0 c0 q0 hprim hi hmode hj (fun _ => rfl) hc0 hq0,
      hq0t⟩

/-- Going down through first instances is going down through instances. -/
theorem reaches_primitive_of_first (arch : Arch) (n q : Nat)
    (hq : reaches_primitive arch true n q) : reaches_primitive arch false n q := by
  induction hq with
  | here n hprim => exact reaches_primitive.here n hprim
  | child n i j k c p hprim hi hmode hj _ hc _ ih =>
    exact reaches_primitive.child n i j k c p hprim hi hmode hj (fun h => by cases h) hc ih

/-- The loop over the logical block types keeps a lowest-cost feasible primitive of the
templates searched so far. -/
theorem lowest_cost_over_types (arch : Arch) (ext : Externals) (fuel : Nat)
    (blk_id : AtomBlockId) (logical_block_types : List t_logical_block_type)
    (hcost : ∀ n, 0 ≤ ext.compute_primitive_base_cost n) (acc : ℚ × Option Nat)
    (h : logical_block_types.foldlM
      (fun (acc : ℚ × Option Nat) type => do
        let cur ← get_expected_lowest_cost_primitive_for_atom_block_in_pb_graph_node
          arch ext blk_id fuel type.pb_graph_head UNDEFINED
        if cur.2 != UNDEFINED then
          if acc.1 == UNDEFINED || acc.1 > cur.2 then pure (cur.2, cur.1) else pure acc
        else pure acc)
      (UNDEFINED, none) = .ok acc) :
    best_so_far arch ext blk_id
      (fun n => ∃ type ∈ logical_block_types, type.pb_graph_head = some n) (acc.2, acc.1) := by
  have hundef : ∀ n, ext.compute_primitive_base_cost n ≠ UNDEFINED := by
    intro n hn
    have := hcost n
    rw [hn] at this
    unfold UNDEFINED at this
    norm_num at this
  have hfold := foldlM_ok_prefix _ _
    (fun (done : List t_logical_block_type) (acc : ℚ × Option Nat) =>
      best_so_far arch ext blk_id (fun n => ∃ type ∈ done, type.pb_graph_head = some n)
        (acc.2, acc.1)) ?_ _ _ ?_ h
  · exact hfold
  · intro done type a a2 _ ha hstep
    simp only [bind, Except.bind, pure, Except.pure] at hstep
    split at hstep
    · cases hstep
    · rename_i cur hcur
      have hspec := lowest_cost_in_pb_graph_node arch ext blk_id fuel _ _ hcur
      have hupd := best_so_far_update arch ext blk_id _ (a.2, a.1) cur _ ha hspec
      have hres : (a2.2, a2.1) = (match cur.1 with
          | none => (a.2, a.1)
          | some c => if (a.2, a.1).1.isNone || (a.2, a.1).2 > cur.2 then (some c, cur.2)
              else (a.2, a.1)) := by
        cases hc1 : cur.1 with
        | none =>
          have hu := (hspec.2 hc1).1
          simp only [hu, bne_self_eq_false, Bool.false_eq_true, if_false] at hstep
          cases hstep
          rfl
        | some c =>
          have hc2 := (hspec.1 c hc1).1
          have hne : (cur.2 != UNDEFINED) = true := by
            rw [hc2]
            simpa using hundef c
          simp only [hne, if_true] at hstep
          cases ha2 : a.2 with
          | none =>
            have hu := (ha.2 ha2).1
            simp only at hu
            simp only [hu, beq_self_eq_true, Bool.true_or, if_true] at hstep
            cases hstep
            simp [hc1]
          | some b =>
            have hb := (ha.1 b ha2).1
            simp only at hb
            have hbne : (a.1 == UNDEFINED) = false := by
              rw [hb]
              simpa using hundef b
            simp only [hbne, Bool.false_or] at hstep
            simp only [Option.isNone_some, Bool.false_or]
            split at hstep
            · rename_i hgt
              cases hstep
              simp only at hgt ⊢
              rw [if_pos hgt, hc1]
            · rename_i hgt
              cases hstep
              rw [if_neg hgt, ha2]
      rw [hres]
      refine best_so_far_mono arch ext blk_id _ _ _ ?_ hupd
      intro n
      constructor
      · rintro (⟨t, ht, hhead⟩ | hhead)
        · exact ⟨t, List.mem_append_left _ ht, hhead⟩
        · exact ⟨type, List.mem_append_right _ (List.mem_singleton.mpr rfl), hhead⟩
      · rintro ⟨t, ht, hhead⟩
        rcases List.mem_append.mp ht with ht | ht
        · exact Or.inl ⟨t, ht, hhead⟩
        · simp only [List.mem_singleton] at ht
          subst ht
          exact Or.inr hhead
  · refine ⟨fun p hp => (by cases hp), fun _ => ⟨rfl, ?_⟩⟩
    rintro c q ⟨t, ht, _⟩
    cases ht

/-- A loop whose steps all return returns. -/
theorem foldlM_returns {α β ε : Type} (f : β → α → Except ε β) (l : List α)
    (hf : ∀ b a, a ∈ l → ∃ b2, f b a = .ok b2) (b : β) : ∃ b2, l.foldlM f b = .ok b2 := by
  induction l generalizing b with
  | nil => exact ⟨b, rfl⟩
  | cons a t ih =>
    obtain ⟨b1, h1⟩ := hf b a (List.mem_cons_self _ _)
    obtain ⟨b2, h2⟩ := ih (fun b a ha => hf b a (List.mem_cons_of_mem _ ha)) b1
    refine ⟨b2, ?_⟩
    simp only [List.foldlM, bind, Except.bind, h1]
    exact h2

/-- With more fuel than the height of the subtree (measured by a rank that decreases from
a node to the first instances of its children) the recursive search returns. -/
theorem lowest_cost_in_pb_graph_node_returns (arch : Arch) (ext : Externals)
    (blk_id : AtomBlockId) (rank : Nat → Nat)
    (hrank : ∀ n i j c,
      (((arch.node n).child_pb_graph_nodes.getD i []).getD j []).head? = some c →
      rank c < rank n)
    (fuel : Nat) (node : Option Nat) (cost : ℚ) (hfuel : 0 < fuel)
    (hnode : ∀ n, node = some n → rank n + 1 < fuel) :
    ∃ r, get_expected_lowest_cost_primitive_for_atom_block_in_pb_graph_node arch ext blk_id
      fuel node cost = .ok r := by
  induction fuel generalizing node cost with
  | zero => exact absurd hfuel (Nat.lt_irrefl 0)
  | succ fuel ih =>
    cases node with
    | none =>
      unfold get_expected_lowest_cost_primitive_for_atom_block_in_pb_graph_node
      exact ⟨_, rfl⟩
    | some n =>
      have hn := hnode n rfl
      unfold get_expected_lowest_cost_primitive_for_atom_block_in_pb_graph_node
      simp only [pure, Except.pure]
      split
      · split
        · split <;> exact ⟨_, rfl⟩
        · exact ⟨_, rfl⟩
      · apply foldlM_returns
        intro acc i _
        split
        · exact ⟨_, rfl⟩
        · apply foldlM_returns
          intro accj j _
          have hchild : ∀ c, (((arch.node n).child_pb_graph_nodes.getD i []).getD j []).head?
              = some c → rank c + 1 < fuel := by
            intro c hc
            have := hrank n i j c hc
            omega
          have hpos : 0 < fuel := by omega
          obtain ⟨r, hr⟩ := ih _ UNDEFINED hpos hchild
          simp only [bind, Except.bind, hr]
          split
          · exact ⟨_, rfl⟩
          · split <;> exact ⟨_, rfl⟩

/-- With more fuel than the height of every template the search over the logical block
types returns. -/
theorem lowest_cost_primitive_returns (arch : Arch) (ext : Externals)
    (blk_id : AtomBlockId) (logical_block_types : List t_logical_block_type)
    (rank : Nat → Nat)
    (hrank : ∀ n i j c,
      (((arch.node n).child_pb_graph_nodes.getD i []).getD j []).head? = some c →
      rank c < rank n)
    (fuel : Nat) (hfuel : 0 < fuel)
    (hroots : ∀ type ∈ logical_block_types, ∀ root, type.pb_graph_head = some root →
      rank root + 1 < fuel) :
    ∃ best, get_expected_lowest_cost_primitive_for_atom_block arch ext fuel blk_id
      logical_block_types = .ok best := by
  unfold get_expected_lowest_cost_primitive_for_atom_block
  obtain ⟨acc, hacc⟩ := foldlM_returns
    (fun (acc : ℚ × Option Nat) (type : t_logical_block_type) => do
      let cur ← get_expected_lowest_cost_primitive_for_atom_block_in_pb_graph_node
        arch ext blk_id fuel type.pb_graph_head UNDEFINED
      if cur.2 != UNDEFINED then
        if acc.1 == UNDEFINED || acc.1 > cur.2 then pure (cur.2, cur.1) else pure acc
      else pure acc)
    logical_block_types
    (by
      intro acc type ht
      obtain ⟨r, hr⟩ := lowest_cost_in_pb_graph_node_returns arch ext blk_id rank hrank fuel
        type.pb_graph_head UNDEFINED hfuel (hroots type ht)
      simp only [bind, Except.bind, hr, pure, Except.pure]
      split
      · split <;> exact ⟨_, rfl⟩
      · exact ⟨_, rfl⟩)
    (UNDEFINED, none)
  refine ⟨acc.2, ?_⟩
  simp only [bind, Except.bind, pure, Except.pure] at hacc ⊢
  rw [hacc]

/-- Every run of the search over the logical block types that returns answers a feasible
primitive of lowest cost, or null when there is none. -/
theorem lowest_cost_primitive_spec (arch : Arch) (ext : Externals)
    (fuel : Nat) (blk_id : AtomBlockId) (logical_block_types : List t_logical_block_type)
    (best : Option Nat)
    (hcost : ∀ n, 0 ≤ ext.compute_primitive_base_cost n)
    (h : get_expected_lowest_cost_primitive_for_atom_block arch ext fuel blk_id
      logical_block_types = .ok best) :
    (∀ p, best = some p →
      ext.primitive_type_feasible blk_id (arch.node p).pb_type = true
      ∧ (∃ type ∈ logical_block_types, ∃ root, type.pb_graph_head = some root
          ∧ reaches_primitive arch true root p)
      ∧ ∀ type ∈ logical_block_types, ∀ root q, type.pb_graph_head = some root →
          reaches_primitive arch true root q →
          ext.primitive_type_feasible blk_id (arch.node q).pb_type = true →
          ext.compute_primitive_base_cost p ≤ ext.compute_primitive_base_cost q)
    ∧ (best = none ↔ ∀ type ∈ logical_block_types, ∀ root q, type.pb_graph_head = some root →
          reaches_primitive arch true root q →
          ext.primitive_type_feasible blk_id (arch.node q).pb_type = false)
    ∧ (instances_match_types arch = true →
        (∀ a b, (arch.node a).pb_type = (arch.node b).pb_type →
          ext.compute_primitive_base_cost a = ext.compute_primitive_base_cost b) →
        (∀ type ∈ logical_block_types, ∀ root, type.pb_graph_head = some root →
          root < arch.nodes.length) →
        (∀ p, best = some p →
          ∀ type ∈ logical_block_types, ∀ root q, type.pb_graph_head = some root →
            reaches_primitive arch false root q →
            ext.primitive_type_feasible blk_id (arch.node q).pb_type = true →
            ext.compute_primitive_base_cost p ≤ ext.compute_primitive_base_cost q)
        ∧ (best = none ↔ ∀ type ∈ logical_block_types, ∀ root q,
            type.pb_graph_head = some root → reaches_primitive arch false root q →
            ext.primitive_type_feasible blk_id (arch.node q).pb_type = false)) := by
  unfold get_expected_lowest_cost_primitive_for_atom_block at h
  simp only [bind, Except.bind, pure, Except.pure] at h
  split at h
  · cases h
  · rename_i acc hacc
    cases h
    obtain ⟨hb1, hb2⟩ := lowest_cost_over_types arch ext fuel blk_id logical_block_types hcost
      acc hacc
    simp only at hb1 hb2
    have hmin : ∀ p, acc.2 = some p →
        ∀ type ∈ logical_block_types, ∀ root q, type.pb_graph_head = some root →
          reaches_primitive arch true root q →
          ext.primitive_type_feasible blk_id (arch.node q).pb_type = true →
          ext.compute_primitive_base_cost p ≤ ext.compute_primitive_base_cost q :=
      fun p hp type ht root q hroot hq hf => (hb1 p hp).2.2.2 root q ⟨type, ht, hroot⟩ hq hf
    have hnone : acc.2 = none ↔ ∀ type ∈ logical_block_types, ∀ root q,
        type.pb_graph_head = some root → reaches_primitive arch true root q →
        ext.primitive_type_feasible blk_id (arch.node q).pb_type = false := by
      constructor
      · intro hn type ht root q hroot hq
        exact (hb2 hn).2 root q ⟨type, ht, hroot⟩ hq
      · intro hall
        cases hp : acc.2 with
        | none => rfl
        | some p =>
          obtain ⟨_, hf, ⟨root, ⟨type, ht, hroot⟩, hq⟩, _⟩ := hb1 p hp
          rw [hall type ht root p hroot hq] at hf
          cases hf
    refine ⟨?_, hnone, ?_⟩
    · intro p hp
      obtain ⟨_, hf, ⟨root, ⟨type, ht, hroot⟩, hq⟩, _⟩ := hb1 p hp
      exact ⟨hf, ⟨type, ht, root, hroot, hq⟩, hmin p hp⟩
    · intro hwf hsame hroots
      have hback : ∀ type ∈ logical_block_types, ∀ root q, type.pb_graph_head = some root →
          reaches_primitive arch false root q →
          ∃ q0, reaches_primitive arch true root q0
            ∧ (arch.node q0).pb_type = (arch.node q).pb_type := by
        intro type ht root q hroot hq
        have hr := hroots type ht root hroot
        exact first_instances_suffice arch hwf root q hq root hr hr rfl
      refine ⟨?_, ?_⟩
      · intro p hp type ht root q hroot hq hf
        obtain ⟨q0, hq0, hq0t⟩ := hback type ht root q hroot hq
        rw [← hsame q0 q hq0t]
        exact hmin p hp type ht root q0 hroot hq0 (by rw [hq0t]; exact hf)
      · rw [hnone]
        constructor
        · intro hall type ht root q hroot hq
          obtain ⟨q0, hq0, hq0t⟩ := hback type ht root q hroot hq
          rw [← hq0t]
          exact hall type ht root q0 hroot hq0
        · intro hall type ht root q hroot hq
          exact hall type ht root q hroot (reaches_primitive_of_first arch root q hq)

/-- The rank check, read for one node and one child. -/
theorem rank_decreases_spec (arch : Arch) (rank : Nat → Nat)
    (h : rank_decreases arch rank = true) (n i j c : Nat)
    (hc : (((arch.node n).child_pb_graph_nodes.getD i []).getD j []).head? = some c) :
    rank c < rank n := by
  have hj : ((arch.node n).child_pb_graph_nodes.getD i []).getD j []
      ∈ (arch.node n).child_pb_graph_nodes.getD i [] := by
    by_cases hlt : j < ((arch.node n).child_pb_graph_nodes.getD i []).length
    · rw [List.getD_eq_getElem _ _ hlt]
      exact List.getElem_mem hlt
    · rw [List.getD_eq_default _ _ (by omega)] at hc
      cases hc
  have hi : (arch.node n).child_pb_graph_nodes.getD i [] ∈ (arch.node n).child_pb_graph_nodes := by
    by_cases hlt : i < (arch.node n).child_pb_graph_nodes.length
    · rw [List.getD_eq_getElem _ _ hlt]
      exact List.getElem_mem hlt
    · rw [List.getD_eq_default _ _ (by omega)] at hj
      cases hj
  have hn : n < arch.nodes.length := by
    by_contra hge
    have hd : arch.node n = default := by
      simp only [Arch.node]
      rw [List.getD_eq_default _ _ (by omega)]
    rw [hd] at hi
    cases hi
  unfold rank_decreases at h
  rw [List.all_eq_true] at h
  have h1 := h n (List.mem_range.mpr hn)
  rw [List.all_eq_true] at h1
  have h2 := h1 _ hi
  rw [List.all_eq_true] at h2
  have h3 := h2 _ hj
  rw [hc] at h3
  exact of_decide_eq_true h3

/-- The loop over the sinks of lines 1130-1142, from any values of its two variables. -/
theorem sink_loop_eq (arch : Arch) (ext : Externals) (nl : AtomNetlist)
    (pat : t_pack_patterns) (connections : t_pack_pattern_connections) :
    ∀ (sinks : List AtomPinId) (acc : Bool × Option AtomBlockId),
      sinks.foldl
        (fun (acc : Bool × Option AtomBlockId) sink_pin_id =>
          let sink_block_id := nl.pin_block sink_pin_id
          let connected_to_latch := acc.1 || (nl.block_model sink_block_id == ext.latch_model)
          let pattern_sink_block_id :=
            if ext.primitive_type_feasible sink_block_id (pat.block connections.to_block).pb_type then
              let to_port_id := nl.find_atom_port sink_block_id
                (arch.pin connections.to_pin).port.model_port
              let to_pin_id := nl.find_pin to_port_id (arch.pin connections.to_pin).pin_number
              if to_pin_id == some sink_pin_id then some sink_block_id else acc.2
            else acc.2
          (connected_to_latch, pattern_sink_block_id))
        acc
      = (acc.1 || sinks.any (sink_is_latch ext nl),
         match (sinks.filter (sink_matches_connection arch ext nl pat connections)).getLast? with
         | some s => some (nl.pin_block s)
         | none => acc.2) := by
  have hstep : ∀ (acc : Bool × Option AtomBlockId) (s : AtomPinId),
      (let sink_block_id := nl.pin_block s
       let connected_to_latch := acc.1 || (nl.block_model sink_block_id == ext.latch_model)
       let pattern_sink_block_id :=
          if ext.primitive_type_feasible sink_block_id (pat.block connections.to_block).pb_type then
            let to_port_id := nl.find_atom_port sink_block_id
              (arch.pin connections.to_pin).port.model_port
            let to_pin_id := nl.find_pin to_port_id (arch.pin connections.to_pin).pin_number
            if to_pin_id == some s then some sink_block_id else acc.2
          else acc.2
       (connected_to_latch, pattern_sink_block_id))
      = (acc.1 || sink_is_latch ext nl s,
         if sink_matches_connection arch ext nl pat connections s then some (nl.pin_block s)
         else acc.2) := by
    intro acc s
    unfold sink_matches_connection sink_is_latch
    by_cases hf : ext.primitive_type_feasible (nl.pin_block s)
        (pat.block connections.to_block).pb_type = true
    · by_cases hp : nl.find_pin (nl.find_atom_port (nl.pin_block s)
          (arch.pin connections.to_pin).port.model_port)
          (arch.pin connections.to_pin).pin_number = some s
      · simp [hf, hp]
      · simp [hf, hp]
    · simp [hf]
  intro sinks
  induction sinks with
  | nil => intro acc; simp
  | cons s rest ih =>
    intro acc
    rw [List.foldl_cons, ih, hstep]
    simp only [List.any_cons, Bool.or_assoc, List.filter_cons]
    refine Prod.ext rfl ?_
    simp only
    cases hm : sink_matches_connection arch ext nl pat connections s
    · simp
    · simp only [if_true]
      cases List.filter (sink_matches_connection arch ext nl pat connections) rest with
      | nil => rfl
      | cons y l =>
        rw [List.getLast?_cons_cons, List.getLast?_eq_getLast _ (List.cons_ne_nil y l)]

/-- What `get_sink_block` answers once the source port and its net are found. -/
theorem get_sink_block_eq (arch : Arch) (ext : Externals) (nl : AtomNetlist)
    (pat : t_pack_patterns) (block_id : AtomBlockId) (connections : t_pack_pattern_connections)
    (port : AtomPortId) (net : AtomNetId)
    (hport : nl.find_atom_port block_id (arch.pin connections.from_pin).port.model_port
      = some port)
    (hnet : nl.port_net port (arch.pin connections.from_pin).pin_number = some net) :
    get_sink_block arch ext nl pat block_id connections
      = if (nl.net_sinks net).any (sink_is_latch ext nl) && (nl.net_sinks net).length > 1
        then none
        else (((nl.net_sinks net).filter
          (sink_matches_connection arch ext nl pat connections)).getLast?).map nl.pin_block := by
  unfold get_sink_block
  simp only [hport, hnet]
  rw [sink_loop_eq]
  simp only [Bool.false_or]
  cases ((nl.net_sinks net).filter
    (sink_matches_connection arch ext nl pat connections)).getLast? <;> rfl

/-- A template only raises flags with respect to itself. -/
theorem only_infer_flags_raised_refl (a : Arch) : only_infer_flags_raised a a :=
  ⟨rfl, rfl, rfl, rfl, rfl, fun _ => ⟨rfl, id⟩⟩

/-- Raising flags twice is raising flags. -/
theorem only_infer_flags_raised_trans {a b c : Arch} (h1 : only_infer_flags_raised a b)
    (h2 : only_infer_flags_raised b c) : only_infer_flags_raised a c := by
  obtain ⟨p1, m1, n1, i1, l1, e1⟩ := h1
  obtain ⟨p2, m2, n2, i2, l2, e2⟩ := h2
  refine ⟨p2.trans p1, m2.trans m1, n2.trans n1, i2.trans i1, l2.trans l1, fun e => ⟨?_, ?_⟩⟩
  · rw [(e2 e).1]
    conv_lhs => rw [(e1 e).1]
  · exact fun h => (e2 e).2 ((e1 e).2 h)

/-- The edges of the template after one flag has been set. -/
theorem set_infer_pattern_edge (a : Arch) (e e2 : Nat) :
    (a.set_infer_pattern e).edge e2
      = if e2 = e ∧ e < a.edges.length then { a.edge e with infer_pattern := true }
        else a.edge e2 := by
  simp only [Arch.set_infer_pattern, Arch.edge]
  exact list_getD_set _ _ _ _ _

/-- Setting one flag only raises flags, and the only flag that can be new is the one set. -/
theorem set_infer_pattern_raises (a : Arch) (e : Nat) :
    only_infer_flags_raised a (a.set_infer_pattern e)
    ∧ ∀ e2, ((a.set_infer_pattern e).edge e2).infer_pattern = true →
        (a.edge e2).infer_pattern = true ∨ e2 = e := by
  refine ⟨⟨rfl, rfl, rfl, rfl, ?_, fun e2 => ?_⟩, fun e2 => ?_⟩
  · simp [Arch.set_infer_pattern]
  · rw [set_infer_pattern_edge]
    split
    · rename_i h; rw [h.1]; exact ⟨rfl, fun _ => rfl⟩
    · exact ⟨rfl, id⟩
  · rw [set_infer_pattern_edge]
    split
    · rename_i h; exact fun _ => Or.inr h.1
    · exact fun h => Or.inl h

/-- Counting after one entry of a list has been written. -/
theorem countP_set {α : Type} (p : α → Bool) (d : α) :
    ∀ (l : List α) (i : Nat) (v : α), i < l.length →
      (l.set i v).countP p + (if p (l.getD i d) then 1 else 0)
        = l.countP p + (if p v then 1 else 0) := by
  intro l
  induction l with
  | nil => intro i v h; simp at h
  | cons x t ih =>
    intro i v h
    cases i with
    | zero =>
      simp only [List.set_cons_zero, List.countP_cons, List.getD_cons_zero]
      omega
    | succ i =>
      simp only [List.set_cons_succ, List.countP_cons, List.getD_cons_succ]
      have := ih i v (by simpa using h)
      omega

/-- Setting the flag of an edge of the arena that did not have it leaves one edge less
without the mark. -/
theorem uninferred_set (a : Arch) (e : Nat) (he : e < a.edges.length)
    (hf : (a.edge e).infer_pattern = false) :
    uninferred (a.set_infer_pattern e) + 1 = uninferred a := by
  have := countP_set (fun (x : t_pb_graph_edge) => !x.infer_pattern) default a.edges e
    { a.edge e with infer_pattern := true } he
  simp only [Arch.edge] at hf
  simp only [hf, Bool.not_false, if_true, Bool.not_true] at this
  simp only [uninferred, Arch.set_infer_pattern]
  simpa using this

/-- Forward inference only raises flags, and the flags it raises are those of unlabelled
edges that are the only output edge of a pin. -/
theorem forward_infer_pattern_marks (fuel : Nat) (a a2 : Arch) (pin : Nat)
    (h : forward_infer_pattern fuel a pin = .ok a2) :
    only_infer_flags_raised a a2
    ∧ ∀ e, (a2.edge e).infer_pattern = true → (a.edge e).infer_pattern = true
        ∨ ((a.edge e).pack_pattern_names = [] ∧ ∃ p, (a.pin p).output_edges = [e]) := by
  induction fuel generalizing a pin with
  | zero => unfold forward_infer_pattern at h; cases h
  | succ fuel ih =>
    unfold forward_infer_pattern at h
    simp only [pure, Except.pure] at h
    split at h
    · rename_i e0 hout
      split at h
      · rename_i hcond
        simp only [Bool.and_eq_true, beq_iff_eq, List.length_eq_zero] at hcond
        have hnew : ∀ e, ((a.set_infer_pattern e0).edge e).infer_pattern = true →
            (a.edge e).infer_pattern = true
            ∨ ((a.edge e).pack_pattern_names = [] ∧ ∃ p, (a.pin p).output_edges = [e]) := by
          intro e he
          rcases (set_infer_pattern_raises a e0).2 e he with h1 | h1
          · exact Or.inl h1
          · subst h1; exact Or.inr ⟨hcond.1, pin, hout⟩
        split at h
        · obtain ⟨hr, hm⟩ := ih _ _ h
          have hs := (set_infer_pattern_raises a e0).1
          refine ⟨only_infer_flags_raised_trans hs hr, fun e he => ?_⟩
          rcases hm e he with h1 | ⟨h1, p, hp⟩
          · exact hnew e h1
          · right
            have hedge := (hs.2.2.2.2.2 e).1
            have hpins : (a.set_infer_pattern e0).pins = a.pins := hs.2.2.2.1
            refine ⟨?_, p, ?_⟩
            · rw [hedge] at h1; exact h1
            · simpa [Arch.pin, hpins] using hp
        · cases h
          exact ⟨(set_infer_pattern_raises a e0).1, hnew⟩
      · cases h
        exact ⟨only_infer_flags_raised_refl _, fun e he => Or.inl he⟩
    · cases h
      exact ⟨only_infer_flags_raised_refl _, fun e he => Or.inl he⟩

/-- Backward inference only raises flags, and the flags it raises are those of unlabelled
edges that are the only input edge of a pin. -/
theorem backward_infer_pattern_marks (fuel : Nat) (a a2 : Arch) (pin : Nat)
    (h : backward_infer_pattern fuel a pin = .ok a2) :
    only_infer_flags_raised a a2
    ∧ ∀ e, (a2.edge e).infer_pattern = true → (a.edge e).infer_pattern = true
        ∨ ((a.edge e).pack_pattern_names = [] ∧ ∃ p, (a.pin p).input_edges = [e]) := by
  induction fuel generalizing a pin with
  | zero => unfold backward_infer_pattern at h; cases h
  | succ fuel ih =>
    unfold backward_infer_pattern at h
    simp only [pure, Except.pure] at h
    split at h
    · rename_i e0 hout
      split at h
      · rename_i hcond
        simp only [Bool.and_eq_true, beq_iff_eq, List.length_eq_zero] at hcond
        have hnew : ∀ e, ((a.set_infer_pattern e0).edge e).infer_pattern = true →
            (a.edge e).infer_pattern = true
            ∨ ((a.edge e).pack_pattern_names = [] ∧ ∃ p, (a.pin p).input_edges = [e]) := by
          intro e he
          rcases (set_infer_pattern_raises a e0).2 e he with h1 | h1
          · exact Or.inl h1
          · subst h1; exact Or.inr ⟨hcond.1, pin, hout⟩
        split at h
        · obtain ⟨hr, hm⟩ := ih _ _ h
          have hs := (set_infer_pattern_raises a e0).1
          refine ⟨only_infer_flags_raised_trans hs hr, fun e he => ?_⟩
          rcases hm e he with h1 | ⟨h1, p, hp⟩
          · exact hnew e h1
          · right
            have hedge := (hs.2.2.2.2.2 e).1
            have hpins : (a.set_infer_pattern e0).pins = a.pins := hs.2.2.2.1
            refine ⟨?_, p, ?_⟩
            · rw [hedge] at h1; exact h1
            · simpa [Arch.pin, hpins] using hp
        · cases h
          exact ⟨(set_infer_pattern_raises a e0).1, hnew⟩
      · cases h
        exact ⟨only_infer_flags_raised_refl _, fun e he => Or.inl he⟩
    · cases h
      exact ⟨only_infer_flags_raised_refl _, fun e he => Or.inl he⟩

/-- With more fuel than there are edges without the mark, forward inference returns, and it
leaves no more edges without the mark than it found. -/
theorem forward_infer_pattern_returns (fuel : Nat) (a : Arch) (pin : Nat)
    (h : uninferred a < fuel) :
    ∃ a2, forward_infer_pattern fuel a pin = .ok a2 ∧ uninferred a2 ≤ uninferred a := by
  induction fuel generalizing a pin with
  | zero => omega
  | succ fuel ih =>
    unfold forward_infer_pattern
    simp only [pure, Except.pure]
    split
    · rename_i e0 hout
      split
      · rename_i hcond
        simp only [Bool.and_eq_true, beq_iff_eq, List.length_eq_zero] at hcond
        by_cases he : e0 < a.edges.length
        · have hdec := uninferred_set a e0 he hcond.2
          split
          · obtain ⟨a2, h2, hle⟩ := ih (a.set_infer_pattern e0) _ (by omega)
            exact ⟨a2, h2, by omega⟩
          · exact ⟨_, rfl, by omega⟩
        · have hsame : a.set_infer_pattern e0 = a := by
            simp only [Arch.set_infer_pattern]
            rw [List.set_eq_of_length_le (by omega)]
          rw [hsame]
          split
          · rename_i p0 hp
            simp only [Arch.edge] at hp
            rw [List.getD_eq_default _ _ (by omega)] at hp
            cases hp
          · exact ⟨_, rfl, le_refl _⟩
      · exact ⟨_, rfl, le_refl _⟩
    · exact ⟨_, rfl, le_refl _⟩

/-- The same for backward inference. -/
theorem backward_infer_pattern_returns (fuel : Nat) (a : Arch) (pin : Nat)
    (h : uninferred a < fuel) :
    ∃ a2, backward_infer_pattern fuel a pin = .ok a2 ∧ uninferred a2 ≤ uninferred a := by
  induction fuel generalizing a pin with
  | zero => omega
  | succ fuel ih =>
    unfold backward_infer_pattern
    simp only [pure, Except.pure]
    split
    · rename_i e0 hout
      split
      · rename_i hcond
        simp only [Bool.and_eq_true, beq_iff_eq, List.length_eq_zero] at hcond
        by_cases he : e0 < a.edges.length
        · have hdec := uninferred_set a e0 he hcond.2
          split
          · obtain ⟨a2, h2, hle⟩ := ih (a.set_infer_pattern e0) _ (by omega)
            exact ⟨a2, h2, by omega⟩
          · exact ⟨_, rfl, by omega⟩
        · have hsame : a.set_infer_pattern e0 = a := by
            simp only [Arch.set_infer_pattern]
            rw [List.set_eq_of_length_le (by omega)]
          rw [hsame]
          split
          · rename_i p0 hp
            simp only [Arch.edge] at hp
            rw [List.getD_eq_default _ _ (by omega)] at hp
            cases hp
          · exact ⟨_, rfl, le_refl _⟩
      · exact ⟨_, rfl, le_refl _⟩
    · exact ⟨_, rfl, le_refl _⟩

/-- With more fuel than there are edges without the mark, every sequence of inference calls
returns. -/
theorem infer_calls_returns (fuel : Nat) (calls : List (Bool × Nat)) :
    ∀ (a : Arch), uninferred a < fuel → ∃ a2, infer_calls fuel a calls = .ok a2 := by
  induction calls with
  | nil => intro a _; exact ⟨a, rfl⟩
  | cons c rest ih =>
    intro a h
    simp only [infer_calls, List.foldlM_cons, bind, Except.bind]
    cases hc : c.1
    · obtain ⟨a1, h1, hle⟩ := backward_infer_pattern_returns fuel a c.2 h
      simp only [Bool.false_eq_true, if_false, h1]
      exact ih a1 (by omega)
    · obtain ⟨a1, h1, hle⟩ := forward_infer_pattern_returns fuel a c.2 h
      simp only [if_true, h1]
      exact ih a1 (by omega)

/-- Every sequence of inference calls only raises flags and keeps the inferred edges
unlabelled sole edges of a pin. -/
theorem infer_calls_marks (fuel : Nat) (calls : List (Bool × Nat)) :
    ∀ (a a2 : Arch), infer_calls fuel a calls = .ok a2 → inferred_edges_ok a →
      inferred_edges_ok a2 ∧ only_infer_flags_raised a a2 := by
  induction calls with
  | nil =>
    intro a a2 h hok
    simp only [infer_calls, List.foldlM_nil, pure, Except.pure] at h
    cases h
    exact ⟨hok, only_infer_flags_raised_refl _⟩
  | cons c rest ih =>
    intro a a2 h hok
    simp only [infer_calls, List.foldlM_cons, bind, Except.bind] at h
    split at h
    · cases h
    · rename_i a1 h1
      have hstep : only_infer_flags_raised a a1
          ∧ ∀ e, (a1.edge e).infer_pattern = true → (a.edge e).infer_pattern = true
            ∨ ((a.edge e).pack_pattern_names = []
              ∧ ∃ p, (a.pin p).output_edges = [e] ∨ (a.pin p).input_edges = [e]) := by
        split at h1
        · obtain ⟨hr, hm⟩ := forward_infer_pattern_marks fuel a a1 c.2 h1
          refine ⟨hr, fun e he => ?_⟩
          rcases hm e he with h2 | ⟨h2, p, hp⟩
          · exact Or.inl h2
          · exact Or.inr ⟨h2, p, Or.inl hp⟩
        · obtain ⟨hr, hm⟩ := backward_infer_pattern_marks fuel a a1 c.2 h1
          refine ⟨hr, fun e he => ?_⟩
          rcases hm e he with h2 | ⟨h2, p, hp⟩
          · exact Or.inl h2
          · exact Or.inr ⟨h2, p, Or.inr hp⟩
      obtain ⟨hr, hm⟩ := hstep
      have hok1 : inferred_edges_ok a1 := by
        intro e he
        have hedge := (hr.2.2.2.2.2 e).1
        have hpins : a1.pins = a.pins := hr.2.2.2.1
        have hold : (a.edge e).pack_pattern_names = []
            ∧ ∃ p, (a.pin p).output_edges = [e] ∨ (a.pin p).input_edges = [e] := by
          rcases hm e he with h2 | h2
          · exact hok e h2
          · exact h2
        refine ⟨?_, ?_⟩
        · rw [hedge]; exact hold.1
        · obtain ⟨p, hp⟩ := hold.2
          exact ⟨p, by simpa [Arch.pin, hpins] using hp⟩
      obtain ⟨hok2, hr2⟩ := ih a1 a2 h hok1
      exact ⟨hok2, only_infer_flags_raised_trans hr hr2⟩

/-- The acyclicity check, read for one atom and its driver. -/
theorem chain_links_acyclic_spec (arch : Arch) (nl : AtomNetlist) (root_ipin : Nat)
    (rank : AtomBlockId → Nat) (h : chain_links_acyclic arch nl root_ipin rank = true)
    (b d : AtomBlockId) (hb : b ∈ nl.blocks)
    (hd : nl.find_atom_pin_driver b (arch.pin root_ipin).port.model_port
      (arch.pin root_ipin).pin_number = some d) :
    d ∈ nl.blocks ∧ rank d < rank b := by
  unfold chain_links_acyclic at h
  rw [List.all_eq_true] at h
  have := h b hb
  rw [hd] at this
  simpa using this

/-- What `try_create_molecule` does to the molecule list: nothing when it answers the
invalid id; otherwise it appends one forced-pack molecule of the pattern, with one slot per
block of the pattern, and answers its index. -/
theorem try_create_molecule_appends (arch : Arch) (ext : Externals) (nl : AtomNetlist)
    (fuel pack_pattern_index : Nat) (blk_id : AtomBlockId) (s s1 : Prepacker)
    (r : Option PackMoleculeId)
    (h : try_create_molecule arch ext nl fuel pack_pattern_index blk_id s = .ok (s1, r)) :
    s1.list_of_pack_patterns = s.list_of_pack_patterns
    ∧ (r = none → s1.pack_molecules_ = s.pack_molecules_)
    ∧ (∀ id, r = some id → id = s.pack_molecules_.length
        ∧ ∃ mol : t_pack_molecule, s1.pack_molecules_ = s.pack_molecules_ ++ [mol]
          ∧ mol.type = .MOLECULE_FORCED_PACK
          ∧ mol.pack_pattern = some pack_pattern_index
          ∧ mol.atom_block_ids.length
              = (s.list_of_pack_patterns.getD pack_pattern_index default).num_blocks) := by
  unfold try_create_molecule at h
  simp only [bind, Except.bind, pure, Except.pure] at h
  repeat' split at h
  all_goals (try cases h)
  all_goals first
    | exact ⟨rfl, fun _ => rfl, by intro id hid; cases hid⟩
    | skip
  all_goals
    refine ⟨rfl, fun hn => (by cases hn), ?_⟩
    intro id hid
    injection hid with hid
    refine ⟨hid.symm, _, rfl, rfl, rfl, ?_⟩
    have := (try_expand_molecule_atoms arch ext nl fuel _ _ _ _ _ (by assumption)).1
    simpa using this

/-- The assignment of line 847 to the molecule just appended. -/
theorem set_base_gain_last (s : Prepacker) (mols : List t_pack_molecule) (mol : t_pack_molecule)
    (h : s.pack_molecules_ = mols ++ [mol]) :
    (set_base_gain s mols.length).pack_molecules_
      = mols ++ [{ mol with base_gain := (mol.atom_block_ids.length : ℚ)
          - (s.list_of_pack_patterns.getD (mol.pack_pattern.getD 0) default).base_cost / 100 }]
    ∧ (set_base_gain s mols.length).list_of_pack_patterns = s.list_of_pack_patterns := by
  refine ⟨?_, rfl⟩
  simp only [set_base_gain, h]
  rw [List.getD_eq_getElem?_getD, List.getElem?_append_right (le_refl _)]
  simp

/-- Appending a molecule that is no forced pack, or one that has its gain assigned, keeps
the gains assigned. -/
theorem gains_assigned_push (s s1 : Prepacker) (mol : t_pack_molecule) (p : Nat)
    (hs : gains_assigned s)
    (hpat : s1.list_of_pack_patterns = s.list_of_pack_patterns)
    (hmols : s1.pack_molecules_ = s.pack_molecules_ ++ [mol])
    (hmol : mol.type = .MOLECULE_FORCED_PACK → mol.pack_pattern = some p
      ∧ mol.atom_block_ids.length = (s.list_of_pack_patterns.getD p default).num_blocks
      ∧ mol.base_gain = (mol.atom_block_ids.length : ℚ)
          - (s.list_of_pack_patterns.getD p default).base_cost / 100) :
    gains_assigned s1 := by
  intro m hm hty
  rw [hmols] at hm
  rw [hpat]
  rcases List.mem_append.mp hm with hm | hm
  · exact hs m hm hty
  · simp only [List.mem_singleton] at hm
    subst hm
    exact ⟨p, hmol hty⟩

/-- The atoms loop keeps the gains assigned. -/
theorem match_pattern_on_atoms_gains (arch : Arch) (ext : Externals) (nl : AtomNetlist)
    (best_pattern : Nat) (fuel : Nat) :
    ∀ (blocks : List AtomBlockId) (s s1 : Prepacker),
      match_pattern_on_atoms arch ext nl best_pattern fuel blocks s = .ok s1 →
      gains_assigned s → gains_assigned s1 := by
  induction fuel with
  | zero =>
    intro blocks s s1 h hc
    cases blocks with
    | nil =>
      simp only [match_pattern_on_atoms, pure, Except.pure] at h
      injection h with h; subst h; exact hc
    | cons b rest =>
      simp [match_pattern_on_atoms, throw, throwThe, MonadExceptOf.throw] at h
  | succ n ih =>
    intro blocks s s1 h hc
    cases blocks with
    | nil =>
      simp only [match_pattern_on_atoms, pure, Except.pure] at h
      injection h with h; subst h; exact hc
    | cons b rest =>
      simp only [match_pattern_on_atoms, bind, Except.bind] at h
      split at h
      · cases h
      · rename_i r hr
        obtain ⟨hp1, hnone, hsome⟩ := try_create_molecule_appends arch ext nl n best_pattern b s
          r.1 r.2 hr
        split at h
        · rename_i hr2
          have hc1 : gains_assigned r.1 := by
            intro m hm hty
            rw [hnone hr2] at hm
            rw [hp1]
            exact hc m hm hty
          exact ih _ _ _ h hc1
        · rename_i cur hcur
          obtain ⟨hid, mol, hmols, hty, hpat, hlen⟩ := hsome cur hcur
          obtain ⟨hg, hgp⟩ := set_base_gain_last r.1 s.pack_molecules_ mol hmols
          rw [← hid] at hg
          have hc1 : gains_assigned (set_base_gain r.1 cur) := by
            refine gains_assigned_push s _ _ best_pattern hc (hgp.trans hp1) hg ?_
            intro _
            refine ⟨hpat, hlen, ?_⟩
            simp only [hpat, Option.getD_some, hp1]
          split at h
          · exact ih _ _ _ h hc1
          · split at h
            · exact ih _ _ _ h hc1
            · exact ih _ _ _ h hc1

/-- The fallback loop keeps the gains assigned. -/
theorem add_single_atom_molecules_gains (arch : Arch) (ext : Externals) (fuel : Nat)
    (logical_block_types : List t_logical_block_type) :
    ∀ (blocks : List AtomBlockId) (s s1 : Prepacker),
      add_single_atom_molecules arch ext fuel logical_block_types blocks s = .ok s1 →
      gains_assigned s → gains_assigned s1 := by
  intro blocks
  induction blocks with
  | nil =>
    intro s s1 h hc
    simp only [add_single_atom_molecules, pure, Except.pure] at h
    injection h with h; subst h
    exact hc
  | cons b rest ih =>
    intro s s1 h hc
    simp only [add_single_atom_molecules, bind, Except.bind] at h
    split at h
    · cases h
    · split at h
      · cases h
      · split at h
        · refine ih _ _ h ?_
          refine gains_assigned_push s _ (single_atom_molecule b) 0 hc rfl rfl ?_
          intro hty
          cases hty
        · refine ih _ _ h ?_
          exact hc

/-- What `init_molecule_chain_info` answers, by the driver of the chain input pin of the
root atom: a fresh chain id and a new record that is not long when there is no driver or the
driver is in no committed molecule; the chain id of the molecule of the driver, whose record
becomes long, when that molecule has one; the assertion of line 1730 when it has none. -/
theorem init_molecule_chain_info_spec (arch : Arch) (nl : AtomNetlist) (blk_id : AtomBlockId)
    (pat : t_pack_patterns) (pack_molecules : List t_pack_molecule)
    (atom_molecules : List (AtomBlockId × PackMoleculeId)) (chain_info : List t_chain_info)
    (root_ipin : Nat) (r1 : List Nat) (r2 : List (List Nat))
    (hpins : pat.chain_root_pins = (root_ipin :: r1) :: r2) :
    ((nl.find_atom_pin_driver blk_id (arch.pin root_ipin).port.model_port
          (arch.pin root_ipin).pin_number = none
        ∨ ∃ d, nl.find_atom_pin_driver blk_id (arch.pin root_ipin).port.model_port
              (arch.pin root_ipin).pin_number = some d
            ∧ atom_in_map atom_molecules d = false) →
      init_molecule_chain_info arch nl blk_id pat pack_molecules atom_molecules chain_info
        = .ok (some chain_info.length, chain_info ++ [{ is_long_chain := false }]))
    ∧ (∀ d e, nl.find_atom_pin_driver blk_id (arch.pin root_ipin).port.model_port
          (arch.pin root_ipin).pin_number = some d →
        atom_molecules.find? (fun e => e.1 == d) = some e →
        (∀ c, (pack_molecules.getD e.2 default).chain_id = some c →
          init_molecule_chain_info arch nl blk_id pat pack_molecules atom_molecules chain_info
            = .ok (some c, chain_info.set c { is_long_chain := true }))
        ∧ ((pack_molecules.getD e.2 default).chain_id = none →
          init_molecule_chain_info arch nl blk_id pat pack_molecules atom_molecules chain_info
            = .error (.assert_failed 1730))) := by
  have hipin : chain_root_ipin pat = .ok root_ipin := by
    unfold chain_root_ipin
    rw [hpins]
    rfl
  constructor
  · intro h
    unfold init_molecule_chain_info
    simp only [hipin, bind, Except.bind, pure, Except.pure]
    rcases h with h | ⟨d, h, hmap⟩
    · simp only [h]
    · simp only [h]
      have : atom_molecules.find? (fun e => e.1 == d) = none := by
        rw [List.find?_eq_none]
        intro x hx hxd
        have hin : atom_in_map atom_molecules d = true := by
          unfold atom_in_map
          rw [List.any_eq_true]
          exact ⟨x, hx, hxd⟩
        rw [hmap] at hin
        cases hin
      simp only [this]
  · intro d e hd he
    unfold init_molecule_chain_info
    simp only [hipin, bind, Except.bind, pure, Except.pure, hd, he]
    constructor
    · intro c hc
      simp only [hc]
    · intro hc
      simp only [hc]
      rfl

/-- The predicate, as an inequation. -/
theorem not_fatal_iff {α : Type} (x : Except PrepackError α) :
    not_fatal_no_primitive x ↔ x ≠ .error .fatal_no_primitive := by
  unfold not_fatal_no_primitive
  split
  · simp
  · rename_i h
    constructor
    · intro _ hx
      exact h hx
    · intro _
      trivial

/-- A run that returns does not stop with the fatal error. -/
theorem not_fatal_ok {α : Type} (a : α) :
    not_fatal_no_primitive (Except.ok a : Except PrepackError α) := by
  trivial

/-- A run that stops with another error does not stop with the fatal error. -/
theorem not_fatal_error {α : Type} (e : PrepackError) (he : e ≠ .fatal_no_primitive) :
    not_fatal_no_primitive (Except.error e : Except PrepackError α) := by
  rw [not_fatal_iff]
  intro h
  cases h
  exact he rfl

/-- An assertion does not raise the fatal error. -/
theorem not_fatal_assert (line : Nat) (cond : Bool) :
    not_fatal_no_primitive (vtr_assert line cond) := by
  unfold vtr_assert
  split
  · exact not_fatal_ok _
  · exact not_fatal_error _ (by intro h; cases h)

/-- Two steps that do not raise the fatal error, run in sequence, do not raise it. -/
theorem not_fatal_bind {α β : Type} {x : Except PrepackError α}
    {f : α → Except PrepackError β} (hx : not_fatal_no_primitive x)
    (hf : ∀ a, not_fatal_no_primitive (f a)) : not_fatal_no_primitive (x >>= f) := by
  cases x with
  | error e =>
    rw [not_fatal_iff] at hx ⊢
    intro h
    apply hx
    cases h
    rfl
  | ok a => exact hf a

/-- `get_driving_block` does not raise the fatal error. -/
theorem get_driving_block_not_fatal (arch : Arch) (nl : AtomNetlist) (block_id : AtomBlockId)
    (connections : t_pack_pattern_connections) :
    not_fatal_no_primitive (get_driving_block arch nl block_id connections) := by
  unfold get_driving_block
  repeat' first
    | exact not_fatal_ok _
    | exact not_fatal_error _ (by decide)
    | exact not_fatal_assert _ _
    | refine not_fatal_bind ?_ (fun _ => ?_)
    | split
    | dsimp only

/-- The loop over the connections of a slot does not raise the fatal error. -/
theorem expand_connections_not_fatal (arch : Arch) (ext : Externals) (nl : AtomNetlist)
    (pat : t_pack_patterns) (pattern_block : Nat) (block_id : AtomBlockId) :
    ∀ (l : List t_pack_pattern_connections),
      not_fatal_no_primitive (expand_connections arch ext nl pat pattern_block block_id l) := by
  intro l
  induction l with
  | nil => exact not_fatal_ok _
  | cons c rest ih =>
    unfold expand_connections
    repeat' first
      | exact not_fatal_ok _
      | exact not_fatal_error _ (by decide)
      | exact not_fatal_assert _ _
      | exact ih
      | exact get_driving_block_not_fatal _ _ _ _
      | refine not_fatal_bind ?_ (fun _ => ?_)
      | split

/-- The matching loop does not raise the fatal error. -/
theorem try_expand_molecule_loop_not_fatal (arch : Arch) (ext : Externals) (nl : AtomNetlist)
    (pat : t_pack_patterns) (atom_molecules : List (AtomBlockId × PackMoleculeId))
    (fuel : Nat) :
    ∀ (queue : List (Nat × Option AtomBlockId)) (ids : List (Option AtomBlockId)),
      not_fatal_no_primitive
        (try_expand_molecule_loop arch ext nl pat atom_molecules fuel queue ids) := by
  induction fuel with
  | zero =>
    intro queue ids
    cases queue with
    | nil => exact not_fatal_ok _
    | cons x q => exact not_fatal_error _ (by decide)
  | succ fuel ih =>
    intro queue ids
    cases queue with
    | nil => exact not_fatal_ok _
    | cons x q =>
      unfold try_expand_molecule_loop
      repeat' first
        | exact not_fatal_ok _
        | exact not_fatal_error _ (by decide)
        | exact ih _ _
        | exact expand_connections_not_fatal _ _ _ _ _ _ _
        | refine not_fatal_bind ?_ (fun _ => ?_)
          | split
          | dsimp only

/-- `find_new_root_atom_for_chain` does not raise the fatal error. -/
theorem find_new_root_atom_for_chain_not_fatal (arch : Arch) (ext : Externals)
    (nl : AtomNetlist) (pat : t_pack_patterns)
    (atom_molecules : List (AtomBlockId × PackMoleculeId)) (fuel : Nat) :
    ∀ (blk_id : AtomBlockId), not_fatal_no_primitive
      (find_new_root_atom_for_chain arch ext nl pat atom_molecules fuel blk_id) := by
  induction fuel with
  | zero => intro blk_id; exact not_fatal_error _ (by decide)
  | succ fuel ih =>
    intro blk_id
    unfold find_new_root_atom_for_chain chain_root_ipin
    repeat' first
      | exact not_fatal_ok _
      | exact not_fatal_error _ (by decide)
      | exact not_fatal_assert _ _
      | exact ih _
      | refine not_fatal_bind ?_ (fun _ => ?_)
      | split
      | dsimp only

/-- `init_molecule_chain_info` does not raise the fatal error. -/
theorem init_molecule_chain_info_not_fatal (arch : Arch) (nl : AtomNetlist)
    (blk_id : AtomBlockId) (pat : t_pack_patterns) (pack_molecules : List t_pack_molecule)
    (atom_molecules : List (AtomBlockId × PackMoleculeId)) (chain_info : List t_chain_info) :
    not_fatal_no_primitive
      (init_molecule_chain_info arch nl blk_id pat pack_molecules atom_molecules chain_info) := by
  unfold init_molecule_chain_info chain_root_ipin
  repeat' first
    | exact not_fatal_ok _
    | exact not_fatal_error _ (by decide)
    | refine not_fatal_bind ?_ (fun _ => ?_)
    | split
    | dsimp only

/-- The commit loop does not raise the fatal error. -/
theorem commit_atoms_not_fatal (pat : t_pack_patterns) (ids : List (Option AtomBlockId))
    (m : PackMoleculeId) :
    ∀ (l : List Nat) (amap : List (AtomBlockId × PackMoleculeId)),
      not_fatal_no_primitive (commit_atoms pat ids m l amap) := by
  intro l
  induction l with
  | nil => intro amap; exact not_fatal_ok _
  | cons i rest ih =>
    intro amap
    unfold commit_atoms
    repeat' first
      | exact not_fatal_ok _
      | exact not_fatal_error _ (by decide)
      | exact not_fatal_assert _ _
      | exact ih _
      | refine not_fatal_bind ?_ (fun _ => ?_)
      | split

/-- `try_create_molecule` does not raise the fatal error. -/
theorem try_create_molecule_not_fatal (arch : Arch) (ext : Externals) (nl : AtomNetlist)
    (fuel pack_pattern_index : Nat) (blk_id : AtomBlockId) (s : Prepacker) :
    not_fatal_no_primitive
      (try_create_molecule arch ext nl fuel pack_pattern_index blk_id s) := by
  unfold try_create_molecule try_expand_molecule
  repeat' first
    | exact not_fatal_ok _
    | exact not_fatal_error _ (by decide)
    | exact find_new_root_atom_for_chain_not_fatal _ _ _ _ _ _ _
    | exact try_expand_molecule_loop_not_fatal _ _ _ _ _ _ _ _
    | exact init_molecule_chain_info_not_fatal _ _ _ _ _ _ _
    | exact commit_atoms_not_fatal _ _ _ _ _
    | refine not_fatal_bind ?_ (fun _ => ?_)
    | split
    | dsimp only

/-- The atoms loop does not raise the fatal error. -/
theorem match_pattern_on_atoms_not_fatal (arch : Arch) (ext : Externals) (nl : AtomNetlist)
    (best_pattern : Nat) (fuel : Nat) :
    ∀ (blocks : List AtomBlockId) (s : Prepacker),
      not_fatal_no_primitive (match_pattern_on_atoms arch ext nl best_pattern fuel blocks s) := by
  induction fuel with
  | zero =>
    intro blocks s
    cases blocks with
    | nil => exact not_fatal_ok _
    | cons x q => exact not_fatal_error _ (by decide)
  | succ fuel ih =>
    intro blocks s
    cases blocks with
    | nil => exact not_fatal_ok _
    | cons x q =>
      unfold match_pattern_on_atoms
      repeat' first
        | exact not_fatal_ok _
        | exact not_fatal_error _ (by decide)
        | exact ih _ _
        | exact try_create_molecule_not_fatal _ _ _ _ _ _ _
        | refine not_fatal_bind ?_ (fun _ => ?_)
          | split
          | dsimp only

/-- The assignment loop does not raise the fatal error when its body does not. -/
theorem assign_patterns_not_fatal (arch : Arch) (pats : List t_pack_patterns) {σ : Type}
    (body : Nat → σ → Except PrepackError σ)
    (hbody : ∀ b s, not_fatal_no_primitive (body b s)) :
    ∀ (l : List Nat) (is_used : List Bool) (s : σ),
      not_fatal_no_primitive (assign_patterns arch pats body l is_used s) := by
  intro l
  induction l with
  | nil => intro is_used s; exact not_fatal_ok _
  | cons i rest ih =>
    intro is_used s
    unfold assign_patterns root_in_disabled_mode
    repeat' first
      | exact not_fatal_ok _
      | exact not_fatal_error _ (by decide)
      | exact not_fatal_assert _ _
      | exact ih _ _
      | exact hbody _ _
      | refine not_fatal_bind ?_ (fun _ => ?_)
      | split

/-- The fallback loop stops with the fatal error when an atom of the list has no feasible
primitive, and returns when every atom has one. -/
theorem add_single_atom_molecules_fatal (arch : Arch) (ext : Externals) (fuel : Nat)
    (logical_block_types : List t_logical_block_type) (rank : Nat → Nat)
    (hcost : ∀ n, 0 ≤ ext.compute_primitive_base_cost n)
    (hrank : ∀ n i j c,
      (((arch.node n).child_pb_graph_nodes.getD i []).getD j []).head? = some c →
      rank c < rank n)
    (hfuel : 0 < fuel)
    (hroots : ∀ type ∈ logical_block_types, ∀ root, type.pb_graph_head = some root →
      rank root + 1 < fuel) :
    ∀ (blocks : List AtomBlockId) (s : Prepacker),
      ((∃ blk ∈ blocks, no_feasible_primitive arch ext logical_block_types true blk) →
        add_single_atom_molecules arch ext fuel logical_block_types blocks s
          = .error .fatal_no_primitive)
      ∧ ((∀ blk ∈ blocks, ¬ no_feasible_primitive arch ext logical_block_types true blk) →
        ∃ s1, add_single_atom_molecules arch ext fuel logical_block_types blocks s
          = .ok s1) := by
  intro blocks
  induction blocks with
  | nil =>
    intro s
    exact ⟨fun ⟨_, h, _⟩ => (by cases h), fun _ => ⟨s, rfl⟩⟩
  | cons b rest ih =>
    intro s
    obtain ⟨best, hbest⟩ := lowest_cost_primitive_returns arch ext b logical_block_types
      rank hrank fuel hfuel hroots
    have hspec := (lowest_cost_primitive_spec arch ext fuel b logical_block_types best hcost
      hbest).2.1
    simp only [add_single_atom_molecules, bind, Except.bind, hbest]
    cases best with
    | none =>
      have hb : no_feasible_primitive arch ext logical_block_types true b := hspec.mp rfl
      simp only [Option.isNone_none, if_true]
      refine ⟨fun _ => rfl, fun hall => ?_⟩
      exact absurd hb (hall b (List.mem_cons_self _ _))
    | some p =>
      have hb : ¬ no_feasible_primitive arch ext logical_block_types true b := by
        intro hno
        have := hspec.mpr hno
        cases this
      simp only [Option.isNone_some, Bool.false_eq_true, if_false]
      split
      · refine ⟨fun ⟨blk, hmem, hno⟩ => ?_, fun hall => ?_⟩
        · rcases List.mem_cons.mp hmem with rfl | hmem
          · exact absurd hno hb
          · exact (ih _).1 ⟨blk, hmem, hno⟩
        · exact (ih _).2 (fun blk hmem => hall blk (List.mem_cons_of_mem _ hmem))
      · refine ⟨fun ⟨blk, hmem, hno⟩ => ?_, fun hall => ?_⟩
        · rcases List.mem_cons.mp hmem with rfl | hmem
          · exact absurd hno hb
          · exact (ih _).1 ⟨blk, hmem, hno⟩
        · exact (ih _).2 (fun blk hmem => hall blk (List.mem_cons_of_mem _ hmem))

/-- When the template is an unfolding of the pb_type hierarchy, an atom has no feasible
primitive among those reached through first instances iff it has none among those reached
through any instances. -/
theorem no_feasible_primitive_any_instance (arch : Arch) (ext : Externals)
    (logical_block_types : List t_logical_block_type)
    (hwf : instances_match_types arch = true)
    (hroots : ∀ type ∈ logical_block_types, ∀ root, type.pb_graph_head = some root →
      root < arch.nodes.length)
    (blk_id : AtomBlockId) :
    no_feasible_primitive arch ext logical_block_types true blk_id
      ↔ no_feasible_primitive arch ext logical_block_types false blk_id := by
  constructor
  · intro h type ht root q hroot hq
    obtain ⟨q0, hq0, hty⟩ := first_instances_suffice arch hwf root q hq root
      (hroots type ht root hroot) (hroots type ht root hroot) rfl
    rw [← hty]
    exact h type ht root q0 hroot hq0
  · intro h type ht root q hroot hq
    exact h type ht root q hroot (reaches_primitive_of_first arch root q hq)

/-- The log erased, the logged loop is the matching loop. -/
theorem try_expand_molecule_loop_logged_erase (arch : Arch) (ext : Externals)
    (nl : AtomNetlist) (pat : t_pack_patterns)
    (atom_molecules : List (AtomBlockId × PackMoleculeId)) (fuel : Nat) :
    ∀ (queue : List (Nat × Option AtomBlockId)) (ids : List (Option AtomBlockId)),
      (try_expand_molecule_loop_logged arch ext nl pat atom_molecules fuel queue ids).map
          Prod.fst
        = try_expand_molecule_loop arch ext nl pat atom_molecules fuel queue ids := by
  induction fuel with
  | zero =>
    intro queue ids
    cases queue <;> rfl
  | succ fuel ih =>
    intro queue ids
    cases queue with
    | nil => rfl
    | cons x q =>
      obtain ⟨pb, blk⟩ := x
      have hmap : ∀ (r : Except PrepackError
            ((Bool × List (Option AtomBlockId)) × List DequeuedPair)),
          (r.map (fun r => (r.1, ((pb, blk), ids) :: r.2))).map Prod.fst = r.map Prod.fst := by
        intro r
        cases r <;> rfl
      cases blk with
      | none =>
        unfold try_expand_molecule_loop_logged try_expand_molecule_loop
        simp only
        split_ifs <;> first | rfl | (rw [hmap, ih])
      | some a =>
        unfold try_expand_molecule_loop_logged try_expand_molecule_loop
        simp only
        split_ifs
        · rw [hmap, ih]
        · rfl
        · rw [hmap, ih]
        · simp only [bind, Except.bind]
          cases expand_connections arch ext nl pat pb a (pat.block pb).connections with
          | error e => rfl
          | ok pushed =>
            simp only
            rw [hmap, ih]

/-- A run that stops at its first dequeued pair. -/
theorem log_explains_stop (ext : Externals) (pat : t_pack_patterns)
    (atom_molecules : List (AtomBlockId × PackMoleculeId)) (ids : List (Option AtomBlockId))
    (x : Nat × Option AtomBlockId)
    (h1 : already_holds pat (x, ids) = false)
    (h2 : binding_conditions ext pat atom_molecules (x, ids) = false)
    (h3 : slot_mandatory pat (x, ids) = true) :
    log_explains ext pat atom_molecules ids false ids [(x, ids)] := by
  refine ⟨rfl, ?_, ?_⟩
  · intro p hp
    simp only [List.map_cons, List.map_nil, List.cons_append, List.nil_append, List.tail_cons,
      List.zip_cons_cons, List.zip_nil_right, List.mem_singleton] at hp
    subst hp
    exact Or.inl rfl
  · exact ⟨fun _ => ⟨_, List.mem_singleton.mpr rfl, h1, h2, h3⟩, fun _ => rfl⟩

/-- A run that goes on after its first dequeued pair. -/
theorem log_explains_cons (ext : Externals) (pat : t_pack_patterns)
    (atom_molecules : List (AtomBlockId × PackMoleculeId))
    (ids next : List (Option AtomBlockId)) (x : Nat × Option AtomBlockId)
    (v : Bool) (ids2 : List (Option AtomBlockId)) (log : List DequeuedPair)
    (hrest : log_explains ext pat atom_molecules next v ids2 log)
    (hstep : next = ids
      ∨ (binding_conditions ext pat atom_molecules (x, ids) = true
        ∧ ∃ blk, x.2 = some blk ∧ next = ids.set (pat.block x.1).block_id (some blk)))
    (hgo : ¬ (already_holds pat (x, ids) = false
      ∧ binding_conditions ext pat atom_molecules (x, ids) = false
      ∧ slot_mandatory pat (x, ids) = true)) :
    log_explains ext pat atom_molecules ids v ids2 ((x, ids) :: log) := by
  obtain ⟨hhead, hsteps, hverdict⟩ := hrest
  refine ⟨rfl, ?_, ?_⟩
  · intro p hp
    simp only [List.map_cons, List.cons_append, List.tail_cons] at hp
    cases hL : log.map Prod.snd ++ [ids2] with
    | nil => simp at hL
    | cons c tl =>
      rw [hL] at hhead hp
      simp only [List.head?_cons, Option.some.injEq] at hhead
      subst hhead
      rw [List.zip_cons_cons, List.mem_cons] at hp
      rcases hp with hp | hp
      · subst hp
        exact hstep
      · apply hsteps
        rw [hL]
        exact hp
  · rw [hverdict]
    constructor
    · rintro ⟨ev, hev, hf⟩
      exact ⟨ev, List.mem_cons_of_mem _ hev, hf⟩
    · rintro ⟨ev, hev, hf⟩
      rcases List.mem_cons.mp hev with rfl | hev
      · exact absurd hf hgo
      · exact ⟨ev, hev, hf⟩

/-- The result of a logged recursive call, from the result with the current pair logged. -/
theorem logged_map_ok {α : Type} (ev : DequeuedPair)
    (r : Except PrepackError (α × List DequeuedPair)) (a : α) (log : List DequeuedPair)
    (h : r.map (fun r => (r.1, ev :: r.2)) = .ok (a, log)) :
    ∃ rest, log = ev :: rest ∧ r = .ok (a, rest) := by
  cases r with
  | error e => cases h
  | ok r =>
    obtain ⟨r1, r2⟩ := r
    simp only [Except.map] at h
    injection h with h
    injection h with h1 h2
    exact ⟨r2, h2.symm, by rw [h1]⟩

/-- Every run of the logged matching loop that returns is explained by its log. -/
theorem try_expand_molecule_loop_logged_spec (arch : Arch) (ext : Externals)
    (nl : AtomNetlist) (pat : t_pack_patterns)
    (atom_molecules : List (AtomBlockId × PackMoleculeId)) (fuel : Nat) :
    ∀ (queue : List (Nat × Option AtomBlockId)) (ids : List (Option AtomBlockId))
      (v : Bool) (ids2 : List (Option AtomBlockId)) (log : List DequeuedPair),
      try_expand_molecule_loop_logged arch ext nl pat atom_molecules fuel queue ids
        = .ok ((v, ids2), log) →
      (queue = [] → log = [] ∧ v = true ∧ ids2 = ids)
      ∧ log_explains ext pat atom_molecules ids v ids2 log := by
  have hnil : ∀ (ids : List (Option AtomBlockId)),
      log_explains ext pat atom_molecules ids true ids [] := by
    intro ids
    refine ⟨rfl, ?_, ?_⟩
    · intro p hp
      simp at hp
    · constructor
      · intro h; cases h
      · rintro ⟨ev, hev, _⟩
        cases hev
  induction fuel with
  | zero =>
    intro queue ids v ids2 log h
    cases queue with
    | nil =>
      simp only [try_expand_molecule_loop_logged, pure, Except.pure] at h
      injection h with h
      injection h with h1 h2
      injection h1 with h3 h4
      subst h2 h3 h4
      exact ⟨fun _ => ⟨rfl, rfl, rfl⟩, hnil _⟩
    | cons x q =>
      simp only [try_expand_molecule_loop_logged] at h
      cases h
  | succ fuel ih =>
    intro queue ids v ids2 log h
    cases queue with
    | nil =>
      simp only [try_expand_molecule_loop_logged, pure, Except.pure] at h
      injection h with h
      injection h with h1 h2
      injection h1 with h3 h4
      subst h2 h3 h4
      exact ⟨fun _ => ⟨rfl, rfl, rfl⟩, hnil _⟩
    | cons x q =>
      refine ⟨fun hq => (by cases hq), ?_⟩
      obtain ⟨pb, blk⟩ := x
      cases blk with
      | none =>
        unfold try_expand_molecule_loop_logged at h
        simp only at h
        split_ifs at h with hskip hopt
        · obtain ⟨rest, hlog, hr⟩ := logged_map_ok _ _ _ _ h
          subst hlog
          refine log_explains_cons ext pat atom_molecules ids ids _ v ids2 rest
            (ih _ _ _ _ _ hr).2 (Or.inl rfl) ?_
          rintro ⟨h1, _, _⟩
          simp only [already_holds] at h1
          rw [h1] at hskip
          cases hskip
        · simp only [pure, Except.pure] at h
          injection h with h
          injection h with h1 h2
          injection h1 with h3 h4
          subst h2 h3 h4
          refine log_explains_stop ext pat atom_molecules _ _ ?_ rfl ?_
          · simpa [already_holds] using hskip
          · simpa [slot_mandatory] using hopt
        · obtain ⟨rest, hlog, hr⟩ := logged_map_ok _ _ _ _ h
          subst hlog
          refine log_explains_cons ext pat atom_molecules ids ids _ v ids2 rest
            (ih _ _ _ _ _ hr).2 (Or.inl rfl) ?_
          rintro ⟨_, _, h3⟩
          simp only [slot_mandatory] at h3
          rw [h3] at hopt
          exact hopt rfl
      | some a =>
        unfold try_expand_molecule_loop_logged at h
        simp only at h
        split_ifs at h with hskip hviol hopt
        · obtain ⟨rest, hlog, hr⟩ := logged_map_ok _ _ _ _ h
          subst hlog
          refine log_explains_cons ext pat atom_molecules ids ids _ v ids2 rest
            (ih _ _ _ _ _ hr).2 (Or.inl rfl) ?_
          rintro ⟨h1, _, _⟩
          simp only [already_holds] at h1
          rw [h1] at hskip
          cases hskip
        · simp only [pure, Except.pure] at h
          injection h with h
          injection h with h1 h2
          injection h1 with h3 h4
          subst h2 h3 h4
          refine log_explains_stop ext pat atom_molecules _ _ ?_ ?_ ?_
          · simpa [already_holds] using hskip
          · simp only [binding_conditions]
            cases hcur : ids.getD (pat.block pb).block_id none with
            | none =>
              simp only [hcur, Option.isSome_none, Bool.false_and, Bool.or_false,
                Bool.or_eq_true, Bool.not_eq_true'] at hviol
              rcases hviol with hv | hv
              · simp [hv]
              · simp [hv]
            | some c => simp
          · simpa [slot_mandatory] using hopt
        · obtain ⟨rest, hlog, hr⟩ := logged_map_ok _ _ _ _ h
          subst hlog
          refine log_explains_cons ext pat atom_molecules ids ids _ v ids2 rest
            (ih _ _ _ _ _ hr).2 (Or.inl rfl) ?_
          rintro ⟨_, _, h3⟩
          simp only [slot_mandatory] at h3
          rw [h3] at hopt
          exact hopt rfl
        · simp only [bind, Except.bind] at h
          split at h
          · cases h
          · rename_i pushed hpushed
            obtain ⟨rest, hlog, hr⟩ := logged_map_ok _ _ _ _ h
            subst hlog
            have hbind : binding_conditions ext pat atom_molecules ((pb, some a), ids)
                = true := by
              simp only [binding_conditions]
              cases hcur : ids.getD (pat.block pb).block_id none with
              | none =>
                simp only [hcur, Option.isSome_none, Bool.false_and, Bool.or_false,
                  Bool.or_eq_true, Bool.not_eq_true', not_or, Bool.not_eq_false] at hviol
                simp [hviol.1, hviol.2]
              | some c =>
                exfalso
                simp only [hcur, Option.isSome_some, Bool.true_and] at hskip hviol
                by_cases hc : some c = some a
                · simp [hc] at hskip
                · simp [hc] at hviol
            refine log_explains_cons ext pat atom_molecules ids _ _ v ids2 rest
              (ih _ _ _ _ _ hr).2 (Or.inr ⟨hbind, a, rfl, rfl⟩) ?_
            rintro ⟨_, h2, _⟩
            rw [hbind] at h2
            cases h2

/-- Along a log whose steps keep the slot array or bind an atom to an empty slot, a bound
slot keeps its atom to the end. -/
theorem log_steps_keep_bound (ext : Externals) (pat : t_pack_patterns)
    (atom_molecules : List (AtomBlockId × PackMoleculeId)) (ids2 : List (Option AtomBlockId)) :
    ∀ (log : List DequeuedPair) (ids : List (Option AtomBlockId)),
      (log.map Prod.snd ++ [ids2]).head? = some ids →
      (∀ p ∈ List.zip log (log.map Prod.snd ++ [ids2]).tail,
        p.2 = p.1.2
        ∨ (binding_conditions ext pat atom_molecules p.1 = true
          ∧ ∃ blk, p.1.1.2 = some blk
            ∧ p.2 = p.1.2.set (pat.block p.1.1.1).block_id (some blk))) →
      (∀ p ∈ List.zip log (log.map Prod.snd ++ [ids2]).tail, ∀ i a,
        p.1.2.getD i none = some a → p.2.getD i none = some a)
      ∧ ∀ i a, ids.getD i none = some a → ids2.getD i none = some a := by
  have hstep : ∀ (p : DequeuedPair × List (Option AtomBlockId)),
      (p.2 = p.1.2
        ∨ (binding_conditions ext pat atom_molecules p.1 = true
          ∧ ∃ blk, p.1.1.2 = some blk
            ∧ p.2 = p.1.2.set (pat.block p.1.1.1).block_id (some blk))) →
      ∀ i a, p.1.2.getD i none = some a → p.2.getD i none = some a := by
    intro p hp i a hia
    rcases hp with hp | ⟨hb, blk, hblk, hp⟩
    · rw [hp]; exact hia
    · rw [hp, list_getD_set]
      split
      · rename_i hi
        exfalso
        simp only [binding_conditions, hblk, Bool.and_eq_true, Option.isNone_iff_eq_none] at hb
        rw [hi.1, hb.1.2] at hia
        cases hia
      · exact hia
  intro log
  induction log with
  | nil =>
    intro ids hhead _
    simp only [List.map_nil, List.nil_append, List.head?_cons, Option.some.injEq] at hhead
    subst hhead
    exact ⟨fun p hp => by simp at hp, fun i a h => h⟩
  | cons ev rest ih =>
    intro ids hhead hsteps
    simp only [List.map_cons, List.cons_append, List.head?_cons, Option.some.injEq] at hhead
    simp only [List.map_cons, List.cons_append, List.tail_cons] at hsteps ⊢
    cases hL : rest.map Prod.snd ++ [ids2] with
    | nil => simp at hL
    | cons c tl =>
      rw [hL] at hsteps
      have hrest := ih c (by rw [hL]; rfl) (by
        intro p hp
        apply hsteps
        rw [List.zip_cons_cons]
        apply List.mem_cons_of_mem
        rw [hL] at hp
        exact hp)
      have h0 := hstep (ev, c) (hsteps (ev, c) (by rw [List.zip_cons_cons]; exact List.mem_cons_self _ _))
      refine ⟨fun p hp => hstep p (hsteps p hp), fun i a hia => ?_⟩
      apply hrest.2
      apply h0
      rw [hhead]
      exact hia

/-- A forward inference that returns with some fuel returns the same with more. -/
theorem forward_infer_pattern_fuel_mono (f : Nat) :
    ∀ (f2 : Nat) (a a2 : Arch) (pin : Nat), forward_infer_pattern f a pin = .ok a2 → f ≤ f2 →
      forward_infer_pattern f2 a pin = .ok a2 := by
  induction f with
  | zero => intro f2 a a2 pin h; unfold forward_infer_pattern at h; cases h
  | succ f ih =>
    intro f2 a a2 pin h hle
    obtain ⟨g, rfl⟩ : ∃ g, f2 = g + 1 := ⟨f2 - 1, by omega⟩
    unfold forward_infer_pattern at h ⊢
    split
    · rename_i e0 hout
      simp only [hout] at h
      split
      · rename_i hcond
        simp only [hcond, if_true] at h
        dsimp only at h ⊢
        split
        · rename_i p0 hp
          simp only [hp] at h
          exact ih g _ _ _ h (by omega)
        · rename_i hp
          split at h
          · rename_i p0 hp2
            exact absurd hp2 (hp p0)
          · exact h
      · rename_i hcond
        simp only [hcond] at h
        exact h
    · rename_i hout
      split at h
      · rename_i e0 hout2
        exact absurd hout2 (hout e0)
      · exact h

/-- A backward inference that returns with some fuel returns the same with more. -/
theorem backward_infer_pattern_fuel_mono (f : Nat) :
    ∀ (f2 : Nat) (a a2 : Arch) (pin : Nat), backward_infer_pattern f a pin = .ok a2 → f ≤ f2 →
      backward_infer_pattern f2 a pin = .ok a2 := by
  induction f with
  | zero => intro f2 a a2 pin h; unfold backward_infer_pattern at h; cases h
  | succ f ih =>
    intro f2 a a2 pin h hle
    obtain ⟨g, rfl⟩ : ∃ g, f2 = g + 1 := ⟨f2 - 1, by omega⟩
    unfold backward_infer_pattern at h ⊢
    split
    · rename_i e0 hout
      simp only [hout] at h
      split
      · rename_i hcond
        simp only [hcond, if_true] at h
        dsimp only at h ⊢
        split
        · rename_i p0 hp
          simp only [hp] at h
          exact ih g _ _ _ h (by omega)
        · rename_i hp
          split at h
          · rename_i p0 hp2
            exact absurd hp2 (hp p0)
          · exact h
      · rename_i hcond
        simp only [hcond] at h
        exact h
    · rename_i hout
      split at h
      · rename_i e0 hout2
        exact absurd hout2 (hout e0)
      · exact h

/-- A forward inference that returns needs one nested call more than the number of edges it
marks: every recursive call comes after an unmarked edge was marked. -/
theorem forward_infer_pattern_depth (fuel : Nat) :
    ∀ (a a2 : Arch) (pin : Nat), forward_infer_pattern fuel a pin = .ok a2 →
      uninferred a2 ≤ uninferred a
      ∧ forward_infer_pattern (uninferred a - uninferred a2 + 1) a pin = .ok a2 := by
  induction fuel with
  | zero => intro a a2 pin h; unfold forward_infer_pattern at h; cases h
  | succ f ih =>
    intro a a2 pin h
    unfold forward_infer_pattern at h
    split at h
    · rename_i e0 hout
      split at h
      · rename_i hcond
        have hc := hcond
        simp only [Bool.and_eq_true, beq_iff_eq, List.length_eq_zero] at hc
        dsimp only at h
        by_cases he : e0 < a.edges.length
        · have hdec := uninferred_set a e0 he hc.2
          split at h
          · rename_i p0 hp
            obtain ⟨hle, hrun⟩ := ih _ _ _ h
            refine ⟨by omega, ?_⟩
            have hk : uninferred a - uninferred a2 + 1
                = (uninferred (a.set_infer_pattern e0) - uninferred a2 + 1) + 1 := by omega
            rw [hk]; unfold forward_infer_pattern
            simp only [hout, hcond, if_true, hp]
            exact hrun
          · rename_i hp
            cases h
            refine ⟨by omega, ?_⟩
            unfold forward_infer_pattern
            simp only [hout, hcond, if_true]
            rfl
        · have hsame : a.set_infer_pattern e0 = a := by
            simp only [Arch.set_infer_pattern]
            rw [List.set_eq_of_length_le (by omega)]
          rw [hsame] at h
          split at h
          · rename_i p0 hp
            simp only [Arch.edge] at hp
            rw [List.getD_eq_default _ _ (by omega)] at hp
            cases hp
          · rename_i hp
            cases h
            refine ⟨le_refl _, ?_⟩
            unfold forward_infer_pattern
            simp only [hout, hcond, if_true, hsame]
            rfl
      · rename_i hcond
        cases h
        refine ⟨le_refl _, ?_⟩
        unfold forward_infer_pattern
        simp only [hout, hcond]
        rfl
    · rename_i hout
      cases h
      refine ⟨le_refl _, ?_⟩
      unfold forward_infer_pattern
      split
      · rename_i e0 hout2
        exact absurd hout2 (hout e0)
      · rfl

/-- A backward inference that returns needs one nested call more than the number of edges it
marks. -/
theorem backward_infer_pattern_depth (fuel : Nat) :
    ∀ (a a2 : Arch) (pin : Nat), backward_infer_pattern fuel a pin = .ok a2 →
      uninferred a2 ≤ uninferred a
      ∧ backward_infer_pattern (uninferred a - uninferred a2 + 1) a pin = .ok a2 := by
  induction fuel with
  | zero => intro a a2 pin h; unfold backward_infer_pattern at h; cases h
  | succ f ih =>
    intro a a2 pin h
    unfold backward_infer_pattern at h
    split at h
    · rename_i e0 hout
      split at h
      · rename_i hcond
        have hc := hcond
        simp only [Bool.and_eq_true, beq_iff_eq, List.length_eq_zero] at hc
        dsimp only at h
        by_cases he : e0 < a.edges.length
        · have hdec := uninferred_set a e0 he hc.2
          split at h
          · rename_i p0 hp
            obtain ⟨hle, hrun⟩ := ih _ _ _ h
            refine ⟨by omega, ?_⟩
            have hk : uninferred a - uninferred a2 + 1
                = (uninferred (a.set_infer_pattern e0) - uninferred a2 + 1) + 1 := by omega
            rw [hk]; unfold backward_infer_pattern
            simp only [hout, hcond, if_true, hp]
            exact hrun
          · rename_i hp
            cases h
            refine ⟨by omega, ?_⟩
            unfold backward_infer_pattern
            simp only [hout, hcond, if_true]
            rfl
        · have hsame : a.set_infer_pattern e0 = a := by
            simp only [Arch.set_infer_pattern]
            rw [List.set_eq_of_length_le (by omega)]
          rw [hsame] at h
          split at h
          · rename_i p0 hp
            simp only [Arch.edge] at hp
            rw [List.getD_eq_default _ _ (by omega)] at hp
            cases hp
          · rename_i hp
            cases h
            refine ⟨le_refl _, ?_⟩
            unfold backward_infer_pattern
            simp only [hout, hcond, if_true, hsame]
            rfl
      · rename_i hcond
        cases h
        refine ⟨le_refl _, ?_⟩
        unfold backward_infer_pattern
        simp only [hout, hcond]
        rfl
    · rename_i hout
      cases h
      refine ⟨le_refl _, ?_⟩
      unfold backward_infer_pattern
      split
      · rename_i e0 hout2
        exact absurd hout2 (hout e0)
      · rfl

/-- The two ways `init_molecule_chain_info` returns: a fresh id with a new record, or the
chain id of a molecule of the list, whose record becomes long. -/
theorem init_molecule_chain_info_result (arch : Arch) (nl : AtomNetlist) (blk_id : AtomBlockId)
    (pat : t_pack_patterns) (pack_molecules : List t_pack_molecule)
    (atom_molecules : List (AtomBlockId × PackMoleculeId)) (chain_info : List t_chain_info)
    (cid : Option MoleculeChainId) (ci : List t_chain_info)
    (h : init_molecule_chain_info arch nl blk_id pat pack_molecules atom_molecules chain_info
      = .ok (cid, ci)) :
    (cid = some chain_info.length ∧ ci = chain_info ++ [{ is_long_chain := false }])
    ∨ ∃ c, cid = some c ∧ ci = chain_info.set c { is_long_chain := true }
        ∧ ∃ m ∈ pack_molecules, m.chain_id = some c := by
  unfold init_molecule_chain_info at h
  simp only [bind, Except.bind, pure, Except.pure] at h
  split at h
  · cases h
  · split at h
    · cases h
      exact Or.inl ⟨rfl, rfl⟩
    · rename_i prev hitr
      split at h
      · cases h
      · rename_i c hc
        cases h
        refine Or.inr ⟨c, rfl, rfl, ?_⟩
        by_cases hin : prev < pack_molecules.length
        · refine ⟨pack_molecules.getD prev default, ?_, hc⟩
          rw [List.getD_eq_getElem _ _ hin]
          exact List.getElem_mem hin
        · rw [List.getD_eq_default _ _ (Nat.le_of_not_lt hin)] at hc
          cases hc

/-- What a successful `try_create_molecule` does to the chain data: nothing when it answers
the invalid id; otherwise it appends one forced-pack molecule of the pattern whose chain id
and the new chain records are those of `init_molecule_chain_info` for a chain pattern, and
which has no chain id, the records unchanged, for another pattern. -/
theorem try_create_molecule_chain (arch : Arch) (ext : Externals) (nl : AtomNetlist)
    (fuel pack_pattern_index : Nat) (blk_id : AtomBlockId) (s s1 : Prepacker)
    (r : Option PackMoleculeId)
    (h : try_create_molecule arch ext nl fuel pack_pattern_index blk_id s = .ok (s1, r)) :
    s1.list_of_pack_patterns = s.list_of_pack_patterns
    ∧ (r = none → s1 = s)
    ∧ (∀ id, r = some id →
        ∃ mol : t_pack_molecule, s1.pack_molecules_ = s.pack_molecules_ ++ [mol]
          ∧ mol.type = .MOLECULE_FORCED_PACK
          ∧ mol.pack_pattern = some pack_pattern_index
          ∧ (((s.list_of_pack_patterns.getD pack_pattern_index default).is_chain = true
              ∧ ∃ root, init_molecule_chain_info arch nl root
                  (s.list_of_pack_patterns.getD pack_pattern_index default) s.pack_molecules_
                  s.atom_molecules_multimap s.chain_info_ = .ok (mol.chain_id, s1.chain_info_))
            ∨ ((s.list_of_pack_patterns.getD pack_pattern_index default).is_chain = false
              ∧ mol.chain_id = none ∧ s1.chain_info_ = s.chain_info_))) := by
  unfold try_create_molecule at h
  simp only [bind, Except.bind, pure, Except.pure] at h
  repeat' split at h
  all_goals (try cases h)
  all_goals first
    | exact ⟨rfl, fun _ => rfl, by intro id hid; cases hid⟩
    | skip
  all_goals
    refine ⟨rfl, fun hn => (by cases hn), ?_⟩
    intro id hid
    refine ⟨_, rfl, rfl, rfl, ?_⟩
    first
      | exact Or.inr ⟨(Bool.not_eq_true _).mp (by assumption), rfl, rfl⟩
      | exact Or.inl ⟨by assumption, _, by assumption⟩

/-- Keeping the long chains is reflexive. -/
theorem long_chains_kept_refl (s : Prepacker) : long_chains_kept s s :=
  ⟨le_refl _, fun _ _ h => h⟩

/-- Keeping the long chains is transitive. -/
theorem long_chains_kept_trans {s s1 s2 : Prepacker} (h1 : long_chains_kept s s1)
    (h2 : long_chains_kept s1 s2) : long_chains_kept s s2 :=
  ⟨le_trans h1.1 h2.1, fun c hc h => h2.2 c (lt_of_lt_of_le hc h1.1) (h1.2 c hc h)⟩

/-- Appending a molecule keeps the chain ids well-formed and the long chains long in each
of the three ways the code does it: a molecule without chain id that is no forced pack of a
chain pattern; a chain molecule with a fresh id and a new record; a chain molecule with the
id of an earlier molecule, whose record is overwritten by a long one. -/
theorem chain_ids_ok_push (s s1 : Prepacker) (mol : t_pack_molecule)
    (hs : chain_ids_ok s)
    (hpat : s1.list_of_pack_patterns = s.list_of_pack_patterns)
    (hmols : s1.pack_molecules_ = s.pack_molecules_ ++ [mol])
    (hmol : (mol.chain_id = none ∧ s1.chain_info_ = s.chain_info_
        ∧ ¬ (mol.type = .MOLECULE_FORCED_PACK
          ∧ ∃ p, mol.pack_pattern = some p
            ∧ (s.list_of_pack_patterns.getD p default).is_chain = true))
      ∨ ((mol.type = .MOLECULE_FORCED_PACK
          ∧ ∃ p, mol.pack_pattern = some p
            ∧ (s.list_of_pack_patterns.getD p default).is_chain = true)
        ∧ ((mol.chain_id = some s.chain_info_.length
            ∧ s1.chain_info_ = s.chain_info_ ++ [{ is_long_chain := false }])
          ∨ ∃ c, mol.chain_id = some c
              ∧ s1.chain_info_ = s.chain_info_.set c { is_long_chain := true }
              ∧ ∃ m ∈ s.pack_molecules_, m.chain_id = some c))) :
    chain_ids_ok s1 ∧ long_chains_kept s s1 := by
  obtain ⟨h1, h2, h3⟩ := hs
  rcases hmol with ⟨hnone, hci, hnot⟩ | ⟨hchain, hfresh | ⟨c, hc, hci, m0, hm0, hm0c⟩⟩
  · refine ⟨⟨?_, ?_, ?_⟩, ?_⟩
    · intro m hm
      rw [hmols] at hm
      rw [hpat]
      rcases List.mem_append.mp hm with hm | hm
      · exact h1 m hm
      · simp only [List.mem_singleton] at hm
        subst hm
        rw [hnone]
        exact ⟨fun h => (by cases h), fun h => absurd h hnot⟩
    · intro m hm c hc
      rw [hmols] at hm
      rw [hci]
      rcases List.mem_append.mp hm with hm | hm
      · exact h2 m hm c hc
      · simp only [List.mem_singleton] at hm
        subst hm
        rw [hnone] at hc
        cases hc
    · intro c hc
      rw [hci] at hc
      obtain ⟨m, hm, hmc⟩ := h3 c hc
      exact ⟨m, by rw [hmols]; exact List.mem_append_left _ hm, hmc⟩
    · rw [long_chains_kept, hci]
      exact ⟨le_refl _, fun _ _ h => h⟩
  · obtain ⟨hid, hci⟩ := hfresh
    refine ⟨⟨?_, ?_, ?_⟩, ?_⟩
    · intro m hm
      rw [hmols] at hm
      rw [hpat]
      rcases List.mem_append.mp hm with hm | hm
      · exact h1 m hm
      · simp only [List.mem_singleton] at hm
        subst hm
        rw [hid]
        exact ⟨fun _ => hchain, fun _ => rfl⟩
    · intro m hm c hc
      rw [hmols] at hm
      rw [hci, List.length_append, List.length_singleton]
      rcases List.mem_append.mp hm with hm | hm
      · exact Nat.lt_succ_of_lt (h2 m hm c hc)
      · simp only [List.mem_singleton] at hm
        subst hm
        rw [hid] at hc
        cases hc
        exact Nat.lt_succ_self _
    · intro c hc
      rw [hci, List.length_append, List.length_singleton] at hc
      rcases Nat.lt_succ_iff_lt_or_eq.mp hc with hlt | heq
      · obtain ⟨m, hm, hmc⟩ := h3 c hlt
        exact ⟨m, by rw [hmols]; exact List.mem_append_left _ hm, hmc⟩
      · exact ⟨mol, by rw [hmols]; simp, by rw [hid, heq]⟩
    · rw [long_chains_kept, hci]
      refine ⟨by simp, fun c hc h => ?_⟩
      rw [List.getD_eq_getElem?_getD, List.getElem?_append_left hc,
        ← List.getD_eq_getElem?_getD]
      exact h
  · have hclt : c < s.chain_info_.length := h2 m0 hm0 c hm0c
    refine ⟨⟨?_, ?_, ?_⟩, ?_⟩
    · intro m hm
      rw [hmols] at hm
      rw [hpat]
      rcases List.mem_append.mp hm with hm | hm
      · exact h1 m hm
      · simp only [List.mem_singleton] at hm
        subst hm
        rw [hc]
        exact ⟨fun _ => hchain, fun _ => rfl⟩
    · intro m hm c2 hc2
      rw [hmols] at hm
      rw [hci, List.length_set]
      rcases List.mem_append.mp hm with hm | hm
      · exact h2 m hm c2 hc2
      · simp only [List.mem_singleton] at hm
        subst hm
        rw [hc] at hc2
        cases hc2
        exact hclt
    · intro c2 hc2
      rw [hci, List.length_set] at hc2
      obtain ⟨m, hm, hmc⟩ := h3 c2 hc2
      exact ⟨m, by rw [hmols]; exact List.mem_append_left _ hm, hmc⟩
    · rw [long_chains_kept, hci]
      refine ⟨by simp, fun c2 hc2 h => ?_⟩
      by_cases hcc : c = c2
      · subst hcc
        rw [List.getD_eq_getElem?_getD, List.getElem?_set_self hclt]
        rfl
      · rw [List.getD_eq_getElem?_getD, List.getElem?_set_ne hcc, ← List.getD_eq_getElem?_getD]
        exact h

/-- The assignment of the gain changes neither kind, pattern nor chain id of any molecule:
the molecules before and after correspond. -/
theorem set_base_gain_keeps_chain_ids (s : Prepacker) (id : PackMoleculeId) :
    (∀ m ∈ (set_base_gain s id).pack_molecules_, ∃ m2 ∈ s.pack_molecules_,
      m.type = m2.type ∧ m.pack_pattern = m2.pack_pattern ∧ m.chain_id = m2.chain_id)
    ∧ (∀ m2 ∈ s.pack_molecules_, ∃ m ∈ (set_base_gain s id).pack_molecules_,
      m.type = m2.type ∧ m.pack_pattern = m2.pack_pattern ∧ m.chain_id = m2.chain_id) := by
  by_cases hid : id < s.pack_molecules_.length
  · have hget : s.pack_molecules_.getD id default = s.pack_molecules_[id] :=
      List.getD_eq_getElem _ _ hid
    constructor
    · intro m hm
      simp only [set_base_gain] at hm
      rcases List.mem_or_eq_of_mem_set hm with hm | hm
      · exact ⟨m, hm, rfl, rfl, rfl⟩
      · subst hm
        exact ⟨s.pack_molecules_[id], List.getElem_mem hid, by rw [hget], by rw [hget],
          by rw [hget]⟩
    · intro m2 hm2
      obtain ⟨j, hj, hjm⟩ := List.getElem_of_mem hm2
      by_cases hji : id = j
      · subst hji
        have hlen : id < (set_base_gain s id).pack_molecules_.length := by
          simp only [set_base_gain, List.length_set]
          exact hid
        refine ⟨(set_base_gain s id).pack_molecules_[id], List.getElem_mem hlen, ?_⟩
        simp only [set_base_gain, List.getElem_set_self, hget, hjm]
        exact ⟨trivial, trivial, trivial⟩
      · refine ⟨m2, ?_, rfl, rfl, rfl⟩
        simp only [set_base_gain]
        rw [List.mem_iff_getElem]
        exact ⟨j, by rw [List.length_set]; exact hj, by rw [List.getElem_set_ne hji]; exact hjm⟩
  · have hsame : (set_base_gain s id).pack_molecules_ = s.pack_molecules_ := by
      simp only [set_base_gain]
      exact List.set_eq_of_length_le (Nat.le_of_not_lt hid)
    rw [hsame]
    exact ⟨fun m hm => ⟨m, hm, rfl, rfl, rfl⟩, fun m hm => ⟨m, hm, rfl, rfl, rfl⟩⟩

/-- The assignment of the gain keeps the chain ids well-formed and the chain records. -/
theorem set_base_gain_chain (s : Prepacker) (id : PackMoleculeId) (hs : chain_ids_ok s) :
    chain_ids_ok (set_base_gain s id) ∧ long_chains_kept s (set_base_gain s id) := by
  obtain ⟨h1, h2, h3⟩ := hs
  obtain ⟨hto, hfrom⟩ := set_base_gain_keeps_chain_ids s id
  refine ⟨⟨?_, ?_, ?_⟩, long_chains_kept_refl _⟩
  · intro m hm
    obtain ⟨m2, hm2, ht, hp, hc⟩ := hto m hm
    rw [ht, hp, hc]
    exact h1 m2 hm2
  · intro m hm c hc
    obtain ⟨m2, hm2, _, _, hc2⟩ := hto m hm
    rw [hc2] at hc
    exact h2 m2 hm2 c hc
  · intro c hc
    obtain ⟨m2, hm2, hmc⟩ := h3 c hc
    obtain ⟨m, hm, _, _, hc2⟩ := hfrom m2 hm2
    exact ⟨m, hm, hc2.trans hmc⟩

/-- Every successful `try_create_molecule` keeps the chain ids well-formed and the long
chains long. -/
theorem try_create_molecule_chain_ids (arch : Arch) (ext : Externals) (nl : AtomNetlist)
    (fuel pack_pattern_index : Nat) (blk_id : AtomBlockId) (s s1 : Prepacker)
    (r : Option PackMoleculeId)
    (h : try_create_molecule arch ext nl fuel pack_pattern_index blk_id s = .ok (s1, r))
    (hs : chain_ids_ok s) :
    chain_ids_ok s1 ∧ long_chains_kept s s1 := by
  obtain ⟨hpat, hnone, hsome⟩ := try_create_molecule_chain arch ext nl fuel pack_pattern_index
    blk_id s s1 r h
  cases r with
  | none =>
    rw [hnone rfl]
    exact ⟨hs, long_chains_kept_refl _⟩
  | some id =>
    obtain ⟨mol, hmols, hty, hpp, hcase⟩ := hsome id rfl
    refine chain_ids_ok_push s s1 mol hs hpat hmols ?_
    rcases hcase with ⟨hchain, root, hinit⟩ | ⟨hchain, hcid, hci⟩
    · refine Or.inr ⟨⟨hty, pack_pattern_index, hpp, hchain⟩, ?_⟩
      rcases init_molecule_chain_info_result arch nl root _ _ _ _ _ _ hinit with
        ⟨h1, h2⟩ | ⟨c, h1, h2, h3⟩
      · exact Or.inl ⟨h1, h2⟩
      · exact Or.inr ⟨c, h1, h2, h3⟩
    · refine Or.inl ⟨hcid, hci, ?_⟩
      rintro ⟨_, p, hp, hpc⟩
      rw [hpp] at hp
      cases hp
      rw [hchain] at hpc
      cases hpc

/-- The atoms loop keeps the chain ids well-formed and the long chains long. -/
theorem match_pattern_on_atoms_chain_ids (arch : Arch) (ext : Externals) (nl : AtomNetlist)
    (best_pattern : Nat) (fuel : Nat) :
    ∀ (blocks : List AtomBlockId) (s s1 : Prepacker),
      match_pattern_on_atoms arch ext nl best_pattern fuel blocks s = .ok s1 →
      chain_ids_ok s → chain_ids_ok s1 ∧ long_chains_kept s s1 := by
  induction fuel with
  | zero =>
    intro blocks s s1 h hc
    cases blocks with
    | nil =>
      simp only [match_pattern_on_atoms, pure, Except.pure] at h
      injection h with h; subst h; exact ⟨hc, long_chains_kept_refl _⟩
    | cons b rest =>
      simp [match_pattern_on_atoms, throw, throwThe, MonadExceptOf.throw] at h
  | succ n ih =>
    intro blocks s s1 h hc
    cases blocks with
    | nil =>
      simp only [match_pattern_on_atoms, pure, Except.pure] at h
      injection h with h; subst h; exact ⟨hc, long_chains_kept_refl _⟩
    | cons b rest =>
      simp only [match_pattern_on_atoms, bind, Except.bind] at h
      split at h
      · cases h
      · rename_i r hr
        obtain ⟨hc1, hk1⟩ := try_create_molecule_chain_ids arch ext nl n best_pattern b s
          r.1 r.2 hr hc
        have step : ∀ l s2, match_pattern_on_atoms arch ext nl best_pattern n l s2 = .ok s1 →
            chain_ids_ok s2 → long_chains_kept s s2 →
            chain_ids_ok s1 ∧ long_chains_kept s s1 := by
          intro l s2 h2 hc2 hk2
          obtain ⟨hc3, hk3⟩ := ih l s2 s1 h2 hc2
          exact ⟨hc3, long_chains_kept_trans hk2 hk3⟩
        split at h
        · exact step _ _ h hc1 hk1
        · rename_i cur hcur
          obtain ⟨hc2, hk2⟩ := set_base_gain_chain r.1 cur hc1
          have hk := long_chains_kept_trans hk1 hk2
          split at h
          · exact step _ _ h hc2 hk
          · split at h
            · exact step _ _ h hc2 hk
            · exact step _ _ h hc2 hk

/-- The fallback loop keeps the chain ids well-formed and the long chains long. -/
theorem add_single_atom_molecules_chain_ids (arch : Arch) (ext : Externals) (fuel : Nat)
    (logical_block_types : List t_logical_block_type) :
    ∀ (blocks : List AtomBlockId) (s s1 : Prepacker),
      add_single_atom_molecules arch ext fuel logical_block_types blocks s = .ok s1 →
      chain_ids_ok s → chain_ids_ok s1 ∧ long_chains_kept s s1 := by
  intro blocks
  induction blocks with
  | nil =>
    intro s s1 h hc
    simp only [add_single_atom_molecules, pure, Except.pure] at h
    injection h with h; subst h
    exact ⟨hc, long_chains_kept_refl _⟩
  | cons b rest ih =>
    intro s s1 h hc
    simp only [add_single_atom_molecules, bind, Except.bind] at h
    split at h
    · cases h
    · split at h
      · cases h
      · split at h
        · have key : ∀ s2 : Prepacker,
              add_single_atom_molecules arch ext fuel logical_block_types rest s2 = .ok s1 →
              s2.list_of_pack_patterns = s.list_of_pack_patterns →
              s2.pack_molecules_ = s.pack_molecules_ ++ [single_atom_molecule b] →
              s2.chain_info_ = s.chain_info_ →
              chain_ids_ok s1 ∧ long_chains_kept s s1 := by
            intro s2 h2 e1 e2 e3
            obtain ⟨hc1, hk1⟩ := chain_ids_ok_push s s2 (single_atom_molecule b) hc e1 e2
              (Or.inl ⟨rfl, e3, fun hx => (by cases hx.1)⟩)
            obtain ⟨hc2, hk2⟩ := ih _ _ h2 hc1
            exact ⟨hc2, long_chains_kept_trans hk1 hk2⟩
          exact key _ h rfl rfl rfl
        · obtain ⟨hc2, hk2⟩ := ih _ _ h (by exact hc)
          exact ⟨hc2, by exact hk2⟩

/-- The prepacker before any molecule exists has well-formed chain ids. -/
theorem chain_ids_ok_initial (pats : List t_pack_patterns) (n : Nat) :
    chain_ids_ok (Prepacker.initial pats n) :=
  ⟨fun m hm => (by cases hm), fun m hm => (by cases hm), fun c hc => (by cases hc)⟩

/-- The whole molecule construction keeps the chain ids well-formed and the long chains
long. -/
theorem alloc_and_load_pack_molecules_chain_ids (arch : Arch) (ext : Externals)
    (nl : AtomNetlist) (fuel : Nat) (logical_block_types : List t_logical_block_type)
    (s s1 : Prepacker)
    (h : alloc_and_load_pack_molecules arch ext nl fuel logical_block_types s = .ok s1)
    (hs : chain_ids_ok s) :
    chain_ids_ok s1 ∧ long_chains_kept s s1 := by
  simp only [alloc_and_load_pack_molecules, bind, Except.bind] at h
  split at h
  · cases h
  · rename_i s2 h2
    have hinv := assign_patterns_invariant arch s.list_of_pack_patterns
      (fun best_pattern s => match_pattern_on_atoms arch ext nl best_pattern fuel nl.blocks s)
      (fun t => chain_ids_ok t ∧ long_chains_kept s t)
      (fun b t t1 ht hp => by
        obtain ⟨hc, hk⟩ := match_pattern_on_atoms_chain_ids arch ext nl b fuel _ _ _ ht hp.1
        exact ⟨hc, long_chains_kept_trans hp.2 hk⟩)
      _ _ _ _ h2 ⟨hs, long_chains_kept_refl _⟩
    obtain ⟨hc, hk⟩ := add_single_atom_molecules_chain_ids arch ext fuel logical_block_types
      _ _ _ h hinv.1
    exact ⟨hc, long_chains_kept_trans hinv.2 hk⟩

/-- While the queue holds a pin from which the ring is reached, the search loop of
`find_end_of_path` on the feedback template never empties its queue: whatever the number
of pins it may take from the queue, it stops for lack of them. -/
theorem find_end_of_path_loop_feedback (fuel : Nat) :
    ∀ (queue reachable : List Nat), (∃ p ∈ queue, p ∈ feedback_ring) →
      find_end_of_path_loop feedback_chain_built 0 fuel queue reachable = .error .out_of_fuel := by
  induction fuel with
  | zero =>
    intro queue reachable h
    cases queue with
    | nil => obtain ⟨p, hp, _⟩ := h; cases hp
    | cons c rest => rfl
  | succ fuel ih =>
    intro queue reachable h
    cases queue with
    | nil => obtain ⟨p, hp, _⟩ := h; cases hp
    | cons c rest =>
      rw [find_end_of_path_loop]
      apply ih
      obtain ⟨p, hp, hring⟩ := h
      rcases List.mem_cons.mp hp with hpc | hpr
      · subst hpc
        have hnext : ∀ p ∈ feedback_ring,
            ∃ q ∈ expand_search feedback_chain_built p 0, q ∈ feedback_ring := by decide!
        obtain ⟨q, hq, hqr⟩ := hnext p hring
        exact ⟨q, List.mem_append_right _ hq, hqr⟩
      · exact ⟨p, List.mem_append_left _ hpr, hring⟩

/-- Changing one term of a sum over a range. -/
theorem sum_range_change (f g : Nat → Nat) (k : Nat) :
    ∀ (n b : Nat), b < n → (∀ i, i ≠ b → f i = g i) → f b = g b + k →
      ((List.range n).map f).sum = ((List.range n).map g).sum + k := by
  intro n
  induction n with
  | zero => intro b hb; omega
  | succ n ih =>
    intro b hb hne hb2
    rw [List.range_succ, List.map_append, List.map_append, List.sum_append, List.sum_append]
    simp only [List.map_singleton, List.sum_singleton]
    by_cases hbn : b = n
    · subst hbn
      have : (List.range b).map f = (List.range b).map g := by
        apply List.map_congr_left
        intro i hi
        exact hne i (by have := List.mem_range.mp hi; omega)
      rw [this, hb2]
      omega
    · rw [ih b (by omega) hne hb2, hne n (fun h => hbn h.symm)]
      omega

/-- The empty slots never carry more connections than all slots. -/
theorem open_connections_le (pat : t_pack_patterns) (ids : List (Option AtomBlockId)) :
    open_connections pat ids ≤ connection_total pat := by
  have h : connection_total pat
      = ((List.range pat.blocks.length).map
          (fun b => (pat.block b).connections.length)).sum := by
    unfold connection_total
    congr 1
    apply List.ext_getElem
    · simp
    · intro i h1 h2
      simp only [List.getElem_map, List.getElem_range, t_pack_patterns.block]
      rw [List.getD_eq_getElem _ _ (by simpa using h1)]
  rw [h]
  unfold open_connections
  apply List.sum_le_sum
  intro i _
  split <;> omega

/-- Binding an empty slot takes its connections out of the open ones. -/
theorem open_connections_set (pat : t_pack_patterns) (ids : List (Option AtomBlockId))
    (b : Nat) (blk : AtomBlockId) (hb : b < pat.blocks.length) (hlen : b < ids.length)
    (hempty : ids.getD b none = none) :
    open_connections pat ids
      = open_connections pat (ids.set b (some blk)) + (pat.block b).connections.length := by
  unfold open_connections
  apply sum_range_change _ _ _ _ b hb
  · intro i hi
    simp only [List.getD_eq_getElem?_getD]
    rw [List.getElem?_set_ne (fun h => hi h.symm)]
  · simp only [List.getD_eq_getElem?_getD] at hempty ⊢
    rw [List.getElem?_set_self hlen, hempty]
    simp

/-- A sequence of two steps that returns: both steps return. -/
theorem bind_ok_inv {α β : Type} {x : Except PrepackError α} {f : α → Except PrepackError β}
    {b : β} (h : x >>= f = .ok b) : ∃ a, x = .ok a ∧ f a = .ok b := by
  cases x with
  | error e => cases h
  | ok a => exact ⟨a, rfl, h⟩

/-- A sequence of two steps that fails: the first step fails, or it returns and the second
fails. -/
theorem bind_error_inv {α β : Type} {x : Except PrepackError α}
    {f : α → Except PrepackError β} {e : PrepackError} (h : x >>= f = .error e) :
    x = .error e ∨ ∃ a, x = .ok a ∧ f a = .error e := by
  cases x with
  | error e2 => cases h; exact Or.inl rfl
  | ok a => exact Or.inr ⟨a, rfl, h⟩

/-- The only failure of `get_driving_block` is the assertion of line 1184. -/
theorem get_driving_block_error (arch : Arch) (nl : AtomNetlist) (block_id : AtomBlockId)
    (c : t_pack_pattern_connections) (e : PrepackError)
    (h : get_driving_block arch nl block_id c = .error e) : e = .assert_failed 1184 := by
  unfold get_driving_block at h
  simp only [bind, Except.bind, pure, Except.pure, vtr_assert] at h
  repeat' split at h
  all_goals (try cases h)
  all_goals
    rename_i h2
    simp only [throw, throwThe, MonadExceptOf.throw] at h2
    split at h2 <;> cases h2
    rfl

/-- What the inner loop of the matcher pushes for one connection. -/
theorem expand_connection_pushed (arch : Arch) (nl : AtomNetlist) (pattern_block : Nat)
    (block_id : AtomBlockId) (c : t_pack_pattern_connections) (sink : Option AtomBlockId)
    (r : Except PrepackError (List (Nat × Option AtomBlockId)))
    (hr : (if c.from_block == pattern_block then pure [(c.to_block, sink)]
      else if c.to_block == pattern_block then do
        let driver_blk_id ← get_driving_block arch nl block_id c
        pure [(c.from_block, driver_blk_id)]
      else pure []) = r) :
    (∀ p, r = .ok p → p.length ≤ 1 ∧ ∀ e ∈ p, e.1 = c.from_block ∨ e.1 = c.to_block)
    ∧ (∀ e, r = .error e → e = .assert_failed 1184) := by
  subst hr
  simp only [bind, Except.bind, pure, Except.pure]
  constructor
  · intro p hp
    split at hp
    · cases hp; simp
    · split at hp
      · split at hp
        · cases hp
        · cases hp; simp
      · cases hp; simp
  · intro e he
    split at he
    · cases he
    · split at he
      · split at he
        · rename_i hd
          cases he
          exact get_driving_block_error _ _ _ _ _ hd
        · cases he
      · cases he

/-- The inner loop of the matcher at a connection, as a sequence of steps. -/
theorem expand_connections_cons (arch : Arch) (ext : Externals) (nl : AtomNetlist)
    (pat : t_pack_patterns) (pattern_block : Nat) (block_id : AtomBlockId)
    (c : t_pack_pattern_connections) (rest : List t_pack_pattern_connections) :
    expand_connections arch ext nl pat pattern_block block_id (c :: rest)
      = ((if c.from_block == pattern_block then
            pure [(c.to_block, get_sink_block arch ext nl pat block_id c)]
          else if c.to_block == pattern_block then do
            let driver_blk_id ← get_driving_block arch nl block_id c
            pure [(c.from_block, driver_blk_id)]
          else pure []) >>= fun pushed =>
        vtr_assert 1085 (c.from_block == pattern_block || c.to_block == pattern_block)
          >>= fun _ =>
        expand_connections arch ext nl pat pattern_block block_id rest >>= fun r =>
        pure (pushed ++ r)) := by
  rw [expand_connections]
  split_ifs
  · rfl
  · simp only [bind, Except.bind, pure, Except.pure]
    cases get_driving_block arch nl block_id c <;> rfl
  · rfl

/-- When the inner loop of the matcher returns it has pushed at most one pair per
connection, each for an end of a connection. -/
theorem expand_connections_ok (arch : Arch) (ext : Externals) (nl : AtomNetlist)
    (pat : t_pack_patterns) (pattern_block : Nat) (block_id : AtomBlockId) :
    ∀ (l : List t_pack_pattern_connections) (pushed : List (Nat × Option AtomBlockId)),
      expand_connections arch ext nl pat pattern_block block_id l = .ok pushed →
      pushed.length ≤ l.length
      ∧ ∀ e ∈ pushed, ∃ c ∈ l, e.1 = c.from_block ∨ e.1 = c.to_block := by
  intro l
  induction l with
  | nil =>
    intro pushed h
    cases h
    exact ⟨le_refl _, fun e he => (by cases he)⟩
  | cons c rest ih =>
    intro pushed h
    rw [expand_connections_cons] at h
    obtain ⟨p, hp, h⟩ := bind_ok_inv h
    obtain ⟨_, _, h⟩ := bind_ok_inv h
    obtain ⟨rp, hrest, h⟩ := bind_ok_inv h
    cases h
    obtain ⟨hp1, _⟩ := expand_connection_pushed arch nl pattern_block block_id c _ _ hp
    obtain ⟨hlen, hmem⟩ := hp1 p rfl
    obtain ⟨ih1, ih2⟩ := ih _ hrest
    refine ⟨by simp only [List.length_append, List.length_cons]; omega, ?_⟩
    intro e he
    rcases List.mem_append.mp he with he | he
    · exact ⟨c, List.mem_cons_self _ _, hmem e he⟩
    · obtain ⟨c2, hc2, h2⟩ := ih2 e he
      exact ⟨c2, List.mem_cons_of_mem _ hc2, h2⟩

/-- The inner loop of the matcher fails on assertions only. -/
theorem expand_connections_error (arch : Arch) (ext : Externals) (nl : AtomNetlist)
    (pat : t_pack_patterns) (pattern_block : Nat) (block_id : AtomBlockId) :
    ∀ (l : List t_pack_pattern_connections) (e : PrepackError),
      expand_connections arch ext nl pat pattern_block block_id l = .error e →
      ∃ line, e = .assert_failed line := by
  intro l
  induction l with
  | nil => intro e h; cases h
  | cons c rest ih =>
    intro e h
    rw [expand_connections_cons] at h
    rcases bind_error_inv h with hp | ⟨p, _, h⟩
    · obtain ⟨_, hp2⟩ := expand_connection_pushed arch nl pattern_block block_id c _ _ hp
      exact ⟨_, hp2 _ rfl⟩
    · rcases bind_error_inv h with ha | ⟨_, _, h⟩
      · simp only [vtr_assert] at ha
        split at ha
        · cases ha
        · cases ha; exact ⟨_, rfl⟩
      · rcases bind_error_inv h with hrest | ⟨_, _, h⟩
        · exact ih _ hrest
        · cases h

/-- The matching loop on a well-formed pattern graph: given one unit of fuel per queued pair
and per connection of an empty slot, it does not run out of fuel, and it dequeues no more
pairs than that. -/
theorem try_expand_molecule_loop_logged_bound (arch : Arch) (ext : Externals)
    (nl : AtomNetlist) (pat : t_pack_patterns)
    (atom_molecules : List (AtomBlockId × PackMoleculeId)) (hok : pattern_graph_ok pat)
    (fuel : Nat) :
    ∀ (queue : List (Nat × Option AtomBlockId)) (ids : List (Option AtomBlockId)),
      ids.length = pat.blocks.length → (∀ e ∈ queue, e.1 < pat.blocks.length) →
      queue.length + open_connections pat ids ≤ fuel →
      (∃ r, try_expand_molecule_loop_logged arch ext nl pat atom_molecules fuel queue ids
            = .ok r
          ∧ r.2.length ≤ queue.length + open_connections pat ids)
      ∨ ∃ line, try_expand_molecule_loop_logged arch ext nl pat atom_molecules fuel queue ids
          = .error (.assert_failed line) := by
  induction fuel with
  | zero =>
    intro queue ids _ _ hfuel
    cases queue with
    | nil => exact Or.inl ⟨_, rfl, Nat.zero_le _⟩
    | cons x q => simp only [List.length_cons] at hfuel; omega
  | succ fuel ih =>
    intro queue ids hlen hq hfuel
    cases queue with
    | nil => exact Or.inl ⟨_, rfl, Nat.zero_le _⟩
    | cons x q =>
      obtain ⟨pb, blk⟩ := x
      have hpb : pb < pat.blocks.length := hq (pb, blk) (List.mem_cons_self _ _)
      have hq2 : ∀ e ∈ q, e.1 < pat.blocks.length :=
        fun e he => hq e (List.mem_cons_of_mem _ he)
      have hslot : (pat.block pb).block_id = pb := hok.1 pb hpb
      simp only [List.length_cons] at hfuel ⊢
      -- the three iterations that only take the pair from the queue
      have hskip : ∀ (r0 : Except PrepackError
            ((Bool × List (Option AtomBlockId)) × List DequeuedPair)),
          r0 = try_expand_molecule_loop_logged arch ext nl pat atom_molecules fuel q ids →
          (∃ r, r0.map (fun r => (r.1, ((pb, blk), ids) :: r.2)) = .ok r
              ∧ r.2.length ≤ q.length + 1 + open_connections pat ids)
          ∨ ∃ line, r0.map (fun r => (r.1, ((pb, blk), ids) :: r.2))
              = .error (.assert_failed line) := by
        intro r0 hr0
        rcases ih q ids hlen hq2 (by omega) with ⟨r, hr, hb⟩ | ⟨line, hr⟩
        · rw [hr0, hr]
          exact Or.inl ⟨_, rfl, by simp only [List.length_cons]; omega⟩
        · rw [hr0, hr]
          exact Or.inr ⟨line, rfl⟩
      have hstop : ∀ (v : (Bool × List (Option AtomBlockId)) × List DequeuedPair),
          v.2.length = 1 →
          (∃ r, (pure v : Except PrepackError _) = .ok r
              ∧ r.2.length ≤ q.length + 1 + open_connections pat ids)
          ∨ ∃ line, (pure v : Except PrepackError
              ((Bool × List (Option AtomBlockId)) × List DequeuedPair))
              = .error (.assert_failed line) :=
        fun v hv => Or.inl ⟨v, rfl, by omega⟩
      cases blk with
      | none =>
        unfold try_expand_molecule_loop_logged
        simp only
        split_ifs
        · exact hskip _ rfl
        · exact hstop _ rfl
        · exact hskip _ rfl
      | some a =>
        unfold try_expand_molecule_loop_logged
        simp only
        split_ifs with h1 h2 h3
        · exact hskip _ rfl
        · exact hstop _ rfl
        · exact hskip _ rfl
        · -- the binding iteration
          rw [hslot] at h1 h2 ⊢
          have hempty : ids.getD pb none = none := by
            cases hg : ids.getD pb none with
            | none => rfl
            | some y =>
              rw [hg] at h1 h2
              by_cases hy : y = a
              · subst hy
                simp at h1
              · simp [hy] at h2
          simp only [bind, Except.bind]
          cases hpush : expand_connections arch ext nl pat pb a (pat.block pb).connections with
          | error e =>
            obtain ⟨line, hl⟩ := expand_connections_error arch ext nl pat pb a _ e hpush
            exact Or.inr ⟨line, by rw [hl]⟩
          | ok pushed =>
            obtain ⟨hpl, hpm⟩ := expand_connections_ok arch ext nl pat pb a _ pushed hpush
            have hset := open_connections_set pat ids pb a hpb (by omega) hempty
            have hq3 : ∀ e ∈ q ++ pushed, e.1 < pat.blocks.length := by
              intro e he
              rcases List.mem_append.mp he with he | he
              · exact hq2 e he
              · obtain ⟨c, hc, hce⟩ := hpm e he
                rcases hce with hce | hce
                · rw [hce]; exact (hok.2 pb hpb c hc).1
                · rw [hce]; exact (hok.2 pb hpb c hc).2
            simp only
            rcases ih (q ++ pushed) (ids.set pb (some a)) (by simpa using hlen) hq3
                (by simp only [List.length_append]; omega) with ⟨r, hr, hb⟩ | ⟨line, hr⟩
            · rw [hr]
              refine Or.inl ⟨_, rfl, ?_⟩
              simp only [List.length_cons, List.length_append] at hb ⊢
              omega
            · rw [hr]
              exact Or.inr ⟨line, rfl⟩

/-- The counter does not change what the atoms loop does. -/
theorem match_pattern_on_atoms_counted_erase (arch : Arch) (ext : Externals)
    (nl : AtomNetlist) (best_pattern : Nat) (fuel : Nat) :
    ∀ (blocks : List AtomBlockId) (s : Prepacker),
      (match_pattern_on_atoms_counted arch ext nl best_pattern fuel blocks s).map Prod.fst
        = match_pattern_on_atoms arch ext nl best_pattern fuel blocks s := by
  induction fuel with
  | zero => intro blocks s; cases blocks <;> rfl
  | succ fuel ih =>
    intro blocks s
    cases blocks with
    | nil => rfl
    | cons b rest =>
      have hmap : ∀ (r : Except PrepackError (Prepacker × Nat)),
          (r.map (fun r => (r.1, r.2 + 1))).map Prod.fst = r.map Prod.fst := by
        intro r
        cases r <;> rfl
      unfold match_pattern_on_atoms_counted match_pattern_on_atoms
      simp only [bind, Except.bind]
      cases try_create_molecule arch ext nl fuel best_pattern b s with
      | error e => rfl
      | ok r =>
        obtain ⟨s1, id⟩ := r
        cases id with
        | none => exact ih _ _
        | some cur =>
          simp only
          cases hl : last_inserted (set_base_gain s1 cur).atom_molecules_multimap b with
          | none => simp only [hmap]; exact ih _ _
          | some last =>
            simp only
            split_ifs
            · exact ih _ _
            · rw [hmap]; exact ih _ _

/-- The matching loop never empties or overwrites a filled slot; and a run that succeeds
from a queue headed by a valid atom for an empty, mandatory slot of the array has bound
that atom, which was in no committed molecule, to the slot. -/
theorem try_expand_molecule_loop_binds_head (arch : Arch) (ext : Externals)
    (nl : AtomNetlist) (pat : t_pack_patterns) (amap : List (AtomBlockId × PackMoleculeId))
    (fuel : Nat) :
    ∀ (queue : List (Nat × Option AtomBlockId)) (ids : List (Option AtomBlockId))
      (v : Bool) (ids2 : List (Option AtomBlockId)),
      try_expand_molecule_loop arch ext nl pat amap fuel queue ids = .ok (v, ids2) →
      (∀ i b, ids.getD i none = some b → ids2.getD i none = some b)
      ∧ (v = true → ∀ pb blk q, queue = (pb, some blk) :: q →
          ids.getD (pat.block pb).block_id none = none →
          (pat.block pb).block_id < ids.length →
          pat.is_block_optional.getD (pat.block pb).block_id false = false →
          atom_in_map amap blk = false
          ∧ ids2.getD (pat.block pb).block_id none = some blk) := by
  induction fuel with
  | zero =>
    intro queue ids v ids2 h
    cases queue with
    | nil =>
      simp only [try_expand_molecule_loop, pure, Except.pure] at h
      injection h with h; injection h with h1 h2; subst h2
      exact ⟨fun i b hb => hb, fun _ pb blk q hq => (by cases hq)⟩
    | cons p q => simp [try_expand_molecule_loop, throw, throwThe, MonadExceptOf.throw] at h
  | succ n ih =>
    intro queue ids v ids2 h
    cases queue with
    | nil =>
      simp only [try_expand_molecule_loop, pure, Except.pure] at h
      injection h with h; injection h with h1 h2; subst h2
      exact ⟨fun i b hb => hb, fun _ pb blk q hq => (by cases hq)⟩
    | cons p q =>
      obtain ⟨pb, bid⟩ := p
      simp only [try_expand_molecule_loop] at h
      split at h
      · rename_i hc
        refine ⟨(ih _ _ _ _ h).1, ?_⟩
        intro _ pb2 blk q2 hq hempty _ _
        injection hq with hq1 _
        injection hq1 with hq1 hq2
        subst hq1
        rw [hempty] at hc
        simp at hc
      · split at h
        · refine ⟨?_, fun _ pb2 blk q2 hq => (by injection hq with hq1 _; cases hq1)⟩
          split at h
          · simp only [pure, Except.pure] at h
            injection h with h; injection h with h1 h2; subst h2
            exact fun i b hb => hb
          · exact (ih _ _ _ _ h).1
        · rename_i blk _
          split at h
          · rename_i hcond
            split at h
            · rename_i hopt
              simp only [pure, Except.pure] at h
              injection h with h; injection h with h1 h2; subst h2
              refine ⟨fun i b hb => hb, ?_⟩
              intro hv
              rw [← h1] at hv
              cases hv
            · rename_i hopt
              refine ⟨(ih _ _ _ _ h).1, ?_⟩
              intro _ pb2 blk2 q2 hq _ _ hmand
              injection hq with hq1 _
              injection hq1 with hq1 hq2
              subst hq1
              rw [hmand] at hopt
              simp at hopt
          · rename_i hcond
            simp only [bind, Except.bind] at h
            split at h
            · cases h
            · obtain ⟨hkeep, _⟩ := ih _ _ _ _ h
              simp only [Bool.or_eq_true, not_or, Bool.not_eq_true] at hcond
              have hset : ∀ i b, ids.getD i none = some b →
                  (ids.set (pat.block pb).block_id (some blk)).getD i none = some b := by
                intro i b hb
                by_cases hi : (pat.block pb).block_id = i
                · subst hi
                  have h2 := hcond.1.2
                  rw [hb] at h2
                  simp at h2
                  simp only [List.getD_eq_getElem?_getD] at hb ⊢
                  have hlt : (pat.block pb).block_id < ids.length := by
                    by_contra hge
                    rw [List.getElem?_eq_none (by omega)] at hb
                    cases hb
                  rw [List.getElem?_set_self hlt, h2]
                  rfl
                · simp only [List.getD_eq_getElem?_getD] at hb ⊢
                  rw [List.getElem?_set_ne hi]
                  exact hb
              refine ⟨fun i b hb => hkeep i b (hset i b hb), ?_⟩
              intro _ pb2 blk2 q2 hq _ hlt _
              injection hq with hq1 _
              injection hq1 with hq1 hq2
              injection hq2 with hq2
              subst hq1 hq2
              refine ⟨hcond.2, hkeep _ _ ?_⟩
              simp only [List.getD_eq_getElem?_getD]
              rw [List.getElem?_set_self hlt]
              rfl

/-- The root found for a chain is the atom given or the driver of some pin of the
netlist. -/
theorem find_new_root_atom_for_chain_origin (arch : Arch) (ext : Externals) (nl : AtomNetlist)
    (pat : t_pack_patterns) (amap : List (AtomBlockId × PackMoleculeId)) (fuel : Nat) :
    ∀ (blk_id r : AtomBlockId),
      find_new_root_atom_for_chain arch ext nl pat amap fuel blk_id = .ok (some r) →
      r = blk_id ∨ ∃ b mp bit, nl.find_atom_pin_driver b mp bit = some r := by
  induction fuel with
  | zero => intro blk_id r h; cases h
  | succ fuel ih =>
    intro blk_id r h
    unfold find_new_root_atom_for_chain at h
    simp only [bind, Except.bind, pure, Except.pure] at h
    repeat' split at h
    all_goals (try cases h)
    all_goals first
      | exact Or.inl rfl
      | skip
    rename_i d hd _ _ _ hrec
    rcases ih d r hrec with h1 | h1
    · subst h1
      exact Or.inr ⟨_, _, _, hd⟩
    · exact Or.inr h1

/-- A successful match from the root of a pattern whose root slot is mandatory, followed by
the commit, puts the root atom, which was in no committed molecule, into the map, and only
appends to the map. -/
theorem try_expand_commit_new_atom (arch : Arch) (ext : Externals) (nl : AtomNetlist)
    (fuel : Nat) (pat : t_pack_patterns) (root : AtomBlockId)
    (amap amap2 : List (AtomBlockId × PackMoleculeId)) (m : PackMoleculeId)
    (expanded : Bool × List (Option AtomBlockId))
    (hroot : root_slot_mandatory pat)
    (hexp : try_expand_molecule arch ext nl fuel pat (List.replicate pat.num_blocks none)
      (some root) amap = .ok expanded)
    (hv : expanded.1 = true)
    (hcommit : commit_atoms pat expanded.2 m (List.range pat.num_blocks) amap = .ok amap2) :
    atom_in_map amap root = false ∧ atom_in_map amap2 root = true
    ∧ ∃ entries, amap2 = amap ++ entries := by
  unfold try_expand_molecule at hexp
  split at hexp
  · cases hexp
  · rename_i rb hrb
    obtain ⟨hslot, hmand⟩ := hroot rb hrb
    obtain ⟨v, ids2⟩ := expanded
    simp only at hv hcommit
    obtain ⟨_, hbind⟩ := try_expand_molecule_loop_binds_head arch ext nl pat amap fuel _ _ _ _
      hexp
    obtain ⟨hnew, hbound⟩ := hbind hv rb root [] rfl
      (by rw [List.getD_eq_getElem?_getD, List.getElem?_replicate]; simp [hslot])
      (by simpa using hslot) hmand
    obtain ⟨entries, he, _, hall⟩ := commit_atoms_entries pat ids2 m _ _ _ hcommit
    refine ⟨hnew, ?_, entries, he⟩
    rw [he, atom_in_map_true_iff]
    exact ⟨m, List.mem_append_right _ (hall _ (List.mem_range.mpr hslot) root hbound)⟩

/-- Every commit of `try_create_molecule`, for a pattern whose root slot is mandatory, adds
to the map an atom that was in no committed molecule (the atom given, or a driver found in
the netlist), and only appends to the map; without commit the state is unchanged. -/
theorem try_create_molecule_commits (arch : Arch) (ext : Externals) (nl : AtomNetlist)
    (fuel pack_pattern_index : Nat) (blk_id : AtomBlockId) (s s1 : Prepacker)
    (r : Option PackMoleculeId)
    (h : try_create_molecule arch ext nl fuel pack_pattern_index blk_id s = .ok (s1, r))
    (hroot : root_slot_mandatory (s.list_of_pack_patterns.getD pack_pattern_index default)) :
    s1.list_of_pack_patterns = s.list_of_pack_patterns
    ∧ (r = none → s1 = s)
    ∧ (∀ id, r = some id →
        ∃ a, (a = blk_id ∨ ∃ b mp bit, nl.find_atom_pin_driver b mp bit = some a)
          ∧ atom_in_map s.atom_molecules_multimap a = false
          ∧ atom_in_map s1.atom_molecules_multimap a = true
          ∧ ∃ entries, s1.atom_molecules_multimap = s.atom_molecules_multimap ++ entries) := by
  unfold try_create_molecule at h
  simp only [bind, Except.bind, pure, Except.pure] at h
  repeat' split at h
  all_goals (try cases h)
  all_goals first
    | exact ⟨rfl, fun _ => rfl, by intro id hid; cases hid⟩
    | skip
  all_goals
    refine ⟨rfl, fun hn => (by cases hn), ?_⟩
    intro id _
    have hv : ∀ b : Bool, ¬ ((!b) = true) → b = true := by intro b; cases b <;> simp
    first
      | exact ⟨_, Or.inl rfl, try_expand_commit_new_atom arch ext nl fuel _ _ _ _ _ _ hroot
          (by assumption) (hv _ (by assumption)) (by assumption)⟩
      | exact ⟨_, find_new_root_atom_for_chain_origin arch ext nl _ _ fuel _ _ (by assumption),
          try_expand_commit_new_atom arch ext nl fuel _ _ _ _ _ _ hroot
          (by assumption) (hv _ (by assumption)) (by assumption)⟩

/-- Counting with a weaker test that fails at some element of the list counts less. -/
theorem countP_lt_of_flip {α : Type} (p q : α → Bool) (a : α) :
    ∀ (l : List α), a ∈ l → (∀ x, p x = true → q x = true) → q a = true → p a = false →
      l.countP p + 1 ≤ l.countP q := by
  intro l
  induction l with
  | nil => intro ha; cases ha
  | cons x l ih =>
    intro ha hpq hq hp
    have hmono : l.countP p ≤ l.countP q := List.countP_mono_left (fun x _ => hpq x) 
    rcases List.mem_cons.mp ha with hax | hal
    · subst hax
      rw [List.countP_cons_of_pos _ _ hq, List.countP_cons_of_neg _ _ (by simp [hp])]
      omega
    · have := ih hal hpq hq hp
      by_cases hpx : p x = true
      · rw [List.countP_cons_of_pos _ _ hpx, List.countP_cons_of_pos _ _ (hpq x hpx)]
        omega
      · rw [List.countP_cons_of_neg _ _ hpx]
        have : l.countP q ≤ (x :: l).countP q := by
          rw [List.countP_cons]
          omega
        omega

/-- A commit that appends to the map and adds an uncommitted atom of the netlist leaves
fewer uncommitted atoms. -/
theorem uncommitted_atoms_commit (nl : AtomNetlist) (s s1 : Prepacker) (a : AtomBlockId)
    (ha : a ∈ nl.blocks)
    (hold : atom_in_map s.atom_molecules_multimap a = false)
    (hnew : atom_in_map s1.atom_molecules_multimap a = true)
    (happ : ∃ entries, s1.atom_molecules_multimap = s.atom_molecules_multimap ++ entries) :
    uncommitted_atoms nl s1 + 1 ≤ uncommitted_atoms nl s := by
  unfold uncommitted_atoms
  apply countP_lt_of_flip _ _ a _ ha
  · intro x hx
    obtain ⟨entries, he⟩ := happ
    simp only [Bool.not_eq_true', he] at hx ⊢
    rw [atom_in_map_false_iff] at hx ⊢
    intro m hm
    exact hx m (List.mem_append_left _ hm)
  · simp [hold]
  · simp [hnew]

/-- One step of the atoms loop at a position: either no molecule, the state unchanged; or
a commit, after which fewer atoms of the netlist are uncommitted. -/
theorem try_create_molecule_uncommitted (arch : Arch) (ext : Externals) (nl : AtomNetlist)
    (fuel best_pattern : Nat) (blk_id : AtomBlockId) (s s1 : Prepacker)
    (r : Option PackMoleculeId)
    (h : try_create_molecule arch ext nl fuel best_pattern blk_id s = .ok (s1, r))
    (hroot : root_slot_mandatory (s.list_of_pack_patterns.getD best_pattern default))
    (hblk : blk_id ∈ nl.blocks)
    (hdrivers : ∀ b mp bit d, nl.find_atom_pin_driver b mp bit = some d → d ∈ nl.blocks) :
    s1.list_of_pack_patterns = s.list_of_pack_patterns
    ∧ (r = none → s1 = s)
    ∧ (∀ id, r = some id →
        uncommitted_atoms nl (set_base_gain s1 id) + 1 ≤ uncommitted_atoms nl s) := by
  obtain ⟨h1, h2, h3⟩ := try_create_molecule_commits arch ext nl fuel best_pattern blk_id s s1
    r h hroot
  refine ⟨h1, h2, fun id hid => ?_⟩
  obtain ⟨a, horigin, hold, hnew, happ⟩ := h3 id hid
  have ha : a ∈ nl.blocks := by
    rcases horigin with h4 | ⟨b, mp, bit, h4⟩
    · rw [h4]; exact hblk
    · exact hdrivers b mp bit a h4
  exact uncommitted_atoms_commit nl s (set_base_gain s1 id) a ha hold hnew happ

/-- The number of re-examinations of the atoms loop is at most the number of atoms that
became committed during the loop. -/
theorem match_pattern_on_atoms_counted_bound (arch : Arch) (ext : Externals)
    (nl : AtomNetlist) (best_pattern : Nat) (pats : List t_pack_patterns)
    (hroot : root_slot_mandatory (pats.getD best_pattern default))
    (hdrivers : ∀ b mp bit d, nl.find_atom_pin_driver b mp bit = some d → d ∈ nl.blocks)
    (fuel : Nat) :
    ∀ (blocks : List AtomBlockId) (s s1 : Prepacker) (k : Nat),
      s.list_of_pack_patterns = pats → (∀ b ∈ blocks, b ∈ nl.blocks) →
      match_pattern_on_atoms_counted arch ext nl best_pattern fuel blocks s = .ok (s1, k) →
      k + uncommitted_atoms nl s1 ≤ uncommitted_atoms nl s := by
  induction fuel with
  | zero =>
    intro blocks s s1 k _ _ h
    cases blocks with
    | nil => cases h; simp
    | cons b rest => cases h
  | succ fuel ih =>
    intro blocks s s1 k hpats hblocks h
    cases blocks with
    | nil => cases h; simp
    | cons b rest =>
      have hrest : ∀ x ∈ rest, x ∈ nl.blocks := fun x hx => hblocks x (List.mem_cons_of_mem _ hx)
      unfold match_pattern_on_atoms_counted at h
      simp only [bind, Except.bind] at h
      cases hr : try_create_molecule arch ext nl fuel best_pattern b s with
      | error e => rw [hr] at h; cases h
      | ok r =>
        rw [hr] at h
        obtain ⟨s2, id⟩ := r
        obtain ⟨hl, hnone, hsome⟩ := try_create_molecule_uncommitted arch ext nl fuel best_pattern
          b s s2 id hr (by rw [hpats]; exact hroot) (hblocks b (List.mem_cons_self _ _)) hdrivers
        cases id with
        | none =>
          simp only at h
          rw [hnone rfl] at h
          exact ih _ _ _ _ hpats hrest h
        | some cur =>
          have hdec := hsome cur rfl
          have hl2 : (set_base_gain s2 cur).list_of_pack_patterns = pats := hl.trans hpats
          have again : ∀ l, (∀ x ∈ l, x ∈ nl.blocks) →
              (match_pattern_on_atoms_counted arch ext nl best_pattern fuel l
                (set_base_gain s2 cur)).map (fun r => (r.1, r.2 + 1)) = .ok (s1, k) →
              k + uncommitted_atoms nl s1 ≤ uncommitted_atoms nl s := by
            intro l hlb hrun
            cases hrec : match_pattern_on_atoms_counted arch ext nl best_pattern fuel l
                (set_base_gain s2 cur) with
            | error e => rw [hrec] at hrun; cases hrun
            | ok r2 =>
              rw [hrec] at hrun
              cases hrun
              have := ih _ _ _ _ hl2 hlb hrec
              omega
          simp only at h
          cases hlast : last_inserted (set_base_gain s2 cur).atom_molecules_multimap b with
          | none =>
            rw [hlast] at h
            exact again _ hblocks h
          | some last =>
            rw [hlast] at h
            simp only at h
            split_ifs at h
            · have := ih _ _ _ _ hl2 hrest h
              omega
            · exact again _ hblocks h

/-- The atoms loop does not run out of fuel when it has one unit per position, one per
uncommitted atom and what a call of `try_create_molecule` needs. -/
theorem match_pattern_on_atoms_counted_returns (arch : Arch) (ext : Externals)
    (nl : AtomNetlist) (best_pattern : Nat) (pats : List t_pack_patterns) (inner : Nat)
    (hroot : root_slot_mandatory (pats.getD best_pattern default))
    (hdrivers : ∀ b mp bit d, nl.find_atom_pin_driver b mp bit = some d → d ∈ nl.blocks)
    (hinner : ∀ f blk s, blk ∈ nl.blocks → s.list_of_pack_patterns = pats → inner ≤ f →
      try_create_molecule arch ext nl f best_pattern blk s ≠ .error .out_of_fuel)
    (fuel : Nat) :
    ∀ (blocks : List AtomBlockId) (s : Prepacker),
      s.list_of_pack_patterns = pats → (∀ b ∈ blocks, b ∈ nl.blocks) →
      blocks.length + uncommitted_atoms nl s + inner ≤ fuel →
      match_pattern_on_atoms_counted arch ext nl best_pattern fuel blocks s
        ≠ .error .out_of_fuel := by
  induction fuel with
  | zero =>
    intro blocks s _ _ hfuel
    cases blocks with
    | nil => intro h; cases h
    | cons b rest => simp only [List.length_cons] at hfuel; omega
  | succ fuel ih =>
    intro blocks s hpats hblocks hfuel
    cases blocks with
    | nil => intro h; cases h
    | cons b rest =>
      have hrest : ∀ x ∈ rest, x ∈ nl.blocks := fun x hx => hblocks x (List.mem_cons_of_mem _ hx)
      simp only [List.length_cons] at hfuel
      unfold match_pattern_on_atoms_counted
      simp only [bind, Except.bind]
      cases hr : try_create_molecule arch ext nl fuel best_pattern b s with
      | error e =>
        intro h
        cases h
        exact hinner fuel b s (hblocks b (List.mem_cons_self _ _)) hpats (by omega) hr
      | ok r =>
        obtain ⟨s2, id⟩ := r
        obtain ⟨hl, hnone, hsome⟩ := try_create_molecule_uncommitted arch ext nl fuel best_pattern
          b s s2 id hr (by rw [hpats]; exact hroot) (hblocks b (List.mem_cons_self _ _)) hdrivers
        cases id with
        | none =>
          simp only
          rw [hnone rfl]
          exact ih _ _ hpats hrest (by omega)
        | some cur =>
          have hdec := hsome cur rfl
          have hl2 : (set_base_gain s2 cur).list_of_pack_patterns = pats := hl.trans hpats
          have again : ∀ l, (∀ x ∈ l, x ∈ nl.blocks) → l.length ≤ rest.length + 1 →
              (match_pattern_on_atoms_counted arch ext nl best_pattern fuel l
                (set_base_gain s2 cur)).map (fun r => (r.1, r.2 + 1)) ≠ .error .out_of_fuel := by
            intro l hlb hlen hrun
            have := ih l _ hl2 hlb (by omega)
            cases hrec : match_pattern_on_atoms_counted arch ext nl best_pattern fuel l
                (set_base_gain s2 cur) with
            | error e =>
              rw [hrec] at hrun this
              cases hrun
              exact this rfl
            | ok r2 => rw [hrec] at hrun; cases hrun
          simp only
          cases hlast : last_inserted (set_base_gain s2 cur).atom_molecules_multimap b with
          | none => exact again _ hblocks (by simp)
          | some last =>
            simp only
            split_ifs
            · exact ih _ _ hl2 hrest (by omega)
            · exact again _ hblocks (by simp)

/-- Not stopping for lack of fuel, as an inequation. -/
theorem has_fuel_iff {α : Type} (x : Except PrepackError α) :
    has_fuel x ↔ x ≠ .error .out_of_fuel := by
  unfold has_fuel
  split
  · simp
  · rename_i h
    exact ⟨fun _ hx => h hx, fun _ => trivial⟩

/-- A run that returns has not run out of fuel. -/
theorem has_fuel_ok {α : Type} (a : α) : has_fuel (Except.ok a : Except PrepackError α) := by
  trivial

/-- A run that stops with another error has not run out of fuel. -/
theorem has_fuel_error {α : Type} (e : PrepackError) (he : e ≠ .out_of_fuel) :
    has_fuel (Except.error e : Except PrepackError α) := by
  rw [has_fuel_iff]
  intro h
  cases h
  exact he rfl

/-- An assertion needs no fuel. -/
theorem has_fuel_assert (line : Nat) (cond : Bool) : has_fuel (vtr_assert line cond) := by
  unfold vtr_assert
  split
  · exact has_fuel_ok _
  · exact has_fuel_error _ (by intro h; cases h)

/-- Two steps that have enough fuel, run in sequence, have enough fuel; the second step is
considered only for the values the first returns. -/
theorem has_fuel_bind {α β : Type} {x : Except PrepackError α}
    {f : α → Except PrepackError β} (hx : has_fuel x)
    (hf : ∀ a, x = .ok a → has_fuel (f a)) : has_fuel (x >>= f) := by
  cases x with
  | error e =>
    rw [has_fuel_iff] at hx ⊢
    intro h
    apply hx
    cases h
    rfl
  | ok a => exact hf a rfl

/-- Reading the chain root pin needs no fuel. -/
theorem chain_root_ipin_has_fuel (pat : t_pack_patterns) : has_fuel (chain_root_ipin pat) := by
  unfold chain_root_ipin
  split
  · exact has_fuel_ok _
  · exact has_fuel_error _ (by decide)

/-- When the driver links of the chain input pin lower a rank, the search for the chain
root returns with more fuel than the rank of the atom it starts at. -/
theorem find_new_root_atom_for_chain_has_fuel (arch : Arch) (ext : Externals)
    (nl : AtomNetlist) (pat : t_pack_patterns)
    (atom_molecules : List (AtomBlockId × PackMoleculeId)) (rank : AtomBlockId → Nat)
    (hrank : ∀ root_ipin, chain_root_ipin pat = .ok root_ipin → ∀ b d,
      nl.find_atom_pin_driver b (arch.pin root_ipin).port.model_port
        (arch.pin root_ipin).pin_number = some d → rank d < rank b)
    (fuel : Nat) :
    ∀ (blk_id : AtomBlockId), rank blk_id < fuel →
      has_fuel (find_new_root_atom_for_chain arch ext nl pat atom_molecules fuel blk_id) := by
  induction fuel with
  | zero => intro blk_id h; omega
  | succ fuel ih =>
    intro blk_id hfuel
    unfold find_new_root_atom_for_chain
    refine has_fuel_bind (has_fuel_assert _ _) (fun _ _ => ?_)
    refine has_fuel_bind (has_fuel_assert _ _) (fun _ _ => ?_)
    refine has_fuel_bind (chain_root_ipin_has_fuel _) (fun root_ipin hr => ?_)
    dsimp only
    split
    · exact has_fuel_ok _
    · split
      · exact has_fuel_ok _
      · rename_i d hd
        split
        · exact has_fuel_ok _
        · have hlt := hrank root_ipin hr blk_id d hd
          refine has_fuel_bind (ih d (by omega)) (fun r _ => ?_)
          split <;> exact has_fuel_ok _

/-- The chain bookkeeping needs no fuel. -/
theorem init_molecule_chain_info_has_fuel (arch : Arch) (nl : AtomNetlist)
    (blk_id : AtomBlockId) (pat : t_pack_patterns) (pack_molecules : List t_pack_molecule)
    (atom_molecules : List (AtomBlockId × PackMoleculeId)) (chain_info : List t_chain_info) :
    has_fuel (init_molecule_chain_info arch nl blk_id pat pack_molecules atom_molecules
      chain_info) := by
  unfold init_molecule_chain_info
  refine has_fuel_bind (chain_root_ipin_has_fuel _) (fun _ _ => ?_)
  dsimp only
  split
  · exact has_fuel_ok _
  · split
    · exact has_fuel_error _ (by intro h; cases h)
    · exact has_fuel_ok _

/-- The commit loop needs no fuel. -/
theorem commit_atoms_has_fuel (pat : t_pack_patterns) (ids : List (Option AtomBlockId))
    (m : PackMoleculeId) :
    ∀ (l : List Nat) (amap : List (AtomBlockId × PackMoleculeId)),
      has_fuel (commit_atoms pat ids m l amap) := by
  intro l
  induction l with
  | nil => intro amap; exact has_fuel_ok _
  | cons i rest ih =>
    intro amap
    unfold commit_atoms
    split
    · exact has_fuel_bind (has_fuel_assert _ _) (fun _ _ => ih _)
    · exact ih _

/-- On a well-formed pattern graph the matcher has enough fuel with one unit more than the
sum of the connection-list lengths. -/
theorem try_expand_molecule_has_fuel (arch : Arch) (ext : Externals) (nl : AtomNetlist)
    (pat : t_pack_patterns) (atom_molecules : List (AtomBlockId × PackMoleculeId))
    (ids : List (Option AtomBlockId)) (blk_id : Option AtomBlockId) (fuel : Nat)
    (hok : pattern_graph_ok pat)
    (hroot : ∀ rb, pat.root_block = some rb → rb < pat.blocks.length)
    (hlen : ids.length = pat.blocks.length)
    (hfuel : connection_total pat + 1 ≤ fuel) :
    has_fuel (try_expand_molecule arch ext nl fuel pat ids blk_id atom_molecules) := by
  unfold try_expand_molecule
  split
  · exact has_fuel_error _ (by decide)
  · rename_i rb hrb
    have hle := open_connections_le pat ids
    have hb := try_expand_molecule_loop_logged_bound arch ext nl pat atom_molecules hok fuel
      [(rb, blk_id)] ids hlen
      (fun e he => by simp only [List.mem_singleton] at he; rw [he]; exact hroot rb hrb)
      (by simp only [List.length_singleton]; omega)
    rw [← try_expand_molecule_loop_logged_erase]
    rcases hb with ⟨r, hr, _⟩ | ⟨line, hr⟩
    · rw [hr]; exact has_fuel_ok _
    · rw [hr]; exact has_fuel_error _ (by intro h; cases h)

/-- A call of `try_create_molecule` has enough fuel when the pattern graph is well-formed,
the driver links of the chain input pin lower a rank, and the fuel exceeds the rank of the
atom given and the number of connection entries of the pattern. -/
theorem try_create_molecule_has_fuel (arch : Arch) (ext : Externals) (nl : AtomNetlist)
    (fuel pack_pattern_index : Nat) (blk_id : AtomBlockId) (s : Prepacker)
    (rank : AtomBlockId → Nat)
    (hok : pattern_graph_ok (s.list_of_pack_patterns.getD pack_pattern_index default))
    (hnum : (s.list_of_pack_patterns.getD pack_pattern_index default).num_blocks
      = (s.list_of_pack_patterns.getD pack_pattern_index default).blocks.length)
    (hroot : ∀ rb, (s.list_of_pack_patterns.getD pack_pattern_index default).root_block = some rb
      → rb < (s.list_of_pack_patterns.getD pack_pattern_index default).blocks.length)
    (hrank : ∀ root_ipin,
      chain_root_ipin (s.list_of_pack_patterns.getD pack_pattern_index default) = .ok root_ipin →
      ∀ b d, nl.find_atom_pin_driver b (arch.pin root_ipin).port.model_port
        (arch.pin root_ipin).pin_number = some d → rank d < rank b)
    (hstart : rank blk_id < fuel)
    (hfuel2 : connection_total (s.list_of_pack_patterns.getD pack_pattern_index default) + 1
      ≤ fuel) :
    has_fuel (try_create_molecule arch ext nl fuel pack_pattern_index blk_id s) := by
  unfold try_create_molecule
  repeat' first
    | exact has_fuel_ok _
    | exact has_fuel_error _ (by decide)
    | exact find_new_root_atom_for_chain_has_fuel arch ext nl _ _ rank hrank fuel _
        hstart
    | exact try_expand_molecule_has_fuel arch ext nl _ _ _ _ fuel hok hroot
        (by rw [List.length_replicate]; exact hnum) hfuel2
    | exact init_molecule_chain_info_has_fuel _ _ _ _ _ _ _
    | exact commit_atoms_has_fuel _ _ _ _ _
    | refine has_fuel_bind ?_ (fun _ _ => ?_)
    | split
    | dsimp only

/-- On the ring of two adders the search for the chain root goes round the ring and does
not return, whatever the fuel. -/
theorem find_new_root_atom_for_chain_ring (fuel : Nat) :
    ∀ blk, blk = 0 ∨ blk = 1 →
      find_new_root_atom_for_chain (loaded_template chain_arch)
        (example_ext chain_arch carry_ring_netlist) carry_ring_netlist.toNetlist
        chain_pattern [] fuel blk = .error .out_of_fuel := by
  induction fuel with
  | zero => intro blk _; rfl
  | succ fuel ih =>
    intro blk hblk
    have hstep : ∀ b d, (b = 0 ∧ d = 1) ∨ (b = 1 ∧ d = 0) →
        find_new_root_atom_for_chain (loaded_template chain_arch)
          (example_ext chain_arch carry_ring_netlist) carry_ring_netlist.toNetlist
          chain_pattern [] (fuel + 1) b
        = (find_new_root_atom_for_chain (loaded_template chain_arch)
          (example_ext chain_arch carry_ring_netlist) carry_ring_netlist.toNetlist
          chain_pattern [] fuel d >>= fun new_root_blk_id =>
            match new_root_blk_id with
            | none => pure (some b)
            | some r => pure (some r)) := by
      intro b d hbd
      rcases hbd with ⟨rfl, rfl⟩ | ⟨rfl, rfl⟩ <;> rfl
    rcases hblk with rfl | rfl
    · rw [hstep 0 1 (Or.inl ⟨rfl, rfl⟩), ih 1 (Or.inr rfl)]; rfl
    · rw [hstep 1 0 (Or.inr ⟨rfl, rfl⟩), ih 0 (Or.inl rfl)]; rfl

/-- When the search for the chain root fails, so does `try_create_molecule`. -/
theorem try_create_molecule_root_error (arch : Arch) (ext : Externals) (nl : AtomNetlist)
    (fuel pack_pattern_index : Nat) (blk_id : AtomBlockId) (s : Prepacker) (e : PrepackError)
    (hn : ((s.list_of_pack_patterns.getD pack_pattern_index default).num_blocks == 0
      || (s.list_of_pack_patterns.getD pack_pattern_index default).root_block.isNone) = false)
    (hc : (s.list_of_pack_patterns.getD pack_pattern_index default).is_chain = true)
    (hr : find_new_root_atom_for_chain arch ext nl
      (s.list_of_pack_patterns.getD pack_pattern_index default) s.atom_molecules_multimap fuel
      blk_id = .error e) :
    try_create_molecule arch ext nl fuel pack_pattern_index blk_id s = .error e := by
  unfold try_create_molecule
  simp only [hn, hc, hr, bind, Except.bind, if_true, Bool.false_eq_true, if_false]

/-- In a concrete netlist whose net drivers are blocks of the netlist, every driver found
for a pin is an atom of the netlist. -/
theorem toNetlist_drivers_in_blocks (d : NetlistData)
    (hd : ∀ n ∈ d.nets, ∀ p ∈ n.driver, p.blk < d.blocks.length) :
    ∀ b mp bit x, d.toNetlist.find_atom_pin_driver b mp bit = some x →
      x ∈ d.toNetlist.blocks := by
  intro b mp bit x h
  simp only [NetlistData.toNetlist] at h ⊢
  split at h
  · split at h
    · cases h
    · rename_i n hn
      by_cases hlt : n < d.nets.length
      · rw [List.getD_eq_getElem _ _ hlt] at h
        cases hdr : (d.nets[n]).driver with
        | none => rw [hdr] at h; cases h
        | some p =>
          rw [hdr] at h
          simp only [Option.map_some'] at h
          cases h
          exact List.mem_range.mpr (hd _ (List.getElem_mem hlt) p (by rw [hdr]; rfl))
      · rw [List.getD_eq_default _ _ (Nat.le_of_not_lt hlt)] at h
        cases h
  · cases h

/-- In the reversed chain the driver of the carry input of an atom has a higher block
number. -/
theorem reversed_chain_links_ascend :
    ∀ b d, reversed_chain_netlist.toNetlist.find_atom_pin_driver b
        ((loaded_template chain_arch).pin 1).port.model_port
        ((loaded_template chain_arch).pin 1).pin_number = some d → 3 - d < 3 - b := by
  intro b d h
  have hp : ((loaded_template chain_arch).pin 1).port.model_port = { id := 0, is_clock := false } := by
    decide!
  have hn : ((loaded_template chain_arch).pin 1).pin_number = 0 := by decide!
  rw [hp, hn] at h
  rcases b with _ | _ | _ | b
  · revert h; revert d; decide
  · revert h; revert d; decide
  · revert h; revert d; decide
  · simp [NetlistData.toNetlist, reversed_chain_netlist,
      show (default : NetBlock).ports = [] from rfl] at h

/-- On the reversed chain every call of `try_create_molecule` for the chain pattern at an
atom of the netlist returns when given four units of fuel. -/
theorem reversed_chain_try_create_has_fuel (f : Nat) (blk : AtomBlockId) (s2 : Prepacker)
    (hl : s2.list_of_pack_patterns = [chain_pattern]) (hf : 4 ≤ f) :
    try_create_molecule (loaded_template chain_arch)
      (example_ext chain_arch reversed_chain_netlist) reversed_chain_netlist.toNetlist f 0 blk s2
      ≠ .error .out_of_fuel := by
  rw [← has_fuel_iff]
  have hpat : s2.list_of_pack_patterns.getD 0 default = chain_pattern := by rw [hl]; rfl
  refine try_create_molecule_has_fuel _ _ _ f 0 blk s2 (fun b => 3 - b) ?_ ?_ ?_ ?_ ?_ ?_
  · rw [hpat]; unfold pattern_graph_ok; decide
  · rw [hpat]; rfl
  · rw [hpat]
    intro rb hrb
    cases hrb
    decide
  · rw [hpat]
    intro root_ipin hr
    cases hr
    exact reversed_chain_links_ascend
  · exact lt_of_le_of_lt (Nat.sub_le 3 blk) (by omega)
  · rw [hpat]
    show connection_total chain_pattern + 1 ≤ f
    have : connection_total chain_pattern = 2 := by decide
    omega

/-- Keeping the marks is reflexive. -/
theorem marks_kept_refl (a : Arch) : marks_kept a a :=
  ⟨same_template_refl a, rfl, fun _ h => h⟩

/-- Keeping the marks is transitive. -/
theorem marks_kept_trans {a b c : Arch} (h1 : marks_kept a b) (h2 : marks_kept b c) :
    marks_kept a c :=
  ⟨same_template_trans h1.1 h2.1, h2.2.1.trans h1.2.1, fun e h => h2.2.2 e (h1.2.2 e h)⟩

/-- Raising flags keeps the marks. -/
theorem marks_kept_of_raised {a a2 : Arch} (h : only_infer_flags_raised a a2) :
    marks_kept a a2 := by
  obtain ⟨h1, h2, h3, h4, h5, h6⟩ := h
  refine ⟨⟨h4, h1, h2, fun n => ?_, fun e => ?_⟩, h5, fun e => (h6 e).2⟩
  · simp only [Arch.node, h3, and_self]
  · rw [(h6 e).1]
    exact ⟨rfl, rfl, rfl⟩

/-- Consistent cross-references stay consistent when only scratch fields change. -/
theorem refs_ok_congr {a a2 : Arch} (h : marks_kept a a2) (hr : refs_ok a) : refs_ok a2 := by
  obtain ⟨ht, hl, _⟩ := h
  obtain ⟨r1, r2, r3⟩ := hr
  have hp : ∀ p, a2.pin p = a.pin p := fun p => by simp only [Arch.pin, ht.1]
  refine ⟨fun p e he => ?_, fun e q hq => ?_, fun q e he => ?_⟩
  · rw [hp] at he; rw [hl]; exact r1 p e he
  · rw [(ht.2.2.2.2 e).2.2] at hq; rw [hp]; exact r2 e q hq
  · rw [hp] at he; rw [(ht.2.2.2.2 e).2.1]; exact r3 q e he

/-- A pin from which inference was done stays so when marks are kept. -/
theorem pin_started_kept {a a2 : Arch} (h : marks_kept a a2) (p : Nat)
    (hs : pin_started a p) : pin_started a2 p := by
  intro e1 ho hn
  have hp : a2.pin p = a.pin p := by simp only [Arch.pin, h.1.1]
  rw [hp] at ho
  rw [(h.1.2.2.2.2 e1).1] at hn
  exact h.2.2 e1 (hs e1 ho hn)

/-- An edge from which inference was done stays so when marks are kept. -/
theorem forward_started_kept {a a2 : Arch} (h : marks_kept a a2) (e : Nat)
    (hs : forward_started a e) : forward_started a2 e := by
  intro p hp
  rw [(h.1.2.2.2.2 e).2.1] at hp
  exact pin_started_kept h p (hs p hp)

/-- Setting the flag of an edge of the arena marks it. -/
theorem set_infer_pattern_marked (a : Arch) (e : Nat) (he : e < a.edges.length) :
    ((a.set_infer_pattern e).edge e).infer_pattern = true := by
  rw [set_infer_pattern_edge, if_pos ⟨rfl, he⟩]

/-- Forward inference from a pin, run where the marks are closed except at that pin,
leaves the marks closed, with the sole unlabelled output edge of the pin marked. -/
theorem forward_infer_pattern_closes (fuel : Nat) :
    ∀ (a a2 : Arch) (pin : Nat), forward_infer_pattern fuel a pin = .ok a2 →
      (∀ p e, e ∈ (a.pin p).output_edges → e < a.edges.length) →
      forward_closed_but a pin →
      forward_closed a2 ∧ pin_started a2 pin := by
  induction fuel with
  | zero => intro a a2 pin h; cases h
  | succ fuel ih =>
    intro a a2 pin h hw hc
    unfold forward_infer_pattern at h
    split at h
    · rename_i e0 hout
      have he0 : e0 < a.edges.length := hw pin e0 (by rw [hout]; exact List.mem_singleton_self _)
      split at h
      · rename_i hcond
        simp only [Bool.and_eq_true, beq_iff_eq, List.length_eq_zero] at hcond
        have hk := marks_kept_of_raised (set_infer_pattern_raises a e0).1
        have hmark := set_infer_pattern_marked a e0 he0
        have hinv := (set_infer_pattern_raises a e0).2
        have hfields : ∀ e, ((a.set_infer_pattern e0).edge e).output_pins = (a.edge e).output_pins
            ∧ ((a.set_infer_pattern e0).edge e).pack_pattern_names
              = (a.edge e).pack_pattern_names := fun e =>
          ⟨(hk.1.2.2.2.2 e).2.1, (hk.1.2.2.2.2 e).1⟩
        -- the marks of the template with the new mark, away from the new mark
        have hold : ∀ e c e2, e ≠ e0 → ((a.set_infer_pattern e0).edge e).infer_pattern = true →
            ((a.set_infer_pattern e0).edge e).output_pins = [c] →
            ((a.set_infer_pattern e0).pin c).output_edges = [e2] →
            ((a.set_infer_pattern e0).edge e2).pack_pattern_names = [] →
            ((a.set_infer_pattern e0).edge e2).infer_pattern = true := by
          intro e c e2 hne hm ho hpo hn
          rw [(hfields e).1] at ho
          rw [(hfields e2).2] at hn
          have hm2 : (a.edge e).infer_pattern = true := by
            rcases hinv e hm with h1 | h1
            · exact h1
            · exact absurd h1 hne
          rcases hc e c e2 hm2 ho hpo hn with h1 | h1
          · exact hk.2.2 e2 h1
          · subst h1
            have : [e2] = [e0] := hpo.symm.trans hout
            cases this
            exact hmark
        dsimp only at h
        split at h
        · rename_i p0 hp0
          have hrec := ih _ _ _ h (fun p e he => by
              rw [hk.2.1]; exact hw p e he) (by
            intro e c e2 hm ho hpo hn
            by_cases hne : e = e0
            · subst hne
              rw [hp0] at ho
              cases ho
              exact Or.inr rfl
            · exact Or.inl (hold e c e2 hne hm ho hpo hn))
          refine ⟨hrec.1, ?_⟩
          intro e1 ho _
          have hk2 := marks_kept_of_raised (forward_infer_pattern_marks fuel _ _ _ h).1
          have hp : a2.pin pin = a.pin pin := by
            simp only [Arch.pin, hk2.1.1]
            rfl
          rw [hp, hout] at ho
          cases ho
          exact hk2.2.2 _ hmark
        · rename_i hp0
          simp only [pure, Except.pure] at h
          cases h
          refine ⟨?_, ?_⟩
          · intro e c e2 hm ho hpo hn
            by_cases hne : e = e0
            · subst hne
              exact absurd ho (hp0 c)
            · exact hold e c e2 hne hm ho hpo hn
          · intro e1 ho _
            have : [e1] = [e0] := ho.symm.trans hout
            cases this
            exact hmark
      · rename_i hcond
        simp only [pure, Except.pure] at h
        cases h
        have hmarked : (a.edge e0).pack_pattern_names = [] → (a.edge e0).infer_pattern = true := by
          intro hn
          simp only [hn, List.length_nil, beq_self_eq_true, Bool.true_and, beq_iff_eq] at hcond
          cases hf : (a.edge e0).infer_pattern
          · exact absurd hf hcond
          · rfl
        refine ⟨?_, ?_⟩
        · intro e c e2 hm ho hpo hn
          rcases hc e c e2 hm ho hpo hn with h1 | h1
          · exact h1
          · subst h1
            have : [e2] = [e0] := hpo.symm.trans hout
            cases this
            exact hmarked hn
        · intro e1 ho hn
          have : [e1] = [e0] := ho.symm.trans hout
          cases this
          exact hmarked hn
    · rename_i hout
      simp only [pure, Except.pure] at h
      cases h
      refine ⟨?_, ?_⟩
      · intro e c e2 hm ho hpo hn
        rcases hc e c e2 hm ho hpo hn with h1 | h1
        · exact h1
        · subst h1
          exact absurd hpo (hout e2)
      · intro e1 ho _
        exact absurd ho (hout e1)

/-- Backward inference from a pin whose sole unlabelled output edge, if any, is marked
leaves closed marks closed, on a template with consistent cross-references. -/
theorem backward_infer_pattern_closes (fuel : Nat) :
    ∀ (a a2 : Arch) (pin : Nat), backward_infer_pattern fuel a pin = .ok a2 →
      refs_ok a → forward_closed a → pin_started a pin → forward_closed a2 := by
  induction fuel with
  | zero => intro a a2 pin h; cases h
  | succ fuel ih =>
    intro a a2 pin h hr hc hs
    unfold backward_infer_pattern at h
    split at h
    · rename_i e0 hin
      split at h
      · rename_i hcond
        have hk := marks_kept_of_raised (set_infer_pattern_raises a e0).1
        have hinv := (set_infer_pattern_raises a e0).2
        have hfields : ∀ e, ((a.set_infer_pattern e0).edge e).output_pins = (a.edge e).output_pins
            ∧ ((a.set_infer_pattern e0).edge e).pack_pattern_names
              = (a.edge e).pack_pattern_names
            ∧ ((a.set_infer_pattern e0).edge e).input_pins = (a.edge e).input_pins := fun e =>
          ⟨(hk.1.2.2.2.2 e).2.1, (hk.1.2.2.2.2 e).1, (hk.1.2.2.2.2 e).2.2⟩
        have hc1 : forward_closed (a.set_infer_pattern e0) := by
          intro e c e2 hm ho hpo hn
          rw [(hfields e).1] at ho
          rw [(hfields e2).2.1] at hn
          apply hk.2.2
          rcases hinv e hm with h1 | h1
          · exact hc e c e2 h1 ho hpo hn
          · subst h1
            have hmem : pin ∈ (a.edge e).output_pins :=
              hr.2.2 pin e (by rw [hin]; exact List.mem_singleton_self _)
            rw [ho] at hmem
            have hpc : pin = c := List.mem_singleton.mp hmem
            subst hpc
            exact hs e2 hpo hn
        dsimp only at h
        split at h
        · rename_i p0 hp0
          refine ih _ _ _ h (refs_ok_congr hk hr) hc1 ?_
          intro e2 hpo hn
          have hmem : e0 ∈ (a.pin p0).output_edges :=
            hr.2.1 e0 p0 (by rw [← (hfields e0).2.2, hp0]; exact List.mem_singleton_self _)
          have hpo2 : (a.pin p0).output_edges = [e2] := hpo
          rw [hpo2] at hmem
          have he : e0 = e2 := List.mem_singleton.mp hmem
          subst he
          by_cases hlt : e0 < a.edges.length
          · exact set_infer_pattern_marked a e0 hlt
          · exfalso
            have := hr.1 p0 e0 (by rw [hpo2]; exact List.mem_singleton_self _)
            exact hlt this
        · simp only [pure, Except.pure] at h
          cases h
          exact hc1
      · simp only [pure, Except.pure] at h
        cases h
        exact hc
    · simp only [pure, Except.pure] at h
      cases h
      exact hc

/-- Doing nothing is an inference step for no edge. -/
theorem inference_done_refl (a : Arch) : inference_done a a [] :=
  ⟨marks_kept_refl a, fun _ hc => ⟨hc, fun e he => absurd he (List.not_mem_nil e)⟩⟩

/-- Inference steps compose; the edges are concatenated. -/
theorem inference_done_trans {a a1 a2 : Arch} {es1 es2 : List Nat}
    (h1 : inference_done a a1 es1) (h2 : inference_done a1 a2 es2) :
    inference_done a a2 (es1 ++ es2) := by
  refine ⟨marks_kept_trans h1.1 h2.1, fun hr hc => ?_⟩
  obtain ⟨hc1, hs1⟩ := h1.2 hr hc
  obtain ⟨hc2, hs2⟩ := h2.2 (refs_ok_congr h1.1 hr) hc1
  refine ⟨hc2, fun e he hn => ?_⟩
  rcases List.mem_append.mp he with he | he
  · exact forward_started_kept h2.1 e (hs1 e he hn)
  · exact hs2 e he (by rw [(h1.1.1.2.2.2.2 e).1]; exact hn)

/-- A step that changes no structure, no edge count and no mark is an inference step for no
edge. -/
theorem inference_done_of_quiet {a a2 : Arch} (ht : same_template a a2)
    (hl : a2.edges.length = a.edges.length)
    (hf : ∀ e, (a2.edge e).infer_pattern = (a.edge e).infer_pattern) :
    inference_done a a2 [] := by
  refine ⟨⟨ht, hl, fun e h => by rw [hf]; exact h⟩, fun _ hc => ⟨?_, fun e he =>
    absurd he (List.not_mem_nil e)⟩⟩
  intro e c e2 hm ho hpo hn
  have hp : a2.pin c = a.pin c := by simp only [Arch.pin, ht.1]
  rw [hf] at hm ⊢
  rw [(ht.2.2.2.2 e).2.1] at ho
  rw [hp] at hpo
  rw [(ht.2.2.2.2 e2).1] at hn
  exact hc e c e2 hm ho hpo hn

/-- A loop whose every step is an inference step for the edges of its item is one for the
edges of all items. -/
theorem foldlM_inference_done {α σ : Type} (proj : σ → Arch)
    (f : σ → α → Except PrepackError σ) (edges_of : Arch → α → List Nat)
    (hcongr : ∀ a b x, same_template a b → edges_of b x = edges_of a x)
    (hf : ∀ s x s2, f s x = .ok s2 → inference_done (proj s) (proj s2) (edges_of (proj s) x)) :
    ∀ (l : List α) (s s2 : σ), l.foldlM f s = .ok s2 →
      inference_done (proj s) (proj s2) (l.flatMap (edges_of (proj s))) := by
  intro l
  induction l with
  | nil =>
    intro s s2 h
    simp only [List.foldlM, pure, Except.pure] at h
    cases h
    exact inference_done_refl _
  | cons x t ih =>
    intro s s2 h
    simp only [List.foldlM, bind, Except.bind] at h
    split at h
    · cases h
    · rename_i s1 h1
      have d1 := hf s x s1 h1
      have d2 := ih s1 s2 h
      have e : t.flatMap (edges_of (proj s1)) = t.flatMap (edges_of (proj s)) := by
        congr 1
        funext y
        exact hcongr _ _ y d1.1.1
      rw [e] at d2
      rw [List.flatMap_cons]
      exact inference_done_trans d1 d2

/-- The loop of forward inferences over the output pins of an edge keeps closed marks
closed and leaves inference done from each of the pins. -/
theorem forward_infer_fold_closes (fuel : Nat) (pins : List Nat) :
    ∀ (a a2 : Arch), pins.foldlM (fun a ipin => forward_infer_pattern fuel a ipin) a = .ok a2 →
      marks_kept a a2
      ∧ (refs_ok a → forward_closed a →
          forward_closed a2 ∧ ∀ q ∈ pins, pin_started a2 q) := by
  induction pins with
  | nil =>
    intro a a2 h
    simp only [List.foldlM, pure, Except.pure] at h
    cases h
    exact ⟨marks_kept_refl _, fun _ hc => ⟨hc, fun q hq => absurd hq (List.not_mem_nil q)⟩⟩
  | cons p t ih =>
    intro a a2 h
    simp only [List.foldlM, bind, Except.bind] at h
    split at h
    · cases h
    · rename_i a1 h1
      have hk1 := marks_kept_of_raised (forward_infer_pattern_marks fuel _ _ _ h1).1
      obtain ⟨hk2, hrest⟩ := ih a1 a2 h
      refine ⟨marks_kept_trans hk1 hk2, fun hr hc => ?_⟩
      obtain ⟨hc1, hs1⟩ := forward_infer_pattern_closes fuel a a1 p h1 hr.1
        (fun e c e2 hm ho hpo hn => Or.inl (hc e c e2 hm ho hpo hn))
      obtain ⟨hc2, hs2⟩ := hrest (refs_ok_congr hk1 hr) hc1
      refine ⟨hc2, fun q hq => ?_⟩
      rcases List.mem_cons.mp hq with hq | hq
      · rw [hq]; exact pin_started_kept hk2 p hs1
      · exact hs2 q hq

/-- Writing a pattern index changes no structure, no edge count and no mark. -/
theorem set_pack_pattern_index_quiet (a : Arch) (e m index : Nat) :
    same_template a (a.set_pack_pattern_index e m index)
    ∧ (a.set_pack_pattern_index e m index).edges.length = a.edges.length
    ∧ ∀ e2, ((a.set_pack_pattern_index e m index).edge e2).infer_pattern
        = (a.edge e2).infer_pattern := by
  have hedge : ∀ e2, ((a.set_pack_pattern_index e m index).edge e2).infer_pattern
        = (a.edge e2).infer_pattern
      ∧ ((a.set_pack_pattern_index e m index).edge e2).pack_pattern_names
        = (a.edge e2).pack_pattern_names
      ∧ ((a.set_pack_pattern_index e m index).edge e2).output_pins = (a.edge e2).output_pins
      ∧ ((a.set_pack_pattern_index e m index).edge e2).input_pins = (a.edge e2).input_pins := by
    intro e2
    rw [set_pack_pattern_index_edge]
    split
    · rename_i h; rw [h.1]; exact ⟨rfl, rfl, rfl, rfl⟩
    · exact ⟨rfl, rfl, rfl, rfl⟩
  refine ⟨⟨rfl, rfl, rfl, fun n => ⟨rfl, rfl, rfl, rfl, rfl⟩, fun e2 =>
    ⟨(hedge e2).2.1, (hedge e2).2.2.1, (hedge e2).2.2.2⟩⟩, ?_, fun e2 => (hedge e2).1⟩
  simp [Arch.set_pack_pattern_index]

/-- The loop over the names of one output edge: it keeps the marks and closed marks closed,
and when the edge has a name it leaves inference done from the edge and raises the flag that
a pattern was seen; the flag is raised only then. -/
theorem infer_names_loop (fuel : Nat) (e : Nat) (ms : List Nat) :
    ∀ (acc acc2 : (Arch × List Nat) × Bool),
      ms.foldlM
        (fun (acc : (Arch × List Nat) × Bool) m => do
          let pattern_name := (acc.1.1.edge e).pack_pattern_names.getD m 0
          let ins := insert_pattern_name acc.1.2 pattern_name
          let arch1 := acc.1.1.set_pack_pattern_index e m ins.2
          let arch2 ← (arch1.edge e).output_pins.foldlM
            (fun a ipin => forward_infer_pattern fuel a ipin) arch1
          pure ((arch2, ins.1), true)) acc = .ok acc2 →
      marks_kept acc.1.1 acc2.1.1
      ∧ (refs_ok acc.1.1 → forward_closed acc.1.1 →
          forward_closed acc2.1.1 ∧ (ms ≠ [] → forward_started acc2.1.1 e))
      ∧ (acc2.2 = true → acc.2 = true ∨ ms ≠ []) := by
  induction ms with
  | nil =>
    intro acc acc2 h
    simp only [List.foldlM, pure, Except.pure] at h
    cases h
    exact ⟨marks_kept_refl _, fun _ hc => ⟨hc, fun hne => absurd rfl hne⟩, fun h => Or.inl h⟩
  | cons m t ih =>
    intro acc acc2 h
    simp only [List.foldlM, bind, Except.bind, pure, Except.pure] at h
    split at h
    · cases h
    · rename_i acc1 h1
      split at h1
      · cases h1
      · rename_i arch2 h2
        cases h1
        obtain ⟨qt, ql, qf⟩ := set_pack_pattern_index_quiet acc.1.1 e m
          (insert_pattern_name acc.1.2 ((acc.1.1.edge e).pack_pattern_names.getD m 0)).2
        have hq := inference_done_of_quiet qt ql qf
        obtain ⟨hk2, hfold⟩ := forward_infer_fold_closes fuel _ _ _ h2
        obtain ⟨hk3, hrest, _⟩ := ih _ _ h
        simp only at hk3 hrest
        refine ⟨marks_kept_trans (marks_kept_trans hq.1 hk2) hk3, fun hr hc => ?_,
          fun _ => Or.inr (List.cons_ne_nil _ _)⟩
        obtain ⟨hc1, _⟩ := hq.2 hr hc
        obtain ⟨hc2, hs2⟩ := hfold (refs_ok_congr hq.1 hr) hc1
        obtain ⟨hc3, _⟩ := hrest (refs_ok_congr (marks_kept_trans hq.1 hk2) hr) hc2
        refine ⟨hc3, fun _ => ?_⟩
        apply forward_started_kept hk3
        intro p hp
        exact hs2 p (by rw [(hk2.1.2.2.2.2 e).2.1] at hp; exact hp)

/-- The loop of `discover_pin` over the output edges of a pin. -/
theorem infer_edges_loop (fuel : Nat) (es : List Nat) :
    ∀ (acc acc2 : (Arch × List Nat) × Bool),
      es.foldlM
        (fun (acc : (Arch × List Nat) × Bool) output_edge =>
          (List.range (acc.1.1.edge output_edge).pack_pattern_names.length).foldlM
            (fun (acc : (Arch × List Nat) × Bool) m => do
              let pattern_name := (acc.1.1.edge output_edge).pack_pattern_names.getD m 0
              let ins := insert_pattern_name acc.1.2 pattern_name
              let arch1 := acc.1.1.set_pack_pattern_index output_edge m ins.2
              let arch2 ← (arch1.edge output_edge).output_pins.foldlM
                (fun a ipin => forward_infer_pattern fuel a ipin) arch1
              pure ((arch2, ins.1), true))
            acc) acc = .ok acc2 →
      inference_done acc.1.1 acc2.1.1 es
      ∧ (acc2.2 = true → acc.2 = true
          ∨ ∃ e ∈ es, (acc.1.1.edge e).pack_pattern_names ≠ []) := by
  induction es with
  | nil =>
    intro acc acc2 h
    simp only [List.foldlM, pure, Except.pure] at h
    cases h
    exact ⟨inference_done_refl _, fun h => Or.inl h⟩
  | cons e t ih =>
    intro acc acc2 h
    simp only [List.foldlM_cons, bind, Except.bind] at h
    split at h
    · cases h
    · rename_i acc1 h1
      obtain ⟨hk1, hstep, hflag1⟩ := infer_names_loop fuel e _ _ _ h1
      obtain ⟨hd2, hflag2⟩ := ih acc1 acc2 h
      have hd1 : inference_done acc.1.1 acc1.1.1 [e] := by
        refine ⟨hk1, fun hr hc => ?_⟩
        obtain ⟨hc1, hs1⟩ := hstep hr hc
        refine ⟨hc1, fun e2 he2 hn => ?_⟩
        rw [List.mem_singleton] at he2
        subst he2
        apply hs1
        intro hnil
        rw [List.range_eq_nil, List.length_eq_zero] at hnil
        exact hn hnil
      refine ⟨inference_done_trans hd1 hd2, fun hf => ?_⟩
      rcases hflag2 hf with h3 | ⟨e2, he2, hn2⟩
      · rcases hflag1 h3 with h4 | h4
        · exact Or.inl h4
        · right
          refine ⟨e, List.mem_cons_self _ _, ?_⟩
          intro hnil
          apply h4
          rw [hnil]
          rfl
      · right
        refine ⟨e2, List.mem_cons_of_mem _ he2, ?_⟩
        rw [← (hk1.1.2.2.2.2 e2).1]
        exact hn2

/-- The body of the discovery for one pin is an inference step for the output edges of the
pin. -/
theorem discover_pin_inference_done (fuel : Nat) (pin : Nat) (st st2 : Arch × List Nat)
    (h : discover_pin fuel pin st = .ok st2) :
    inference_done st.1 st2.1 (st.1.pin pin).output_edges := by
  unfold discover_pin at h
  simp only [bind, Except.bind, pure, Except.pure] at h
  split at h
  · cases h
  · rename_i r hr
    obtain ⟨hloop, hflag⟩ := infer_edges_loop fuel _ _ _ hr
    simp only at hloop hflag
    split at h
    · rename_i hseen
      split at h
      · cases h
      · rename_i arch3 h3
        cases h
        have hk3 := marks_kept_of_raised (backward_infer_pattern_marks fuel _ _ _ h3).1
        refine ⟨marks_kept_trans hloop.1 hk3, fun hrefs hc => ?_⟩
        obtain ⟨hc1, hs1⟩ := hloop.2 hrefs hc
        have hpre : pin_started r.1.1 pin := by
          intro e2 hpo hn
          exfalso
          rcases hflag hseen with h4 | ⟨e, he, hne⟩
          · cases h4
          · have hp : r.1.1.pin pin = st.1.pin pin := by simp only [Arch.pin, hloop.1.1.1]
            rw [hp] at hpo
            rw [hpo, List.mem_singleton] at he
            subst he
            rw [(hloop.1.1.2.2.2.2 e).1] at hn
            exact hne hn
        refine ⟨backward_infer_pattern_closes fuel _ _ _ h3 (refs_ok_congr hloop.1 hrefs) hc1
          hpre, fun e he hn => forward_started_kept hk3 e (hs1 e he hn)⟩
    · cases h
      exact hloop

/-- The loop over the pins of one kind is an inference step for their output edges. -/
theorem discover_pins_inference_done (fuel : Nat) (pins : List Nat) (st st2 : Arch × List Nat)
    (h : pins.foldlM (fun acc pin => discover_pin fuel pin acc) st = .ok st2) :
    inference_done st.1 st2.1 (pins.flatMap fun pin => (st.1.pin pin).output_edges) :=
  foldlM_inference_done (fun (s : Arch × List Nat) => s.1) _
    (fun a pin => (a.pin pin).output_edges)
    (fun a b x hab => by simp only [Arch.pin, hab.1])
    (fun s x s2 hs => discover_pin_inference_done fuel x s s2 hs) pins st st2 h

/-- The traversal of the discovery is an inference step for the edges it visits. -/
theorem discover_pattern_names_inference_done (fuel : Nat) (node : Option Nat)
    (st st2 : Arch × List Nat)
    (h : discover_pattern_names_in_pb_graph_node fuel node st = .ok st2) :
    inference_done st.1 st2.1 (traversal_edges st.1 fuel node) := by
  induction fuel generalizing node st st2 with
  | zero => unfold discover_pattern_names_in_pb_graph_node at h; cases h
  | succ fuel ih =>
    cases node with
    | none =>
      unfold discover_pattern_names_in_pb_graph_node at h
      simp only [pure, Except.pure] at h
      cases h
      exact inference_done_refl _
    | some n =>
      unfold discover_pattern_names_in_pb_graph_node at h
      simp only [bind, Except.bind] at h
      split at h
      · cases h
      · rename_i st1 h1
        split at h
        · cases h
        · rename_i st2b h2
          split at h
          · cases h
          · rename_i st3 h3
            have q0 := reset_scratch_quiet st.1 n
            have d0 := inference_done_of_quiet q0.1 rfl (fun _ => rfl)
            have d1 := discover_pins_inference_done fuel _ _ _ h1
            have d2 := discover_pins_inference_done fuel _ _ _ h2
            have d3 := discover_pins_inference_done fuel _ _ _ h3
            have d4 := foldlM_inference_done (fun (s : Arch × List Nat) => s.1) _
              (fun a child => traversal_edges a fuel child)
              (fun a b x hab => traversal_edges_congr hab fuel x)
              (fun s x s2 hs => ih x s s2 hs) _ _ _ h
            have d01 := inference_done_trans d0 d1
            have d012 := inference_done_trans d01 d2
            have d0123 := inference_done_trans d012 d3
            have hall := inference_done_trans d0123 d4
            have t1 : same_template st.1 st1.1 := d01.1.1
            have t2 : same_template st.1 st2b.1 := d012.1.1
            have t3 : same_template st.1 st3.1 := d0123.1.1
            have e4 : (child_nodes st.1 (st.1.node n)).flatMap
                  (fun child => traversal_edges st3.1 fuel child)
                = (child_nodes st.1 (st.1.node n)).flatMap (traversal_edges st.1 fuel) := by
              congr 1
              funext c
              exact traversal_edges_congr t3 fuel c
            simp only [Arch.pin, t1.1, t2.1, e4] at hall
            simp only [traversal_edges, List.flatMap_append, Arch.pin]
            simpa [List.append_assoc] using hall

/-- With closed marks, every edge of a single-fanout path leaving a pin from which
inference was done is marked. -/
theorem single_fanout_path_marked (a : Arch) (hc : forward_closed a) :
    ∀ (es : List Nat) (p : Nat), pin_started a p → single_fanout_path a p es →
      ∀ e ∈ es, (a.edge e).infer_pattern = true := by
  intro es
  induction es with
  | nil => intro p _ _ e he; cases he
  | cons e1 rest ih =>
    intro p hs hpath e he
    obtain ⟨ho, hn, hrest⟩ := hpath
    have hm1 : (a.edge e1).infer_pattern = true := hs e1 ho hn
    rcases List.mem_cons.mp he with he | he
    · rw [he]; exact hm1
    · rcases hrest with hnil | ⟨p2, hop, hpath2⟩
      · rw [hnil] at he; cases he
      · refine ih p2 ?_ hpath2 e he
        intro e2 ho2 hn2
        exact hc e1 p2 e2 hm1 hop ho2 hn2

/-- Single-fanout paths do not depend on scratch fields. -/
theorem single_fanout_path_congr {a b : Arch} (h : same_template a b) :
    ∀ (es : List Nat) (p : Nat), single_fanout_path a p es → single_fanout_path b p es := by
  intro es
  induction es with
  | nil => intro p _; trivial
  | cons e rest ih =>
    intro p hp
    obtain ⟨ho, hn, hrest⟩ := hp
    have hpin : b.pin p = a.pin p := by simp only [Arch.pin, h.1]
    refine ⟨by rw [hpin]; exact ho, by rw [(h.2.2.2.2 e).1]; exact hn, ?_⟩
    rcases hrest with hnil | ⟨p2, hop, hpath2⟩
    · exact Or.inl hnil
    · exact Or.inr ⟨p2, by rw [(h.2.2.2.2 e).2.1]; exact hop, ih p2 hpath2⟩

/-- A template that passes the check has consistent cross-references. -/
theorem refs_check_ok (a : Arch) (h : refs_check a = true) : refs_ok a := by
  simp only [refs_check, Bool.and_eq_true, List.all_eq_true, List.mem_range,
    decide_eq_true_eq] at h
  obtain ⟨hp, he⟩ := h
  have hpin : ∀ p, ¬ p < a.pins.length → a.pin p = default := by
    intro p hlt
    simp only [Arch.pin]
    exact List.getD_eq_default _ _ (Nat.le_of_not_lt hlt)
  have hedge : ∀ e, ¬ e < a.edges.length → a.edge e = default := by
    intro e hlt
    simp only [Arch.edge]
    exact List.getD_eq_default _ _ (Nat.le_of_not_lt hlt)
  refine ⟨fun p e hmem => ?_, fun e q hq => ?_, fun q e hmem => ?_⟩
  · by_cases hlt : p < a.pins.length
    · exact (hp p hlt).1 e hmem
    · rw [hpin p hlt] at hmem
      cases hmem
  · by_cases hlt : e < a.edges.length
    · simpa using he e hlt q hq
    · rw [hedge e hlt] at hq
      cases hq
  · by_cases hlt : q < a.pins.length
    · simpa using (hp q hlt).2 e hmem
    · rw [hpin q hlt] at hmem
      cases hmem

/-- The nodes of the template after the allocation of a slot. -/
theorem alloc_pattern_block_node (ext : Externals) (st : BuildState) (n m : Nat) :
    (alloc_pattern_block ext st n).1.arch.node m
      = if m = n ∧ n < st.arch.nodes.length then
          { st.arch.node n with
            temp_scratch_pad := some (st.packing_pattern.index, st.packing_pattern.blocks.length) }
        else st.arch.node m := by
  simp only [alloc_pattern_block, Arch.node]
  exact list_getD_set _ _ _ _ _

/-- The frame is reflexive. -/
theorem build_frame_refl (st : BuildState) : build_frame st st :=
  ⟨rfl, rfl, rfl, rfl, rfl, rfl, fun _ => ⟨rfl, rfl, rfl, rfl⟩, fun _ _ h => h⟩

/-- The frame is transitive. -/
theorem build_frame_trans {a b c : BuildState} (h1 : build_frame a b) (h2 : build_frame b c) :
    build_frame a c := by
  obtain ⟨i1, p1, e1, t1, m1, l1, n1, s1⟩ := h1
  obtain ⟨i2, p2, e2, t2, m2, l2, n2, s2⟩ := h2
  refine ⟨i2.trans i1, p2.trans p1, e2.trans e1, t2.trans t1, m2.trans m1, l2.trans l1,
    fun n => ⟨(n2 n).1.trans (n1 n).1, (n2 n).2.1.trans (n1 n).2.1,
      (n2 n).2.2.1.trans (n1 n).2.2.1, (n2 n).2.2.2.trans (n1 n).2.2.2⟩, fun n a h => ?_⟩
  have := s1 n a h
  rw [← i1] at this ⊢
  exact s2 n a this

/-- Every write of the expansion respects the frame. -/
theorem build_step_frame (ext : Externals) {st st2 : BuildState} {l : List Nat}
    (h : build_step ext st l st2) :
    build_frame st st2 := by
  cases h with
  | alloc n hnew hn =>
    refine ⟨rfl, rfl, rfl, rfl, rfl, ?_, fun m => ?_, fun m a hm => ?_⟩
    · simp [alloc_pattern_block]
    · rw [alloc_pattern_block_node]
      split
      · rename_i hc; rw [hc.1]; exact ⟨rfl, rfl, rfl, rfl⟩
      · exact ⟨rfl, rfl, rfl, rfl⟩
    · rw [alloc_pattern_block_node]
      split
      · rename_i hc
        rw [hc.1] at hm
        simp only [has_block_of_pattern, hm, beq_self_eq_true] at hnew
        cases hnew
      · exact hm
  | head pat hi hb hc =>
    exact ⟨hi, rfl, rfl, rfl, rfl, rfl, fun _ => ⟨rfl, rfl, rfl, rfl⟩, fun _ _ h => h⟩
  | connect n N sp dst pin dpin hsrc hidx hdst hne =>
    exact ⟨rfl, rfl, rfl, rfl, rfl, rfl, fun _ => ⟨rfl, rfl, rfl, rfl⟩, fun _ _ h => h⟩

/-- Every logged sequence of writes of the expansion respects the frame. -/
theorem builds_log_frame (ext : Externals) {st st2 : BuildState} {l : List Nat}
    (h : builds_log ext st l st2) : build_frame st st2 := by
  induction h with
  | refl => exact build_frame_refl _
  | tail _ hstep ih => exact build_frame_trans ih (build_step_frame ext hstep)

/-- Every sequence of writes of the expansion respects the frame. -/
theorem builds_frame (ext : Externals) {st st2 : BuildState} (h : builds ext st st2) :
    build_frame st st2 := by
  obtain ⟨l, h⟩ := h
  exact builds_log_frame ext h

/-- No write at all. -/
theorem builds_refl (ext : Externals) (st : BuildState) : builds ext st st :=
  ⟨[], builds_log.refl st⟩

/-- One write. -/
theorem builds_single (ext : Externals) {st st2 : BuildState} {l : List Nat}
    (h : build_step ext st l st2) : builds ext st st2 :=
  ⟨[] ++ l, builds_log.tail (builds_log.refl st) h⟩

/-- One more write. -/
theorem builds_tail (ext : Externals) {st s1 st2 : BuildState} {l : List Nat}
    (h : builds ext st s1) (hstep : build_step ext s1 l st2) : builds ext st st2 := by
  obtain ⟨l0, h⟩ := h
  exact ⟨l0 ++ l, builds_log.tail h hstep⟩

/-- Logged sequences of writes compose, and so do their logs. -/
theorem builds_log_trans (ext : Externals) {a b c : BuildState} {l1 l2 : List Nat}
    (h1 : builds_log ext a l1 b) (h2 : builds_log ext b l2 c) :
    builds_log ext a (l1 ++ l2) c := by
  induction h2 with
  | refl => simpa using h1
  | tail _ hstep ih =>
    rw [← List.append_assoc]
    exact builds_log.tail ih hstep

/-- The writes of the expansion keep the parent nodes of the pins inside the arena. -/
theorem parents_ok_frame {st st2 : BuildState} (h : build_frame st st2)
    (hp : parents_ok st.arch) : parents_ok st2.arch := by
  intro pin
  simp only [Arch.pin, h.2.1, h.2.2.2.2.2.1]
  exact hp pin

/-- The writes of the expansion keep the slots of the pattern being built. -/
theorem slot_of_pattern_frame {st st2 : BuildState} (h : build_frame st st2) (d : Nat)
    (hs : slot_of_pattern st d) : slot_of_pattern st2 d := by
  obtain ⟨N, hN⟩ := hs
  exact ⟨N, by rw [h.1]; exact h.2.2.2.2.2.2.2 N d hN⟩

/-- Sequences of writes compose. -/
theorem builds_trans (ext : Externals) {a b c : BuildState} (h1 : builds ext a b)
    (h2 : builds ext b c) : builds ext a c := by
  obtain ⟨l1, h1⟩ := h1
  obtain ⟨l2, h2⟩ := h2
  exact ⟨l1 ++ l2, builds_log_trans ext h1 h2⟩

/-- The exploration of the pins of a primitive that has just got its slot (the three loops
over its input, output and clock pins), given what the nested expansions do. -/
theorem explore_primitive_builds (ext : Externals) (fuel : Nat)
    (ihf : ∀ e st b st2, forward_expand_pack_pattern_from_edge ext fuel e st b = .ok st2 →
      parents_ok st.arch → builds ext st st2)
    (ihb : ∀ e st dp db st2, backward_expand_pack_pattern_from_edge ext fuel e st dp db = .ok st2 →
      parents_ok st.arch → (∀ d, db = some d → slot_of_pattern st d) → builds ext st st2)
    (s0 st1 st2 st3 : BuildState) (addr : Nat) (ins clks : List (Nat × Nat)) (outs : List Nat)
    (hp : parents_ok s0.arch) (hslot : slot_of_pattern s0 addr)
    (h1 : ins.foldlM (fun s ep => backward_expand_pack_pattern_from_edge ext fuel ep.1 s
      (some ep.2) (some addr)) s0 = .ok st1)
    (h2 : outs.foldlM (fun s e => forward_expand_pack_pattern_from_edge ext fuel e s false) st1
      = .ok st2)
    (h3 : clks.foldlM (fun s ep => backward_expand_pack_pattern_from_edge ext fuel ep.1 s
      (some ep.2) (some addr)) st2 = .ok st3) :
    builds ext s0 st3 := by
  have hback : ∀ (s : BuildState) (ep : Nat × Nat) (s2 : BuildState), builds ext s0 s →
      backward_expand_pack_pattern_from_edge ext fuel ep.1 s (some ep.2) (some addr) = .ok s2 →
      builds ext s0 s2 := by
    intro s ep s2 hb hrun
    have hf := builds_frame ext hb
    refine builds_trans ext hb (ihb _ _ _ _ _ hrun (parents_ok_frame hf hp) ?_)
    intro d hd
    cases hd
    exact slot_of_pattern_frame hf addr hslot
  have hfwd : ∀ (s : BuildState) (e : Nat) (s2 : BuildState), builds ext s0 s →
      forward_expand_pack_pattern_from_edge ext fuel e s false = .ok s2 →
      builds ext s0 s2 := by
    intro s e s2 hb hrun
    exact builds_trans ext hb (ihf _ _ _ _ hrun (parents_ok_frame (builds_frame ext hb) hp))
  have b1 := foldlM_ok_invariant _ (fun s => builds ext s0 s) hback ins s0 st1
    (builds_refl ext _) h1
  have b2 := foldlM_ok_invariant _ (fun s => builds ext s0 s) hfwd outs st1 st2 b1 h2
  exact foldlM_ok_invariant _ (fun s => builds ext s0 s) hback clks st2 st3 b2 h3

/-- The allocation of a slot for the parent node of a pin is a write of the expansion, after
which the address returned is the slot of that node. -/
theorem alloc_pattern_block_builds (ext : Externals) (st : BuildState) (pin : Nat)
    (hp : parents_ok st.arch)
    (hnew : has_block_of_pattern (st.arch.node (st.arch.pin pin).parent_node)
      st.packing_pattern.index = false) :
    builds ext st (alloc_pattern_block ext st (st.arch.pin pin).parent_node).1
    ∧ slot_of_pattern (alloc_pattern_block ext st (st.arch.pin pin).parent_node).1
        (alloc_pattern_block ext st (st.arch.pin pin).parent_node).2 := by
  refine ⟨builds_single ext (build_step.alloc st _ hnew (hp pin)), ?_⟩
  refine ⟨(st.arch.pin pin).parent_node, ?_⟩
  rw [alloc_pattern_block_node, if_pos ⟨rfl, hp pin⟩]
  rfl

/-- The end of the backward expansion at a primitive pin: the connection between the slot of
the source primitive and the destination slot is a write of the expansion. -/
theorem connect_builds (ext : Externals) (st st3 : BuildState) (loc loc2 : ExpandLocals)
    (pin n : Nat) (dp db : Option Nat) (hall : builds ext st st3)
    (h : (match dp with
      | none => pure ({ loc with st := st3, found := true } : ExpandLocals)
      | some destination_pin =>
        match (st3.arch.node n).temp_scratch_pad, db with
        | some sp, some destination_block => do
          vtr_assert 717 (sp.1 == st.packing_pattern.index)
          let source_block := sp.2
          let c : t_pack_pattern_connections :=
            { from_block := source_block
              from_pin := pin
              to_block := destination_block
              to_pin := destination_pin }
          let pat1 := add_connection st3.packing_pattern source_block c
          let pat2 := add_connection pat1 destination_block c
          if source_block == destination_block then throw .fatal_same_block
          else pure ({ loc with st := { st3 with packing_pattern := pat2 }, found := true }
            : ExpandLocals)
        | _, _ => throw .null_pointer) = (.ok loc2 : Except PrepackError ExpandLocals))
    (hdb : ∀ d, db = some d → slot_of_pattern st d) :
    builds ext st loc2.st := by
  have hfr := builds_frame ext hall
  split at h
  · cases h
    exact hall
  · rename_i destination_pin
    split at h
    · rename_i sp d hsp
      obtain ⟨u, hu, h⟩ := bind_ok_inv h
      dsimp only at h
      split at h
      · cases h
      · rename_i hne
        cases h
        obtain ⟨N, hN⟩ := slot_of_pattern_frame hfr d (hdb d rfl)
        have hidx : sp.1 = st3.packing_pattern.index := by
          unfold vtr_assert at hu
          split at hu
          · rename_i hc
            rw [hfr.1]
            simpa using hc
          · cases hu
        refine builds_tail ext hall (?_ : build_step ext st3 [] _)
        exact build_step.connect st3 n N sp d pin destination_pin hsp hidx hN
          (by simpa using hne)
    · cases h

/-- Every expansion that returns has made a sequence of writes of the three kinds: slot
allocations for nodes without a slot in this pattern, header writes, and connections between
two different slots of this pattern, provided the parent nodes of the pins are in the arena
and, for a backward expansion, the destination slot belongs to a node of this pattern. -/
theorem expand_builds (ext : Externals) (fuel : Nat) :
    (∀ e st b st2, forward_expand_pack_pattern_from_edge ext fuel e st b = .ok st2 →
      parents_ok st.arch → builds ext st st2)
    ∧ (∀ e st dp db st2, backward_expand_pack_pattern_from_edge ext fuel e st dp db = .ok st2 →
      parents_ok st.arch → (∀ d, db = some d → slot_of_pattern st d) → builds ext st st2) := by
  induction fuel with
  | zero =>
    constructor
    · intro e st b st2 h
      unfold forward_expand_pack_pattern_from_edge at h
      cases h
    · intro e st dp db st2 h
      unfold backward_expand_pack_pattern_from_edge at h
      cases h
  | succ fuel ih =>
    obtain ⟨ihf, ihb⟩ := ih
    constructor
    · intro e st b st2 h hp
      unfold forward_expand_pack_pattern_from_edge at h
      dsimp only at h
      split at h
      · cases h; exact builds_refl ext _
      · obtain ⟨r, hr, h⟩ := bind_ok_inv h
        cases h
        refine foldlM_ok_invariant _ (fun (loc : ExpandLocals) => builds ext st loc.st) ?_ _
          ⟨st, false, none⟩ _ (builds_refl ext st) hr
        intro loc pin loc2 hI hbody
        have hfr := builds_frame ext hI
        have hpl := parents_ok_frame hfr hp
        split at hbody
        · -- a primitive pin
          obtain ⟨_, _, hbody⟩ := bind_ok_inv hbody
          split at hbody
          · rename_i hnb
            obtain ⟨st1, h1, hbody⟩ := bind_ok_inv hbody
            obtain ⟨st2, h2, hbody⟩ := bind_ok_inv hbody
            obtain ⟨st3, h3, hbody⟩ := bind_ok_inv hbody
            obtain ⟨y, hy, hbody⟩ := bind_ok_inv hbody
            cases hy
            have hnew : has_block_of_pattern (loc.st.arch.node (loc.st.arch.pin pin).parent_node)
                loc.st.packing_pattern.index = false := by
              rw [hfr.1]
              simpa using hnb
            obtain ⟨ha, hslot⟩ := alloc_pattern_block_builds ext loc.st pin hpl hnew
            have hex := explore_primitive_builds ext fuel ihf ihb _ st1 st2 st3 _ _ _ _
              (parents_ok_frame (builds_frame ext ha) hpl) hslot h1 h2 h3
            have hall := builds_trans ext hI (builds_trans ext ha hex)
            dsimp only at hbody
            split at hbody
            · cases hbody
            · split at hbody
              · cases hbody
                exact builds_tail ext hall (build_step.head _ _ rfl rfl rfl)
              · cases hbody
                exact hall
          · obtain ⟨y, hy, hbody⟩ := bind_ok_inv hbody
            cases hy
            dsimp only at hbody
            split at hbody
            · cases hbody
            · split at hbody
              · cases hbody
                exact builds_tail ext hI (build_step.head _ _ rfl rfl rfl)
              · cases hbody
                exact hI
        · -- a pin of a block that is no primitive
          refine foldlM_ok_invariant _ (fun (l : ExpandLocals) => builds ext st l.st) ?_ _ _ _ hI
            hbody
          intro l edge_j l2 hl hstep
          split at hstep
          · obtain ⟨st1, h1, hstep⟩ := bind_ok_inv hstep
            cases hstep
            exact builds_trans ext hl
              (ihf _ _ _ _ h1 (parents_ok_frame (builds_frame ext hl) hp))
          · refine foldlM_ok_invariant _ (fun (l : ExpandLocals) => builds ext st l.st) ?_ _ _ _
              hl hstep
            intro m k m2 hm hk
            split at hk
            · split at hk
              · cases hk
              · obtain ⟨st1, h1, hk⟩ := bind_ok_inv hk
                cases hk
                exact builds_trans ext hm
                  (ihf _ _ _ _ h1 (parents_ok_frame (builds_frame ext hm) hp))
            · cases hk
              exact hm
    · intro e st dp db st2 h hp hdb
      unfold backward_expand_pack_pattern_from_edge at h
      dsimp only at h
      split at h
      · cases h; exact builds_refl ext _
      · obtain ⟨r, hr, h⟩ := bind_ok_inv h
        cases h
        refine foldlM_ok_invariant _ (fun (loc : ExpandLocals) => builds ext st loc.st) ?_ _
          ⟨st, false, none⟩ _ (builds_refl ext st) hr
        intro loc pin loc2 hI hbody
        have hfr := builds_frame ext hI
        have hpl := parents_ok_frame hfr hp
        split at hbody
        · -- a primitive pin
          obtain ⟨_, _, hbody⟩ := bind_ok_inv hbody
          split at hbody
          · rename_i hnb
            obtain ⟨st1, h1, hbody⟩ := bind_ok_inv hbody
            obtain ⟨st2, h2, hbody⟩ := bind_ok_inv hbody
            obtain ⟨st3, h3, hbody⟩ := bind_ok_inv hbody
            have hnew : has_block_of_pattern
                (loc.st.arch.node (loc.st.arch.pin pin).parent_node)
                loc.st.packing_pattern.index = false := by
              rw [hfr.1]
              simpa using hnb
            obtain ⟨ha, hslot⟩ := alloc_pattern_block_builds ext loc.st pin hpl hnew
            have hall : builds ext st st3 := by
              refine builds_trans ext hI (builds_trans ext ha ?_)
              split_ifs at h1 h2 h3 with hroot
              · have hhead : builds ext
                    (alloc_pattern_block ext loc.st (loc.st.arch.pin pin).parent_node).1 _ :=
                  builds_single ext (build_step.head
                    (alloc_pattern_block ext loc.st (loc.st.arch.pin pin).parent_node).1
                    { (alloc_pattern_block ext loc.st
                        (loc.st.arch.pin pin).parent_node).1.packing_pattern with
                      root_block := some (alloc_pattern_block ext loc.st
                        (loc.st.arch.pin pin).parent_node).2 } rfl rfl rfl)
                have hf1 := builds_frame ext hhead
                exact builds_trans ext hhead
                  (explore_primitive_builds ext fuel ihf ihb _ st1 st2 st3 _ _ _ _
                    (parents_ok_frame hf1 (parents_ok_frame (builds_frame ext ha) hpl))
                    (slot_of_pattern_frame hf1 _ hslot) h1 h2 h3)
              · exact explore_primitive_builds ext fuel ihf ihb _ st1 st2 st3 _ _ _ _
                  (parents_ok_frame (builds_frame ext ha) hpl) hslot h1 h2 h3
            exact connect_builds ext st st3 loc loc2 pin _ dp db hall hbody hdb
          · obtain ⟨st3, h3, hbody⟩ := bind_ok_inv hbody
            cases h3
            exact connect_builds ext st loc.st loc loc2 pin _ dp db hI hbody hdb
        · -- a pin of a block that is no primitive
          split at hbody
          · split at hbody
            · obtain ⟨st1, h1, hbody⟩ := bind_ok_inv hbody
              cases hbody
              refine builds_trans ext hI (builds_trans ext
                (builds_single ext (build_step.head loc.st
                  { loc.st.packing_pattern with is_chain := true } rfl rfl rfl)) ?_)
              exact ihf _ _ _ _ h1 hpl
            · cases hbody
              exact hI
          · refine foldlM_ok_invariant _ (fun (l : ExpandLocals) => builds ext st l.st) ?_ _ _ _
              hI hbody
            intro l edge_j l2 hl hstep
            have hdl : ∀ (s : BuildState), builds ext st s → ∀ d, db = some d →
                slot_of_pattern s d :=
              fun s hs d hd => slot_of_pattern_frame (builds_frame ext hs) d (hdb d hd)
            split at hstep
            · obtain ⟨st1, h1, hstep⟩ := bind_ok_inv hstep
              cases hstep
              exact builds_trans ext hl
                (ihb _ _ _ _ _ h1 (parents_ok_frame (builds_frame ext hl) hp) (hdl _ hl))
            · refine foldlM_ok_invariant _ (fun (l : ExpandLocals) => builds ext st l.st) ?_ _ _
                _ hl hstep
              intro m k m2 hm hk
              split at hk
              · obtain ⟨_, _, hk⟩ := bind_ok_inv hk
                obtain ⟨st1, h1, hk⟩ := bind_ok_inv hk
                cases hk
                exact builds_trans ext hm
                  (ihb _ _ _ _ _ h1 (parents_ok_frame (builds_frame ext hm) hp) (hdl _ hm))
              · cases hk
                exact hm

/-- The blocks of a pattern after a connection has been prepended to the list of a block. -/
theorem add_connection_block (pat : t_pack_patterns) (b k : Nat)
    (c : t_pack_pattern_connections) :
    (add_connection pat b c).block k
      = if k = b ∧ b < pat.blocks.length then
          { pat.block b with connections := c :: (pat.block b).connections }
        else pat.block k := by
  simp only [add_connection, t_pack_patterns.block]
  exact list_getD_set _ _ _ _ _

/-- Prepending a connection to a list changes the connection lists only. -/
theorem add_connection_keeps (pat : t_pack_patterns) (b : Nat)
    (c : t_pack_pattern_connections) :
    (add_connection pat b c).index = pat.index
    ∧ (add_connection pat b c).base_cost = pat.base_cost
    ∧ (add_connection pat b c).blocks.length = pat.blocks.length
    ∧ ∀ k, ((add_connection pat b c).block k).block_id = (pat.block k).block_id
      ∧ ((add_connection pat b c).block k).pb_type = (pat.block k).pb_type
      ∧ ((add_connection pat b c).block k).pattern_index = (pat.block k).pattern_index := by
  refine ⟨rfl, rfl, by simp [add_connection], fun k => ?_⟩
  rw [add_connection_block]
  split
  · rename_i h1
    rw [h1.1]
    exact ⟨rfl, rfl, rfl⟩
  · exact ⟨rfl, rfl, rfl⟩

/-- The recording of a connection changes the connection lists only. -/
theorem connect_blocks_keeps (pat : t_pack_patterns) (c : t_pack_pattern_connections) :
    (connect_blocks pat c).index = pat.index
    ∧ (connect_blocks pat c).base_cost = pat.base_cost
    ∧ (connect_blocks pat c).blocks.length = pat.blocks.length
    ∧ ∀ k, ((connect_blocks pat c).block k).block_id = (pat.block k).block_id
      ∧ ((connect_blocks pat c).block k).pb_type = (pat.block k).pb_type
      ∧ ((connect_blocks pat c).block k).pattern_index = (pat.block k).pattern_index := by
  obtain ⟨a1, a2, a3, a4⟩ := add_connection_keeps pat c.from_block c
  obtain ⟨b1, b2, b3, b4⟩ := add_connection_keeps (add_connection pat c.from_block c) c.to_block c
  refine ⟨b1.trans a1, b2.trans a2, b3.trans a3, fun k => ?_⟩
  exact ⟨(b4 k).1.trans (a4 k).1, (b4 k).2.1.trans (a4 k).2.1, (b4 k).2.2.trans (a4 k).2.2⟩

/-- Every write of the expansion keeps the state of the slots, the nodes it logs being
appended to the list of the nodes with a slot. -/
theorem build_step_slots (ext : Externals) {st st2 : BuildState} {l created : List Nat}
    (h : build_step ext st l st2) (hs : slots_ok st created) :
    slots_ok st2 (created ++ l) := by
  obtain ⟨hnd, hlen, hnum, hfw, hbw⟩ := hs
  cases h with
  | alloc n hnew hn =>
    have hnot : n ∉ created := by
      intro hmem
      obtain ⟨k, hk, hkn⟩ := List.getElem_of_mem hmem
      have := (hfw k n (by rw [List.getElem?_eq_getElem hk, hkn])).1
      simp [has_block_of_pattern, this] at hnew
    refine ⟨?_, ?_, ?_, ?_, ?_⟩
    · rw [List.nodup_append]
      refine ⟨hnd, List.nodup_singleton n, ?_⟩
      intro x hx hx2
      rw [List.mem_singleton] at hx2
      exact hnot (hx2 ▸ hx)
    · simp [alloc_pattern_block, hlen]
    · simp [alloc_pattern_block, hnum]
    · intro k m hk
      by_cases hlt : k < created.length
      · rw [List.getElem?_append_left hlt] at hk
        have hmem : m ∈ created := by
          rw [List.getElem?_eq_getElem hlt, Option.some.injEq] at hk
          exact hk ▸ List.getElem_mem hlt
        have hmn : m ≠ n := fun e => hnot (e ▸ hmem)
        obtain ⟨h1, h2, h3, h4⟩ := hfw k m hk
        rw [alloc_pattern_block_node, if_neg (fun hc => hmn hc.1)]
        have hblk : (alloc_pattern_block ext st n).1.packing_pattern.block k
            = st.packing_pattern.block k := by
          simp only [alloc_pattern_block, t_pack_patterns.block]
          rw [List.getD_append _ _ _ _ (by omega)]
        rw [hblk]
        exact ⟨h1, h2, h3, h4⟩
      · have hge : created.length ≤ k := Nat.le_of_not_lt hlt
        rw [List.getElem?_append_right hge] at hk
        have hk0 : k - created.length = 0 := by
          by_contra hne
          rw [List.getElem?_eq_none (by simp; omega)] at hk
          cases hk
        rw [hk0] at hk
        simp only [List.getElem?_cons_zero, Option.some.injEq] at hk
        subst hk
        have hkeq : k = created.length := by omega
        subst hkeq
        rw [alloc_pattern_block_node, if_pos ⟨rfl, hn⟩]
        have hblk : (alloc_pattern_block ext st n).1.packing_pattern.block created.length
            = { pb_type := (st.arch.node n).pb_type, block_id := st.L_num_blocks,
                pattern_index := st.packing_pattern.index, connections := [] } := by
          simp only [alloc_pattern_block, t_pack_patterns.block]
          rw [← hlen, List.getD_append_right _ _ _ _ (le_refl _)]
          simp
        rw [hblk]
        exact ⟨by simp [alloc_pattern_block, hlen], hnum, rfl, rfl⟩
    · intro m a hm
      rw [alloc_pattern_block_node] at hm
      split at hm
      · rename_i hc
        simp only [Option.some.injEq, Prod.mk.injEq] at hm
        have ha : a = created.length := by
          have := hm.2
          simp only [alloc_pattern_block] at this
          omega
        rw [ha, hc.1]
        simp
      · have := hbw m a hm
        have hlt : a < created.length := by
          by_contra hge
          rw [List.getElem?_eq_none (by omega)] at this
          cases this
        rw [List.getElem?_append_left hlt]
        exact this
  | head pat hi hb hc =>
    rw [List.append_nil]
    refine ⟨hnd, by simpa [hb] using hlen, hnum, ?_, ?_⟩
    · intro k n hk
      have hblk : pat.block k = st.packing_pattern.block k := by
        simp only [t_pack_patterns.block, hb]
      simp only [hblk, hi]
      exact hfw k n hk
    · intro n a hn
      simp only [hi] at hn
      exact hbw n a hn
  | connect n N sp dst pin dpin hsrc hidx hdst hne =>
    rw [List.append_nil]
    obtain ⟨k1, k2, k3, k4⟩ := connect_blocks_keeps st.packing_pattern ⟨sp.2, pin, dst, dpin⟩
    refine ⟨hnd, by simpa [k3] using hlen, hnum, ?_, ?_⟩
    · intro k m hk
      simp only [k1, (k4 k).1, (k4 k).2.1, (k4 k).2.2]
      exact hfw k m hk
    · intro m a hm
      simp only [k1] at hm
      exact hbw m a hm

/-- Every logged sequence of writes of the expansion keeps the state of the slots: the nodes
with a slot afterwards are those before, followed by the log. -/
theorem builds_log_slots (ext : Externals) {st st2 : BuildState} {l : List Nat}
    (h : builds_log ext st l st2) :
    ∀ created, slots_ok st created → slots_ok st2 (created ++ l) := by
  induction h with
  | refl =>
    intro created hs
    simpa using hs
  | tail _ hstep ih =>
    intro created hs
    rw [← List.append_assoc]
    exact build_step_slots ext hstep (ih created hs)

/-- Every write of the expansion keeps the account of the base cost, the nodes it logs
being appended to the list of the nodes with a slot. -/
theorem build_step_cost (ext : Externals) {st st2 : BuildState} {l created : List Nat}
    (h : build_step ext st l st2) (hs : cost_ok ext st created) :
    cost_ok ext st2 (created ++ l) := by
  unfold cost_ok at hs ⊢
  cases h with
  | alloc n hnew hn =>
    simp only [alloc_pattern_block, List.foldl_append, List.foldl_cons, List.foldl_nil, hs]
  | head pat hi hb hc =>
    rw [List.append_nil]
    simp only [hc]
    exact hs
  | connect n N sp dst pin dpin hsrc hidx hdst hne =>
    rw [List.append_nil]
    exact hs

/-- Every logged sequence of writes of the expansion keeps the account of the base cost. -/
theorem builds_log_cost (ext : Externals) {st st2 : BuildState} {l : List Nat}
    (h : builds_log ext st l st2) :
    ∀ created, cost_ok ext st created → cost_ok ext st2 (created ++ l) := by
  induction h with
  | refl =>
    intro created hs
    simpa using hs
  | tail _ hstep ih =>
    intro created hs
    rw [← List.append_assoc]
    exact build_step_cost ext hstep (ih created hs)

/-- A template that passes the check has the parent node of every pin in its arena. -/
theorem parents_check_ok (a : Arch) (h : parents_check a = true) : parents_ok a := by
  simp only [parents_check, Bool.and_eq_true, decide_eq_true_eq, List.all_eq_true] at h
  intro pin
  by_cases hlt : pin < a.pins.length
  · simp only [Arch.pin, List.getD_eq_getElem _ _ hlt]
    exact h.2 _ (List.getElem_mem hlt)
  · simp only [Arch.pin]
    rw [List.getD_eq_default _ _ (Nat.le_of_not_lt hlt)]
    exact h.1

/-- A state without blocks, with the counter at 0 and without any scratch pad set has the
slots of no node. -/
theorem slots_ok_fresh (st : BuildState) (hb : st.packing_pattern.blocks = [])
    (hn : st.L_num_blocks = 0) (hs : ∀ node ∈ st.arch.nodes, node.temp_scratch_pad = none) :
    slots_ok st [] := by
  refine ⟨List.nodup_nil, by simp [hb], hn, ?_, ?_⟩
  · intro k n hk
    simp at hk
  · intro n a hna
    exfalso
    by_cases hlt : n < st.arch.nodes.length
    · have := hs _ (List.getElem_mem hlt)
      simp only [Arch.node, List.getD_eq_getElem _ _ hlt] at hna
      rw [this] at hna
      cases hna
    · simp only [Arch.node] at hna
      rw [List.getD_eq_default _ _ (Nat.le_of_not_lt hlt)] at hna
      cases hna

/-- A write to the edges keeps the nodes clear. -/
theorem nodes_clear_of_eq {arch a b : Arch} (h : nodes_clear arch a) (hn : b.nodes = a.nodes)
    (hp : b.pins = a.pins) : nodes_clear arch b := by
  obtain ⟨h1, h2, h3, h4⟩ := h
  refine ⟨hp.trans h1, by rw [hn]; exact h2, fun n => ?_, fun n => ?_⟩
  · simp only [Arch.node, hn]; exact h3 n
  · simp only [Arch.node, hn]; exact h4 n

/-- The body of the discovery for one pin keeps the nodes clear. -/
theorem discover_pin_clear (arch : Arch) (fuel : Nat) (pin : Nat) (st st2 : Arch × List Nat)
    (h : discover_pin fuel pin st = .ok st2) (hc : nodes_clear arch st.1) :
    nodes_clear arch st2.1 := by
  unfold discover_pin at h
  obtain ⟨r, hr, h⟩ := bind_ok_inv h
  have hrc : nodes_clear arch r.1.1 := by
    refine foldlM_ok_invariant _ (fun (acc : (Arch × List Nat) × Bool) => nodes_clear arch acc.1.1)
      ?_ _ _ _ hc hr
    intro acc output_edge acc2 hacc hstep
    refine foldlM_ok_invariant _
      (fun (acc : (Arch × List Nat) × Bool) => nodes_clear arch acc.1.1) ?_ _ _ _ hacc hstep
    intro b m b2 hb hm
    obtain ⟨arch2, h2, hm⟩ := bind_ok_inv hm
    cases hm
    refine foldlM_ok_invariant _ (fun (a : Arch) => nodes_clear arch a) ?_ _ _ _ ?_ h2
    · intro a ipin a2 ha hf
      have := (forward_infer_pattern_marks fuel a a2 ipin hf).1
      exact nodes_clear_of_eq ha this.2.2.1 this.2.2.2.1
    · exact nodes_clear_of_eq hb rfl rfl
  split at h
  · obtain ⟨arch3, h3, h⟩ := bind_ok_inv h
    cases h
    have := (backward_infer_pattern_marks fuel r.1.1 arch3 pin h3).1
    exact nodes_clear_of_eq hrc this.2.2.1 this.2.2.2.1
  · cases h
    exact hrc

/-- The discovery keeps the nodes clear. -/
theorem discover_pattern_names_clear (arch : Arch) (fuel : Nat) :
    ∀ (node : Option Nat) (st st2 : Arch × List Nat),
      discover_pattern_names_in_pb_graph_node fuel node st = .ok st2 →
      nodes_clear arch st.1 → nodes_clear arch st2.1 := by
  induction fuel with
  | zero =>
    intro node st st2 h
    unfold discover_pattern_names_in_pb_graph_node at h
    cases h
  | succ fuel ih =>
    intro node st st2 h hc
    cases node with
    | none =>
      unfold discover_pattern_names_in_pb_graph_node at h
      cases h
      exact hc
    | some pb_graph_node =>
      unfold discover_pattern_names_in_pb_graph_node at h
      obtain ⟨st1, h1, h⟩ := bind_ok_inv h
      obtain ⟨st2a, h2, h⟩ := bind_ok_inv h
      obtain ⟨st3, h3, h⟩ := bind_ok_inv h
      have hpin : ∀ (acc : Arch × List Nat) (pin : Nat) (acc2 : Arch × List Nat),
          nodes_clear arch acc.1 → discover_pin fuel pin acc = .ok acc2 →
          nodes_clear arch acc2.1 :=
        fun acc pin acc2 ha hd => discover_pin_clear arch fuel pin acc acc2 hd ha
      have hc0 : nodes_clear arch
          (({ st.1 with nodes := (st.1.nodes.set pb_graph_node
              { st.1.node pb_graph_node with temp_scratch_pad := none }) } : Arch)) := by
        obtain ⟨c1, c2, c3, c4⟩ := hc
        refine ⟨c1, by simpa using c2, fun n => ?_, fun n => ?_⟩
        · simp only [Arch.node]
          rw [list_getD_set]
          split
          · rename_i hn
            rw [hn.1]
            exact c3 _
          · exact c3 n
        · simp only [Arch.node]
          rw [list_getD_set]
          split
          · rfl
          · exact c4 n
      have c1 := foldlM_ok_invariant _ (fun (acc : Arch × List Nat) => nodes_clear arch acc.1)
        hpin _ _ _ hc0 h1
      have c2 := foldlM_ok_invariant _ (fun (acc : Arch × List Nat) => nodes_clear arch acc.1)
        hpin _ _ _ c1 h2
      have c3 := foldlM_ok_invariant _ (fun (acc : Arch × List Nat) => nodes_clear arch acc.1)
        hpin _ _ _ c2 h3
      exact foldlM_ok_invariant _ (fun (acc : Arch × List Nat) => nodes_clear arch acc.1)
        (fun acc child acc2 ha hd => ih child acc acc2 hd ha) _ _ _ c3 h

/-- A scratch pad that is set after a logged sequence of writes of the expansion points to
a block of the pattern being built or was set before. -/
theorem builds_log_scratch (ext : Externals) {st st2 : BuildState} {l : List Nat}
    (h : builds_log ext st l st2) :
    ∀ n sp, (st2.arch.node n).temp_scratch_pad = some sp →
      sp.1 = st.packing_pattern.index ∨ (st.arch.node n).temp_scratch_pad = some sp := by
  induction h with
  | refl => exact fun n sp h => Or.inr h
  | tail hlog hstep ih =>
    intro n sp hsp
    have hidx := (builds_log_frame ext hlog).1
    cases hstep with
    | alloc m hnew hm =>
      rw [alloc_pattern_block_node] at hsp
      split at hsp
      · simp only [Option.some.injEq] at hsp
        left
        rw [← hsp]
        exact hidx
      · exact ih n sp hsp
    | head pat hi hb hc => exact ih n sp hsp
    | connect m N sp2 dst pin dpin hsrc hidx2 hdst hne => exact ih n sp hsp

/-- Building pattern `i` takes the library from its state before pattern `i` to its state
before pattern `i + 1`. -/
theorem load_pack_pattern_library (ext : Externals) (arch : Arch) (fuel : Nat) (i : Nat)
    (types : List t_logical_block_type) (acc acc2 : Arch × List t_pack_patterns)
    (hacc : library_ok ext arch i acc) (hi : i < acc.2.length)
    (h : load_pack_pattern ext fuel i types acc = .ok acc2) :
    library_ok ext arch (i + 1) acc2 ∧ acc2.2.length = acc.2.length := by
  obtain ⟨hp, hty, hsc, hnew, hall⟩ := hacc
  induction types with
  | nil =>
    unfold load_pack_pattern at h
    simp only [pure, Except.pure] at h
    cases h
    exact ⟨⟨hp, hty, fun n j a hs => Nat.lt_succ_of_lt (hsc n j a hs),
      fun j hj hlt => hnew j (by omega) hlt, hall⟩, rfl⟩
  | cons type rest ih =>
    unfold load_pack_pattern at h
    simp only [bind, Except.bind, pure, Except.pure] at h
    split at h
    · cases h
    · rename_i ee hee
      split at h
      · exact ih h
      · rename_i expansion_edge
        split at h
        · cases h
        · rename_i built hbuilt
          have hfresh : slots_ok
              (⟨acc.1, { acc.2.getD i default with base_cost := 0 }, 0⟩ : BuildState) [] := by
            refine ⟨List.nodup_nil, ?_, rfl, ?_, ?_⟩
            · show (acc.2.getD i default).blocks.length = 0
              rw [(hnew i (le_refl _) hi).2]
              rfl
            · intro k n hk
              simp at hk
            · intro n a hna
              have := hsc n _ a hna
              simp only [(hnew i (le_refl _) hi).1] at this
              omega
          obtain ⟨l, hl⟩ := (expand_builds ext fuel).2 _ _ _ _ _ hbuilt hp
            (fun d hd => by cases hd)
          have hfr := builds_log_frame ext hl
          have hbe : ∀ pat3 : t_pack_patterns, pat3.blocks = built.packing_pattern.blocks →
              pat3.base_cost = built.packing_pattern.base_cost →
              pat3.num_blocks = built.L_num_blocks →
              library_ok ext arch (i + 1) (built.arch, acc.2.set i pat3)
              ∧ (built.arch, acc.2.set i pat3).2.length = acc.2.length := by
            intro pat3 hb hc hn
            refine ⟨⟨parents_ok_frame hfr hp, fun n => ?_, fun n j a hs => ?_,
              fun j hj hlt => ?_, fun pat hpat => ?_⟩, by simp⟩
            · rw [(hfr.2.2.2.2.2.2.1 n).1]
              exact hty n
            · rcases builds_log_scratch ext hl n (j, a) hs with h1 | h1
              · simp only [(hnew i (le_refl _) hi).1] at h1
                omega
              · exact Nat.lt_succ_of_lt (hsc n j a h1)
            · simp only [List.length_set] at hlt
              have hji : ¬ (j = i ∧ i < acc.2.length) := fun hc => by omega
              simp only [list_getD_set, hji, if_false]
              exact hnew j (by omega) hlt
            · rcases List.mem_or_eq_of_mem_set hpat with hin | rfl
              · exact hall pat hin
              · refine ⟨l, _, built, hfresh, rfl, hl, fun n => ?_, hb, hc, hn⟩
                rw [(hfr.2.2.2.2.2.2.1 n).1]
                exact hty n
          split at h
          · cases h
          · rename_i optional hopt
            split at h
            · split at h
              · cases h
              · rename_i head
                split at h
                · cases h
                · rename_i pat3 hpat3
                  cases h
                  have hf := find_all_equivalent_chains_frame _ _ _ _ _ hpat3
                  exact hbe pat3 (by rw [hf]) (by rw [hf]) (by rw [hf])
            · cases h
              exact hbe _ rfl rfl rfl

/-- Building the patterns `i`, ..., `i + k - 1` in turn takes the library from its state
before pattern `i` to its state before pattern `i + k`. -/
theorem load_pack_patterns_library (ext : Externals) (arch : Arch) (fuel : Nat)
    (types : List t_logical_block_type) :
    ∀ (k i : Nat) (acc acc2 : Arch × List t_pack_patterns),
      library_ok ext arch i acc → i + k ≤ acc.2.length →
      (List.range' i k).foldlM (fun acc i => load_pack_pattern ext fuel i types acc) acc
        = .ok acc2 →
      library_ok ext arch (i + k) acc2 := by
  intro k
  induction k with
  | zero =>
    intro i acc acc2 hacc _ h
    simp only [List.range'_zero, List.foldlM, pure, Except.pure] at h
    cases h
    exact hacc
  | succ k ih =>
    intro i acc acc2 hacc hle h
    rw [List.range'_succ] at h
    simp only [List.foldlM, bind, Except.bind] at h
    split at h
    · cases h
    · rename_i acc1 h1
      obtain ⟨hok, hlen⟩ := load_pack_pattern_library ext arch fuel i types acc acc1 hacc
        (by omega) h1
      have := ih (i + 1) acc1 acc2 hok (by omega) h
      rw [show i + (k + 1) = i + 1 + k by omega]
      exact this

/-- Adding the costs one by one from 0 gives their sum. -/
theorem foldl_add_eq_sum (f : Nat → ℚ) (l : List Nat) :
    l.foldl (fun acc n => acc + f n) 0 = (l.map f).sum := by
  have key : ∀ (l : List Nat) (a : ℚ),
      l.foldl (fun acc n => acc + f n) a = a + (l.map f).sum := by
    intro l
    induction l with
    | nil => intro a; simp
    | cons x t ih =>
      intro a
      simp only [List.foldl_cons, List.map_cons, List.sum_cons, ih]
      ring
  rw [key l 0, zero_add]

/-- When `alloc_and_load_pack_patterns` returns a library for a template whose pins have
their parent node in the arena and whose scratch pads are null, every pattern of the library
holds what an expansion built. -/
theorem library_built_by_expansion (ext : Externals) (fuel : Nat) (arch : Arch)
    (logical_block_types : List t_logical_block_type) (lib : Arch × List t_pack_patterns)
    (hp : parents_ok arch) (hclear : ∀ node ∈ arch.nodes, node.temp_scratch_pad = none)
    (h : alloc_and_load_pack_patterns ext fuel arch logical_block_types = .ok lib) :
    ∀ pat ∈ lib.2, ∃ created, built_by_expansion ext arch pat created := by
  have hc0 : nodes_clear arch arch := by
    refine ⟨rfl, rfl, fun _ => rfl, fun n => ?_⟩
    by_cases hlt : n < arch.nodes.length
    · simp only [Arch.node, List.getD_eq_getElem _ _ hlt]
      exact hclear _ (List.getElem_mem hlt)
    · simp only [Arch.node]
      rw [List.getD_eq_default _ _ (Nat.le_of_not_lt hlt)]
      rfl
  unfold alloc_and_load_pack_patterns at h
  obtain ⟨discovered, hd, h⟩ := bind_ok_inv h
  obtain ⟨loaded, hl, h⟩ := bind_ok_inv h
  have hlib : lib = loaded := by
    split at h
    · cases h
    · cases h
      rfl
  subst hlib
  have hdc : nodes_clear arch discovered.1 :=
    foldlM_ok_invariant _ (fun (acc : Arch × List Nat) => nodes_clear arch acc.1)
      (fun acc type acc2 ha hrun =>
        discover_pattern_names_clear arch fuel type.pb_graph_head acc acc2 hrun ha)
      _ _ _ hc0 hd
  obtain ⟨d1, d2, d3, d4⟩ := hdc
  have hlen : (alloc_and_init_pattern_list_from_hash discovered.2).length
      = discovered.2.length := by
    simp [alloc_and_init_pattern_list_from_hash]
  have hget : ∀ j, j < discovered.2.length →
      (alloc_and_init_pattern_list_from_hash discovered.2).getD j default
        = { name := discovered.2.get? j, index := j, root_block := none, num_blocks := 0,
            is_block_optional := [], is_chain := false, chain_root_pins := [], base_cost := 0,
            blocks := [] } := by
    intro j hj
    rw [List.getD_eq_getElem _ _ (by rw [hlen]; exact hj)]
    simp [alloc_and_init_pattern_list_from_hash]
  have h0 : library_ok ext arch 0 (discovered.1, alloc_and_init_pattern_list_from_hash
      discovered.2) := by
    refine ⟨fun pin => ?_, d3, fun n j a hs => ?_, fun j _ hj => ?_, fun pat hpat => ?_⟩
    · simp only [Arch.pin, d1, d2]
      exact hp pin
    · rw [d4 n] at hs
      cases hs
    · rw [hlen] at hj
      rw [hget j hj]
      exact ⟨rfl, rfl⟩
    · unfold alloc_and_init_pattern_list_from_hash at hpat
      rw [List.mem_map] at hpat
      obtain ⟨i, _, rfl⟩ := hpat
      refine ⟨[], ⟨discovered.1, _, 0⟩, _, ?_, ?_, builds_log.refl _, d3, rfl, rfl, rfl⟩
      swap
      · exact (rfl : (0 : ℚ) = 0)
      refine ⟨List.nodup_nil, rfl, rfl, fun k n hk => by simp at hk, fun n a hna => ?_⟩
      rw [d4 n] at hna
      cases hna
  rw [List.range_eq_range'] at hl
  have hfin := load_pack_patterns_library ext arch fuel logical_block_types discovered.2.length 0
    _ _ h0 (by simp [hlen]) hl
  exact hfin.2.2.2.2

/-- The frame of the writes keeps the template up to the scratch pads. -/
theorem same_graph_frame {a : Arch} {s s2 : BuildState} (h : same_graph a s.arch)
    (hf : build_frame s s2) : same_graph a s2.arch := by
  obtain ⟨h1, h2, h3, h4⟩ := h
  obtain ⟨_, f1, f2, f3, _, _, f4, _⟩ := hf
  refine ⟨f1.trans h1, f2.trans h2, f3.trans h3, fun n => ?_⟩
  exact ⟨(f4 n).1.trans (h4 n).1, (f4 n).2.1.trans (h4 n).2.1,
    (f4 n).2.2.1.trans (h4 n).2.2.1, (f4 n).2.2.2.trans (h4 n).2.2.2⟩

/-- What the expansions read of the template does not depend on the scratch pads. -/
theorem same_graph_reads {a b : Arch} (h : same_graph a b) :
    (∀ e, b.edge e = a.edge e) ∧ (∀ p, b.pin p = a.pin p)
    ∧ (∀ p, b.is_primitive_pin p = a.is_primitive_pin p)
    ∧ (∀ n, input_edges_of b (b.node n).input_pins = input_edges_of a (a.node n).input_pins)
    ∧ (∀ n, output_edges_of b (b.node n).output_pins
        = output_edges_of a (a.node n).output_pins)
    ∧ (∀ n, input_edges_of b (b.node n).clock_pins = input_edges_of a (a.node n).clock_pins)
    ∧ (∀ n, b.pb_type (b.node n).pb_type = a.pb_type (a.node n).pb_type) := by
  obtain ⟨h1, h2, h3, h4⟩ := h
  have hpin : ∀ p, b.pin p = a.pin p := fun p => by simp only [Arch.pin, h1]
  refine ⟨fun e => by simp only [Arch.edge, h2], hpin, fun p => ?_, fun n => ?_, fun n => ?_,
    fun n => ?_, fun n => ?_⟩
  · simp only [Arch.is_primitive_pin, Arch.pb_type, hpin, h3, (h4 _).1]
  · simp only [input_edges_of, hpin, (h4 n).2.1]
  · simp only [output_edges_of, hpin, (h4 n).2.2.1]
  · simp only [input_edges_of, hpin, (h4 n).2.2.2]
  · simp only [Arch.pb_type, h3, (h4 n).1]

/-- The conditions of a call go along the writes of the expansion. -/
theorem run_pre_builds (ext : Externals) {a : Arch} {idx : Nat} {db : Option Nat}
    {s s2 : BuildState} {l : List Nat} (h : run_pre a idx db s) (hl : builds_log ext s l s2) :
    run_pre a idx db s2 := by
  have hf := builds_log_frame ext hl
  obtain ⟨h1, h2, h3, h4⟩ := h
  exact ⟨same_graph_frame h1 hf, hf.1.trans h2, parents_ok_frame hf h3,
    fun d hd => slot_of_pattern_frame hf d (h4 d hd)⟩

/-- The conditions of a call do not depend on the destination block when there is none. -/
theorem run_pre_none {a : Arch} {idx : Nat} {db : Option Nat} {s : BuildState}
    (h : run_pre a idx db s) : run_pre a idx none s :=
  ⟨h.1, h.2.1, h.2.2.1, fun d hd => by cases hd⟩

/-- A slot is kept by the writes of the expansion. -/
theorem slot_held_builds (ext : Externals) {idx : Nat} {s s2 : BuildState} {l : List Nat}
    (hidx : s.packing_pattern.index = idx) (hl : builds_log ext s l s2) (n : Nat)
    (h : slot_held s.arch idx n) : slot_held s2.arch idx n := by
  obtain ⟨k, hk⟩ := h
  have := (builds_log_frame ext hl).2.2.2.2.2.2.2 n k (by rw [hidx]; exact hk)
  exact ⟨k, by rw [← hidx]; exact this⟩

/-- A part of an expansion that writes nothing. -/
theorem expansion_run_refl (ext : Externals) (a : Arch) (idx : Nat) (root : Nat → Prop)
    (s : BuildState) (tgt : Nat → Prop) (hidx : s.packing_pattern.index = idx)
    (ht : ∀ n, tgt n → slot_held s.arch idx n) : expansion_run ext a idx root s s [] tgt := by
  refine ⟨hidx, builds_log.refl s, ht, ?_, ?_⟩
  · intro n hn; cases hn
  · intro n hn; cases hn

/-- Two parts of an expansion in a row. -/
theorem expansion_run_trans (ext : Externals) {a : Arch} {idx : Nat} {root : Nat → Prop}
    {s s1 s2 : BuildState} {l1 l2 : List Nat} {t1 t2 : Nat → Prop}
    (h1 : expansion_run ext a idx root s s1 l1 t1)
    (h2 : expansion_run ext a idx root s1 s2 l2 t2) :
    expansion_run ext a idx root s s2 (l1 ++ l2) (fun n => t1 n ∨ t2 n) := by
  obtain ⟨i1, b1, g1, x1, r1⟩ := h1
  obtain ⟨i2, b2, g2, x2, r2⟩ := h2
  refine ⟨i1, builds_log_trans ext b1 b2, fun n hn => ?_, fun n hn m hm => ?_, fun n hn => ?_⟩
  · rcases hn with hn | hn
    · exact slot_held_builds ext i2 b2 n (g1 n hn)
    · exact g2 n hn
  · rcases List.mem_append.mp hn with hn | hn
    · exact slot_held_builds ext i2 b2 m (x1 n hn m hm)
    · exact x2 n hn m hm
  · rcases List.mem_append.mp hn with hn | hn
    · exact r1 n hn
    · exact r2 n hn

/-- A part of an expansion reaches every smaller set of primitives. -/
theorem expansion_run_weaken (ext : Externals) {a : Arch} {idx : Nat} {root : Nat → Prop}
    {s s2 : BuildState} {l : List Nat} {t t2 : Nat → Prop}
    (h : expansion_run ext a idx root s s2 l t) (ht : ∀ n, t2 n → t n) :
    expansion_run ext a idx root s s2 l t2 :=
  ⟨h.1, h.2.1, fun n hn => h.2.2.1 n (ht n hn), h.2.2.2.1, h.2.2.2.2⟩

/-- A write that allocates no slot is a part of an expansion. -/
theorem expansion_run_quiet (ext : Externals) (a : Arch) (idx : Nat) (root : Nat → Prop)
    {s s2 : BuildState} (hidx : s.packing_pattern.index = idx)
    (h : build_step ext s [] s2) :
    expansion_run ext a idx root s s2 [] (fun _ => False) := by
  refine ⟨hidx, builds_log.tail (builds_log.refl s) h, fun n hn => hn.elim, ?_, ?_⟩
  · intro n hn; cases hn
  · intro n hn; cases hn

/-- A loop of calls, each of which is a part of an expansion that reaches the primitives of
its element, is a part of an expansion that reaches the primitives of all elements. -/
theorem foldlM_expansion_run {α σ : Type} (ext : Externals) (a : Arch) (idx : Nat)
    (root : Nat → Prop) (db : Option Nat) (proj : σ → BuildState)
    (f : σ → α → Except PrepackError σ) (tgt : α → Nat → Prop) :
    ∀ (xs : List α),
      (∀ x ∈ xs, ∀ s s2, run_pre a idx db (proj s) → f s x = .ok s2 →
        ∃ l, expansion_run ext a idx root (proj s) (proj s2) l (tgt x)) →
      ∀ s s2, run_pre a idx db (proj s) → xs.foldlM f s = .ok s2 →
        ∃ l, expansion_run ext a idx root (proj s) (proj s2) l (fun n => ∃ x ∈ xs, tgt x n) := by
  intro xs
  induction xs with
  | nil =>
    intro _ s s2 hpre h
    simp only [List.foldlM, pure, Except.pure] at h
    cases h
    exact ⟨[], expansion_run_refl ext a idx root _ _ hpre.2.1
      (fun n hn => by obtain ⟨x, hx, _⟩ := hn; cases hx)⟩
  | cons x t ih =>
    intro hstep s s2 hpre h
    simp only [List.foldlM, bind, Except.bind] at h
    split at h
    · cases h
    · rename_i s1 h1
      obtain ⟨l1, r1⟩ := hstep x (List.mem_cons_self _ _) s s1 hpre h1
      obtain ⟨l2, r2⟩ := ih (fun y hy => hstep y (List.mem_cons_of_mem _ hy)) s1 s2
        (run_pre_builds ext hpre r1.2.1) h
      refine ⟨l1 ++ l2, expansion_run_weaken ext (expansion_run_trans ext r1 r2) ?_⟩
      rintro n ⟨y, hy, hn⟩
      rcases List.mem_cons.mp hy with rfl | hy
      · exact Or.inl hn
      · exact Or.inr ⟨y, hy, hn⟩

/-- The allocation of a slot for a primitive and the exploration of its pins (the three
loops over its input, output and clock pins), given what the nested expansions do: a part of
an expansion after which the primitive and everything reached from it hold a slot. -/
theorem alloc_explore_run (ext : Externals) (a : Arch) (idx : Nat) (root : Nat → Prop)
    (fuel : Nat)
    (ihf : ∀ e s b s2, forward_expand_pack_pattern_from_edge ext fuel e s b = .ok s2 →
      run_pre a idx none s → (∀ n, forward_reaches a idx e n → root n) →
      ∃ l, expansion_run ext a idx root s s2 l (forward_reaches a idx e))
    (ihb : ∀ e s dp db s2, backward_expand_pack_pattern_from_edge ext fuel e s dp db = .ok s2 →
      run_pre a idx db s → (∀ n, backward_reaches a idx e n → root n) →
      ∃ l, expansion_run ext a idx root s s2 l (backward_reaches a idx e))
    (hclosed : ∀ n m, root n → explores a idx n m → root m)
    (s s0 st1 st2 st3 : BuildState) (n addr : Nat) (hroot : root n)
    (hidx : s.packing_pattern.index = idx) (halloc : builds_log ext s [n] s0)
    (hpre : run_pre a idx (some addr) s0) (hslot : slot_held s0.arch idx n)
    (h1 : (input_edges_of s0.arch (s0.arch.node n).input_pins).foldlM
      (fun s ep => backward_expand_pack_pattern_from_edge ext fuel ep.1 s (some ep.2)
        (some addr)) s0 = .ok st1)
    (h2 : (output_edges_of s0.arch (s0.arch.node n).output_pins).foldlM
      (fun s e => forward_expand_pack_pattern_from_edge ext fuel e s false) st1 = .ok st2)
    (h3 : (input_edges_of s0.arch (s0.arch.node n).clock_pins).foldlM
      (fun s ep => backward_expand_pack_pattern_from_edge ext fuel ep.1 s (some ep.2)
        (some addr)) st2 = .ok st3) :
    ∃ l, expansion_run ext a idx root s st3 l (fun m => m = n) := by
  have hrd := same_graph_reads hpre.1
  rw [hrd.2.2.2.1 n] at h1
  rw [hrd.2.2.2.2.1 n] at h2
  rw [hrd.2.2.2.2.2.1 n] at h3
  obtain ⟨l1, r1⟩ := foldlM_expansion_run ext a idx root (some addr) (fun s => s) _
    (fun (ep : Nat × Nat) m => backward_reaches a idx ep.1 m) _
    (fun ep hep s s2 hp hrun => ihb _ _ _ _ _ hrun hp
      (fun m hm => hclosed n m hroot (Or.inl ⟨ep, hep, hm⟩))) s0 st1 hpre h1
  have hpre1 := run_pre_builds ext hpre r1.2.1
  obtain ⟨l2, r2⟩ := foldlM_expansion_run ext a idx root (some addr) (fun s => s) _
    (fun (e : Nat) m => forward_reaches a idx e m) _
    (fun e he s s2 hp hrun => ihf _ _ _ _ hrun (run_pre_none hp)
      (fun m hm => hclosed n m hroot (Or.inr (Or.inl ⟨e, he, hm⟩)))) st1 st2 hpre1 h2
  have hpre2 := run_pre_builds ext hpre1 r2.2.1
  obtain ⟨l3, r3⟩ := foldlM_expansion_run ext a idx root (some addr) (fun s => s) _
    (fun (ep : Nat × Nat) m => backward_reaches a idx ep.1 m) _
    (fun ep hep s s2 hp hrun => ihb _ _ _ _ _ hrun hp
      (fun m hm => hclosed n m hroot (Or.inr (Or.inr ⟨ep, hep, hm⟩)))) st2 st3 hpre2 h3
  have r := expansion_run_trans ext (expansion_run_trans ext r1 r2) r3
  obtain ⟨i0, b0, g0, x0, q0⟩ := r
  refine ⟨[n] ++ (l1 ++ l2 ++ l3), hidx, builds_log_trans ext halloc b0, ?_, ?_, ?_⟩
  · intro m hm
    rw [hm]
    exact slot_held_builds ext i0 b0 n hslot
  · intro m hm x hx
    rcases List.mem_append.mp hm with hm | hm
    · rw [List.mem_singleton] at hm
      subst hm
      rcases hx with hx | hx | hx
      · exact g0 x (Or.inl (Or.inl hx))
      · exact g0 x (Or.inl (Or.inr hx))
      · exact g0 x (Or.inr hx)
    · exact x0 m hm x hx
  · intro m hm
    rcases List.mem_append.mp hm with hm | hm
    · rw [List.mem_singleton] at hm
      subst hm
      exact hroot
    · exact q0 m hm

/-- The end of the forward expansion at a primitive pin (lines 572-579): the write of the
root block and of the chain root pin is a write of the expansion that allocates nothing. -/
theorem forward_finish_step (ext : Externals) (loc1 loc2 : ExpandLocals) (n pin curr : Nat)
    (mr : Bool)
    (h : (match (loc1.st.arch.node n).temp_scratch_pad with
      | none => throw .null_pointer
      | some sp =>
        if sp.1 == curr && mr == true then
          pure { loc1 with st := { loc1.st with packing_pattern :=
            { loc1.st.packing_pattern with
              chain_root_pins := [[pin]]
              root_block := loc1.block } } }
        else pure loc1) = (.ok loc2 : Except PrepackError ExpandLocals)) :
    loc2.st = loc1.st ∨ build_step ext loc1.st [] loc2.st := by
  split at h
  · cases h
  · split at h
    · cases h
      exact Or.inr (build_step.head _ _ rfl rfl rfl)
    · cases h
      exact Or.inl rfl

/-- The end of the backward expansion at a primitive pin (lines 714-740): the recording of
the connection is a write of the expansion that allocates nothing. -/
theorem connect_step (ext : Externals) (st3 : BuildState) (loc loc2 : ExpandLocals)
    (pin n curr : Nat) (dp db : Option Nat)
    (h : (match dp with
      | none => pure ({ loc with st := st3, found := true } : ExpandLocals)
      | some destination_pin =>
        match (st3.arch.node n).temp_scratch_pad, db with
        | some sp, some destination_block => do
          vtr_assert 717 (sp.1 == curr)
          let source_block := sp.2
          let c : t_pack_pattern_connections :=
            { from_block := source_block
              from_pin := pin
              to_block := destination_block
              to_pin := destination_pin }
          let pat1 := add_connection st3.packing_pattern source_block c
          let pat2 := add_connection pat1 destination_block c
          if source_block == destination_block then throw .fatal_same_block
          else pure ({ loc with st := { st3 with packing_pattern := pat2 }, found := true }
            : ExpandLocals)
        | _, _ => throw .null_pointer) = (.ok loc2 : Except PrepackError ExpandLocals))
    (hidx : st3.packing_pattern.index = curr)
    (hdb : ∀ d, db = some d → slot_of_pattern st3 d) :
    loc2.st = st3 ∨ build_step ext st3 [] loc2.st := by
  split at h
  · cases h
    exact Or.inl rfl
  · rename_i destination_pin
    split at h
    · rename_i sp d hsp
      obtain ⟨u, hu, h⟩ := bind_ok_inv h
      dsimp only at h
      split at h
      · cases h
      · rename_i hne
        cases h
        obtain ⟨N, hN⟩ := hdb d rfl
        have hsp1 : sp.1 = st3.packing_pattern.index := by
          unfold vtr_assert at hu
          split at hu
          · rename_i hc
            rw [hidx]
            simpa using hc
          · cases hu
        exact Or.inr (build_step.connect st3 n N sp d pin destination_pin hsp hsp1 hN
          (by simpa using hne))
    · cases h

/-- A part of an expansion followed by a state that is the same or one write away that
allocates nothing. -/
theorem expansion_run_then (ext : Externals) {a : Arch} {idx : Nat} {root : Nat → Prop}
    {s s1 s2 : BuildState} {l : List Nat} {t : Nat → Prop}
    (h : expansion_run ext a idx root s s1 l t)
    (h2 : s2 = s1 ∨ build_step ext s1 [] s2) :
    ∃ l2, expansion_run ext a idx root s s2 l2 t := by
  rcases h2 with rfl | h2
  · exact ⟨l, h⟩
  · have hi : s1.packing_pattern.index = idx := (builds_log_frame ext h.2.1).1.trans h.1
    exact ⟨l ++ [], expansion_run_weaken ext
      (expansion_run_trans ext h (expansion_run_quiet ext a idx root hi h2))
      (fun n hn => Or.inl hn)⟩

/-- An edge in the pattern that is not inferred is annotated at one of its positions. -/
theorem edge_in_pattern_position (e : t_pb_graph_edge) (idx : Nat)
    (h : edge_in_pattern e idx = true) (hni : ¬ (e.infer_pattern == true) = true) :
    ∃ k ∈ List.range e.pack_pattern_names.length, e.pack_pattern_indices.get? k = some idx := by
  simp only [edge_in_pattern, Bool.or_eq_true] at h
  rcases h with h | h
  · exact absurd (by simpa using h) hni
  · simp only [t_pb_graph_edge.annotated_with_pattern, List.any_eq_true] at h
    obtain ⟨k, hk, hk2⟩ := h
    exact ⟨k, hk, by simpa using hk2⟩

/-- Every expansion that returns is a part of an expansion: it allocates slots only for
nodes of `root`, a set that holds what the call reaches and is closed under exploration;
afterwards every primitive that the call reaches from its edge holds a slot, and so does
everything reached from a node that got its slot in the call. -/
theorem expand_reaches (ext : Externals) (a : Arch) (idx : Nat) (root : Nat → Prop)
    (hclosed : ∀ n m, root n → explores a idx n m → root m) (fuel : Nat) :
    (∀ e s b s2, forward_expand_pack_pattern_from_edge ext fuel e s b = .ok s2 →
      run_pre a idx none s → (∀ n, forward_reaches a idx e n → root n) →
      ∃ l, expansion_run ext a idx root s s2 l (forward_reaches a idx e))
    ∧ (∀ e s dp db s2, backward_expand_pack_pattern_from_edge ext fuel e s dp db = .ok s2 →
      run_pre a idx db s → (∀ n, backward_reaches a idx e n → root n) →
      ∃ l, expansion_run ext a idx root s s2 l (backward_reaches a idx e)) := by
  induction fuel with
  | zero =>
    constructor
    · intro e s b s2 h
      unfold forward_expand_pack_pattern_from_edge at h
      cases h
    · intro e s dp db s2 h
      unfold backward_expand_pack_pattern_from_edge at h
      cases h
  | succ fuel ih =>
    obtain ⟨ihf, ihb⟩ := ih
    constructor
    · intro e s b s2 h hpre hseed
      have hidx := hpre.2.1
      have hrd := same_graph_reads hpre.1
      unfold forward_expand_pack_pattern_from_edge at h
      dsimp only at h
      rw [hrd.1 e, hidx] at h
      split at h
      · rename_i hnot
        cases h
        refine ⟨[], expansion_run_refl ext a idx root _ _ hidx ?_⟩
        intro n hn
        exfalso
        have hin : edge_in_pattern (a.edge e) idx = true := by cases hn <;> assumption
        rw [hin] at hnot
        cases hnot
      · rename_i hin0
        have hin : edge_in_pattern (a.edge e) idx = true := by simpa using hin0
        obtain ⟨r, hr, h⟩ := bind_ok_inv h
        cases h
        have key := foldlM_expansion_run ext a idx root none
          (fun (loc : ExpandLocals) => loc.st) _
          (fun pin n => (a.is_primitive_pin pin = true ∧ n = (a.pin pin).parent_node)
            ∨ (a.is_primitive_pin pin = false
              ∧ ∃ e2 ∈ (a.pin pin).output_edges, forward_reaches a idx e2 n))
          _ ?_ ⟨s, false, none⟩ r hpre hr
        · obtain ⟨l, hl⟩ := key
          refine ⟨l, expansion_run_weaken ext hl ?_⟩
          intro n hn
          cases hn with
          | primitive e pin _ hpin hprim => exact ⟨pin, hpin, Or.inl ⟨hprim, rfl⟩⟩
          | through e pin e2 n _ hpin hprim he2 h2 =>
            exact ⟨pin, hpin, Or.inr ⟨hprim, e2, he2, h2⟩⟩
        · intro pin hpin loc loc2 hpl hbody
          have hli := hpl.2.1
          have rd := same_graph_reads hpl.1
          dsimp only at hpl hbody
          rw [rd.2.2.1 pin, rd.2.1 pin] at hbody
          split at hbody
          · -- a primitive pin
            rename_i hprim
            have hroot : root (a.pin pin).parent_node :=
              hseed _ (forward_reaches.primitive e pin hin hpin hprim)
            obtain ⟨_, _, hbody⟩ := bind_ok_inv hbody
            have htgt : ∀ m, (a.is_primitive_pin pin = true ∧ m = (a.pin pin).parent_node)
                ∨ (a.is_primitive_pin pin = false
                  ∧ ∃ e2 ∈ (a.pin pin).output_edges, forward_reaches a idx e2 m) →
                m = (a.pin pin).parent_node := by
              intro m hm
              rcases hm with hm | hm
              · exact hm.2
              · rw [hprim] at hm
                cases hm.1
            split at hbody
            · rename_i hnb
              obtain ⟨st1, h1, hbody⟩ := bind_ok_inv hbody
              obtain ⟨st2, h2, hbody⟩ := bind_ok_inv hbody
              obtain ⟨st3, h3, hbody⟩ := bind_ok_inv hbody
              obtain ⟨y, hy, hbody⟩ := bind_ok_inv hbody
              cases hy
              have hnew : has_block_of_pattern (loc.st.arch.node (a.pin pin).parent_node)
                  loc.st.packing_pattern.index = false := by
                rw [hli]
                simpa using hnb
              have hn : (a.pin pin).parent_node < loc.st.arch.nodes.length := by
                have := hpl.2.2.1 pin
                rwa [rd.2.1 pin] at this
              have halloc : builds_log ext loc.st [(a.pin pin).parent_node]
                  (alloc_pattern_block ext loc.st (a.pin pin).parent_node).1 :=
                builds_log.tail (builds_log.refl _) (build_step.alloc loc.st _ hnew hn)
              have hsc : ((alloc_pattern_block ext loc.st (a.pin pin).parent_node).1.arch.node
                  (a.pin pin).parent_node).temp_scratch_pad
                  = some (idx, (alloc_pattern_block ext loc.st (a.pin pin).parent_node).2) := by
                rw [alloc_pattern_block_node, if_pos ⟨rfl, hn⟩, ← hli]
                rfl
              have hpre1 : run_pre a idx
                  (some (alloc_pattern_block ext loc.st (a.pin pin).parent_node).2)
                  (alloc_pattern_block ext loc.st (a.pin pin).parent_node).1 := by
                have hp1 := run_pre_builds ext hpl halloc
                refine ⟨hp1.1, hp1.2.1, hp1.2.2.1, fun d hd => ?_⟩
                cases hd
                exact ⟨(a.pin pin).parent_node, by rw [hp1.2.1]; exact hsc⟩
              obtain ⟨l, hrun⟩ := alloc_explore_run ext a idx root fuel ihf ihb hclosed loc.st
                _ st1 st2 st3 (a.pin pin).parent_node _ hroot hli halloc hpre1 ⟨_, hsc⟩ h1 h2 h3
              obtain ⟨l2, hrun2⟩ := expansion_run_then ext hrun
                (forward_finish_step ext ⟨st3, true, _⟩ loc2 _ pin idx b hbody)
              exact ⟨l2, expansion_run_weaken ext hrun2 htgt⟩
            · rename_i hb
              obtain ⟨y, hy, hbody⟩ := bind_ok_inv hbody
              cases hy
              have hheld : slot_held loc.st.arch idx (a.pin pin).parent_node := by
                simp only [has_block_of_pattern, Bool.not_eq_true', Bool.not_eq_false] at hb
                split at hb
                · cases hb
                · rename_i sp hsp
                  exact ⟨sp.2, by rw [hsp, ← (beq_iff_eq.mp hb)]⟩
              have hrun := expansion_run_refl ext a idx root loc.st
                (fun m => m = (a.pin pin).parent_node) hli (fun m hm => by rw [hm]; exact hheld)
              obtain ⟨l2, hrun2⟩ := expansion_run_then ext hrun
                (forward_finish_step ext ⟨loc.st, true, loc.block⟩ loc2 _ pin idx b hbody)
              exact ⟨l2, expansion_run_weaken ext hrun2 htgt⟩
          · -- a pin of a block that is no primitive
            rename_i hprim0
            have hprim : a.is_primitive_pin pin = false := by simpa using hprim0
            have key2 := foldlM_expansion_run ext a idx root none
              (fun (loc : ExpandLocals) => loc.st) _
              (fun e2 n => forward_reaches a idx e2 n) _ ?_ loc loc2 hpl hbody
            · obtain ⟨l, hl⟩ := key2
              refine ⟨l, expansion_run_weaken ext hl ?_⟩
              intro m hm
              rcases hm with hm | hm
              · rw [hprim] at hm
                cases hm.1
              · exact hm.2
            · intro e2 he2 u u2 hpu hstep
              have rdu := same_graph_reads hpu.1
              have hseed2 : ∀ n, forward_reaches a idx e2 n → root n := fun n hn =>
                hseed n (forward_reaches.through e pin e2 n hin hpin hprim he2 hn)
              dsimp only at hpu hstep
              rw [rdu.1 e2] at hstep
              split at hstep
              · obtain ⟨st1, h1, hstep⟩ := bind_ok_inv hstep
                cases hstep
                exact ihf _ _ _ _ h1 hpu hseed2
              · rename_i hni
                have key3 := foldlM_expansion_run ext a idx root none
                  (fun (loc : ExpandLocals) => loc.st) _
                  (fun k n => (a.edge e2).pack_pattern_indices.get? k = some idx
                    ∧ forward_reaches a idx e2 n) _ ?_ u u2 hpu hstep
                · obtain ⟨l, hl⟩ := key3
                  refine ⟨l, expansion_run_weaken ext hl ?_⟩
                  intro m hm
                  have hin2 : edge_in_pattern (a.edge e2) idx = true := by
                    cases hm <;> assumption
                  obtain ⟨k, hk, hk2⟩ := edge_in_pattern_position _ _ hin2 hni
                  exact ⟨k, hk, hk2, hm⟩
                · intro k hk v v2 hpv hk3
                  have rdv := same_graph_reads hpv.1
                  dsimp only at hpv hk3
                  rw [rdv.1 e2] at hk3
                  split at hk3
                  · split at hk3
                    · cases hk3
                    · obtain ⟨st1, h1, hk3⟩ := bind_ok_inv hk3
                      cases hk3
                      obtain ⟨l, hl⟩ := ihf _ _ _ _ h1 hpv hseed2
                      exact ⟨l, expansion_run_weaken ext hl (fun n hn => hn.2)⟩
                  · rename_i hne
                    cases hk3
                    refine ⟨[], expansion_run_refl ext a idx root _ _ hpv.2.1 ?_⟩
                    intro n hn
                    exact absurd (by rw [hn.1]; exact beq_self_eq_true _) hne
    · intro e s dp db s2 h hpre hseed
      have hidx := hpre.2.1
      have hrd := same_graph_reads hpre.1
      unfold backward_expand_pack_pattern_from_edge at h
      dsimp only at h
      rw [hrd.1 e, hidx] at h
      split at h
      · rename_i hnot
        cases h
        refine ⟨[], expansion_run_refl ext a idx root _ _ hidx ?_⟩
        intro n hn
        exfalso
        have hin : edge_in_pattern (a.edge e) idx = true := by cases hn <;> assumption
        rw [hin] at hnot
        cases hnot
      · rename_i hin0
        have hin : edge_in_pattern (a.edge e) idx = true := by simpa using hin0
        obtain ⟨r, hr, h⟩ := bind_ok_inv h
        cases h
        have key := foldlM_expansion_run ext a idx root db
          (fun (loc : ExpandLocals) => loc.st) _
          (fun pin n => (a.is_primitive_pin pin = true ∧ n = (a.pin pin).parent_node)
            ∨ (a.is_primitive_pin pin = false ∧ (a.pin pin).input_edges.length = 0
              ∧ (a.pb_type (a.node (a.pin pin).parent_node).pb_type).is_root = true
              ∧ forward_reaches a idx e n)
            ∨ (a.is_primitive_pin pin = false
              ∧ ∃ e2 ∈ (a.pin pin).input_edges, backward_reaches a idx e2 n))
          _ ?_ ⟨s, false, none⟩ r hpre hr
        · obtain ⟨l, hl⟩ := key
          refine ⟨l, expansion_run_weaken ext hl ?_⟩
          intro n hn
          cases hn with
          | primitive e pin _ hpin hprim => exact ⟨pin, hpin, Or.inl ⟨hprim, rfl⟩⟩
          | root e pin n _ hpin hprim hnone hroot h2 =>
            exact ⟨pin, hpin, Or.inr (Or.inl ⟨hprim, hnone, hroot, h2⟩)⟩
          | through e pin e2 n _ hpin hprim he2 h2 =>
            exact ⟨pin, hpin, Or.inr (Or.inr ⟨hprim, e2, he2, h2⟩)⟩
        · intro pin hpin loc loc2 hpl hbody
          have hli := hpl.2.1
          have rd := same_graph_reads hpl.1
          dsimp only at hpl hbody
          rw [rd.2.2.1 pin, rd.2.1 pin, rd.2.2.2.2.2.2 (a.pin pin).parent_node] at hbody
          split at hbody
          · -- a primitive pin
            rename_i hprim
            have hroot : root (a.pin pin).parent_node :=
              hseed _ (backward_reaches.primitive e pin hin hpin hprim)
            obtain ⟨_, _, hbody⟩ := bind_ok_inv hbody
            have htgt : ∀ m, (a.is_primitive_pin pin = true ∧ m = (a.pin pin).parent_node)
                ∨ (a.is_primitive_pin pin = false ∧ (a.pin pin).input_edges.length = 0
                  ∧ (a.pb_type (a.node (a.pin pin).parent_node).pb_type).is_root = true
                  ∧ forward_reaches a idx e m)
                ∨ (a.is_primitive_pin pin = false
                  ∧ ∃ e2 ∈ (a.pin pin).input_edges, backward_reaches a idx e2 m) →
                m = (a.pin pin).parent_node := by
              intro m hm
              rcases hm with hm | hm | hm
              · exact hm.2
              · rw [hprim] at hm
                cases hm.1
              · rw [hprim] at hm
                cases hm.1
            split at hbody
            · rename_i hnb
              obtain ⟨st1, h1, hbody⟩ := bind_ok_inv hbody
              obtain ⟨st2, h2, hbody⟩ := bind_ok_inv hbody
              obtain ⟨st3, h3, hbody⟩ := bind_ok_inv hbody
              have hnew : has_block_of_pattern (loc.st.arch.node (a.pin pin).parent_node)
                  loc.st.packing_pattern.index = false := by
                rw [hli]
                simpa using hnb
              have hn : (a.pin pin).parent_node < loc.st.arch.nodes.length := by
                have := hpl.2.2.1 pin
                rwa [rd.2.1 pin] at this
              have halloc : builds_log ext loc.st [(a.pin pin).parent_node]
                  (alloc_pattern_block ext loc.st (a.pin pin).parent_node).1 :=
                builds_log.tail (builds_log.refl _) (build_step.alloc loc.st _ hnew hn)
              have hsc : ((alloc_pattern_block ext loc.st (a.pin pin).parent_node).1.arch.node
                  (a.pin pin).parent_node).temp_scratch_pad
                  = some (idx, (alloc_pattern_block ext loc.st (a.pin pin).parent_node).2) := by
                rw [alloc_pattern_block_node, if_pos ⟨rfl, hn⟩, ← hli]
                rfl
              have hquiet : ∀ s0 : BuildState,
                  s0 = (alloc_pattern_block ext loc.st (a.pin pin).parent_node).1
                  ∨ build_step ext (alloc_pattern_block ext loc.st (a.pin pin).parent_node).1 []
                      s0 →
                  builds_log ext loc.st [(a.pin pin).parent_node] s0
                  ∧ run_pre a idx
                      (some (alloc_pattern_block ext loc.st (a.pin pin).parent_node).2) s0
                  ∧ slot_held s0.arch idx (a.pin pin).parent_node := by
                intro s0 hs0
                have hb0 : builds_log ext loc.st [(a.pin pin).parent_node] s0 := by
                  rcases hs0 with rfl | hs0
                  · exact halloc
                  · exact builds_log.tail halloc hs0
                have hp0 := run_pre_builds ext hpl hb0
                have hf0 : build_frame (alloc_pattern_block ext loc.st (a.pin pin).parent_node).1
                    s0 := by
                  rcases hs0 with rfl | hs0
                  · exact build_frame_refl _
                  · exact build_step_frame ext hs0
                have hi1 : (alloc_pattern_block ext loc.st
                    (a.pin pin).parent_node).1.packing_pattern.index = idx := hli
                have hsc0 : (s0.arch.node (a.pin pin).parent_node).temp_scratch_pad
                    = some (idx, (alloc_pattern_block ext loc.st (a.pin pin).parent_node).2) := by
                  have := hf0.2.2.2.2.2.2.2 (a.pin pin).parent_node
                    (alloc_pattern_block ext loc.st (a.pin pin).parent_node).2
                    (by rw [hi1]; exact hsc)
                  rw [hi1] at this
                  exact this
                refine ⟨hb0, ⟨hp0.1, hp0.2.1, hp0.2.2.1, fun d hd => ?_⟩, ⟨_, hsc0⟩⟩
                cases hd
                exact ⟨(a.pin pin).parent_node, by rw [hp0.2.1]; exact hsc0⟩
              have key1 := alloc_explore_run ext a idx root fuel ihf ihb hclosed loc.st _ st1
                st2 st3 (a.pin pin).parent_node _ hroot hli ?_ ?_ ?_ h1 h2 h3
              · obtain ⟨l, hrun⟩ := key1
                have hpre3 := run_pre_builds ext hpl hrun.2.1
                obtain ⟨l2, hrun2⟩ := expansion_run_then ext hrun
                  (connect_step ext st3 loc loc2 pin _ idx dp db hbody hpre3.2.1 hpre3.2.2.2)
                exact ⟨l2, expansion_run_weaken ext hrun2 htgt⟩
              · refine (hquiet _ ?_).1
                split
                · exact Or.inr (build_step.head _ _ rfl rfl rfl)
                · exact Or.inl rfl
              · refine (hquiet _ ?_).2.1
                split
                · exact Or.inr (build_step.head _ _ rfl rfl rfl)
                · exact Or.inl rfl
              · refine (hquiet _ ?_).2.2
                split
                · exact Or.inr (build_step.head _ _ rfl rfl rfl)
                · exact Or.inl rfl
            · rename_i hb
              obtain ⟨st3, h3, hbody⟩ := bind_ok_inv hbody
              cases h3
              have hheld : slot_held loc.st.arch idx (a.pin pin).parent_node := by
                simp only [has_block_of_pattern, Bool.not_eq_true', Bool.not_eq_false] at hb
                split at hb
                · cases hb
                · rename_i sp hsp
                  exact ⟨sp.2, by rw [hsp, ← (beq_iff_eq.mp hb)]⟩
              have hrun := expansion_run_refl ext a idx root loc.st
                (fun m => m = (a.pin pin).parent_node) hli (fun m hm => by rw [hm]; exact hheld)
              obtain ⟨l2, hrun2⟩ := expansion_run_then ext hrun
                (connect_step ext loc.st loc loc2 pin _ idx dp db hbody hli hpl.2.2.2)
              exact ⟨l2, expansion_run_weaken ext hrun2 htgt⟩
          · -- a pin of a block that is no primitive
            rename_i hprim0
            have hprim : a.is_primitive_pin pin = false := by simpa using hprim0
            split at hbody
            · rename_i hlen0
              have hlen : (a.pin pin).input_edges.length = 0 := by simpa using hlen0
              split at hbody
              · rename_i hisroot
                obtain ⟨st2, h2, hbody⟩ := bind_ok_inv hbody
                cases hbody
                have hq := expansion_run_quiet ext a idx root hli
                  (build_step.head loc.st { loc.st.packing_pattern with is_chain := true }
                    rfl rfl rfl)
                obtain ⟨l, hl⟩ := ihf _ _ _ _ h2 (run_pre_none (run_pre_builds ext hpl hq.2.1))
                  (fun n hn => hseed n
                    (backward_reaches.root e pin n hin hpin hprim hlen hisroot hn))
                refine ⟨[] ++ l, expansion_run_weaken ext (expansion_run_trans ext hq hl) ?_⟩
                intro m hm
                rcases hm with hm | hm | hm
                · rw [hprim] at hm
                  cases hm.1
                · exact Or.inr hm.2.2.2
                · obtain ⟨_, e2, he2, _⟩ := hm
                  rw [List.length_eq_zero.mp hlen] at he2
                  cases he2
              · rename_i hisroot
                cases hbody
                refine ⟨[], expansion_run_refl ext a idx root _ _ hli ?_⟩
                intro m hm
                exfalso
                rcases hm with hm | hm | hm
                · rw [hprim] at hm
                  cases hm.1
                · exact hisroot hm.2.2.1
                · obtain ⟨_, e2, he2, _⟩ := hm
                  rw [List.length_eq_zero.mp hlen] at he2
                  cases he2
            · rename_i hlen0
              have key2 := foldlM_expansion_run ext a idx root db
                (fun (loc : ExpandLocals) => loc.st) _
                (fun e2 n => backward_reaches a idx e2 n) _ ?_ loc loc2 hpl hbody
              · obtain ⟨l, hl⟩ := key2
                refine ⟨l, expansion_run_weaken ext hl ?_⟩
                intro m hm
                rcases hm with hm | hm | hm
                · rw [hprim] at hm
                  cases hm.1
                · obtain ⟨_, hlen, _, _⟩ := hm
                  exact absurd (by simpa using hlen) hlen0
                · exact hm.2
              · intro e2 he2 u u2 hpu hstep
                have rdu := same_graph_reads hpu.1
                have hseed2 : ∀ n, backward_reaches a idx e2 n → root n := fun n hn =>
                  hseed n (backward_reaches.through e pin e2 n hin hpin hprim he2 hn)
                dsimp only at hpu hstep
                rw [rdu.1 e2] at hstep
                split at hstep
                · obtain ⟨st1, h1, hstep⟩ := bind_ok_inv hstep
                  cases hstep
                  exact ihb _ _ _ _ _ h1 hpu hseed2
                · rename_i hni
                  have key3 := foldlM_expansion_run ext a idx root db
                    (fun (loc : ExpandLocals) => loc.st) _
                    (fun k n => (a.edge e2).pack_pattern_indices.get? k = some idx
                      ∧ backward_reaches a idx e2 n) _ ?_ u u2 hpu hstep
                  · obtain ⟨l, hl⟩ := key3
                    refine ⟨l, expansion_run_weaken ext hl ?_⟩
                    intro m hm
                    have hin2 : edge_in_pattern (a.edge e2) idx = true := by
                      cases hm <;> assumption
                    obtain ⟨k, hk, hk2⟩ := edge_in_pattern_position _ _ hin2 hni
                    exact ⟨k, hk, hk2, hm⟩
                  · intro k hk v v2 hpv hk3
                    have rdv := same_graph_reads hpv.1
                    dsimp only at hpv hk3
                    rw [rdv.1 e2] at hk3
                    split at hk3
                    · obtain ⟨_, _, hk3⟩ := bind_ok_inv hk3
                      obtain ⟨st1, h1, hk3⟩ := bind_ok_inv hk3
                      cases hk3
                      obtain ⟨l, hl⟩ := ihb _ _ _ _ _ h1 hpv hseed2
                      exact ⟨l, expansion_run_weaken ext hl (fun n hn => hn.2)⟩
                    · rename_i hne
                      cases hk3
                      refine ⟨[], expansion_run_refl ext a idx root _ _ hpv.2.1 ?_⟩
                      intro n hn
                      exact absurd (by rw [hn.1]; exact beq_self_eq_true _) hne

/-- Every template is itself up to the scratch pads. -/
theorem same_graph_refl (a : Arch) : same_graph a a :=
  ⟨rfl, rfl, rfl, fun _ => ⟨rfl, rfl, rfl, rfl⟩⟩

/-- What a forward expansion reaches is a primitive. -/
theorem forward_reaches_primitive {a : Arch} {idx e n : Nat} (h : forward_reaches a idx e n) :
    (a.pb_type (a.node n).pb_type).is_primitive = true := by
  induction h with
  | primitive e pin _ _ hprim => exact hprim
  | through e pin e2 n _ _ _ _ _ ih => exact ih

/-- What a backward expansion reaches is a primitive. -/
theorem backward_reaches_primitive {a : Arch} {idx e n : Nat}
    (h : backward_reaches a idx e n) :
    (a.pb_type (a.node n).pb_type).is_primitive = true := by
  induction h with
  | primitive e pin _ _ hprim => exact hprim
  | root e pin n _ _ _ _ _ h => exact forward_reaches_primitive h
  | through e pin e2 n _ _ _ _ _ ih => exact ih

/-- What an expansion reaches from primitives is a primitive. -/
theorem expansion_reaches_primitive {a : Arch} {idx : Nat} {seed : Nat → Prop} {n : Nat}
    (hseed : ∀ m, seed m → (a.pb_type (a.node m).pb_type).is_primitive = true)
    (h : expansion_reaches a idx seed n) :
    (a.pb_type (a.node n).pb_type).is_primitive = true := by
  cases h with
  | seed n h => exact hseed n h
  | step n m _ hm =>
    rcases hm with ⟨_, _, hm⟩ | ⟨_, _, hm⟩ | ⟨_, _, hm⟩
    · exact backward_reaches_primitive hm
    · exact forward_reaches_primitive hm
    · exact backward_reaches_primitive hm

/-! ## Claims -/

/-- C1: when the constructor of the prepacker completes, every atom of the netlist is
held by exactly one committed molecule: there is a molecule whose slot array contains
the atom, and no other molecule does.  (Completion already requires that every atom has
a feasible primitive.) -/
theorem prepack_every_atom_in_exactly_one_molecule (arch : Arch) (ext : Externals)
    (nl : AtomNetlist) (fuel : Nat) (logical_block_types : List t_logical_block_type)
    (p : Prepacker)
    (h : Prepacker.construct arch ext nl fuel logical_block_types = .ok p) :
    ∀ a ∈ nl.blocks, ∃! m, m < p.pack_molecules_.length
      ∧ some a ∈ (p.pack_molecules_.getD m default).atom_block_ids := by
  unfold Prepacker.construct at h
  simp only [bind, Except.bind, pure, Except.pure] at h
  split at h
  · cases h
  · rename_i lib hlib
    split at h
    · cases h
    · rename_i s1 hs1
      split at h
      · cases h
      · injection h with h
        subst h
        obtain ⟨⟨h1, h2, h3⟩, hall⟩ := alloc_and_load_pack_molecules_consistent _ _ _ _ _ _ _ hs1
          (consistent_initial _ _)
        intro a ha
        obtain ⟨m, hm⟩ := (atom_in_map_true_iff _ _).mp (hall a ha)
        refine ⟨m, h1 a m hm, ?_⟩
        rintro m2 ⟨hlt, hin⟩
        exact h3 a m2 m (h2 m2 a hlt hin) hm

/-- C1 on the LUT/flip-flop example: the constructor completes and each of the four
atoms is in exactly one of the three molecules. -/
theorem prepack_every_atom_in_exactly_one_molecule_witness :
    Prepacker.construct lut_ff_arch (example_ext lut_ff_arch lut_ff_netlist)
        lut_ff_netlist.toNetlist 50 cluster_type = .ok lut_ff_prepacker
    ∧ ∀ a ∈ lut_ff_netlist.toNetlist.blocks, ∃! m, m < lut_ff_prepacker.pack_molecules_.length
        ∧ some a ∈ (lut_ff_prepacker.pack_molecules_.getD m default).atom_block_ids :=
  ⟨by decide!,
   prepack_every_atom_in_exactly_one_molecule lut_ff_arch
     (example_ext lut_ff_arch lut_ff_netlist) lut_ff_netlist.toNetlist 50 cluster_type
     lut_ff_prepacker (by decide!)⟩

/-- C2 (the code at the failing input): from `converging_arch` the builder makes a
pattern of two mandatory, unconnected slots; on it `try_expand_molecule` answers true
for the single LUT although the mandatory slot 1 stays empty, and the commit of
`try_create_molecule` stops on the assertion of line 987. -/
theorem try_expand_molecule_leaves_mandatory_slot_empty :
    (alloc_and_load_pack_patterns (example_ext converging_arch single_lut_netlist) 50
        converging_arch cluster_type).map Prod.snd = .ok [converging_pattern]
    ∧ converging_pattern.is_block_optional = [false, false]
    ∧ (do
        let lib ← alloc_and_load_pack_patterns (example_ext converging_arch single_lut_netlist)
          50 converging_arch cluster_type
        try_expand_molecule lib.1 (example_ext converging_arch single_lut_netlist)
          single_lut_netlist.toNetlist 50 (lib.2.getD 0 default) [none, none] (some 0) [])
      = .ok (true, [some 0, none])
    ∧ (do
        let lib ← alloc_and_load_pack_patterns (example_ext converging_arch single_lut_netlist)
          50 converging_arch cluster_type
        let r ← try_create_molecule lib.1 (example_ext converging_arch single_lut_netlist)
          single_lut_netlist.toNetlist 50 0 0 (Prepacker.initial lib.2 1)
        pure r.2)
      = .error (.assert_failed 987) := by
  decide!

/-- C3: on the LUT/flip-flop architecture the library is the single two-slot pattern
with the LUT in the root slot 0, and prepacking LUT0 -> FF0, LUT1, FF2 yields exactly
three molecules: the forced pack with LUT0 in slot 0 and FF0 in slot 1, and the single
atoms LUT1 and FF2. -/
theorem end_to_end_lut_ff :
    (alloc_and_load_pack_patterns (example_ext lut_ff_arch lut_ff_netlist) 50 lut_ff_arch
        cluster_type).map Prod.snd = .ok [lut_ff_pattern]
    ∧ (Prepacker.construct lut_ff_arch (example_ext lut_ff_arch lut_ff_netlist)
        lut_ff_netlist.toNetlist 50 cluster_type).map (fun p => p.pack_molecules_)
      = .ok [ forced_pack 0 [some 0, some 1] (39 / 20) none,
              single_atom_molecule 2, single_atom_molecule 3 ] := by
  decide!

/-- C4: on the two-adder chain architecture the library is the chain pattern (root
mandatory, second slot optional); prepacking A0 -> A1 -> A2 yields exactly the molecules
(A0, A1) and (A2, empty), both with chain id 0, and the record of chain 0 is long; when
the atoms loop has passed A0 and A1 only, there is one molecule and the record is not
long.  The same holds whichever of the block ids 0, 1, 2 the three atoms have, that is, in
whichever order the loop meets them: the first commit, made at the first atom of the
netlist, is the molecule (A0, A1) with chain id 0 and a record that is not long; the
finished prepacker holds (A0, A1) and (A2, empty) with chain id 0 and a long record. -/
theorem chain_segmentation :
    (alloc_and_load_pack_patterns (example_ext chain_arch chain_netlist) 50 chain_arch
        cluster_type).map Prod.snd = .ok [chain_pattern]
    ∧ (Prepacker.construct chain_arch (example_ext chain_arch chain_netlist)
        chain_netlist.toNetlist 50 cluster_type).map
          (fun p => (p.pack_molecules_, p.chain_info_))
      = .ok ([ forced_pack 0 [some 0, some 1] (49 / 25) (some 0),
               forced_pack 0 [some 2, none] (49 / 25) (some 0) ],
             [ { is_long_chain := true } ])
    ∧ (do
        let lib ← alloc_and_load_pack_patterns (example_ext chain_arch chain_netlist) 50
          chain_arch cluster_type
        let p ← match_pattern_on_atoms lib.1 (example_ext chain_arch chain_netlist)
          chain_netlist.toNetlist 0 50 [0, 1] (Prepacker.initial lib.2 3)
        pure (p.pack_molecules_, p.chain_info_))
      = .ok ([ forced_pack 0 [some 0, some 1] (49 / 25) (some 0) ],
             [ { is_long_chain := false } ])
    ∧ chain_netlist_at 0 1 2 = chain_netlist
    ∧ chain_netlist_at 2 1 0 = reversed_chain_netlist
    ∧ chain_orders.map (fun p =>
        (Prepacker.construct chain_arch
          (example_ext chain_arch (chain_netlist_at p.1 p.2.1 p.2.2))
          (chain_netlist_at p.1 p.2.1 p.2.2).toNetlist 50 cluster_type).map
          (fun s => (s.pack_molecules_, s.chain_info_)))
      = chain_orders.map (fun p =>
        .ok ([ forced_pack 0 [some p.1, some p.2.1] (49 / 25) (some 0),
               forced_pack 0 [some p.2.2, none] (49 / 25) (some 0) ],
             [ { is_long_chain := true } ]))
    ∧ chain_orders.map (fun p =>
        (after_first_commit (chain_netlist_at p.1 p.2.1 p.2.2)).map (fun s =>
          (s.pack_molecules_, s.chain_info_)))
      = chain_orders.map (fun p =>
        .ok ([ forced_pack 0 [some p.1, some p.2.1] 0 (some 0) ],
             [ { is_long_chain := false } ])) := by
  refine ⟨by decide!, by decide!, by decide!, rfl, ?_, by decide!, by decide!⟩
  decide

/-- C5: a failed match leaves no residue: when `try_create_molecule` returns the invalid
molecule id, the prepacker (molecule list, molecule-id list, atom-to-molecule map and
chain records included) is what it was before the call. -/
theorem try_create_molecule_failure_no_residue (arch : Arch) (ext : Externals)
    (nl : AtomNetlist) (fuel pack_pattern_index : Nat) (blk_id : AtomBlockId)
    (s s1 : Prepacker)
    (h : try_create_molecule arch ext nl fuel pack_pattern_index blk_id s = .ok (s1, none)) :
    s1 = s := by
  unfold try_create_molecule at h
  simp only [bind, Except.bind, pure, Except.pure] at h
  repeat' split at h
  all_goals first
    | (injection h with h; injection h with h1 h2; first | exact h1.symm | (cases h2))
    | cases h

/-- C5 on the isolated LUT1 of the LUT/flip-flop example: the root slot is bound, the
flip-flop slot cannot be, the match fails and the prepacker is unchanged. -/
theorem try_create_molecule_failure_no_residue_witness :
    try_create_molecule lut_ff_arch (example_ext lut_ff_arch lut_ff_netlist)
        lut_ff_netlist.toNetlist 50 0 2 (Prepacker.initial [lut_ff_pattern] 4)
      = .ok (Prepacker.initial [lut_ff_pattern] 4, none)
    ∧ Prepacker.initial [lut_ff_pattern] 4 = Prepacker.initial [lut_ff_pattern] 4 :=
  ⟨by decide!,
   try_create_molecule_failure_no_residue lut_ff_arch (example_ext lut_ff_arch lut_ff_netlist)
     lut_ff_netlist.toNetlist 50 0 2 _ _ (by decide!)⟩

/-- C6: `compare_pack_pattern a b` is 1 whenever `a` has more slots than `b` and -1
whenever it has fewer, whatever the base costs; for equal slot counts it is 1 if the
base cost of `a` is lower, -1 if it is higher and 0 if the costs are equal; so
`compare a b = - compare b a` for all patterns. -/
theorem compare_pack_pattern_spec (a b : t_pack_patterns) :
    (a.num_blocks > b.num_blocks → compare_pack_pattern a b = 1)
    ∧ (a.num_blocks < b.num_blocks → compare_pack_pattern a b = -1)
    ∧ (a.num_blocks = b.num_blocks → a.base_cost < b.base_cost → compare_pack_pattern a b = 1)
    ∧ (a.num_blocks = b.num_blocks → a.base_cost > b.base_cost → compare_pack_pattern a b = -1)
    ∧ (a.num_blocks = b.num_blocks → a.base_cost = b.base_cost → compare_pack_pattern a b = 0)
    ∧ compare_pack_pattern a b = - compare_pack_pattern b a := by
  unfold compare_pack_pattern
  refine ⟨?_, ?_, ?_, ?_, ?_, ?_⟩
  · intro h; simp [h]
  · intro h; simp [h, Nat.not_lt.mpr (Nat.le_of_lt h)]
  · intro h hc; simp [h, sub_neg.mpr hc]
  · intro h hc
    have h1 : ¬ (a.base_cost - b.base_cost < 0) := not_lt.mpr (le_of_lt (sub_pos.mpr hc))
    simp [h, h1, hc]
  · intro h hc; simp [h, hc]
  · rcases Nat.lt_trichotomy a.num_blocks b.num_blocks with h | h | h
    · simp [h, Nat.not_lt.mpr (Nat.le_of_lt h)]
    · rcases lt_trichotomy a.base_cost b.base_cost with hc | hc | hc
      · have h1 : ¬ (b.base_cost - a.base_cost < 0) := not_lt.mpr (le_of_lt (sub_pos.mpr hc))
        simp [h, sub_neg.mpr hc, h1, hc]
      · simp [h, hc]
      · have h1 : ¬ (a.base_cost - b.base_cost < 0) := not_lt.mpr (le_of_lt (sub_pos.mpr hc))
        simp [h, sub_neg.mpr hc, h1, hc]
    · simp [h, Nat.not_lt.mpr (Nat.le_of_lt h)]

/-- C6 at the patterns of the claim: 5 slots at cost 50 against 3 slots at cost 10. -/
theorem compare_pack_pattern_spec_witness :
    (priority_pattern 5 50).num_blocks > (priority_pattern 3 10).num_blocks
    ∧ compare_pack_pattern (priority_pattern 5 50) (priority_pattern 3 10) = 1
    ∧ compare_pack_pattern (priority_pattern 3 10) (priority_pattern 5 50) = -1 := by
  have h := compare_pack_pattern_spec (priority_pattern 5 50) (priority_pattern 3 10)
  have hgt : (priority_pattern 5 50).num_blocks > (priority_pattern 3 10).num_blocks := by decide
  refine ⟨hgt, h.1 hgt, ?_⟩
  have h2 := h.2.2.2.2.2
  rw [h.1 hgt] at h2
  omega

/-- C7: when no pattern has its root in a mode disabled for packing, the loop of
`alloc_and_load_pack_molecules` runs the atoms loop once for each pattern of the
sequence `selection_order`; that sequence is a permutation of the pattern indices, no
later pattern of it compares as higher priority (`compare_pack_pattern = 1`) than an
earlier one, and patterns that compare equal come in index order. -/
theorem pattern_selection_priority_order (arch : Arch) (ext : Externals) (nl : AtomNetlist)
    (fuel : Nat) (logical_block_types : List t_logical_block_type) (s : Prepacker)
    (henabled : ∀ i < s.list_of_pack_patterns.length,
      root_in_disabled_mode arch (s.list_of_pack_patterns.getD i default) = .ok false) :
    alloc_and_load_pack_molecules arch ext nl fuel logical_block_types s
      = (do
          let s1 ← (selection_order s.list_of_pack_patterns s.list_of_pack_patterns.length
              (List.replicate s.list_of_pack_patterns.length false)).foldlM
            (fun s best_pattern =>
              match_pattern_on_atoms arch ext nl best_pattern fuel nl.blocks s) s
          add_single_atom_molecules arch ext fuel logical_block_types nl.blocks s1)
    ∧ (selection_order s.list_of_pack_patterns s.list_of_pack_patterns.length
        (List.replicate s.list_of_pack_patterns.length false)).Perm
          (List.range s.list_of_pack_patterns.length)
    ∧ (selection_order s.list_of_pack_patterns s.list_of_pack_patterns.length
        (List.replicate s.list_of_pack_patterns.length false)).Pairwise (fun a b =>
          compare_pack_pattern (s.list_of_pack_patterns.getD b default)
            (s.list_of_pack_patterns.getD a default) ≠ 1
          ∧ (compare_pack_pattern (s.list_of_pack_patterns.getD a default)
              (s.list_of_pack_patterns.getD b default) = 0 → a < b)) := by
  have hcount : (List.replicate s.list_of_pack_patterns.length false).count false
      = s.list_of_pack_patterns.length := by simp
  obtain ⟨h1, h2, h3, h4⟩ := selection_order_spec s.list_of_pack_patterns
    s.list_of_pack_patterns.length (List.replicate s.list_of_pack_patterns.length false)
    (by simp) (by rw [hcount])
  refine ⟨?_, perm_range_of_nodup _ _ h1 h2 (fun x hx => (h3 x hx).1), h4⟩
  unfold alloc_and_load_pack_molecules
  have := assign_patterns_eq_foldlM arch s.list_of_pack_patterns
    (fun best_pattern s => match_pattern_on_atoms arch ext nl best_pattern fuel nl.blocks s)
    (List.range s.list_of_pack_patterns.length)
    (List.replicate s.list_of_pack_patterns.length false) s (by simp)
    (by rw [hcount, List.length_range])
    (fun i hi => henabled i (List.mem_range.mp hi))
  simp only [List.length_range] at this
  simp only [this]

/-- C7 on three enabled patterns (3 slots cost 10, 5 slots cost 50, 3 slots cost 10):
the 5-slot pattern is selected first, then the two others in index order. -/
theorem pattern_selection_priority_order_witness :
    (∀ i < (Prepacker.initial three_patterns 4).list_of_pack_patterns.length,
      root_in_disabled_mode lut_ff_arch
        ((Prepacker.initial three_patterns 4).list_of_pack_patterns.getD i default) = .ok false)
    ∧ selection_order three_patterns 3 (List.replicate 3 false) = [1, 0, 2]
    ∧ (selection_order three_patterns 3 (List.replicate 3 false)).Perm (List.range 3)
    ∧ (selection_order three_patterns 3 (List.replicate 3 false)).Pairwise (fun a b =>
          compare_pack_pattern (three_patterns.getD b default)
            (three_patterns.getD a default) ≠ 1
          ∧ (compare_pack_pattern (three_patterns.getD a default)
              (three_patterns.getD b default) = 0 → a < b)) :=
  ⟨by decide!, by decide!,
   (pattern_selection_priority_order lut_ff_arch (example_ext lut_ff_arch lut_ff_netlist)
     lut_ff_netlist.toNetlist 50 cluster_type (Prepacker.initial three_patterns 4)
     (by decide!)).2.1,
   (pattern_selection_priority_order lut_ff_arch (example_ext lut_ff_arch lut_ff_netlist)
     lut_ff_netlist.toNetlist 50 cluster_type (Prepacker.initial three_patterns 4)
     (by decide!)).2.2⟩

/-- C8 (the code at the failing input): in `two_mode_arch` pattern 0 has its root in the
mode disabled for packing and pattern 1 has not; the assignment loop selects pattern 0
and never pattern 1, and the molecule made for LUT0 and FF0 is bound to pattern 0. -/
theorem disabled_pattern_is_assigned :
    (do
      let lib ← alloc_and_load_pack_patterns (example_ext two_mode_arch lut_ff_netlist) 50
        two_mode_arch cluster_type
      let disabled0 ← root_in_disabled_mode lib.1 (lib.2.getD 0 default)
      let disabled1 ← root_in_disabled_mode lib.1 (lib.2.getD 1 default)
      pure [disabled0, disabled1])
      = .ok [true, false]
    ∧ (do
      let lib ← alloc_and_load_pack_patterns (example_ext two_mode_arch lut_ff_netlist) 50
        two_mode_arch cluster_type
      assign_patterns lib.1 lib.2
        (fun best_pattern (log : List Nat) => pure (log ++ [best_pattern]))
        (List.range lib.2.length) (List.replicate lib.2.length false) [])
      = .ok [0]
    ∧ (do
      let lib ← alloc_and_load_pack_patterns (example_ext two_mode_arch lut_ff_netlist) 50
        two_mode_arch cluster_type
      let p ← alloc_and_load_pack_molecules lib.1 (example_ext two_mode_arch lut_ff_netlist)
        lut_ff_netlist.toNetlist 50 cluster_type (Prepacker.initial lib.2 4)
      pure (p.pack_molecules_.map (fun (m : t_pack_molecule) => m.pack_pattern)))
      = .ok [some 0, none, none] := by
  decide!

/-- C9: the single-atom fallback appends exactly one molecule for each atom of the
netlist that is in no molecule (`new_atoms`, without repetition, in netlist order) and
none for the others; each new molecule is a `MOLECULE_SINGLE_ATOM` whose slot array is
that one atom, with root 0, no pattern, `base_gain = 1` and no chain id, and the atom is
linked to it in the atom-to-molecule map. -/
theorem single_atom_fallback (arch : Arch) (ext : Externals) (fuel : Nat)
    (logical_block_types : List t_logical_block_type) (blocks : List AtomBlockId)
    (s s1 : Prepacker)
    (h : add_single_atom_molecules arch ext fuel logical_block_types blocks s = .ok s1) :
    ∃ new_atoms : List AtomBlockId,
      new_atoms.Nodup
      ∧ (∀ a, a ∈ new_atoms ↔ a ∈ blocks ∧ atom_in_map s.atom_molecules_multimap a = false)
      ∧ s1.pack_molecules_ = s.pack_molecules_ ++ new_atoms.map (fun a =>
          { type := .MOLECULE_SINGLE_ATOM, pack_pattern := none, atom_block_ids := [some a],
            root := 0, base_gain := 1, chain_id := none })
      ∧ s1.atom_molecules_multimap = s.atom_molecules_multimap
          ++ List.zip new_atoms (List.range' s.pack_molecules_.length new_atoms.length) := by
  induction blocks generalizing s with
  | nil =>
    simp only [add_single_atom_molecules, pure, Except.pure] at h
    injection h with h
    subst h
    exact ⟨[], by simp⟩
  | cons b rest ih =>
    simp only [add_single_atom_molecules, bind, Except.bind] at h
    split at h
    · cases h
    · rename_i best hbest
      split at h
      · cases h
      · split at h
        · rename_i hnot
          obtain ⟨na, hnd, hmem, hmol, hmap⟩ := ih _ h
          simp only [atom_in_map_append] at hmem
          have hb : atom_in_map s.atom_molecules_multimap b = false := by simpa using hnot
          refine ⟨b :: na, ?_, ?_, ?_, ?_⟩
          · refine List.nodup_cons.mpr ⟨?_, hnd⟩
            intro hin
            have := (hmem b).mp hin
            simp at this
          · intro a
            rw [List.mem_cons, hmem a]
            constructor
            · rintro (rfl | ⟨h1, h2⟩)
              · exact ⟨List.mem_cons_self _ _, hb⟩
              · simp only [Bool.or_eq_false_iff] at h2
                exact ⟨List.mem_cons_of_mem _ h1, h2.1⟩
            · rintro ⟨h1, h2⟩
              by_cases hab : a = b
              · exact Or.inl hab
              · right
                refine ⟨(List.mem_cons.mp h1).resolve_left hab, ?_⟩
                simp [h2, Ne.symm hab]
          · rw [hmol]
            simp [single_atom_molecule]
          · rw [hmap]
            simp [List.range'_succ, List.length_append]
        · rename_i hin
          obtain ⟨na, hnd, hmem, hmol, hmap⟩ := ih _ h
          have hb : atom_in_map s.atom_molecules_multimap b = true := by simpa using hin
          refine ⟨na, hnd, ?_, hmol, hmap⟩
          intro a
          rw [hmem a]
          constructor
          · rintro ⟨h1, h2⟩
            exact ⟨List.mem_cons_of_mem _ h1, h2⟩
          · rintro ⟨h1, h2⟩
            refine ⟨?_, h2⟩
            rcases List.mem_cons.mp h1 with rfl | h1
            · rw [hb] at h2
              cases h2
            · exact h1

/-- C9 on the LUT/flip-flop example: LUT0 and FF0 are in the forced pack and receive no
molecule; LUT1 and FF2 receive one single-atom molecule each. -/
theorem single_atom_fallback_witness :
    add_single_atom_molecules lut_ff_arch (example_ext lut_ff_arch lut_ff_netlist) 50
        cluster_type [0, 1, 2, 3] lut_ff_matched = .ok lut_ff_with_singles
    ∧ ∃ new_atoms : List AtomBlockId,
      new_atoms.Nodup
      ∧ (∀ a, a ∈ new_atoms
          ↔ a ∈ [0, 1, 2, 3] ∧ atom_in_map lut_ff_matched.atom_molecules_multimap a = false)
      ∧ lut_ff_with_singles.pack_molecules_ = lut_ff_matched.pack_molecules_
          ++ new_atoms.map (fun a =>
            { type := .MOLECULE_SINGLE_ATOM, pack_pattern := none, atom_block_ids := [some a],
              root := 0, base_gain := 1, chain_id := none })
      ∧ lut_ff_with_singles.atom_molecules_multimap = lut_ff_matched.atom_molecules_multimap
          ++ List.zip new_atoms
              (List.range' lut_ff_matched.pack_molecules_.length new_atoms.length) :=
  ⟨by decide!,
   single_atom_fallback lut_ff_arch (example_ext lut_ff_arch lut_ff_netlist) 50 cluster_type
     [0, 1, 2, 3] lut_ff_matched lut_ff_with_singles (by decide!)⟩

/-- C10 (the code at the failing input): with the two labelled branches directly at the
LUT output pin the library is built without error, as a three-slot pattern; with the
same branches one pin further, on a pin of a non-primitive block, the build stops with
the multi-fanout error. -/
theorem fanout_at_primitive_output_is_accepted :
    (alloc_and_load_pack_patterns (example_ext fanout_arch lut_ff_netlist) 50 fanout_arch
        cluster_type).map Prod.snd = .ok [fanout_pattern]
    ∧ (alloc_and_load_pack_patterns (example_ext branch_arch lut_ff_netlist) 50 branch_arch
        cluster_type).map Prod.snd = .error .fatal_multi_fanout := by
  decide!

/-- C11 (the code at the failing input): in `double_entry_arch` exactly two boundary input pins (0 and 6) are
tagged and the sets of boundary output pins reachable from them (`[5, 5]` and `[11]`) are
disjoint, but pin 0 enters the candidate vector once per tagged output edge, the first two
candidates reach the same pins, and the pattern keeps the single group `[1]` instead of the
two groups `[1, 3]` and `[7]`.  In `parallel_chains_arch 2`, where each of the two pins has
one tagged output edge, the two groups `[1]` and `[7]` are recorded. -/
theorem doubly_tagged_entry_gives_one_group :
    (alloc_and_load_pack_patterns (example_ext double_entry_arch chain_netlist) 50
        double_entry_arch cluster_type).map Prod.snd = .ok [chain_pattern]
    ∧ chain_pattern.chain_root_pins = [[1]]
    ∧ chain_input_pins (loaded_template double_entry_arch) 0 0 = [0, 0, 6]
    ∧ find_end_of_path (loaded_template double_entry_arch) 50 0 0 = .ok [5, 5]
    ∧ find_end_of_path (loaded_template double_entry_arch) 50 6 0 = .ok [11]
    ∧ update_chain_root_pins (loaded_template double_entry_arch) 50 chain_pattern [0, 6]
        = .ok { chain_pattern with chain_root_pins := [[1, 3], [7]] }
    ∧ (alloc_and_load_pack_patterns (example_ext (parallel_chains_arch 2) chain_netlist) 50
        (parallel_chains_arch 2) cluster_type).map Prod.snd
      = .ok [{ chain_pattern with chain_root_pins := [[1], [7]] }] := by
  decide!

/-- C12 (the claim as stated, at a counterexample): in `two_entry_chain_arch` the two
tagged boundary input pins 0 and 6 both reach the boundary output pin 5, and pin 6 is
connected to the primitive pin 3; the only chain-root-pin group of the pattern is `[1]`,
the pin recorded by the forward expansion, and does not hold pin 3. -/
theorem intersecting_chains_group_misses_entry :
    (alloc_and_load_pack_patterns (example_ext two_entry_chain_arch chain_netlist) 50
        two_entry_chain_arch cluster_type).map Prod.snd = .ok [chain_pattern]
    ∧ chain_pattern.chain_root_pins = [[1]]
    ∧ chain_input_pins (loaded_template two_entry_chain_arch) 0 0 = [0, 6]
    ∧ [0, 6].mapM (fun pin_ptr => find_end_of_path (loaded_template two_entry_chain_arch) 50
        pin_ptr 0) = .ok [[5], [5]]
    ∧ get_pattern_blocks (loaded_template two_entry_chain_arch) 50 chain_pattern = .ok [1]
    ∧ get_all_connected_primitive_pins (loaded_template two_entry_chain_arch) [1] 50 6 []
        = .ok [3]
    ∧ ¬ (∃ group ∈ chain_pattern.chain_root_pins, 3 ∈ group) := by
  decide!

/-- C12 (amended): when the chain pattern has two or more tagged boundary input pins and
the reachable boundary-output sets of two of them (positions `i < j`) share a pin `x`,
`find_all_equivalent_chains` returns the pattern unchanged, so `chain_root_pins` stays as
the forward expansion recorded it. -/
theorem intersecting_chains_keep_recorded_root (arch : Arch) (fuel : Nat)
    (pat : t_pack_patterns) (root_block : Nat) (reach : List (List Nat)) (i j x : Nat)
    (hlen : (chain_input_pins arch pat.index root_block).length ≠ 1)
    (hreach : (chain_input_pins arch pat.index root_block).mapM
        (fun pin_ptr => find_end_of_path arch fuel pin_ptr pat.index) = .ok reach)
    (hij : i < j) (hj : j < reach.length) (hx : x ∈ reach.getD i [])
    (hx2 : x ∈ reach.getD j []) :
    find_all_equivalent_chains arch fuel pat root_block = .ok pat := by
  have hint := reachable_pins_intersect_of_common reach i j x hij hj hx hx2
  rw [find_all_equivalent_chains_eq]
  simp only [beq_iff_eq, hlen, if_false, hreach, bind, Except.bind, hint, Bool.not_true,
    Bool.false_eq_true, pure, Except.pure]

/-- C12 (amended) on `two_entry_chain_arch`: the candidates 0 and 6 both reach pin 5 and
the pattern comes back unchanged. -/
theorem intersecting_chains_keep_recorded_root_witness :
    (chain_input_pins (loaded_template two_entry_chain_arch) chain_pattern.index 0).length ≠ 1
    ∧ (chain_input_pins (loaded_template two_entry_chain_arch) chain_pattern.index 0).mapM
        (fun pin_ptr => find_end_of_path (loaded_template two_entry_chain_arch) 50 pin_ptr
          chain_pattern.index) = .ok [[5], [5]]
    ∧ find_all_equivalent_chains (loaded_template two_entry_chain_arch) 50 chain_pattern 0
        = .ok chain_pattern :=
  ⟨by decide!, by decide!,
   intersecting_chains_keep_recorded_root (loaded_template two_entry_chain_arch) 50
     chain_pattern 0 [[5], [5]] 0 1 5 (by decide!) (by decide!) (by decide) (by decide)
     (by decide) (by decide)⟩

/-- C13 (the code at the failing input): in `parallel_chains_arch 3` the three tagged boundary input pins 0, 6,
12 reach the pairwise disjoint sets `[5]`, `[11]`, `[17]`, yet the loops of lines 1597-1605
report an intersection (they compare the second set with itself), so the pattern keeps the
single group `[1]`; `update_chain_root_pins`, which is not called, would give the three
groups `[1]`, `[7]`, `[13]`. -/
theorem three_disjoint_chains_give_one_group :
    (alloc_and_load_pack_patterns (example_ext (parallel_chains_arch 3) chain_netlist) 50
        (parallel_chains_arch 3) cluster_type).map Prod.snd = .ok [chain_pattern]
    ∧ chain_pattern.chain_root_pins = [[1]]
    ∧ chain_input_pins (loaded_template (parallel_chains_arch 3)) 0 0 = [0, 6, 12]
    ∧ [0, 6, 12].mapM (fun pin_ptr => find_end_of_path (loaded_template (parallel_chains_arch 3))
        50 pin_ptr 0) = .ok [[5], [11], [17]]
    ∧ reachable_pins_intersect [[5], [11], [17]] = true
    ∧ find_all_equivalent_chains (loaded_template (parallel_chains_arch 3)) 50 chain_pattern 0
        = .ok chain_pattern
    ∧ update_chain_root_pins (loaded_template (parallel_chains_arch 3)) 50 chain_pattern
        [0, 6, 12] = .ok { chain_pattern with chain_root_pins := [[1], [7], [13]] } := by
  decide!

/-- C14 (the code at the failing input): in `single_adder_arch` the builder makes a chain
pattern of one slot without connections, entered through the only tagged boundary input
pin 0; `get_pattern_blocks` then answers the empty set, no primitive pin passes the filter
of `get_all_connected_primitive_pins` (with the adder pb_type in the set, pin 1 would),
and the assertion of line 1642 stops the construction of the pattern library. -/
theorem single_slot_chain_fails_assertion :
    (alloc_and_load_pack_patterns (example_ext single_adder_arch chain_netlist) 50
        single_adder_arch cluster_type).map Prod.snd = .error (.assert_failed 1642)
    ∧ (built_from_edge_0 single_adder_arch).map
        (fun b => (b.packing_pattern.is_chain, b.L_num_blocks, b.packing_pattern.blocks))
      = .ok (true, 1, [{ pb_type := 1, block_id := 0, pattern_index := 0, connections := [] }])
    ∧ (do
        let b ← built_from_edge_0 single_adder_arch
        pure (chain_input_pins b.arch b.packing_pattern.index 0)) = .ok [0]
    ∧ (do
        let b ← built_from_edge_0 single_adder_arch
        get_pattern_blocks b.arch 50 b.packing_pattern) = .ok []
    ∧ (do
        let b ← built_from_edge_0 single_adder_arch
        get_all_connected_primitive_pins b.arch [] 50 0 []) = .ok []
    ∧ (do
        let b ← built_from_edge_0 single_adder_arch
        get_all_connected_primitive_pins b.arch [1] 50 0 []) = .ok [1]
    ∧ (do
        let b ← built_from_edge_0 single_adder_arch
        find_all_equivalent_chains b.arch 50
          { b.packing_pattern with num_blocks := 1, is_block_optional := [false] } 0)
      = .error (.assert_failed 1642) := by
  decide!

/-- C15: in the pattern list returned by `alloc_and_load_pack_patterns`, every pattern has
one mark per slot, and for every slot id `k` below `num_blocks` the mark
`is_block_optional[k]` is true if and only if the pattern is a chain and `k` is not the id
of the root slot; so no slot of a non-chain pattern is optional, and in a chain pattern a
slot is mandatory exactly when it is the root slot. -/
theorem is_block_optional_iff_chain_and_not_root (ext : Externals) (fuel : Nat) (arch : Arch)
    (logical_block_types : List t_logical_block_type) (packing_patterns : List t_pack_patterns)
    (h : (alloc_and_load_pack_patterns ext fuel arch logical_block_types).map Prod.snd
      = .ok packing_patterns) :
    ∀ pat ∈ packing_patterns, ∃ root_block,
      pat.root_block = some root_block
      ∧ pat.is_block_optional.length = pat.num_blocks
      ∧ (∀ k < pat.num_blocks, (pat.is_block_optional.getD k false = true
          ↔ pat.is_chain = true ∧ k ≠ (pat.block root_block).block_id))
      ∧ (pat.is_chain = false → ∀ k < pat.num_blocks, pat.is_block_optional.getD k false = false)
      ∧ (pat.is_chain = true → ∀ k < pat.num_blocks,
          (pat.is_block_optional.getD k false = false ↔ k = (pat.block root_block).block_id)) := by
  unfold alloc_and_load_pack_patterns at h
  simp only [bind, Except.bind, pure, Except.pure, Except.map] at h
  split at h
  · cases h
  · rename_i lib hlib
    cases h
    split at hlib
    · cases hlib
    · rename_i discovered hd
      split at hlib
      · cases hlib
      · rename_i loaded hl
        split at hlib
        · cases hlib
        · rename_i hroot
          have e := Except.ok.inj hlib
          subst e
          have hmarks : ∀ pat ∈ loaded.2, optional_marks_ok pat := by
            refine foldlM_ok_invariant _ (fun st => ∀ pat ∈ st.2, optional_marks_ok pat) ?_ _ _ _
              (alloc_and_init_marks _) hl
            intro b a b2 hb hstep
            exact load_pack_pattern_marks ext fuel a _ b b2 hb hstep
          intro pat hpat
          have hr : pat.root_block.isNone = false := by
            simp only [Bool.not_eq_true, List.any_eq_false] at hroot
            simpa using hroot pat hpat
          obtain ⟨rb, hrb⟩ : ∃ rb, pat.root_block = some rb := by
            cases hp : pat.root_block with
            | none => rw [hp] at hr; cases hr
            | some rb => exact ⟨rb, rfl⟩
          obtain ⟨hlen, hiff⟩ := hmarks pat hpat
          have hiff2 : ∀ k < pat.num_blocks, (pat.is_block_optional.getD k false = true
              ↔ pat.is_chain = true ∧ k ≠ (pat.block rb).block_id) := by
            intro k hk
            rw [hiff k hk]
            constructor
            · rintro ⟨hc, rb2, h2, hne⟩
              rw [hrb] at h2; cases h2
              exact ⟨hc, hne⟩
            · rintro ⟨hc, hne⟩
              exact ⟨hc, rb, hrb, hne⟩
          refine ⟨rb, hrb, hlen, hiff2, ?_, ?_⟩
          · intro hc k hk
            have := hiff2 k hk
            rw [hc] at this
            simpa using this
          · intro hc k hk
            have := hiff2 k hk
            rw [hc] at this
            constructor
            · intro hf
              by_contra hne
              have := this.2 ⟨rfl, hne⟩
              rw [hf] at this; cases this
            · intro he
              cases hv : pat.is_block_optional.getD k false with
              | false => rfl
              | true => exact absurd he (this.1 hv).2

/-- C15 on the two-adder chain architecture: the root slot 0 is mandatory and slot 1 is
optional. -/
theorem is_block_optional_iff_chain_and_not_root_witness :
    (alloc_and_load_pack_patterns (example_ext chain_arch chain_netlist) 50 chain_arch
        cluster_type).map Prod.snd = .ok [chain_pattern]
    ∧ ∀ pat ∈ [chain_pattern], ∃ root_block,
      pat.root_block = some root_block
      ∧ pat.is_block_optional.length = pat.num_blocks
      ∧ (∀ k < pat.num_blocks, (pat.is_block_optional.getD k false = true
          ↔ pat.is_chain = true ∧ k ≠ (pat.block root_block).block_id))
      ∧ (pat.is_chain = false → ∀ k < pat.num_blocks, pat.is_block_optional.getD k false = false)
      ∧ (pat.is_chain = true → ∀ k < pat.num_blocks,
          (pat.is_block_optional.getD k false = false ↔ k = (pat.block root_block).block_id)) :=
  ⟨by decide!,
   is_block_optional_iff_chain_and_not_root (example_ext chain_arch chain_netlist) 50
     chain_arch cluster_type [chain_pattern] (by decide!)⟩

/-- C16: after the discovery pass over the templates of the block types, started on a
template without index arrays and an empty table, the table `pattern_names` (label at
position `i` has index `i`) holds exactly the distinct labels found on the visited edges
(the output edges of the input, output and clock pins of the nodes of the hierarchy), so
label and index determine each other and the indices are `0 .. n-1`; a label first met
later than all labels of a prefix of the traversal has a larger index than each of them;
entry `m` of `pack_pattern_indices` of every visited edge is the index of its `m`-th
label; and `alloc_and_init_pattern_list_from_hash` puts the pattern with index `i` (and
the label of index `i`) at position `i`. -/
theorem pattern_discovery_dense_first_seen (fuel : Nat)
    (logical_block_types : List t_logical_block_type) (arch : Arch)
    (discovered_state : Arch × List Nat)
    (hfresh : ∀ edge ∈ arch.edges, edge.pack_pattern_indices = [])
    (h : logical_block_types.foldlM
        (fun acc type => discover_pattern_names_in_pb_graph_node fuel type.pb_graph_head acc)
        (arch, []) = .ok discovered_state) :
    let pattern_names := discovered_state.2
    let edges := logical_block_types.flatMap
      (fun type => traversal_edges arch fuel type.pb_graph_head)
    let labels := edges.flatMap (fun e => (arch.edge e).pack_pattern_names)
    pattern_names.Nodup
    ∧ (∀ x, x ∈ pattern_names ↔ x ∈ labels)
    ∧ (∀ x ∈ labels, pattern_names.indexOf x < pattern_names.length
        ∧ pattern_names.get? (pattern_names.indexOf x) = some x)
    ∧ (∀ i < pattern_names.length, ∃ x ∈ labels, pattern_names.indexOf x = i)
    ∧ (∀ l1 x l2, labels = l1 ++ x :: l2 → x ∉ l1 →
        ∀ y ∈ l1, pattern_names.indexOf y < pattern_names.indexOf x)
    ∧ (∀ e ∈ edges,
        (discovered_state.1.edge e).pack_pattern_names = (arch.edge e).pack_pattern_names
        ∧ ∀ m < (arch.edge e).pack_pattern_names.length,
            (discovered_state.1.edge e).pack_pattern_indices.get? m
              = some (pattern_names.indexOf ((arch.edge e).pack_pattern_names.getD m 0)))
    ∧ (alloc_and_init_pattern_list_from_hash pattern_names).length = pattern_names.length
    ∧ (∀ i < pattern_names.length,
        ((alloc_and_init_pattern_list_from_hash pattern_names).getD i default).index = i
        ∧ ((alloc_and_init_pattern_list_from_hash pattern_names).getD i default).name
            = pattern_names.get? i) := by
  intro pattern_names edges labels
  have hd := foldlM_discovered (fun s => s) _
    (fun a (type : t_logical_block_type) => traversal_edges a fuel type.pb_graph_head)
    (fun a b x hab => traversal_edges_congr hab fuel x.pb_graph_head)
    (fun s x s2 hs => discover_pattern_names_discovered fuel x.pb_graph_head s s2 hs)
    _ _ _ h
  obtain ⟨⟨ht, _, hn, _⟩, hrec⟩ := hd
  have hnames : pattern_names = insert_pattern_names [] labels := hn
  have halloc : indices_allocated arch := by
    intro e
    left
    by_cases he : e < arch.edges.length
    · apply hfresh
      simp only [Arch.edge]
      rw [List.getD_eq_getElem _ _ he]
      exact List.getElem_mem he
    · simp only [Arch.edge]
      rw [List.getD_eq_default _ _ (by omega)]
      rfl
  have hnd : pattern_names.Nodup := by
    rw [hnames]; exact insert_pattern_names_nodup [] labels List.nodup_nil
  have hmem : ∀ x, x ∈ pattern_names ↔ x ∈ labels := by
    intro x
    rw [hnames, insert_pattern_names_mem]
    simp
  refine ⟨hnd, hmem, ?_, ?_, ?_, ?_, ?_, ?_⟩
  · intro x hx
    have hx2 := (hmem x).mpr hx
    exact ⟨List.indexOf_lt_length.mpr hx2, List.indexOf_get? hx2⟩
  · intro i hi
    refine ⟨pattern_names[i], (hmem _).mp (List.getElem_mem hi), ?_⟩
    exact List.indexOf_getElem hnd i hi
  · intro l1 x l2 hl hx y hy
    rw [hnames, hl]
    exact insert_pattern_names_first_seen l1 x l2 hx y hy
  · intro e he
    refine ⟨(ht.2.2.2.2 e).1, ?_⟩
    intro m hm
    have := hrec halloc e he m
    unfold index_recorded at this
    rw [(ht.2.2.2.2 e).1] at this
    exact (this hm).2
  · simp [alloc_and_init_pattern_list_from_hash]
  · intro i hi
    simp only [alloc_and_init_pattern_list_from_hash]
    rw [List.getD_eq_getElem _ _ (by simpa using hi)]
    simp

/-- C16 on `two_label_arch`: label 8 is met first and gets index 0, label 7 gets index 1,
and the edge labelled 7, 8 records the indices 1, 0. -/
theorem pattern_discovery_dense_first_seen_witness :
    (∀ edge ∈ two_label_arch.edges, edge.pack_pattern_indices = [])
    ∧ cluster_type.foldlM
        (fun acc type => discover_pattern_names_in_pb_graph_node 50 type.pb_graph_head acc)
        (two_label_arch, []) = .ok (discovery_of two_label_arch)
    ∧ (discovery_of two_label_arch).2 = [8, 7]
    ∧ ((discovery_of two_label_arch).1.edge 1).pack_pattern_indices = [1, 0]
    ∧ (discovery_of two_label_arch).2.Nodup :=
  ⟨by decide, by decide!, by decide!, by decide!,
   (pattern_discovery_dense_first_seen 50 cluster_type two_label_arch
     (discovery_of two_label_arch) (by decide) (by decide!)).1⟩

/-- C17: the statistics returned by `calc_molecule_stats` satisfy
`num_used_ext_pins = num_used_ext_inputs + num_used_ext_outputs` and
`num_pins = num_input_pins + num_output_pins`, and `num_blocks` is the number of
non-empty slots of the molecule. -/
theorem calc_molecule_stats_sums (s : Prepacker) (ext : Externals) (nl : AtomNetlist)
    (molecule_id : PackMoleculeId) (st : t_molecule_stats)
    (h : s.calc_molecule_stats ext nl (some molecule_id) = .ok st) :
    st.num_used_ext_pins = st.num_used_ext_inputs + st.num_used_ext_outputs
      ∧ st.num_pins = st.num_input_pins + st.num_output_pins
      ∧ st.num_blocks
        = ((s.pack_molecules_.getD molecule_id default).atom_block_ids.filter
            Option.isSome).length := by
  unfold Prepacker.calc_molecule_stats at h
  simp only [bind, Except.bind, pure, Except.pure] at h
  split at h
  · cases h
  · rename_i st3 h3
    cases h
    have hf := used_ext_loop_frame nl _ _ _ _ h3
    simp only at hf
    refine ⟨rfl, ?_, ?_⟩
    · show st3.num_pins = st3.num_input_pins + st3.num_output_pins
      rw [hf.2.1, hf.2.2.1, hf.2.2.2]
    · show st3.num_blocks = _
      rw [hf.1, count_available_pins_num_blocks]
      simp [t_molecule_stats.fresh]

/-- C17 on the molecule of LUT0 and FF0 of the statistics example: 2 blocks, 6 + 2 = 8
pins, 1 + 1 = 2 externally used pins. -/
theorem calc_molecule_stats_sums_witness :
    stats_prepacker.calc_molecule_stats stats_ext stats_netlist.toNetlist (some 0)
      = .ok { num_blocks := 2, num_pins := 8, num_input_pins := 6, num_output_pins := 2,
              num_used_ext_pins := 2, num_used_ext_inputs := 1, num_used_ext_outputs := 1 }
    ∧ (2 : Nat) = 1 + 1 ∧ (8 : Nat) = 6 + 2
    ∧ 2 = ((stats_prepacker.pack_molecules_.getD 0 default).atom_block_ids.filter
            Option.isSome).length :=
  ⟨by decide!,
   calc_molecule_stats_sums stats_prepacker stats_ext stats_netlist.toNetlist 0
     { num_blocks := 2, num_pins := 8, num_input_pins := 6, num_output_pins := 2,
       num_used_ext_pins := 2, num_used_ext_inputs := 1, num_used_ext_outputs := 1 }
     (by decide!)⟩

/-- C18: in `calc_molecule_stats`, `num_used_ext_inputs` counts, over the pins of the
atoms of the molecule, one for each sink pin whose net is driven from outside the molecule,
and `num_used_ext_outputs` one for each driver pin whose net has a sink outside (once per
net, however many); a pin of a net whose driver block and sink blocks are all in the
molecule is counted in neither. -/
theorem calc_molecule_stats_external_pins (s : Prepacker) (ext : Externals)
    (nl : AtomNetlist) (molecule_id : PackMoleculeId) (st : t_molecule_stats)
    (h : s.calc_molecule_stats ext nl (some molecule_id) = .ok st) :
    let atoms := (s.pack_molecules_.getD molecule_id default).atom_block_ids
    st.num_used_ext_inputs
        = (molecule_pins nl atoms).countP (sink_driven_from_outside nl atoms)
      ∧ st.num_used_ext_outputs
        = (molecule_pins nl atoms).countP (driver_with_outside_sink nl atoms)
      ∧ (∀ pin net, nl.pin_net pin = some net → nl.net_driver_block net ∈ atoms →
          (∀ sink_pin ∈ nl.net_sinks net, some (nl.pin_block sink_pin) ∈ atoms) →
          sink_driven_from_outside nl atoms pin = false
            ∧ driver_with_outside_sink nl atoms pin = false)
      ∧ (∀ pin net driver_blk, nl.pin_type pin = PinType.SINK → nl.pin_net pin = some net →
          nl.net_driver_block net = some driver_blk → some driver_blk ∉ atoms →
          sink_driven_from_outside nl atoms pin = true)
      ∧ (∀ pin net sink_pin, nl.pin_type pin = PinType.DRIVER → nl.pin_net pin = some net →
          sink_pin ∈ nl.net_sinks net → some (nl.pin_block sink_pin) ∉ atoms →
          driver_with_outside_sink nl atoms pin = true) := by
  intro atoms
  unfold Prepacker.calc_molecule_stats at h
  simp only [bind, Except.bind, pure, Except.pure] at h
  split at h
  · cases h
  · rename_i st3 h3
    cases h
    have hc := used_ext_loop_counts nl _ _ _ _ h3
    have hfresh : ∀ (l : List (Option AtomBlockId)) (s0 : t_molecule_stats),
        (l.foldl (count_available_pins ext nl) s0).num_used_ext_inputs = s0.num_used_ext_inputs
        ∧ (l.foldl (count_available_pins ext nl) s0).num_used_ext_outputs
            = s0.num_used_ext_outputs := by
      intro l
      induction l with
      | nil => intro s0; exact ⟨rfl, rfl⟩
      | cons b t ih =>
        intro s0
        rw [List.foldl_cons, (ih _).1, (ih _).2]
        cases b with
        | none => exact ⟨rfl, rfl⟩
        | some blk =>
          simp only [count_available_pins]
          have hin : ∀ (sizes : List Nat) (s : t_molecule_stats),
              (sizes.foldl (fun (s : t_molecule_stats) size =>
                { s with num_input_pins := s.num_input_pins + size }) s).num_used_ext_inputs
                  = s.num_used_ext_inputs
              ∧ (sizes.foldl (fun (s : t_molecule_stats) size =>
                { s with num_input_pins := s.num_input_pins + size }) s).num_used_ext_outputs
                  = s.num_used_ext_outputs := by
            intro sizes
            induction sizes with
            | nil => intro s; exact ⟨rfl, rfl⟩
            | cons a t ih => intro s; rw [List.foldl_cons, (ih _).1, (ih _).2]; exact ⟨rfl, rfl⟩
          have hout : ∀ (sizes : List Nat) (s : t_molecule_stats),
              (sizes.foldl (fun (s : t_molecule_stats) size =>
                { s with num_output_pins := s.num_output_pins + size }) s).num_used_ext_inputs
                  = s.num_used_ext_inputs
              ∧ (sizes.foldl (fun (s : t_molecule_stats) size =>
                { s with num_output_pins := s.num_output_pins + size }) s).num_used_ext_outputs
                  = s.num_used_ext_outputs := by
            intro sizes
            induction sizes with
            | nil => intro s; exact ⟨rfl, rfl⟩
            | cons a t ih => intro s; rw [List.foldl_cons, (ih _).1, (ih _).2]; exact ⟨rfl, rfl⟩
          rw [(hout _ _).1, (hout _ _).2, (hin _ _).1, (hin _ _).2]
          exact ⟨rfl, rfl⟩
    refine ⟨?_, ?_, ?_, ?_, ?_⟩
    · show st3.num_used_ext_inputs = _
      rw [hc.1]
      simp only [(hfresh _ _).1, t_molecule_stats.fresh, Nat.zero_add]
    · show st3.num_used_ext_outputs = _
      rw [hc.2]
      simp only [(hfresh _ _).2, t_molecule_stats.fresh, Nat.zero_add]
    · intro pin net hnet hdrv hsinks
      unfold sink_driven_from_outside driver_with_outside_sink
      rw [hnet]
      constructor
      · simp [hdrv]
      · simp only [Bool.and_eq_false_imp]
        intro _
        rw [List.any_eq_false]
        intro x hx
        simp [hsinks x hx]
    · intro pin net d hty hnet hdrv hout
      unfold sink_driven_from_outside
      rw [hnet, hty]
      simp only [hdrv]
      simp [hout]
    · intro pin net sp hty hnet hsp hout
      unfold driver_with_outside_sink
      rw [hnet, hty]
      simp only [List.any_eq_true]
      simp
      exact ⟨sp, hsp, hout⟩

/-- C18 on the molecule of LUT0 and FF0 of the statistics example: the input of LUT0 is
driven by LUT1 outside, the net from LUT0 to FF0 is inside, and the output of FF0 has two
sinks outside and counts once. -/
theorem calc_molecule_stats_external_pins_witness :
    stats_prepacker.calc_molecule_stats stats_ext stats_netlist.toNetlist (some 0)
      = .ok { num_blocks := 2, num_pins := 8, num_input_pins := 6, num_output_pins := 2,
              num_used_ext_pins := 2, num_used_ext_inputs := 1, num_used_ext_outputs := 1 }
    ∧ 1 = (molecule_pins stats_netlist.toNetlist [some 0, some 1]).countP
          (sink_driven_from_outside stats_netlist.toNetlist [some 0, some 1])
    ∧ 1 = (molecule_pins stats_netlist.toNetlist [some 0, some 1]).countP
          (driver_with_outside_sink stats_netlist.toNetlist [some 0, some 1]) :=
  ⟨by decide!,
   (calc_molecule_stats_external_pins stats_prepacker stats_ext stats_netlist.toNetlist 0
     { num_blocks := 2, num_pins := 8, num_input_pins := 6, num_output_pins := 2,
       num_used_ext_pins := 2, num_used_ext_inputs := 1, num_used_ext_outputs := 1 }
     (by decide!)).1,
   (calc_molecule_stats_external_pins stats_prepacker stats_ext stats_netlist.toNetlist 0
     { num_blocks := 2, num_pins := 8, num_input_pins := 6, num_output_pins := 2,
       num_used_ext_pins := 2, num_used_ext_inputs := 1, num_used_ext_outputs := 1 }
     (by decide!)).2.1⟩

/-- C19: `calc_max_molecule_stats` is the element-wise maximum of `calc_molecule_stats`
over all molecules: each of the seven counters of the result is at least the same counter
of every molecule and is that counter of some molecule, or is 0 when there is no
molecule. -/
theorem calc_max_molecule_stats_is_elementwise_max (s : Prepacker) (ext : Externals)
    (nl : AtomNetlist) (mx : t_molecule_stats)
    (h : s.calc_max_molecule_stats ext nl = .ok mx) :
    ∀ f ∈ [t_molecule_stats.num_blocks, t_molecule_stats.num_pins,
        t_molecule_stats.num_input_pins, t_molecule_stats.num_output_pins,
        t_molecule_stats.num_used_ext_pins, t_molecule_stats.num_used_ext_inputs,
        t_molecule_stats.num_used_ext_outputs],
      (∀ id ∈ s.molecules, ∃ st, s.calc_molecule_stats ext nl (some id) = .ok st ∧ f st ≤ f mx)
      ∧ (s.molecules = [] → f mx = 0)
      ∧ (s.molecules ≠ [] →
          ∃ id ∈ s.molecules, ∃ st, s.calc_molecule_stats ext nl (some id) = .ok st
            ∧ f st = f mx) := by
  intro f hmem
  unfold Prepacker.calc_max_molecule_stats at h
  have key : f t_molecule_stats.fresh ≤ f mx
      ∧ (∀ id ∈ s.molecules, ∃ st, s.calc_molecule_stats ext nl (some id) = .ok st
          ∧ f st ≤ f mx)
      ∧ (f mx = f t_molecule_stats.fresh
          ∨ ∃ id ∈ s.molecules, ∃ st, s.calc_molecule_stats ext nl (some id) = .ok st
            ∧ f st = f mx) := by
    simp only [List.mem_cons, List.mem_singleton, List.not_mem_nil, or_false] at hmem
    rcases hmem with rfl | rfl | rfl | rfl | rfl | rfl | rfl
    all_goals exact calc_max_fold s ext nl _ _ (fun _ _ => rfl) _ _ _ h
  have hz : f t_molecule_stats.fresh = 0 := by
    simp only [List.mem_cons, List.mem_singleton, List.not_mem_nil, or_false] at hmem
    rcases hmem with rfl | rfl | rfl | rfl | rfl | rfl | rfl <;> rfl
  obtain ⟨_, hall, hex⟩ := key
  refine ⟨hall, ?_, ?_⟩
  · intro hnil
    rcases hex with hex | ⟨i, hi, _⟩
    · rw [hex, hz]
    · rw [hnil] at hi; cases hi
  · intro hne
    rcases hex with hex | hex
    · obtain ⟨i, hi⟩ := List.exists_mem_of_ne_nil _ hne
      obtain ⟨st, hst, hle⟩ := hall i hi
      refine ⟨i, hi, st, hst, ?_⟩
      rw [hex, hz] at hle ⊢
      omega
    · exact hex

/-- C19 on the three molecules of the statistics example, for the counter `num_pins`
(8, 5 and 3 pins). -/
theorem calc_max_molecule_stats_is_elementwise_max_witness :
    stats_prepacker.calc_max_molecule_stats stats_ext stats_netlist.toNetlist
      = .ok { num_blocks := 2, num_pins := 8, num_input_pins := 6, num_output_pins := 2,
              num_used_ext_pins := 2, num_used_ext_inputs := 1, num_used_ext_outputs := 1 }
    ∧ ∀ id ∈ stats_prepacker.molecules, ∃ st,
        stats_prepacker.calc_molecule_stats stats_ext stats_netlist.toNetlist (some id) = .ok st
        ∧ st.num_pins ≤ 8 :=
  ⟨by decide!,
   (calc_max_molecule_stats_is_elementwise_max stats_prepacker stats_ext
     stats_netlist.toNetlist
     { num_blocks := 2, num_pins := 8, num_input_pins := 6, num_output_pins := 2,
       num_used_ext_pins := 2, num_used_ext_inputs := 1, num_used_ext_outputs := 1 }
     (by decide!) t_molecule_stats.num_pins (by simp)).1⟩

/-- C21: with non-negative primitive costs and more fuel than the height of the templates,
once the pattern-matching loop of `alloc_and_load_pack_molecules` has completed, the call
aborts with the "Failed to find any location to pack primitive" error iff some atom of the
netlist, matched or not, has no feasible primitive reached from the head of a logical block
type through modes that are not disabled for packing, and it returns when every atom has
one; that error is raised only in that case, whatever the pattern-matching loop does; and
when the template is an unfolding of the pb_type hierarchy, having no feasible primitive
through first instances (which the search visits) is having none through any instances. -/
theorem netlist_infeasibility_is_fatal (arch : Arch) (ext : Externals) (nl : AtomNetlist)
    (fuel : Nat) (logical_block_types : List t_logical_block_type) (s : Prepacker)
    (rank : Nat → Nat)
    (hcost : ∀ n, 0 ≤ ext.compute_primitive_base_cost n)
    (hrank : ∀ n i j c,
      (((arch.node n).child_pb_graph_nodes.getD i []).getD j []).head? = some c →
      rank c < rank n)
    (hfuel : 0 < fuel)
    (hroots : ∀ type ∈ logical_block_types, ∀ root, type.pb_graph_head = some root →
      rank root + 1 < fuel) :
    (∀ s1,
      assign_patterns arch s.list_of_pack_patterns
        (fun best_pattern s => match_pattern_on_atoms arch ext nl best_pattern fuel nl.blocks s)
        (List.range s.list_of_pack_patterns.length)
        (List.replicate s.list_of_pack_patterns.length false) s = .ok s1 →
      (alloc_and_load_pack_molecules arch ext nl fuel logical_block_types s
          = .error .fatal_no_primitive
        ↔ ∃ blk ∈ nl.blocks, no_feasible_primitive arch ext logical_block_types true blk)
      ∧ ((∀ blk ∈ nl.blocks, ¬ no_feasible_primitive arch ext logical_block_types true blk) →
        ∃ s2, alloc_and_load_pack_molecules arch ext nl fuel logical_block_types s = .ok s2))
    ∧ (alloc_and_load_pack_molecules arch ext nl fuel logical_block_types s
          = .error .fatal_no_primitive →
        ∃ blk ∈ nl.blocks, no_feasible_primitive arch ext logical_block_types true blk)
    ∧ (instances_match_types arch = true →
        (∀ type ∈ logical_block_types, ∀ root, type.pb_graph_head = some root →
          root < arch.nodes.length) →
        ∀ blk, no_feasible_primitive arch ext logical_block_types true blk
          ↔ no_feasible_primitive arch ext logical_block_types false blk) := by
  have hloop := add_single_atom_molecules_fatal arch ext fuel logical_block_types rank hcost
    hrank hfuel hroots nl.blocks
  have honly : ∀ s1, add_single_atom_molecules arch ext fuel logical_block_types nl.blocks s1
      = .error .fatal_no_primitive →
      ∃ blk ∈ nl.blocks, no_feasible_primitive arch ext logical_block_types true blk := by
    intro s1 herr
    by_contra hno
    obtain ⟨s2, hs2⟩ := (hloop s1).2 (fun blk hmem hb => hno ⟨blk, hmem, hb⟩)
    rw [hs2] at herr
    cases herr
  refine ⟨fun s1 hs1 => ?_, fun herr => ?_,
    fun hwf hr blk => no_feasible_primitive_any_instance arch ext logical_block_types hwf hr blk⟩
  · have halloc : alloc_and_load_pack_molecules arch ext nl fuel logical_block_types s
        = add_single_atom_molecules arch ext fuel logical_block_types nl.blocks s1 := by
      unfold alloc_and_load_pack_molecules
      simp only [bind, Except.bind, hs1]
    rw [halloc]
    exact ⟨⟨honly s1, (hloop s1).1⟩, (hloop s1).2⟩
  · unfold alloc_and_load_pack_molecules at herr
    simp only [bind, Except.bind] at herr
    split at herr
    · rename_i e he
      injection herr with herr
      subst herr
      have := assign_patterns_not_fatal arch s.list_of_pack_patterns
        (fun best_pattern s => match_pattern_on_atoms arch ext nl best_pattern fuel nl.blocks s)
        (fun b t => match_pattern_on_atoms_not_fatal arch ext nl b fuel nl.blocks t)
        (List.range s.list_of_pack_patterns.length)
        (List.replicate s.list_of_pack_patterns.length false) s
      rw [not_fatal_iff] at this
      exact absurd he this
    · rename_i s1 _
      exact honly s1 herr

/-- C21 on the LUT/flip-flop example with one more atom of a model that no primitive
implements: the pattern-matching loop completes with LUT0 and FF0 matched, the call aborts
with the fatal error, and some atom has no feasible primitive. -/
theorem netlist_infeasibility_is_fatal_witness :
    (∀ n, 0 ≤ (example_ext lut_ff_arch alien_atom_netlist).compute_primitive_base_cost n)
    ∧ rank_decreases lut_ff_arch (fun n => if n = 0 then 1 else 0) = true
    ∧ assign_patterns lut_ff_arch [lut_ff_pattern]
        (fun best_pattern s => match_pattern_on_atoms lut_ff_arch
          (example_ext lut_ff_arch alien_atom_netlist) alien_atom_netlist.toNetlist
          best_pattern 50 alien_atom_netlist.toNetlist.blocks s)
        (List.range 1) (List.replicate 1 false) (Prepacker.initial [lut_ff_pattern] 5)
      = .ok alien_atom_matched
    ∧ alloc_and_load_pack_molecules lut_ff_arch (example_ext lut_ff_arch alien_atom_netlist)
        alien_atom_netlist.toNetlist 50 cluster_type (Prepacker.initial [lut_ff_pattern] 5)
      = .error .fatal_no_primitive
    ∧ ∃ blk ∈ alien_atom_netlist.toNetlist.blocks,
        no_feasible_primitive lut_ff_arch (example_ext lut_ff_arch alien_atom_netlist)
          cluster_type true blk :=
  have hcost : ∀ n,
      0 ≤ (example_ext lut_ff_arch alien_atom_netlist).compute_primitive_base_cost n := by
    intro n
    simp only [example_ext]
    exact Nat.cast_nonneg _
  ⟨hcost, by decide, by decide!, by decide!,
   ((netlist_infeasibility_is_fatal lut_ff_arch (example_ext lut_ff_arch alien_atom_netlist)
      alien_atom_netlist.toNetlist 50 cluster_type (Prepacker.initial [lut_ff_pattern] 5)
      (fun n => if n = 0 then 1 else 0) hcost
      (rank_decreases_spec lut_ff_arch (fun n => if n = 0 then 1 else 0) (by decide))
      (by decide) (by decide)).1 alien_atom_matched (by decide!)).1.mp (by decide!)⟩

/-- C22: for a chain pattern with chain input pin `root_ipin`, on a netlist whose
chain-input driver links are acyclic (a rank decreases along them) and with more fuel than
the rank of the given atom, `find_new_root_atom_for_chain` returns; the result is the
invalid id iff the given atom is not type-feasible for the chain root primitive; otherwise
it is the last atom `r` of the longest sequence `b(0)` = given atom, `b(i+1)` = driver of
the chain input pin of `b(i)`, in which every `b(i)` with `i >= 1` exists, is type-feasible
for the root primitive and belongs to no committed molecule (`r` is `b(k)` and has no such
link up): the driver of `r` is missing, already committed or type-incompatible; and the
result is the given atom itself when its driver is missing or committed. -/
theorem find_new_root_atom_for_chain_climbs (arch : Arch) (ext : Externals)
    (nl : AtomNetlist) (pat : t_pack_patterns)
    (atom_molecules : List (AtomBlockId × PackMoleculeId))
    (root_ipin : Nat) (r1 : List Nat) (r2 : List (List Nat)) (rank : AtomBlockId → Nat)
    (hchain : pat.is_chain = true)
    (hpins : pat.chain_root_pins = (root_ipin :: r1) :: r2)
    (hacyclic : chain_links_acyclic arch nl root_ipin rank = true)
    (fuel : Nat) (blk_id : AtomBlockId) (hblk : blk_id ∈ nl.blocks)
    (hfuel : rank blk_id < fuel) :
    ∃ res, find_new_root_atom_for_chain arch ext nl pat atom_molecules fuel blk_id = .ok res
      ∧ (res = none ↔ ext.primitive_type_feasible blk_id
            (arch.node (arch.pin root_ipin).parent_node).pb_type = false)
      ∧ (ext.primitive_type_feasible blk_id
            (arch.node (arch.pin root_ipin).parent_node).pb_type = true →
          ∃ k r, res = some r
            ∧ chain_ancestor (chain_link_up arch ext nl atom_molecules root_ipin) k blk_id
                = some r
            ∧ chain_link_up arch ext nl atom_molecules root_ipin r = none
            ∧ (nl.find_atom_pin_driver r (arch.pin root_ipin).port.model_port
                  (arch.pin root_ipin).pin_number = none
                ∨ ∃ d, nl.find_atom_pin_driver r (arch.pin root_ipin).port.model_port
                      (arch.pin root_ipin).pin_number = some d
                    ∧ (atom_in_map atom_molecules d = true
                      ∨ ext.primitive_type_feasible d
                          (arch.node (arch.pin root_ipin).parent_node).pb_type = false)))
      ∧ (ext.primitive_type_feasible blk_id
            (arch.node (arch.pin root_ipin).parent_node).pb_type = true →
          (nl.find_atom_pin_driver blk_id (arch.pin root_ipin).port.model_port
              (arch.pin root_ipin).pin_number = none
            ∨ ∃ d, nl.find_atom_pin_driver blk_id (arch.pin root_ipin).port.model_port
                  (arch.pin root_ipin).pin_number = some d
                ∧ atom_in_map atom_molecules d = true) →
          res = some blk_id) := by
  have hipin : chain_root_ipin pat = .ok root_ipin := by
    unfold chain_root_ipin
    rw [hpins]
    rfl
  have hlen : (pat.chain_root_pins.length != 0) = true := by
    rw [hpins]
    rfl
  induction fuel generalizing blk_id with
  | zero => omega
  | succ fuel ih =>
    unfold find_new_root_atom_for_chain
    simp only [hchain, hlen, hipin, vtr_assert, bind, Except.bind, pure, Except.pure, if_true]
    cases hfeas : ext.primitive_type_feasible blk_id
        (arch.node (arch.pin root_ipin).parent_node).pb_type
    · exact ⟨none, by simp, by simp, by simp, by simp⟩
    · simp only [Bool.true_eq_false, if_false]
      cases hdrv : nl.find_atom_pin_driver blk_id (arch.pin root_ipin).port.model_port
          (arch.pin root_ipin).pin_number with
      | none =>
        refine ⟨some blk_id, rfl, by simp, fun _ => ⟨0, blk_id, rfl, rfl, ?_, Or.inl hdrv⟩,
          fun _ _ => rfl⟩
        simp only [chain_link_up, hdrv]
      | some d =>
        simp only
        cases hmap : atom_in_map atom_molecules d
        · simp only [Bool.false_eq_true, if_false]
          obtain ⟨hdin, hrank⟩ := chain_links_acyclic_spec arch nl root_ipin rank hacyclic
            blk_id d hblk hdrv
          obtain ⟨res, hres, hnone, hsome, _⟩ := ih d hdin (by omega)
          rw [hres]
          cases hfd : ext.primitive_type_feasible d
              (arch.node (arch.pin root_ipin).parent_node).pb_type
          · have hr : res = none := hnone.mpr hfd
            subst hr
            refine ⟨some blk_id, rfl, by simp, fun _ => ⟨0, blk_id, rfl, rfl, ?_,
              Or.inr ⟨d, hdrv, Or.inr hfd⟩⟩, fun _ _ => rfl⟩
            simp only [chain_link_up, hdrv, hfd, Bool.false_and, Bool.false_eq_true, if_false]
          · obtain ⟨k, r, hr, hanc, hend, hlast⟩ := hsome hfd
            subst hr
            refine ⟨some r, rfl, by simp, fun _ => ⟨k + 1, r, rfl, ?_, hend, hlast⟩, ?_⟩
            · simp only [chain_ancestor, chain_link_up, hdrv, hfd, hmap, Bool.not_false,
                Bool.and_self, if_true, Option.some_bind]
              exact hanc
            · intro _ hor
              rcases hor with h | ⟨d2, h1, h2⟩
              · cases h
              · cases h1
                rw [hmap] at h2
                cases h2
        · simp only [if_true]
          refine ⟨some blk_id, rfl, by simp, fun _ => ⟨0, blk_id, rfl, rfl, ?_,
            Or.inr ⟨d, hdrv, Or.inl hmap⟩⟩, fun _ _ => rfl⟩
          simp only [chain_link_up, hdrv, hmap, Bool.not_true, Bool.and_false,
            Bool.false_eq_true, if_false]

/-- C22 on the three-adder chain: the driver links are acyclic; from A2 with nothing
committed the result is A0, two links up; with A0 and A1 committed it is A2 itself. -/
theorem find_new_root_atom_for_chain_climbs_witness :
    chain_links_acyclic chain_arch chain_netlist.toNetlist 1 (fun b => b) = true
    ∧ find_new_root_atom_for_chain chain_arch (example_ext chain_arch chain_netlist)
        chain_netlist.toNetlist chain_pattern [] 5 2 = .ok (some 0)
    ∧ find_new_root_atom_for_chain chain_arch (example_ext chain_arch chain_netlist)
        chain_netlist.toNetlist chain_pattern [(0, 0), (1, 0)] 5 2 = .ok (some 2)
    ∧ ∃ res, find_new_root_atom_for_chain chain_arch (example_ext chain_arch chain_netlist)
        chain_netlist.toNetlist chain_pattern [] 5 2 = .ok res
      ∧ (res = none ↔ (example_ext chain_arch chain_netlist).primitive_type_feasible 2
            (chain_arch.node (chain_arch.pin 1).parent_node).pb_type = false) :=
  ⟨by decide!, by decide!, by decide!,
   (find_new_root_atom_for_chain_climbs chain_arch (example_ext chain_arch chain_netlist)
     chain_netlist.toNetlist chain_pattern [] 1 [] [] (fun b => b) (by decide!) (by decide!)
     (by decide!) 5 2 (by decide!) (by decide!)).imp (fun _ h => ⟨h.1, h.2.1⟩)⟩

/-- C23 (the code at the failing input): in `lut_ff_chain_arch` the library holds the chain
pattern 0 and the LUT/flip-flop pattern 1, and pattern 1 is matched first; on the netlist
where the flip-flop F drives the carry input of the adder A0, the first pass commits the
molecule (L, F), which has no chain id; in the chain pass the root found for A0 is A0 itself
and its molecule (A0, A1) is matched, the driver F of its chain input pin belongs to a
committed molecule, and `init_molecule_chain_info` stops on the assertion of line 1730
instead of giving the new molecule a chain id, and so does the constructor of the prepacker.
-/
theorem chain_fed_by_committed_flip_flop_fails_assertion :
    (do
      let lib ← alloc_and_load_pack_patterns
        (example_ext lut_ff_chain_arch registered_carry_netlist) 50 lut_ff_chain_arch
        cluster_type
      pure (lib.2.map (fun (p : t_pack_patterns) => (p.name, p.is_chain))))
      = .ok [(some 9, true), (some 7, false)]
    ∧ (do
      let lib ← alloc_and_load_pack_patterns
        (example_ext lut_ff_chain_arch registered_carry_netlist) 50 lut_ff_chain_arch
        cluster_type
      assign_patterns lib.1 lib.2
        (fun best_pattern (log : List Nat) => pure (log ++ [best_pattern]))
        (List.range lib.2.length) (List.replicate lib.2.length false) [])
      = .ok [1, 0]
    ∧ (do
      let lib ← alloc_and_load_pack_patterns
        (example_ext lut_ff_chain_arch registered_carry_netlist) 50 lut_ff_chain_arch
        cluster_type
      let s1 ← match_pattern_on_atoms lib.1
        (example_ext lut_ff_chain_arch registered_carry_netlist)
        registered_carry_netlist.toNetlist 1 50 [0, 1, 2, 3] (Prepacker.initial lib.2 4)
      pure (s1.pack_molecules_, s1.atom_molecules_multimap))
      = .ok ([forced_pack 1 [some 0, some 1] (197 / 100) none], [(0, 0), (1, 0)])
    ∧ (do
      let lib ← alloc_and_load_pack_patterns
        (example_ext lut_ff_chain_arch registered_carry_netlist) 50 lut_ff_chain_arch
        cluster_type
      find_new_root_atom_for_chain lib.1
        (example_ext lut_ff_chain_arch registered_carry_netlist)
        registered_carry_netlist.toNetlist (lib.2.getD 0 default) [(0, 0), (1, 0)] 50 2)
      = .ok (some 2)
    ∧ (do
      let lib ← alloc_and_load_pack_patterns
        (example_ext lut_ff_chain_arch registered_carry_netlist) 50 lut_ff_chain_arch
        cluster_type
      try_expand_molecule lib.1
        (example_ext lut_ff_chain_arch registered_carry_netlist)
        registered_carry_netlist.toNetlist 50 (lib.2.getD 0 default) [none, none] (some 2)
        [(0, 0), (1, 0)])
      = .ok (true, [some 2, some 3])
    ∧ registered_carry_netlist.toNetlist.find_atom_pin_driver 2
        (lut_ff_chain_arch.pin 1).port.model_port (lut_ff_chain_arch.pin 1).pin_number = some 1
    ∧ (do
      let lib ← alloc_and_load_pack_patterns
        (example_ext lut_ff_chain_arch registered_carry_netlist) 50 lut_ff_chain_arch
        cluster_type
      init_molecule_chain_info lib.1 registered_carry_netlist.toNetlist 2
        (lib.2.getD 0 default) [forced_pack 1 [some 0, some 1] (197 / 100) none]
        [(0, 0), (1, 0)] [])
      = .error (.assert_failed 1730)
    ∧ Prepacker.construct lut_ff_chain_arch
        (example_ext lut_ff_chain_arch registered_carry_netlist)
        registered_carry_netlist.toNetlist 50 cluster_type
      = .error (.assert_failed 1730) := by
  decide!

/-- C24 (the code at the failing input): in `lut_carry_arch` the build of pattern 0 starts
from edge 1 at the LUT output, allocates the slot of the adder (address 1) going forward,
and then, going backward from the adder carry input, reaches over the inferred edge 0 the
driverless input pin 0 of the cluster root; the forward step from there finds the adder with
its slot already made, records the chain-root pin 5 and sets the root slot from the local
`destination_block`, which is null; the finished pattern is a chain of two slots with a null
root slot, and the loader stops on it (the dereference of line 190).  In `chain_arch`, where
the slot is made by that forward step, the root slot is the slot of the adder owning the
chain-root pin. -/
theorem chain_root_slot_is_null_when_slot_exists :
    (built_from_expansion_edge lut_carry_arch).map (fun r => r.1) = .ok (some 1)
    ∧ (built_from_expansion_edge lut_carry_arch).map
        (fun r => ((r.2.arch.edge 0).infer_pattern, (r.2.arch.edge 0).input_pins,
          (r.2.arch.pin 0).input_edges, r.2.arch.is_root_block_pin 0))
      = .ok (true, [0], [], true)
    ∧ (built_from_expansion_edge lut_carry_arch).map
        (fun r => (r.2.packing_pattern.is_chain, r.2.packing_pattern.chain_root_pins,
          r.2.L_num_blocks))
      = .ok (true, [[5]], 2)
    ∧ (built_from_expansion_edge lut_carry_arch).map
        (fun r => (r.2.arch.node (r.2.arch.pin 5).parent_node).temp_scratch_pad)
      = .ok (some (0, 1))
    ∧ (built_from_expansion_edge lut_carry_arch).map
        (fun r => r.2.packing_pattern.root_block)
      = .ok none
    ∧ (alloc_and_load_pack_patterns (example_ext lut_carry_arch chain_netlist) 50
        lut_carry_arch cluster_type).map Prod.snd = .error .null_pointer
    ∧ (built_from_expansion_edge chain_arch).map
        (fun r => (r.2.packing_pattern.is_chain, r.2.packing_pattern.chain_root_pins,
          r.2.packing_pattern.root_block))
      = .ok (true, [[1]], some 0) := by
  decide!

/-- C25 (the claim as stated, at a counterexample): prepacking the three-adder chain gives
the molecules (A0, A1) and (A2, empty) of the chain pattern of base cost 4; the second has
one non-empty slot, but its gain is 49/25 = 2 - 4/100, not 1 - 4/100, and it is not smaller
than the gain of the fully filled first molecule. -/
theorem partly_filled_chain_molecule_gets_full_gain :
    (Prepacker.construct chain_arch (example_ext chain_arch chain_netlist)
        chain_netlist.toNetlist 50 cluster_type).map (fun p => p.pack_molecules_)
      = .ok [ forced_pack 0 [some 0, some 1] (49 / 25) (some 0),
              forced_pack 0 [some 2, none] (49 / 25) (some 0) ]
    ∧ (alloc_and_load_pack_patterns (example_ext chain_arch chain_netlist) 50 chain_arch
        cluster_type).map (fun lib => lib.2.map (fun (p : t_pack_patterns) => p.base_cost))
      = .ok [4]
    ∧ (forced_pack 0 [some 2, none] (49 / 25) (some 0)).base_gain
      ≠ (((forced_pack 0 [some 2, none] (49 / 25) (some 0)).atom_block_ids.filter
            Option.isSome).length : ℚ) - 4 / 100
    ∧ ¬ ((forced_pack 0 [some 2, none] (49 / 25) (some 0)).base_gain
        < (forced_pack 0 [some 0, some 1] (49 / 25) (some 0)).base_gain) := by
  decide!

/-- C25 (amended): after `alloc_and_load_pack_molecules`, started without molecules, every
forced-pack molecule has one slot per block of its pattern and its `base_gain` is the number
of slots of the pattern (filled or not) minus the base cost of the pattern divided by 100;
when every slot of the molecule is filled, this is the number of atoms matched minus the
base cost divided by 100. -/
theorem forced_pack_gain_counts_slots (arch : Arch) (ext : Externals) (nl : AtomNetlist)
    (fuel : Nat) (logical_block_types : List t_logical_block_type) (s s1 : Prepacker)
    (hstart : s.pack_molecules_ = [])
    (h : alloc_and_load_pack_molecules arch ext nl fuel logical_block_types s = .ok s1) :
    ∀ m ∈ s1.pack_molecules_, m.type = .MOLECULE_FORCED_PACK →
      ∃ p, m.pack_pattern = some p
        ∧ m.atom_block_ids.length = (s1.list_of_pack_patterns.getD p default).num_blocks
        ∧ m.base_gain = ((s1.list_of_pack_patterns.getD p default).num_blocks : ℚ)
            - (s1.list_of_pack_patterns.getD p default).base_cost / 100
        ∧ ((∀ slot ∈ m.atom_block_ids, slot.isSome = true) →
            m.base_gain = ((m.atom_block_ids.filter Option.isSome).length : ℚ)
              - (s1.list_of_pack_patterns.getD p default).base_cost / 100) := by
  have h0 : gains_assigned s := by
    intro m hm
    rw [hstart] at hm
    cases hm
  have hfin : gains_assigned s1 := by
    unfold alloc_and_load_pack_molecules at h
    simp only [bind, Except.bind] at h
    split at h
    · cases h
    · rename_i s2 hs2
      have h2 : gains_assigned s2 :=
        assign_patterns_invariant arch s.list_of_pack_patterns _ gains_assigned
          (fun b t t1 ht hp => match_pattern_on_atoms_gains arch ext nl b fuel nl.blocks t t1 ht hp)
          _ _ _ _ hs2 h0
      exact add_single_atom_molecules_gains arch ext fuel logical_block_types _ _ _ h h2
  intro m hm hty
  obtain ⟨p, hp, hlen, hgain⟩ := hfin m hm hty
  refine ⟨p, hp, hlen, ?_, ?_⟩
  · rw [hgain, hlen]
  · intro hall
    rw [hgain, List.filter_eq_self.mpr hall]

/-- C25 on the three-adder chain: both molecules of the chain pattern, the full one and the
one with an empty optional slot, have the gain 2 - 4/100. -/
theorem forced_pack_gain_counts_slots_witness :
    (Prepacker.initial [chain_pattern] 3).pack_molecules_ = []
    ∧ alloc_and_load_pack_molecules (loaded_template chain_arch)
        (example_ext chain_arch chain_netlist) chain_netlist.toNetlist 50 cluster_type
        (Prepacker.initial [chain_pattern] 3) = .ok chain_prepacked
    ∧ chain_prepacked.pack_molecules_
      = [ forced_pack 0 [some 0, some 1] (49 / 25) (some 0),
          forced_pack 0 [some 2, none] (49 / 25) (some 0) ]
    ∧ ∀ m ∈ chain_prepacked.pack_molecules_, m.type = .MOLECULE_FORCED_PACK →
      ∃ p, m.pack_pattern = some p
        ∧ m.atom_block_ids.length = (chain_prepacked.list_of_pack_patterns.getD p default).num_blocks
        ∧ m.base_gain = ((chain_prepacked.list_of_pack_patterns.getD p default).num_blocks : ℚ)
            - (chain_prepacked.list_of_pack_patterns.getD p default).base_cost / 100
        ∧ ((∀ slot ∈ m.atom_block_ids, slot.isSome = true) →
            m.base_gain = ((m.atom_block_ids.filter Option.isSome).length : ℚ)
              - (chain_prepacked.list_of_pack_patterns.getD p default).base_cost / 100) :=
  ⟨by decide!, by decide!, by decide!,
   forced_pack_gain_counts_slots (loaded_template chain_arch)
     (example_ext chain_arch chain_netlist) chain_netlist.toNetlist 50 cluster_type
     (Prepacker.initial [chain_pattern] 3) chain_prepacked (by decide!) (by decide!)⟩

/-- C26 (the claim as stated, at a counterexample): matching the LUT/flip-flop pattern from
LUT0 returns true with both slots bound, although the third dequeued pair, (root slot,
LUT0), fails one of the four binding conditions (its slot is not empty) on a slot that is
not optional: the slot already holds LUT0 and the pair is skipped by the test of line 1044.
-/
theorem try_expand_molecule_fails_on_revisit_literal :
    try_expand_molecule lut_ff_arch (example_ext lut_ff_arch lut_ff_netlist)
        lut_ff_netlist.toNetlist 50 lut_ff_pattern [none, none] (some 0) []
      = .ok (true, [some 0, some 1])
    ∧ (try_expand_molecule_loop_logged lut_ff_arch (example_ext lut_ff_arch lut_ff_netlist)
        lut_ff_netlist.toNetlist lut_ff_pattern [] 50 [(0, some 0)] [none, none]).map Prod.snd
      = .ok [ ((0, some 0), [none, none]), ((1, some 1), [some 0, none]),
              ((0, some 0), [some 0, some 1]) ]
    ∧ binding_conditions (example_ext lut_ff_arch lut_ff_netlist) lut_ff_pattern []
        ((0, some 0), [some 0, some 1]) = false
    ∧ slot_mandatory lut_ff_pattern ((0, some 0), [some 0, some 1]) = true := by
  decide!

/-- C26 (amended): every run of `try_expand_molecule` that returns is the run of the
matching loop from the pair (root slot, candidate atom), and with the log of the pairs it
dequeues: from each dequeued pair to the next (and to the end) the slot array is unchanged,
or the atom of the pair is bound to the slot of the pair and then the atom is valid,
type-feasible for the primitive type of the slot, the slot was empty and the atom is absent
from the committed map; a slot once bound keeps its atom from each dequeue to the next and
from the start to the end; and the call returns false exactly when some dequeued pair, whose
slot does not already hold that very atom, fails one of these conditions on a slot that is
not optional.  In particular, with a mandatory and empty root slot, it returns false when
the candidate root atom is invalid, infeasible or already committed. -/
theorem try_expand_molecule_binds_under_conditions (arch : Arch) (ext : Externals)
    (nl : AtomNetlist) (fuel : Nat) (pat : t_pack_patterns) (ids : List (Option AtomBlockId))
    (blk_id : Option AtomBlockId) (atom_molecules : List (AtomBlockId × PackMoleculeId)) :
    (∀ v ids2,
      try_expand_molecule arch ext nl fuel pat ids blk_id atom_molecules = .ok (v, ids2) →
      ∃ rb log, pat.root_block = some rb
        ∧ try_expand_molecule_loop_logged arch ext nl pat atom_molecules fuel [(rb, blk_id)] ids
            = .ok ((v, ids2), log)
        ∧ (log.map Prod.snd ++ [ids2]).head? = some ids
        ∧ (∀ p ∈ List.zip log (log.map Prod.snd ++ [ids2]).tail,
            p.2 = p.1.2
            ∨ (binding_conditions ext pat atom_molecules p.1 = true
              ∧ ∃ blk, p.1.1.2 = some blk
                ∧ p.2 = p.1.2.set (pat.block p.1.1.1).block_id (some blk)))
        ∧ (∀ p ∈ List.zip log (log.map Prod.snd ++ [ids2]).tail, ∀ i a,
            p.1.2.getD i none = some a → p.2.getD i none = some a)
        ∧ (∀ i a, ids.getD i none = some a → ids2.getD i none = some a)
        ∧ (v = false ↔ ∃ ev ∈ log, already_holds pat ev = false
            ∧ binding_conditions ext pat atom_molecules ev = false
            ∧ slot_mandatory pat ev = true))
    ∧ (∀ rb, pat.root_block = some rb → 0 < fuel →
        pat.is_block_optional.getD (pat.block rb).block_id false = false →
        ids.getD (pat.block rb).block_id none = none →
        (blk_id = none
          ∨ ∃ blk, blk_id = some blk
            ∧ (ext.primitive_type_feasible blk (pat.block rb).pb_type = false
              ∨ atom_in_map atom_molecules blk = true)) →
        try_expand_molecule arch ext nl fuel pat ids blk_id atom_molecules
          = .ok (false, ids)) := by
  constructor
  · intro v ids2 h
    unfold try_expand_molecule at h
    split at h
    · cases h
    · rename_i rb hrb
      rw [← try_expand_molecule_loop_logged_erase] at h
      cases hr : try_expand_molecule_loop_logged arch ext nl pat atom_molecules fuel
          [(rb, blk_id)] ids with
      | error e => rw [hr] at h; cases h
      | ok r =>
        obtain ⟨r1, log⟩ := r
        rw [hr] at h
        simp only [Except.map] at h
        injection h with h
        subst h
        obtain ⟨_, hhead, hsteps, hverdict⟩ := try_expand_molecule_loop_logged_spec arch ext nl
          pat atom_molecules fuel _ _ _ _ _ hr
        obtain ⟨hkeep, hmono⟩ := log_steps_keep_bound ext pat atom_molecules ids2 log ids hhead
          hsteps
        exact ⟨rb, log, hrb, hr, hhead, hsteps, hkeep, hmono, hverdict⟩
  · intro rb hrb hfuel hopt hempty hbad
    obtain ⟨n, rfl⟩ := Nat.exists_eq_succ_of_ne_zero (Nat.pos_iff_ne_zero.mp hfuel)
    unfold try_expand_molecule
    simp only [hrb]
    unfold try_expand_molecule_loop
    simp only [hempty, hopt, Option.isSome_none, Bool.false_and, Bool.false_eq_true, if_false,
      Bool.not_false, if_true, Bool.or_false]
    rcases hbad with rfl | ⟨blk, rfl, hb | hb⟩
    · rfl
    · simp [hb]
      rfl
    · simp [hb]
      rfl

/-- C26 on the isolated LUT1 of the LUT/flip-flop example: the call returns false with LUT1
bound to the root slot, and some dequeued pair (the flip-flop slot with the invalid id)
fails the conditions on a mandatory slot. -/
theorem try_expand_molecule_binds_under_conditions_witness :
    try_expand_molecule lut_ff_arch (example_ext lut_ff_arch lut_ff_netlist)
        lut_ff_netlist.toNetlist 50 lut_ff_pattern [none, none] (some 2) []
      = .ok (false, [some 2, none])
    ∧ ∃ rb log, lut_ff_pattern.root_block = some rb
        ∧ try_expand_molecule_loop_logged lut_ff_arch (example_ext lut_ff_arch lut_ff_netlist)
            lut_ff_netlist.toNetlist lut_ff_pattern [] 50 [(rb, some 2)] [none, none]
            = .ok ((false, [some 2, none]), log)
        ∧ (false = false ↔ ∃ ev ∈ log, already_holds lut_ff_pattern ev = false
            ∧ binding_conditions (example_ext lut_ff_arch lut_ff_netlist) lut_ff_pattern [] ev
              = false
            ∧ slot_mandatory lut_ff_pattern ev = true) :=
  ⟨by decide!,
   ((try_expand_molecule_binds_under_conditions lut_ff_arch
      (example_ext lut_ff_arch lut_ff_netlist) lut_ff_netlist.toNetlist 50 lut_ff_pattern
      [none, none] (some 2) []).1 false [some 2, none] (by decide!)).imp
     (fun _ h => h.imp (fun _ h2 => ⟨h2.1, h2.2.1, h2.2.2.2.2.2.2⟩))⟩

/-- C27 (the claim as stated, at two counterexamples): with a gated clock (LUT1 drives the
clock input of FF0, pin bit 0, on a net with that single sink) the three conditions of the
claim hold and `get_driving_block` stops on the assertion of line 1184 instead of
returning a valid atom; and when the single-sink net on the D input of FF0 has no driver,
the three conditions hold and the result is the invalid id. -/
theorem get_driving_block_clock_assertion_and_undriven_net :
    (∃ port net,
      gated_clock_netlist.toNetlist.find_atom_port 1 (lut_ff_arch.pin 7).port.model_port = some port
      ∧ gated_clock_netlist.toNetlist.port_net port (lut_ff_arch.pin 7).pin_number = some net
      ∧ (gated_clock_netlist.toNetlist.net_sinks net).length = 1)
    ∧ get_driving_block lut_ff_arch gated_clock_netlist.toNetlist 1
        { from_block := 0, from_pin := 2, to_block := 1, to_pin := 7 }
      = .error (.assert_failed 1184)
    ∧ (∃ port net,
      undriven_netlist.toNetlist.find_atom_port 1 (lut_ff_arch.pin 3).port.model_port = some port
      ∧ undriven_netlist.toNetlist.port_net port (lut_ff_arch.pin 3).pin_number = some net
      ∧ (undriven_netlist.toNetlist.net_sinks net).length = 1)
    ∧ get_driving_block lut_ff_arch undriven_netlist.toNetlist 1 (slot0_to_slot1 2 3)
      = .ok none := by
  refine ⟨⟨68, 1, by decide!, by decide!, by decide!⟩, by decide!,
    ⟨66, 0, by decide!, by decide!, by decide!⟩, by decide!⟩

/-- C27 (amended): when the given atom has the destination port of the connection, a net
is attached at the destination pin bit and that net has exactly one sink,
`get_driving_block` returns the driver block of that net if the clock test of line 1184
passes (the port is no clock, or the bit is 1, or the bit is 0 and the driver is an input
pad) and stops on that assertion otherwise; in every other case it returns the invalid
id; so the result is a valid atom iff the three conditions hold, the clock test passes and
the net has a driver, and it is then that driver. -/
theorem get_driving_block_returns_driver_of_single_sink_net (arch : Arch) (nl : AtomNetlist) (block_id : AtomBlockId)
    (connections : t_pack_pattern_connections) :
    (∀ port net,
      nl.find_atom_port block_id (arch.pin connections.to_pin).port.model_port = some port →
      nl.port_net port (arch.pin connections.to_pin).pin_number = some net →
      (nl.net_sinks net).length = 1 →
      (clock_pin_supported arch nl connections net = true →
        get_driving_block arch nl block_id connections = .ok (nl.net_driver_block net))
      ∧ (clock_pin_supported arch nl connections net = false →
        get_driving_block arch nl block_id connections = .error (.assert_failed 1184)))
    ∧ ((¬ ∃ port net,
        nl.find_atom_port block_id (arch.pin connections.to_pin).port.model_port = some port
        ∧ nl.port_net port (arch.pin connections.to_pin).pin_number = some net
        ∧ (nl.net_sinks net).length = 1) →
      get_driving_block arch nl block_id connections = .ok none)
    ∧ (∀ driver, get_driving_block arch nl block_id connections = .ok (some driver) ↔
        ∃ port net,
          nl.find_atom_port block_id (arch.pin connections.to_pin).port.model_port = some port
          ∧ nl.port_net port (arch.pin connections.to_pin).pin_number = some net
          ∧ (nl.net_sinks net).length = 1
          ∧ clock_pin_supported arch nl connections net = true
          ∧ nl.net_driver_block net = some driver) := by
  have key : ∀ port net,
      nl.find_atom_port block_id (arch.pin connections.to_pin).port.model_port = some port →
      nl.port_net port (arch.pin connections.to_pin).pin_number = some net →
      (nl.net_sinks net).length = 1 →
      get_driving_block arch nl block_id connections
        = if clock_pin_supported arch nl connections net then .ok (nl.net_driver_block net)
          else .error (.assert_failed 1184) := by
    intro port net hp hn hs
    unfold get_driving_block clock_pin_supported vtr_assert
    simp only [hp, hn, hs, bind, Except.bind, pure, Except.pure]
    cases (arch.pin connections.to_pin).port.model_port.is_clock <;>
    cases ((arch.pin connections.to_pin).pin_number == 1) <;>
    cases ((arch.pin connections.to_pin).pin_number == 0
      && nl.block_type (nl.net_driver_block net) == AtomBlockType.INPAD) <;> simp_all
  have none_case : (¬ ∃ port net,
        nl.find_atom_port block_id (arch.pin connections.to_pin).port.model_port = some port
        ∧ nl.port_net port (arch.pin connections.to_pin).pin_number = some net
        ∧ (nl.net_sinks net).length = 1) →
      get_driving_block arch nl block_id connections = .ok none := by
    intro hno
    cases hp : nl.find_atom_port block_id (arch.pin connections.to_pin).port.model_port with
    | none => simp only [get_driving_block, hp]; rfl
    | some port =>
      cases hn : nl.port_net port (arch.pin connections.to_pin).pin_number with
      | none => simp only [get_driving_block, hp, hn]; rfl
      | some net =>
        have hs : (nl.net_sinks net).length ≠ 1 := fun hs => hno ⟨port, net, hp, hn, hs⟩
        simp only [get_driving_block, hp, hn]
        simp [hs]
        rfl
  refine ⟨?_, none_case, ?_⟩
  · intro port net hp hn hs
    rw [key port net hp hn hs]
    constructor
    · intro hc; simp [hc]
    · intro hc; simp [hc]
  · intro driver
    constructor
    · intro h
      by_cases hex : ∃ port net,
        nl.find_atom_port block_id (arch.pin connections.to_pin).port.model_port = some port
        ∧ nl.port_net port (arch.pin connections.to_pin).pin_number = some net
        ∧ (nl.net_sinks net).length = 1
      · obtain ⟨port, net, hp, hn, hs⟩ := hex
        rw [key port net hp hn hs] at h
        refine ⟨port, net, hp, hn, hs, ?_⟩
        cases hc : clock_pin_supported arch nl connections net
        · simp [hc] at h
        · simp [hc] at h
          exact ⟨rfl, h⟩
      · rw [none_case hex] at h
        cases h
    · rintro ⟨port, net, hp, hn, hs, hc, hd⟩
      rw [key port net hp hn hs, hc, ← hd]
      rfl
/-- C27 on the LUT/flip-flop example: FF0 has the D port, net 0 is attached at bit 0 and
has one sink, the port is no clock, and the result is the driver LUT0. -/
theorem get_driving_block_returns_driver_of_single_sink_net_witness :
    (∃ port net,
      lut_ff_netlist.toNetlist.find_atom_port 1 (lut_ff_arch.pin 3).port.model_port = some port
      ∧ lut_ff_netlist.toNetlist.port_net port (lut_ff_arch.pin 3).pin_number = some net
      ∧ (lut_ff_netlist.toNetlist.net_sinks net).length = 1
      ∧ clock_pin_supported lut_ff_arch lut_ff_netlist.toNetlist (slot0_to_slot1 2 3) net = true
      ∧ lut_ff_netlist.toNetlist.net_driver_block net = some 0)
    ∧ get_driving_block lut_ff_arch lut_ff_netlist.toNetlist 1 (slot0_to_slot1 2 3)
        = .ok (some 0) :=
  ⟨⟨66, 0, by decide!, by decide!, by decide!, by decide!, by decide!⟩,
   ((get_driving_block_returns_driver_of_single_sink_net lut_ff_arch lut_ff_netlist.toNetlist 1
     (slot0_to_slot1 2 3)).2.2 0).mpr
     ⟨66, 0, by decide!, by decide!, by decide!, by decide!, by decide!⟩⟩

/-- C28: once the source port of the connection and the net on its pin bit are found,
`get_sink_block` returns the invalid id whenever that net has more than one sink and one
of its sink blocks is a latch, whatever the other sinks; and when the net has at most one
sink, or no latch among its sinks, a matching sink is not removed: if some sink matches
the connection, the result is the block of a matching sink. -/
theorem get_sink_block_latch_rule (arch : Arch) (ext : Externals) (nl : AtomNetlist)
    (pat : t_pack_patterns) (block_id : AtomBlockId) (connections : t_pack_pattern_connections)
    (port : AtomPortId) (net : AtomNetId)
    (hport : nl.find_atom_port block_id (arch.pin connections.from_pin).port.model_port
      = some port)
    (hnet : nl.port_net port (arch.pin connections.from_pin).pin_number = some net) :
    ((nl.net_sinks net).length > 1 →
      (∃ s ∈ nl.net_sinks net, sink_is_latch ext nl s = true) →
      get_sink_block arch ext nl pat block_id connections = none)
    ∧ (((nl.net_sinks net).length ≤ 1 ∨ ∀ s ∈ nl.net_sinks net, sink_is_latch ext nl s = false) →
      (∃ s ∈ nl.net_sinks net, sink_matches_connection arch ext nl pat connections s = true) →
      ∃ s ∈ nl.net_sinks net, sink_matches_connection arch ext nl pat connections s = true
        ∧ get_sink_block arch ext nl pat block_id connections = some (nl.pin_block s)) := by
  rw [get_sink_block_eq arch ext nl pat block_id connections port net hport hnet]
  constructor
  · intro hlen hlatch
    have h1 : (nl.net_sinks net).any (sink_is_latch ext nl) = true := List.any_eq_true.mpr hlatch
    simp [h1, hlen]
  · intro hor hmatch
    have hcond : ((nl.net_sinks net).any (sink_is_latch ext nl)
        && decide ((nl.net_sinks net).length > 1)) = false := by
      rcases hor with h | h
      · have : decide ((nl.net_sinks net).length > 1) = false := by
          simp only [decide_eq_false_iff_not]; omega
        rw [this, Bool.and_false]
      · have : (nl.net_sinks net).any (sink_is_latch ext nl) = false := by
          rw [List.any_eq_false]
          intro x hx
          simp [h x hx]
        rw [this, Bool.false_and]
    rw [hcond]
    obtain ⟨s, hs, hm⟩ := hmatch
    have hne : (nl.net_sinks net).filter (sink_matches_connection arch ext nl pat connections)
        ≠ [] := List.ne_nil_of_mem (List.mem_filter.mpr ⟨hs, hm⟩)
    have hlast := List.getLast_mem hne
    refine ⟨_, (List.mem_filter.mp hlast).1, (List.mem_filter.mp hlast).2, ?_⟩
    rw [List.getLast?_eq_getLast _ hne]
    rfl

/-- C28 on the statistics netlist: the Q output of FF0 drives the latch FF1 and an input
of LUT1; LUT1 matches the connection from the flip-flop slot to the LUT slot, and the
result is the invalid id. -/
theorem get_sink_block_latch_rule_witness :
    stats_netlist.toNetlist.find_atom_port 1 (lut_ff_arch.pin 4).port.model_port = some 67
    ∧ stats_netlist.toNetlist.port_net 67 (lut_ff_arch.pin 4).pin_number = some 2
    ∧ (stats_netlist.toNetlist.net_sinks 2).length > 1
    ∧ sink_is_latch stats_ext stats_netlist.toNetlist 12416 = true
    ∧ sink_matches_connection lut_ff_arch stats_ext stats_netlist.toNetlist lut_ff_pattern
        { from_block := 1, from_pin := 4, to_block := 0, to_pin := 1 } 8192 = true
    ∧ get_sink_block lut_ff_arch stats_ext stats_netlist.toNetlist lut_ff_pattern 1
        { from_block := 1, from_pin := 4, to_block := 0, to_pin := 1 } = none :=
  ⟨by decide!, by decide!, by decide!, by decide!, by decide!,
   (get_sink_block_latch_rule lut_ff_arch stats_ext stats_netlist.toNetlist lut_ff_pattern 1
     { from_block := 1, from_pin := 4, to_block := 0, to_pin := 1 } 67 2
     (by decide!) (by decide!)).1 (by decide!) ⟨12416, by decide!, by decide!⟩⟩

/-- C29 (the claim as stated, at a counterexample): the carry output of A0 drives the
carry inputs of A1 and A2; both sinks are type-feasible for the second adder slot and
attached through the destination port and bit of the connection, so two sinks match, not
exactly one, and `get_sink_block` still returns a valid atom, A2. -/
theorem get_sink_block_takes_last_of_two_matching_sinks :
    ((forked_chain_netlist.toNetlist.net_sinks 0).filter
        (sink_matches_connection chain_arch (example_ext chain_arch forked_chain_netlist)
          forked_chain_netlist.toNetlist chain_pattern (slot0_to_slot1 2 3))).length = 2
    ∧ forked_chain_netlist.toNetlist.find_atom_port 0 (chain_arch.pin 2).port.model_port = some 1
    ∧ forked_chain_netlist.toNetlist.port_net 1 (chain_arch.pin 2).pin_number = some 0
    ∧ get_sink_block chain_arch (example_ext chain_arch forked_chain_netlist)
        forked_chain_netlist.toNetlist chain_pattern 0 (slot0_to_slot1 2 3) = some 2 := by
  decide!

/-- C29 (amended): `get_sink_block` returns a valid atom only when at least one sink of
the net on the source port and pin bit of the connection is both type-feasible for the
destination slot and attached through exactly the destination port and pin bit, and it
then returns the block of the last such sink in the order of the sinks of the net (the
unique one when exactly one matches); it returns the invalid id when the source port or
the net is missing or no sink matches. -/
theorem get_sink_block_returns_last_matching_sink (arch : Arch) (ext : Externals)
    (nl : AtomNetlist) (pat : t_pack_patterns) (block_id : AtomBlockId)
    (connections : t_pack_pattern_connections) :
    (∀ b, get_sink_block arch ext nl pat block_id connections = some b →
      ∃ port net s,
        nl.find_atom_port block_id (arch.pin connections.from_pin).port.model_port = some port
        ∧ nl.port_net port (arch.pin connections.from_pin).pin_number = some net
        ∧ ((nl.net_sinks net).filter
            (sink_matches_connection arch ext nl pat connections)).getLast? = some s
        ∧ s ∈ nl.net_sinks net
        ∧ sink_matches_connection arch ext nl pat connections s = true
        ∧ b = nl.pin_block s)
    ∧ (nl.find_atom_port block_id (arch.pin connections.from_pin).port.model_port = none →
        get_sink_block arch ext nl pat block_id connections = none)
    ∧ (∀ port,
        nl.find_atom_port block_id (arch.pin connections.from_pin).port.model_port = some port →
        nl.port_net port (arch.pin connections.from_pin).pin_number = none →
        get_sink_block arch ext nl pat block_id connections = none)
    ∧ (∀ port net,
        nl.find_atom_port block_id (arch.pin connections.from_pin).port.model_port = some port →
        nl.port_net port (arch.pin connections.from_pin).pin_number = some net →
        (∀ s ∈ nl.net_sinks net,
          sink_matches_connection arch ext nl pat connections s = false) →
        get_sink_block arch ext nl pat block_id connections = none) := by
  refine ⟨?_, ?_, ?_, ?_⟩
  · intro b hb
    cases hport : nl.find_atom_port block_id (arch.pin connections.from_pin).port.model_port with
    | none => simp only [get_sink_block, hport] at hb; cases hb
    | some port =>
      cases hnet : nl.port_net port (arch.pin connections.from_pin).pin_number with
      | none => simp only [get_sink_block, hport, hnet] at hb; cases hb
      | some net =>
        rw [get_sink_block_eq arch ext nl pat block_id connections port net hport hnet] at hb
        split at hb
        · cases hb
        · cases hl : ((nl.net_sinks net).filter
              (sink_matches_connection arch ext nl pat connections)).getLast? with
          | none => rw [hl] at hb; cases hb
          | some s =>
            rw [hl] at hb
            have hmem := List.mem_of_getLast?_eq_some hl
            exact ⟨port, net, s, rfl, hnet, hl, (List.mem_filter.mp hmem).1,
              (List.mem_filter.mp hmem).2, (Option.some.inj hb).symm⟩
  · intro hport
    simp only [get_sink_block, hport]
  · intro port hport hnet
    simp only [get_sink_block, hport, hnet]
  · intro port net hport hnet hnone
    rw [get_sink_block_eq arch ext nl pat block_id connections port net hport hnet]
    have : (nl.net_sinks net).filter (sink_matches_connection arch ext nl pat connections)
        = [] := by
      rw [List.filter_eq_nil_iff]
      intro s hs
      simp [hnone s hs]
    rw [this]
    simp

/-- C29 on the forked carry net: the result A2 is the block of the last matching sink. -/
theorem get_sink_block_returns_last_matching_sink_witness :
    get_sink_block chain_arch (example_ext chain_arch forked_chain_netlist)
        forked_chain_netlist.toNetlist chain_pattern 0 (slot0_to_slot1 2 3) = some 2
    ∧ ∃ port net s,
        forked_chain_netlist.toNetlist.find_atom_port 0 (chain_arch.pin 2).port.model_port
          = some port
        ∧ forked_chain_netlist.toNetlist.port_net port (chain_arch.pin 2).pin_number = some net
        ∧ ((forked_chain_netlist.toNetlist.net_sinks net).filter
            (sink_matches_connection chain_arch (example_ext chain_arch forked_chain_netlist)
              forked_chain_netlist.toNetlist chain_pattern (slot0_to_slot1 2 3))).getLast?
            = some s
        ∧ s ∈ forked_chain_netlist.toNetlist.net_sinks net
        ∧ sink_matches_connection chain_arch (example_ext chain_arch forked_chain_netlist)
            forked_chain_netlist.toNetlist chain_pattern (slot0_to_slot1 2 3) s = true
        ∧ 2 = forked_chain_netlist.toNetlist.pin_block s :=
  ⟨by decide!,
   (get_sink_block_returns_last_matching_sink chain_arch
     (example_ext chain_arch forked_chain_netlist) forked_chain_netlist.toNetlist chain_pattern 0
     (slot0_to_slot1 2 3)).1 2 (by decide!)⟩

/-- C30: run on a template in which no edge is inferred, any sequence of
`forward_infer_pattern` and `backward_infer_pattern` calls that returns leaves every edge
with `infer_pattern = true` without pattern label and as the only output edge or the only
input edge of some pin, and differs from the start in `infer_pattern` flags only, none of
them cleared; with more fuel than the template has edges the sequence returns; and every
single call, on any template, changes nothing except `infer_pattern` flags, from false to
true only. -/
theorem inference_marks_only_unlabelled_sole_edges (fuel : Nat) (a : Arch)
    (calls : List (Bool × Nat))
    (hstart : ∀ e ∈ a.edges, e.infer_pattern = false) :
    (∀ a2, infer_calls fuel a calls = .ok a2 →
      inferred_edges_ok a2 ∧ only_infer_flags_raised a a2)
    ∧ (a.edges.length < fuel → ∃ a2, infer_calls fuel a calls = .ok a2)
    ∧ (∀ f b pin b2, forward_infer_pattern f b pin = .ok b2 → only_infer_flags_raised b b2)
    ∧ (∀ f b pin b2, backward_infer_pattern f b pin = .ok b2 → only_infer_flags_raised b b2) := by
  have hnone : ∀ e, (a.edge e).infer_pattern = false := by
    intro e
    simp only [Arch.edge]
    by_cases he : e < a.edges.length
    · rw [List.getD_eq_getElem _ _ he]
      exact hstart _ (List.getElem_mem he)
    · rw [List.getD_eq_default _ _ (by omega)]
      rfl
  refine ⟨fun a2 h => infer_calls_marks fuel calls a a2 h ?_, fun hfuel => ?_,
    fun f b pin b2 h => (forward_infer_pattern_marks f b b2 pin h).1,
    fun f b pin b2 h => (backward_infer_pattern_marks f b b2 pin h).1⟩
  · intro e he
    rw [hnone e] at he
    cases he
  · refine infer_calls_returns fuel calls a ?_
    have : uninferred a ≤ a.edges.length := List.countP_le_length _
    omega

/-- C30 on the LUT/flip-flop template: forward inference from the cluster input, backward
inference from the cluster output and forward inference from the LUT output return and mark
the two unlabelled edges 0 and 2, not the labelled edge 1. -/
theorem inference_marks_only_unlabelled_sole_edges_witness :
    (∀ e ∈ lut_ff_arch.edges, e.infer_pattern = false)
    ∧ (infer_calls 5 lut_ff_arch [(true, 0), (false, 5), (true, 2)]).map
        (fun a2 => a2.edges.map (fun (e : t_pb_graph_edge) => e.infer_pattern))
        = .ok [true, false, true, false]
    ∧ ∃ a2, infer_calls 5 lut_ff_arch [(true, 0), (false, 5), (true, 2)] = .ok a2 :=
  ⟨by decide, by decide!,
   (inference_marks_only_unlabelled_sole_edges 5 lut_ff_arch [(true, 0), (false, 5), (true, 2)]
     (by decide)).2.1 (by decide)⟩

/-- C31: when the discovery pass over the block types returns, on a template with
consistent cross-references in which no edge was inferred at the start, then for every
pattern-labelled edge visited by the pass, every output pin of that edge and every path of
edges leaving that pin on which each pin has exactly one output edge, each edge is
unlabelled and each edge but the last has exactly one output pin, every edge of the path has
`infer_pattern = true`, whichever inference, forward or backward, marked it first. -/
theorem inference_reaches_single_fanout_paths (fuel : Nat)
    (logical_block_types : List t_logical_block_type) (a a2 : Arch) (names2 : List Nat)
    (h : logical_block_types.foldlM
      (fun acc type => discover_pattern_names_in_pb_graph_node fuel type.pb_graph_head acc)
      (a, []) = .ok (a2, names2))
    (hrefs : refs_ok a)
    (hstart : ∀ e ∈ a.edges, e.infer_pattern = false) :
    ∀ t ∈ logical_block_types.flatMap (fun type => traversal_edges a fuel type.pb_graph_head),
      (a.edge t).pack_pattern_names ≠ [] →
      ∀ p ∈ (a.edge t).output_pins, ∀ es, single_fanout_path a p es →
        ∀ e ∈ es, (a2.edge e).infer_pattern = true := by
  have hnone : ∀ e, (a.edge e).infer_pattern = false := by
    intro e
    simp only [Arch.edge]
    by_cases he : e < a.edges.length
    · rw [List.getD_eq_getElem _ _ he]
      exact hstart _ (List.getElem_mem he)
    · rw [List.getD_eq_default _ _ (Nat.le_of_not_lt he)]
      rfl
  have hc : forward_closed a := by
    intro e c e2 hm
    rw [hnone e] at hm
    cases hm
  have hd := foldlM_inference_done (fun (s : Arch × List Nat) => s.1)
    (fun acc (type : t_logical_block_type) =>
      discover_pattern_names_in_pb_graph_node fuel type.pb_graph_head acc)
    (fun a type => traversal_edges a fuel type.pb_graph_head)
    (fun a b x hab => traversal_edges_congr hab fuel x.pb_graph_head)
    (fun s x s2 hs => discover_pattern_names_inference_done fuel _ s s2 hs)
    logical_block_types (a, []) (a2, names2) h
  obtain ⟨hc2, hs2⟩ := hd.2 hrefs hc
  intro t ht hn p hp es hpath e he
  have hst := hs2 t ht hn p (by rw [(hd.1.1.2.2.2.2 t).2.1]; exact hp)
  exact single_fanout_path_marked a2 hc2 es p hst (single_fanout_path_congr hd.1.1 es p hpath)
    e he

/-- C31 on the relay template: the pass first meets the labelled edge 3, whose backward
inference marks the unlabelled edges 2 and 1; it meets the labelled edge 0 later, and the
forward inference from its output pin 1 finds edge 1 already marked; both edges of the path
1, 2 that leaves pin 1 are marked when the pass returns. -/
theorem inference_reaches_single_fanout_paths_witness :
    refs_ok relay_arch
    ∧ (∀ e ∈ relay_arch.edges, e.infer_pattern = false)
    ∧ traversal_edges relay_arch 50 (some 0) = [3, 1, 2, 0]
    ∧ (discover_pin 50 3 (relay_arch, [])).map
        (fun r => r.1.edges.map (fun (e : t_pb_graph_edge) => e.infer_pattern))
      = .ok [false, true, true, false]
    ∧ single_fanout_path relay_arch 1 [1, 2]
    ∧ ∀ e ∈ [1, 2], ((discovery_of relay_arch).1.edge e).infer_pattern = true :=
  have hpath : single_fanout_path relay_arch 1 [1, 2] :=
    ⟨rfl, rfl, Or.inr ⟨2, rfl, rfl, rfl, Or.inl rfl⟩⟩
  ⟨refs_check_ok relay_arch (by decide), by decide, by decide, by decide, hpath,
   inference_reaches_single_fanout_paths 50 cluster_type relay_arch (discovery_of relay_arch).1
     (discovery_of relay_arch).2 (by decide) (refs_check_ok relay_arch (by decide)) (by decide)
     0 (by decide) (by decide) 1 (by decide) [1, 2] hpath⟩

/-- C32: a forward or a backward expansion that returns, started in a state where the nodes
`created` hold the slots of the pattern (none for a new pattern), is a sequence of writes
that allocates slots for the nodes `l`, in this order, such that: the nodes that hold a slot
afterwards are `created` followed by `l`, a list without repetition (a node gets one slot,
reaching it again creates none, and two slots belong to two nodes); the slot of the `k`-th
node is block `k`, has id `k` and the type of the node; no other node has a slot of this
pattern; the counter `*L_num_blocks`, which the loader stores in `num_blocks`, and the
number of blocks are the length of the list; every primitive that the call reaches from its
edge (`seed`) holds a slot; every node of `l` is a primitive reached by the expansion, and
everything reached from it holds a slot; and for a new pattern the nodes that got a slot are
exactly the primitives that the expansion reaches. -/
theorem expansion_gives_each_node_one_slot (ext : Externals) (fuel e : Nat)
    (st st2 : BuildState) (b : Bool) (dp db : Option Nat) (created : List Nat)
    (seed : Nat → Prop)
    (hp : parents_ok st.arch) (hs : slots_ok st created)
    (hdb : ∀ d, db = some d → slot_of_pattern st d)
    (hrun : (forward_expand_pack_pattern_from_edge ext fuel e st b = .ok st2
        ∧ ∀ n, seed n ↔ forward_reaches st.arch st.packing_pattern.index e n)
      ∨ (backward_expand_pack_pattern_from_edge ext fuel e st dp db = .ok st2
        ∧ ∀ n, seed n ↔ backward_reaches st.arch st.packing_pattern.index e n)) :
    ∃ l, builds_log ext st l st2
      ∧ (created ++ l).Nodup
      ∧ st2.packing_pattern.blocks.length = (created ++ l).length
      ∧ st2.L_num_blocks = (created ++ l).length
      ∧ (∀ k n, (created ++ l)[k]? = some n →
          (st2.arch.node n).temp_scratch_pad = some (st2.packing_pattern.index, k)
          ∧ (st2.packing_pattern.block k).block_id = k
          ∧ (st2.packing_pattern.block k).pb_type = (st2.arch.node n).pb_type
          ∧ (st2.packing_pattern.block k).pattern_index = st2.packing_pattern.index)
      ∧ (∀ n a, (st2.arch.node n).temp_scratch_pad = some (st2.packing_pattern.index, a) →
          (created ++ l)[a]? = some n)
      ∧ (∀ n, seed n → n ∈ created ++ l)
      ∧ (∀ n ∈ l, (st.arch.pb_type (st.arch.node n).pb_type).is_primitive = true
          ∧ expansion_reaches st.arch st.packing_pattern.index seed n
          ∧ ∀ m, explores st.arch st.packing_pattern.index n m → m ∈ created ++ l)
      ∧ (created = [] →
          ∀ n, n ∈ l ↔ expansion_reaches st.arch st.packing_pattern.index seed n) := by
  have hpre : run_pre st.arch st.packing_pattern.index db st :=
    ⟨same_graph_refl _, rfl, hp, hdb⟩
  have hclosed : ∀ n m, expansion_reaches st.arch st.packing_pattern.index seed n →
      explores st.arch st.packing_pattern.index n m →
      expansion_reaches st.arch st.packing_pattern.index seed m :=
    fun n m hn hm => expansion_reaches.step n m hn hm
  have hmain : ∃ l, expansion_run ext st.arch st.packing_pattern.index
      (expansion_reaches st.arch st.packing_pattern.index seed) st st2 l seed
      ∧ ∀ m, seed m → (st.arch.pb_type (st.arch.node m).pb_type).is_primitive = true := by
    rcases hrun with ⟨h, hiff⟩ | ⟨h, hiff⟩
    · obtain ⟨l, hl⟩ := (expand_reaches ext st.arch st.packing_pattern.index _ hclosed fuel).1
        e st b st2 h (run_pre_none hpre)
        (fun n hn => expansion_reaches.seed n ((hiff n).mpr hn))
      exact ⟨l, expansion_run_weaken ext hl (fun n hn => (hiff n).mp hn),
        fun m hm => forward_reaches_primitive ((hiff m).mp hm)⟩
    · obtain ⟨l, hl⟩ := (expand_reaches ext st.arch st.packing_pattern.index _ hclosed fuel).2
        e st dp db st2 h hpre (fun n hn => expansion_reaches.seed n ((hiff n).mpr hn))
      exact ⟨l, expansion_run_weaken ext hl (fun n hn => (hiff n).mp hn),
        fun m hm => backward_reaches_primitive ((hiff m).mp hm)⟩
  obtain ⟨l, ⟨_, hlog, htgt, hexp, hroot⟩, hprim⟩ := hmain
  have hs2 := builds_log_slots ext hlog created hs
  obtain ⟨s1, s2, s3, s4, s5⟩ := hs2
  have hidx2 : st2.packing_pattern.index = st.packing_pattern.index :=
    (builds_log_frame ext hlog).1
  have hheld : ∀ n, slot_held st2.arch st.packing_pattern.index n → n ∈ created ++ l := by
    rintro n ⟨k, hk⟩
    have := s5 n k (by rw [hidx2]; exact hk)
    obtain ⟨hk2, hk3⟩ := List.getElem?_eq_some_iff.mp this
    exact hk3 ▸ List.getElem_mem hk2
  refine ⟨l, hlog, s1, s2, s3, s4, s5, fun n hn => hheld n (htgt n hn), fun n hn => ?_,
    fun hc n => ?_⟩
  · exact ⟨expansion_reaches_primitive hprim (hroot n hn), hroot n hn,
      fun m hm => hheld m (hexp n hn m hm)⟩
  · subst hc
    rw [List.nil_append] at hheld
    refine ⟨fun hn => hroot n hn, fun hn => ?_⟩
    induction hn with
    | seed n h => exact hheld n (htgt n h)
    | step n m _ hm ih => exact hheld m (hexp n ih m hm)

/-- C32 on the carry chain of `chain_arch`, where the builder reaches the first adder twice:
the two adders (nodes 1 and 2) get the slots 0 and 1. -/
theorem expansion_gives_each_node_one_slot_witness :
    parents_ok (expansion_start chain_arch).arch
    ∧ slots_ok (expansion_start chain_arch) []
    ∧ backward_expand_pack_pattern_from_edge (example_ext chain_arch chain_netlist) 50 0
        (expansion_start chain_arch) none none
      = .ok (expansion_result (example_ext chain_arch chain_netlist) chain_arch 0)
    ∧ (expansion_result (example_ext chain_arch chain_netlist) chain_arch 0).arch.nodes.map
        (fun (n : t_pb_graph_node) => n.temp_scratch_pad) = [none, some (0, 0), some (0, 1)]
    ∧ ∃ l, builds_log (example_ext chain_arch chain_netlist) (expansion_start chain_arch) l
        (expansion_result (example_ext chain_arch chain_netlist) chain_arch 0)
      ∧ ([] ++ l).Nodup
      ∧ (expansion_result (example_ext chain_arch chain_netlist) chain_arch
          0).packing_pattern.blocks.length = ([] ++ l).length
      ∧ (expansion_result (example_ext chain_arch chain_netlist) chain_arch 0).L_num_blocks
          = ([] ++ l).length
      ∧ (∀ k n, ([] ++ l)[k]? = some n →
          ((expansion_result (example_ext chain_arch chain_netlist) chain_arch 0).arch.node
              n).temp_scratch_pad
            = some ((expansion_result (example_ext chain_arch chain_netlist) chain_arch
                0).packing_pattern.index, k)
          ∧ ((expansion_result (example_ext chain_arch chain_netlist) chain_arch
              0).packing_pattern.block k).block_id = k
          ∧ ((expansion_result (example_ext chain_arch chain_netlist) chain_arch
              0).packing_pattern.block k).pb_type
            = ((expansion_result (example_ext chain_arch chain_netlist) chain_arch 0).arch.node
                n).pb_type
          ∧ ((expansion_result (example_ext chain_arch chain_netlist) chain_arch
              0).packing_pattern.block k).pattern_index
            = (expansion_result (example_ext chain_arch chain_netlist) chain_arch
                0).packing_pattern.index)
      ∧ (∀ n a,
          ((expansion_result (example_ext chain_arch chain_netlist) chain_arch 0).arch.node
              n).temp_scratch_pad
            = some ((expansion_result (example_ext chain_arch chain_netlist) chain_arch
                0).packing_pattern.index, a) →
          ([] ++ l)[a]? = some n)
      ∧ (∀ n, backward_reaches (expansion_start chain_arch).arch
            (expansion_start chain_arch).packing_pattern.index 0 n → n ∈ [] ++ l)
      ∧ (∀ n ∈ l,
          ((expansion_start chain_arch).arch.pb_type
            ((expansion_start chain_arch).arch.node n).pb_type).is_primitive = true
          ∧ expansion_reaches (expansion_start chain_arch).arch
              (expansion_start chain_arch).packing_pattern.index
              (backward_reaches (expansion_start chain_arch).arch
                (expansion_start chain_arch).packing_pattern.index 0) n
          ∧ ∀ m, explores (expansion_start chain_arch).arch
              (expansion_start chain_arch).packing_pattern.index n m → m ∈ [] ++ l)
      ∧ (([] : List Nat) = [] →
          ∀ n, n ∈ l ↔ expansion_reaches (expansion_start chain_arch).arch
            (expansion_start chain_arch).packing_pattern.index
            (backward_reaches (expansion_start chain_arch).arch
              (expansion_start chain_arch).packing_pattern.index 0) n) :=
  ⟨parents_check_ok _ (by decide), slots_ok_fresh _ (by decide) (by decide) (by decide),
   by decide!, by decide,
   expansion_gives_each_node_one_slot (example_ext chain_arch chain_netlist) 50 0
     (expansion_start chain_arch)
     (expansion_result (example_ext chain_arch chain_netlist) chain_arch 0) false none none []
     (backward_reaches (expansion_start chain_arch).arch
       (expansion_start chain_arch).packing_pattern.index 0)
     (parents_check_ok _ (by decide)) (slots_ok_fresh _ (by decide) (by decide) (by decide))
     (fun d hd => by cases hd) (Or.inr ⟨by decide!, fun _ => Iff.rfl⟩)⟩

/-- C33: when `alloc_and_load_pack_patterns` returns a library for a template whose pins
have their parent node in the arena and whose scratch pads are null, every pattern of the
library holds what an expansion built, the expansion having allocated slots for the nodes
`created` in this order: no node occurs twice in `created`, the pattern has one block per
node (`num_blocks` of them), block `k` has id `k` and the type of the `k`-th node, and
`base_cost` is the result of adding the primitive base costs of these nodes one by one,
starting from 0, which is their sum. -/
theorem base_cost_is_sum_of_slot_costs (ext : Externals) (fuel : Nat) (arch : Arch)
    (logical_block_types : List t_logical_block_type) (lib : Arch × List t_pack_patterns)
    (hp : parents_ok arch) (hclear : ∀ node ∈ arch.nodes, node.temp_scratch_pad = none)
    (h : alloc_and_load_pack_patterns ext fuel arch logical_block_types = .ok lib) :
    ∀ pat ∈ lib.2, ∃ created,
      built_by_expansion ext arch pat created
      ∧ created.Nodup
      ∧ pat.blocks.length = created.length
      ∧ pat.num_blocks = created.length
      ∧ (∀ k n, created[k]? = some n →
          (pat.block k).block_id = k ∧ (pat.block k).pb_type = (arch.node n).pb_type)
      ∧ pat.base_cost = created.foldl (fun acc n => acc + ext.compute_primitive_base_cost n) 0
      ∧ pat.base_cost = (created.map ext.compute_primitive_base_cost).sum := by
  intro pat hpat
  obtain ⟨created, st, st2, hs, hcost, hlog, hty, hb, hc, hn⟩ :=
    library_built_by_expansion ext fuel arch logical_block_types lib hp hclear h pat hpat
  have hs2 := builds_log_slots ext hlog [] hs
  have hc2 := builds_log_cost ext hlog [] hcost
  rw [List.nil_append] at hs2 hc2
  obtain ⟨s1, s2, s3, s4, s5⟩ := hs2
  have hcosteq : pat.base_cost
      = created.foldl (fun acc n => acc + ext.compute_primitive_base_cost n) 0 := by
    rw [hc]
    exact hc2
  refine ⟨created, ⟨st, st2, hs, hcost, hlog, hty, hb, hc, hn⟩, s1, by rw [hb]; exact s2,
    by rw [hn]; exact s3, fun k n hk => ?_, hcosteq, ?_⟩
  · have hblk : pat.block k = st2.packing_pattern.block k := by
      simp only [t_pack_patterns.block, hb]
    rw [hblk]
    obtain ⟨_, e2, e3, _⟩ := s4 k n hk
    exact ⟨e2, e3.trans (hty n)⟩
  · rw [hcosteq]
    exact foldl_add_eq_sum _ _

/-- C33 on the library of `chain_arch`: one pattern, the chain of the two adders (nodes 1 and
2), each of which has two pins and costs 2; the base cost is 4. -/
theorem base_cost_is_sum_of_slot_costs_witness :
    parents_ok chain_arch
    ∧ (∀ node ∈ chain_arch.nodes, node.temp_scratch_pad = none)
    ∧ alloc_and_load_pack_patterns (example_ext chain_arch chain_netlist) 50 chain_arch
        cluster_type = .ok (loaded_library chain_arch)
    ∧ (loaded_library chain_arch).2.map (fun (pat : t_pack_patterns) => pat.base_cost) = [4]
    ∧ ∀ pat ∈ (loaded_library chain_arch).2, ∃ created,
      built_by_expansion (example_ext chain_arch chain_netlist) chain_arch pat created
      ∧ created.Nodup
      ∧ pat.blocks.length = created.length
      ∧ pat.num_blocks = created.length
      ∧ (∀ k n, created[k]? = some n →
          (pat.block k).block_id = k ∧ (pat.block k).pb_type = (chain_arch.node n).pb_type)
      ∧ pat.base_cost = created.foldl
          (fun acc n => acc + (example_ext chain_arch chain_netlist).compute_primitive_base_cost n)
          0
      ∧ pat.base_cost
          = (created.map
              (example_ext chain_arch chain_netlist).compute_primitive_base_cost).sum :=
  ⟨parents_check_ok _ (by decide), by decide, by decide!, by decide!,
   base_cost_is_sum_of_slot_costs (example_ext chain_arch chain_netlist) 50 chain_arch
     cluster_type (loaded_library chain_arch) (parents_check_ok _ (by decide)) (by decide)
     (by decide!)⟩

/-- C35 (the claim as stated, at a counterexample): on the netlist of two adders whose
carry outputs drive each other's carry inputs, the loop over the atoms for the chain
pattern never terminates: at the first atom the search for the chain root goes round the
ring, so whatever the fuel the loop stops for lack of it. -/
theorem atoms_loop_never_returns_on_carry_ring :
    carry_ring_netlist.toNetlist.blocks = [0, 1]
    ∧ (∀ fuel, find_new_root_atom_for_chain (loaded_template chain_arch)
        (example_ext chain_arch carry_ring_netlist) carry_ring_netlist.toNetlist
        chain_pattern [] fuel 0 = .error .out_of_fuel)
    ∧ (∀ fuel, match_pattern_on_atoms (loaded_template chain_arch)
        (example_ext chain_arch carry_ring_netlist) carry_ring_netlist.toNetlist 0 fuel
        carry_ring_netlist.toNetlist.blocks (Prepacker.initial [chain_pattern] 2)
        = .error .out_of_fuel) := by
  refine ⟨rfl, fun fuel => find_new_root_atom_for_chain_ring fuel 0 (Or.inl rfl), fun fuel => ?_⟩
  cases fuel with
  | zero => rfl
  | succ fuel =>
    have h := try_create_molecule_root_error (loaded_template chain_arch)
      (example_ext chain_arch carry_ring_netlist) carry_ring_netlist.toNetlist fuel 0 0
      (Prepacker.initial [chain_pattern] 2) .out_of_fuel rfl rfl
      (find_new_root_atom_for_chain_ring fuel 0 (Or.inl rfl))
    show match_pattern_on_atoms _ _ _ 0 (fuel + 1) (0 :: [1]) _ = _
    unfold match_pattern_on_atoms
    simp only [h, bind, Except.bind]

/-- C35 (amended): for a pattern whose root slot is mandatory and a netlist whose drivers
are atoms of the netlist, if every call of `try_create_molecule` for the pattern at an atom
of the netlist returns when given `inner` units of fuel, then the loop over the atoms given
twice the number of atoms plus `inner` units does not stop for lack of fuel; the counter
changes nothing; the number of re-examinations is at most the number of atoms that are
uncommitted at the start of the loop, hence at most the number of atoms; and every commit
adds to the map an atom that was in none of the committed molecules, leaving the other
entries. -/
theorem atoms_loop_terminates (arch : Arch) (ext : Externals) (nl : AtomNetlist)
    (best_pattern inner fuel : Nat) (s : Prepacker)
    (hroot : root_slot_mandatory (s.list_of_pack_patterns.getD best_pattern default))
    (hdrivers : ∀ b mp bit d, nl.find_atom_pin_driver b mp bit = some d → d ∈ nl.blocks)
    (hinner : ∀ f blk s2, blk ∈ nl.blocks →
      s2.list_of_pack_patterns = s.list_of_pack_patterns → inner ≤ f →
      try_create_molecule arch ext nl f best_pattern blk s2 ≠ .error .out_of_fuel)
    (hfuel : 2 * nl.blocks.length + inner ≤ fuel) :
    match_pattern_on_atoms arch ext nl best_pattern fuel nl.blocks s ≠ .error .out_of_fuel
    ∧ (match_pattern_on_atoms_counted arch ext nl best_pattern fuel nl.blocks s).map Prod.fst
        = match_pattern_on_atoms arch ext nl best_pattern fuel nl.blocks s
    ∧ (∀ s1 k, match_pattern_on_atoms_counted arch ext nl best_pattern fuel nl.blocks s
          = .ok (s1, k) →
        k ≤ uncommitted_atoms nl s ∧ uncommitted_atoms nl s ≤ nl.blocks.length)
    ∧ (∀ f blk s2 s3 id, s2.list_of_pack_patterns = s.list_of_pack_patterns →
        try_create_molecule arch ext nl f best_pattern blk s2 = .ok (s3, some id) →
        ∃ a, atom_in_map s2.atom_molecules_multimap a = false
          ∧ atom_in_map s3.atom_molecules_multimap a = true
          ∧ ∃ entries, s3.atom_molecules_multimap = s2.atom_molecules_multimap ++ entries) := by
  have hun : uncommitted_atoms nl s ≤ nl.blocks.length := List.countP_le_length _
  have herase := match_pattern_on_atoms_counted_erase arch ext nl best_pattern fuel nl.blocks s
  refine ⟨?_, herase, ?_, ?_⟩
  · have h := match_pattern_on_atoms_counted_returns arch ext nl best_pattern
      s.list_of_pack_patterns inner hroot hdrivers hinner fuel nl.blocks s rfl
      (fun b hb => hb) (by omega)
    intro hrun
    rw [← herase] at hrun
    cases hc : match_pattern_on_atoms_counted arch ext nl best_pattern fuel nl.blocks s with
    | error e =>
      rw [hc] at hrun
      cases hrun
      exact h hc
    | ok r => rw [hc] at hrun; cases hrun
  · intro s1 k hrun
    have := match_pattern_on_atoms_counted_bound arch ext nl best_pattern
      s.list_of_pack_patterns hroot hdrivers fuel nl.blocks s s1 k rfl (fun b hb => hb) hrun
    exact ⟨by omega, hun⟩
  · intro f blk s2 s3 id hl hrun
    obtain ⟨_, _, h3⟩ := try_create_molecule_commits arch ext nl f best_pattern blk s2 s3
      (some id) hrun (by rw [hl]; exact hroot)
    obtain ⟨a, _, h4, h5, h6⟩ := h3 id rfl
    exact ⟨a, h4, h5, h6⟩

/-- C35 (amended) on the reversed chain: the loop over the three adders for the chain
pattern returns within ten units of fuel; it commits the molecule (A2, A1) at the position
of A0, examines that position once more and commits the molecule of A0: one re-examination,
for three atoms. -/
theorem atoms_loop_terminates_witness :
    root_slot_mandatory chain_pattern
    ∧ (match_pattern_on_atoms_counted (loaded_template chain_arch)
        (example_ext chain_arch reversed_chain_netlist) reversed_chain_netlist.toNetlist 0 10
        reversed_chain_netlist.toNetlist.blocks (Prepacker.initial [chain_pattern] 3)).map
        (fun r => (r.1.atom_molecules_multimap, r.2))
      = .ok ([(2, 0), (1, 0), (0, 1)], 1)
    ∧ match_pattern_on_atoms (loaded_template chain_arch)
        (example_ext chain_arch reversed_chain_netlist) reversed_chain_netlist.toNetlist 0 10
        reversed_chain_netlist.toNetlist.blocks (Prepacker.initial [chain_pattern] 3)
      ≠ .error .out_of_fuel :=
  have hroot : root_slot_mandatory chain_pattern := fun rb hrb => by
    cases hrb
    exact ⟨by decide, by decide⟩
  ⟨hroot, by decide!,
   (atoms_loop_terminates (loaded_template chain_arch)
     (example_ext chain_arch reversed_chain_netlist) reversed_chain_netlist.toNetlist 0 4 10
     (Prepacker.initial [chain_pattern] 3) hroot
     (toNetlist_drivers_in_blocks reversed_chain_netlist (by decide))
     (fun f blk s2 _ hl hf => reversed_chain_try_create_has_fuel f blk s2 hl hf)
     (by decide)).1⟩

/-- C36 (the code at the failing input): for the two-LUT template the library holds one
pattern of two mandatory slots; on the netlist of one LUT whose output drives its own input,
`try_expand_molecule` returns true with that LUT in both slots, the commit puts it into the
atom-to-molecule map twice, and the constructor of the prepacker stops on the assertion of
line 1783, which wants every atom in the map exactly once. -/
theorem feedback_atom_fills_two_slots :
    (do
      let lib ← alloc_and_load_pack_patterns
        (example_ext lut_pair_arch feedback_lut_netlist) 50 lut_pair_arch cluster_type
      pure (lib.2.map (fun (p : t_pack_patterns) => (p.name, p.num_blocks, p.is_block_optional))))
      = .ok [(some 7, 2, [false, false])]
    ∧ (do
      let lib ← alloc_and_load_pack_patterns
        (example_ext lut_pair_arch feedback_lut_netlist) 50 lut_pair_arch cluster_type
      try_expand_molecule lib.1 (example_ext lut_pair_arch feedback_lut_netlist)
        feedback_lut_netlist.toNetlist 50 (lib.2.getD 0 default) [none, none] (some 0) [])
      = .ok (true, [some 0, some 0])
    ∧ (do
      let lib ← alloc_and_load_pack_patterns
        (example_ext lut_pair_arch feedback_lut_netlist) 50 lut_pair_arch cluster_type
      let s1 ← alloc_and_load_pack_molecules lib.1
        (example_ext lut_pair_arch feedback_lut_netlist) feedback_lut_netlist.toNetlist 50
        cluster_type (Prepacker.initial lib.2 1)
      pure (s1.pack_molecules_.map (fun (m : t_pack_molecule) => m.atom_block_ids),
        s1.atom_molecules_multimap))
      = .ok ([[some 0, some 0]], [(0, 0), (0, 0)])
    ∧ Prepacker.construct lut_pair_arch (example_ext lut_pair_arch feedback_lut_netlist)
        feedback_lut_netlist.toNetlist 50 cluster_type = .error (.assert_failed 1783) :=
  ⟨by decide!, by decide!, by decide!, by decide!⟩

/-- C37: on a well-formed pattern graph (every block has its address as slot id, every
connection joins blocks of the pattern; cycles allowed), with a root block of the pattern
and a slot array of one entry per block, `try_expand_molecule` given at least one unit of
fuel more than the sum of the connection-list lengths of all slots always finishes, with a
verdict or on one of its assertions, never for lack of fuel; and whenever the matching loop
returns, it has dequeued at most 1 plus that sum of pairs, for every netlist. -/
theorem try_expand_molecule_terminates (arch : Arch) (ext : Externals) (nl : AtomNetlist)
    (pat : t_pack_patterns) (atom_molecules : List (AtomBlockId × PackMoleculeId))
    (ids : List (Option AtomBlockId)) (blk_id : Option AtomBlockId) (rb fuel : Nat)
    (hok : pattern_graph_ok pat) (hroot : pat.root_block = some rb)
    (hrb : rb < pat.blocks.length) (hlen : ids.length = pat.blocks.length)
    (hfuel : connection_total pat + 1 ≤ fuel) :
    ((∃ r, try_expand_molecule arch ext nl fuel pat ids blk_id atom_molecules = .ok r)
      ∨ ∃ line, try_expand_molecule arch ext nl fuel pat ids blk_id atom_molecules
          = .error (.assert_failed line))
    ∧ ∀ r log, try_expand_molecule_loop_logged arch ext nl pat atom_molecules fuel
          [(rb, blk_id)] ids = .ok (r, log) →
        log.length ≤ 1 + connection_total pat := by
  have hle := open_connections_le pat ids
  have hb := try_expand_molecule_loop_logged_bound arch ext nl pat atom_molecules hok fuel
    [(rb, blk_id)] ids hlen
    (fun e he => by simp only [List.mem_singleton] at he; rw [he]; exact hrb)
    (by simp only [List.length_singleton]; omega)
  have herase := try_expand_molecule_loop_logged_erase arch ext nl pat atom_molecules fuel
    [(rb, blk_id)] ids
  constructor
  · simp only [try_expand_molecule, hroot]
    rw [← herase]
    rcases hb with ⟨r, hr, _⟩ | ⟨line, hr⟩
    · rw [hr]; exact Or.inl ⟨_, rfl⟩
    · rw [hr]; exact Or.inr ⟨line, rfl⟩
  · intro r log hrun
    rcases hb with ⟨r2, hr, hbound⟩ | ⟨line, hr⟩
    · rw [hrun] at hr
      cases hr
      simp only [List.length_singleton] at hbound
      omega
    · rw [hrun] at hr
      cases hr

/-- C37 on a cyclic pattern graph and a cyclic netlist: the feedback pattern, whose blocks
are those the builder makes of the feedback template, has four
connection entries, the two adders of the ring netlist drive each other, and the matcher
returns after dequeuing exactly five pairs, with both slots filled. -/
theorem try_expand_molecule_terminates_witness :
    pattern_graph_ok feedback_chain_pattern
    ∧ (built_from_expansion_edge feedback_chain_arch).map
        (fun built => built.2.packing_pattern.blocks) = .ok feedback_chain_pattern.blocks
    ∧ connection_total feedback_chain_pattern = 4
    ∧ (try_expand_molecule_loop_logged feedback_chain_built
        (example_ext feedback_chain_arch ring_netlist) ring_netlist.toNetlist
        feedback_chain_pattern [] 5 [(0, some 0)] [none, none]).map
        (fun r => (r.1, r.2.length)) = .ok ((true, [some 0, some 1]), 5)
    ∧ ((∃ r, try_expand_molecule feedback_chain_built
          (example_ext feedback_chain_arch ring_netlist) ring_netlist.toNetlist 5
          feedback_chain_pattern [none, none] (some 0) [] = .ok r)
      ∨ ∃ line, try_expand_molecule feedback_chain_built
          (example_ext feedback_chain_arch ring_netlist) ring_netlist.toNetlist 5
          feedback_chain_pattern [none, none] (some 0) [] = .error (.assert_failed line)) :=
  ⟨by unfold pattern_graph_ok; decide, by decide!, by decide, by decide!,
   (try_expand_molecule_terminates feedback_chain_built
     (example_ext feedback_chain_arch ring_netlist) ring_netlist.toNetlist
     feedback_chain_pattern [] [none, none] (some 0) 0 5 (by unfold pattern_graph_ok; decide)
     (by decide) (by decide) (by decide) (by decide)).1⟩

/-- C38: on every template (cyclic or not) and from every pin, `forward_infer_pattern` and
`backward_infer_pattern` return: the number of unmarked edges is at most the number of
edges, and each call returns a template `a2` with no more unmarked edges as soon as the
number of nested calls allowed exceeds the number of edges it marks (every recursive call
follows the marking of an edge that was unmarked), hence with any allowance above the number
of edges. -/
theorem infer_pattern_terminates (a : Arch) (pin : Nat) :
    uninferred a ≤ a.edges.length
    ∧ (∃ a2, uninferred a2 ≤ uninferred a
        ∧ ∀ fuel, uninferred a - uninferred a2 + 1 ≤ fuel →
            forward_infer_pattern fuel a pin = .ok a2)
    ∧ (∃ a2, uninferred a2 ≤ uninferred a
        ∧ ∀ fuel, uninferred a - uninferred a2 + 1 ≤ fuel →
            backward_infer_pattern fuel a pin = .ok a2) := by
  refine ⟨List.countP_le_length _, ?_, ?_⟩
  · obtain ⟨a2, h, _⟩ := forward_infer_pattern_returns (uninferred a + 1) a pin (by omega)
    obtain ⟨hle, hrun⟩ := forward_infer_pattern_depth _ a a2 pin h
    exact ⟨a2, hle, fun fuel hf => forward_infer_pattern_fuel_mono _ fuel a a2 pin hrun hf⟩
  · obtain ⟨a2, h, _⟩ := backward_infer_pattern_returns (uninferred a + 1) a pin (by omega)
    obtain ⟨hle, hrun⟩ := backward_infer_pattern_depth _ a a2 pin h
    exact ⟨a2, hle, fun fuel hf => backward_infer_pattern_fuel_mono _ fuel a a2 pin hrun hf⟩

/-- C38 on the ring template: both directions started at pin 0 go once round the ring of two
unlabelled single-fanout edges, mark both and return within three nested calls. -/
theorem infer_pattern_terminates_witness :
    ring_arch.edges.length = 2
    ∧ (forward_infer_pattern 3 ring_arch 0).map
        (fun a2 => a2.edges.map (fun (e : t_pb_graph_edge) => e.infer_pattern)) = .ok [true, true]
    ∧ (backward_infer_pattern 3 ring_arch 0).map
        (fun a2 => a2.edges.map (fun (e : t_pb_graph_edge) => e.infer_pattern)) = .ok [true, true]
    ∧ ∃ a2, uninferred a2 ≤ uninferred ring_arch
        ∧ ∀ fuel, uninferred ring_arch - uninferred a2 + 1 ≤ fuel →
            forward_infer_pattern fuel ring_arch 0 = .ok a2 :=
  ⟨by decide, by decide, by decide, (infer_pattern_terminates ring_arch 0).2.1⟩

/-- C39 (the code at the failing input): on the carry chain with a feedback path the
builder completes pattern 0 as a chain of two blocks, with the connections 0 to 1 and
1 back to 0; two boundary input pins (0 and 6) are candidates, so `find_end_of_path` is
run; its search from pin 0 goes round the ring of pins 2, 3, 7, 8 and never empties the
queue, whatever the number of pins it may take from it; the loader of the patterns does
not return either. -/
theorem find_end_of_path_never_returns_on_feedback :
    (built_from_expansion_edge feedback_chain_arch).map
        (fun built => (built.2.packing_pattern.is_chain, built.2.L_num_blocks))
      = .ok (true, 2)
    ∧ (built_from_expansion_edge feedback_chain_arch).map
        (fun built => built.2.packing_pattern.blocks.map
          (fun (b : t_pack_pattern_block) => b.connections.map
            (fun (c : t_pack_pattern_connections) => (c.from_block, c.to_block))))
      = .ok [[(1, 0), (0, 1)], [(1, 0), (0, 1)]]
    ∧ chain_input_pins feedback_chain_built 0 0 = [0, 6]
    ∧ [0, 1, 2, 3, 7, 8].map (fun p => expand_search feedback_chain_built p 0)
      = [[1], [2], [3], [4, 7], [8], [2]]
    ∧ (∀ fuel, find_end_of_path feedback_chain_built fuel 0 0 = .error .out_of_fuel)
    ∧ alloc_and_load_pack_patterns (example_ext feedback_chain_arch chain_netlist) 50
        feedback_chain_arch cluster_type = .error .out_of_fuel
    ∧ alloc_and_load_pack_patterns (example_ext feedback_chain_arch chain_netlist) 400
        feedback_chain_arch cluster_type = .error .out_of_fuel := by
  refine ⟨by decide!, by decide!, by decide!, by decide!, fun fuel => ?_, by decide!,
    by decide!⟩
  have h1 : vtr_assert 1445 (feedback_chain_built.is_root_block_pin 0) = .ok () := by decide!
  have h2 : vtr_assert 1448 ((feedback_chain_built.pin 0).input_edges.length == 0)
      = .ok () := by decide!
  simp only [find_end_of_path, h1, h2, bind, Except.bind]
  exact find_end_of_path_loop_feedback fuel [0] [] ⟨0, by simp, by decide⟩

/-- C40: chain-id well-formedness (a molecule has a valid chain id exactly when it is a
forced-pack molecule of a chain pattern, every valid chain id is below the number of chain
records, every chain record is referenced by a molecule) holds before any molecule exists
and, from a state where it holds, still holds after every completed `try_create_molecule`
(commit or not), after the gain assignment, after the loop over the atoms for a pattern,
after the single-atom loop and after the whole of `alloc_and_load_pack_molecules`; and none
of these steps removes a chain record or resets an `is_long_chain` that was true. -/
theorem chain_ids_stay_well_formed (arch : Arch) (ext : Externals) (nl : AtomNetlist)
    (fuel : Nat) (s : Prepacker) (hs : chain_ids_ok s) :
    (∀ pats n, chain_ids_ok (Prepacker.initial pats n))
    ∧ (∀ pack_pattern_index blk_id s1 r,
        try_create_molecule arch ext nl fuel pack_pattern_index blk_id s = .ok (s1, r) →
        chain_ids_ok s1 ∧ long_chains_kept s s1)
    ∧ (∀ id, chain_ids_ok (set_base_gain s id) ∧ long_chains_kept s (set_base_gain s id))
    ∧ (∀ best_pattern blocks s1,
        match_pattern_on_atoms arch ext nl best_pattern fuel blocks s = .ok s1 →
        chain_ids_ok s1 ∧ long_chains_kept s s1)
    ∧ (∀ logical_block_types blocks s1,
        add_single_atom_molecules arch ext fuel logical_block_types blocks s = .ok s1 →
        chain_ids_ok s1 ∧ long_chains_kept s s1)
    ∧ (∀ logical_block_types s1,
        alloc_and_load_pack_molecules arch ext nl fuel logical_block_types s = .ok s1 →
        chain_ids_ok s1 ∧ long_chains_kept s s1) :=
  ⟨chain_ids_ok_initial,
   fun idx blk s1 r h => try_create_molecule_chain_ids arch ext nl fuel idx blk s s1 r h hs,
   fun id => set_base_gain_chain s id hs,
   fun best blocks s1 h => match_pattern_on_atoms_chain_ids arch ext nl best fuel blocks s s1 h hs,
   fun lbt blocks s1 h => add_single_atom_molecules_chain_ids arch ext fuel lbt blocks s s1 h hs,
   fun lbt s1 h => alloc_and_load_pack_molecules_chain_ids arch ext nl fuel lbt s s1 h hs⟩

/-- C40 on the carry-chain example: the three adders give two molecules of the chain
pattern, both with chain id 0, and one chain record, which is long; the state is
well-formed. -/
theorem chain_ids_stay_well_formed_witness :
    chain_ids_ok (Prepacker.initial [chain_pattern] 3)
    ∧ (alloc_and_load_pack_molecules (loaded_template chain_arch)
        (example_ext chain_arch chain_netlist) chain_netlist.toNetlist 50 cluster_type
        (Prepacker.initial [chain_pattern] 3)).map
        (fun s => (s.pack_molecules_.map (fun (m : t_pack_molecule) => m.chain_id), s.chain_info_))
      = .ok ([some 0, some 0], [{ is_long_chain := true }])
    ∧ chain_ids_ok chain_prepacked
    ∧ long_chains_kept (Prepacker.initial [chain_pattern] 3) chain_prepacked :=
  ⟨chain_ids_ok_initial _ _, by decide!,
   (chain_ids_stay_well_formed (loaded_template chain_arch)
     (example_ext chain_arch chain_netlist) chain_netlist.toNetlist 50
     (Prepacker.initial [chain_pattern] 3) (chain_ids_ok_initial _ _)).2.2.2.2.2 cluster_type
     chain_prepacked (by decide!)⟩

end Prepack
